import Mathlib

/-!
Sample-by-sample deterministic inverter (`cSBSInverter`) and reversible-jump sampler
(`rjMcMC1DSampler`): verification development.

Shallow embedding of the parameter layout, the regularisation matrices, the bounded
parameter change, the damped linear system and the Gauss–Newton loop of
`src/src/csbsinverter.h` (namespace `SBS`), and of the layered model, the proposals and the
sampling loop of `src/src/rjmcmc1d.h` (namespace `RJMCMC`).

Conventions of the embedding

* `double` is an arbitrary linear ordered field `K` (exact arithmetic; NaN and infinities
  are outside the model).  `std::log10` and `sqrt` are passed in as functions.  Rounding is
  kept where it selects an index: in the members of the posterior map of the sampler every
  operation is followed by the rounding `DoubleArithmetic.fl`, which on the rationals is the
  rounding to the nearest binary64 number.
* Eigen vectors and matrices are total functions on `ℕ` (`Vec`, `Mat`); the logical extent
  is carried by the fields `nParam`, `nData`, ... of the inverter.
* `size_t` is `ℕ`; `nLayers - 1` is the truncated subtraction, which agrees with the machine
  subtraction as soon as `nLayers ≥ 1`.  The `int` casts in the index functions are exact
  (a `P × P` matrix of doubles does not fit in memory long before `P` reaches `2^31`).
* C++ `for (i = 0; i < n; i++)` loops are `forLoop n body`.
* The random number generator is a table of the values drawn, indexed by the number of
  draws made so far; loops that repeat until a draw is accepted carry a bound on the number
  of attempts and return `none` when it is exhausted.
-/

namespace SBS

/-! ## Definitions -/

/-- Loop combinator: the state after `for (i = 0; i < n; i++) s = body i s`. -/
def forLoop {σ : Type} : ℕ → (ℕ → σ → σ) → σ → σ
  | 0, _, s => s
  | n + 1, body, s => body n (forLoop n body s)

/-- Eigen `Vector`, as a total function of the index. -/
abbrev Vec (K : Type) := ℕ → K

/-- Eigen `Matrix`, as a total function of row and column. -/
abbrev Mat (K : Type) := ℕ → ℕ → K

/-- The class `cInvertibleFieldDefinition` (declared outside `src/`): the members the
inverter uses.  `bound` is the value returned by the member function `bound()`. -/
structure cInvertibleFieldDefinition where
  solve : Bool
  bound : Bool
  offset : ℤ
  deriving DecidableEq

/-- The class `cEarth1D`: layer conductivities and thicknesses. -/
structure cEarth1D (K : Type) where
  conductivity : List K
  thickness : List K

/-- The class `cEarthStruct`. -/
structure cEarthStruct (K : Type) where
  ref : cEarth1D K
  std : cEarth1D K
  min : cEarth1D K
  max : cEarth1D K
  invmodel : cEarth1D K

/-- The class `cTDEmGeometry`: a fixed-size bag of scalars, accessed by element index. -/
abbrev cTDEmGeometry (K : Type) := ℕ → K

/-- The class `cGeomStruct`. -/
structure cGeomStruct (K : Type) where
  input : cTDEmGeometry K
  ref : cTDEmGeometry K
  std : cTDEmGeometry K
  min : cTDEmGeometry K
  max : cTDEmGeometry K
  tfr : cTDEmGeometry K
  invmodel : cTDEmGeometry K

/-- The enumeration `eNormType`. -/
inductive eNormType where
  | L1
  | L2
  deriving DecidableEq

/-- The enumeration `eSmoothnessMethod`. -/
inductive eSmoothnessMethod where
  | DERIVATIVE_1ST
  | DERIVATIVE_2ND
  deriving DecidableEq

/-- The class `cIterationState` (declared outside `src/`): the members `iterate` uses. -/
structure cIterationState (K : Type) where
  iteration : ℕ
  lambda : K
  targetphid : K
  phid : K
  phim : K
  phic : K
  phit : K
  phig : K
  phis : K
  phiq : K
  param : Vec K
  pred : Vec K

/-- The class `cTrial` (declared outside `src/`): the members `iterate` uses. -/
structure cTrial (K : Type) where
  lambda : K
  stepfactor : K

/-- The members of `cSBSInverter` (and of its base `cInverter`) that the modelled member
functions read or write.  `geomSize` is `cTDEmGeometry::size()`; `fdG` is the geometry
field map in declaration order, keyed here by element index. -/
structure cSBSInverter (K : Type) where
  geomSize : ℕ
  nSoundings : ℕ
  nLayers : ℕ
  nParamPerSounding : ℕ
  nGeomParamPerSounding : ℕ
  cOffset : ℕ
  tOffset : ℕ
  gOffset : ℕ
  nParam : ℕ
  nData : ℕ
  fdC : cInvertibleFieldDefinition
  fdT : cInvertibleFieldDefinition
  fdG : ℕ → cInvertibleFieldDefinition
  AlphaC : K
  AlphaT : K
  AlphaG : K
  AlphaS : K
  AlphaQ : K
  NormType : eNormType
  SmoothnessMethod : eSmoothnessMethod
  BeginGeometrySolveIteration : ℤ
  FreeGeometry : Bool
  MaxIterations : ℕ
  MinimumPhiD : K
  MinimumImprovement : K
  E : ℕ → cEarthStruct K
  G : ℕ → cGeomStruct K
  RefParam : Vec K
  RefParamStd : Vec K
  Obs : Vec K
  Err : Vec K
  Wd : Mat K
  Wc : Mat K
  Wt : Mat K
  Wg : Mat K
  Wr : Mat K
  Ws : Mat K
  Wq : Mat K
  Wm : Mat K
  J : Mat K
  CIS : cIterationState K
  TerminationReason : String
  nForwards : ℕ
  nJacobians : ℕ

variable {K : Type}

/-- Member `solve_conductivity`. -/
def solve_conductivity (inv : cSBSInverter K) : Bool := inv.fdC.solve

/-- Member `solve_thickness`. -/
def solve_thickness (inv : cSBSInverter K) : Bool := inv.fdT.solve

/-- Member `solve_geometry`: both branches of the source return `true`. -/
def solve_geometry (inv : cSBSInverter K) : Bool :=
  if inv.nGeomParamPerSounding > 0 then true else true

/-- Member `cindex`: the value returned.  The source first reports an error through
`glog.errormsg` when conductivity is not solved; every modelled caller either sits behind a
`solve_conductivity` guard or checks the flag itself (see `parameter_change`). -/
def cindex (inv : cSBSInverter K) (si li : ℕ) : ℤ :=
  ((si * inv.nParamPerSounding + inv.cOffset + li : ℕ) : ℤ)

/-- Member `tindex`: the value returned (same remark as for `cindex`). -/
def tindex (inv : cSBSInverter K) (si li : ℕ) : ℤ :=
  ((si * inv.nParamPerSounding + inv.tOffset + li : ℕ) : ℤ)

/-- Member `gindex (si, gi)`; the overload by element name looks up the same entry. -/
def gindex (inv : cSBSInverter K) (si gi : ℕ) : ℤ :=
  let goff := (inv.fdG gi).offset
  if goff < 0 then -1 else (((si * inv.nParamPerSounding : ℕ) : ℤ) + goff)

/-- Body of the geometry loop of `setup_parameters` for element `gi`. -/
def setup_parameters_geometry (gi : ℕ) (inv : cSBSInverter K) : cSBSInverter K :=
  if (inv.fdG gi).solve then
    { inv with
      fdG := Function.update inv.fdG gi
        { solve := (inv.fdG gi).solve, bound := (inv.fdG gi).bound,
          offset := (inv.nParamPerSounding : ℤ) }
      nGeomParamPerSounding := inv.nGeomParamPerSounding + 1
      nParamPerSounding := inv.nParamPerSounding + 1 }
  else
    { inv with
      fdG := Function.update inv.fdG gi
        { solve := (inv.fdG gi).solve, bound := (inv.fdG gi).bound, offset := -1 } }

/-- Conductivity block of `setup_parameters`. -/
def setup_parameters_conductivity (inv : cSBSInverter K) : cSBSInverter K :=
  if solve_conductivity inv then
    { inv with
      fdC := { solve := inv.fdC.solve, bound := inv.fdC.bound, offset := 0 }
      tOffset := inv.tOffset + inv.nLayers
      gOffset := inv.gOffset + inv.nLayers
      nParamPerSounding := inv.nParamPerSounding + inv.nLayers }
  else inv

/-- Thickness block of `setup_parameters`. -/
def setup_parameters_thickness (inv : cSBSInverter K) : cSBSInverter K :=
  if solve_thickness inv then
    { inv with
      fdT := { solve := inv.fdT.solve, bound := inv.fdT.bound, offset := (inv.tOffset : ℤ) }
      gOffset := inv.gOffset + (inv.nLayers - 1)
      nParamPerSounding := inv.nParamPerSounding + (inv.nLayers - 1) }
  else inv

/-- Member `setup_parameters`.  `numberOfLayers` is the value read from the control file
entry `Input.Earth.Conductivity.NumberOfLayers`; the resizing of `Id`, `E`, `G`, `RefParam`
and `RefParamStd` has no counterpart on total functions. -/
def setup_parameters (inv : cSBSInverter K) (numberOfLayers : ℕ) : cSBSInverter K :=
  let s0 : cSBSInverter K :=
    { inv with
      nLayers := numberOfLayers
      nParamPerSounding := 0
      nGeomParamPerSounding := 0
      cOffset := 0
      tOffset := 0
      gOffset := 0 }
  let s1 := setup_parameters_conductivity s0
  let s2 := setup_parameters_thickness s1
  let s3 := forLoop s2.geomSize setup_parameters_geometry s2
  { s3 with nParam := s3.nParamPerSounding * s3.nSoundings }

/-- Number of solved geometry elements among the first `n` (declaration order). -/
def countSolved (fdG : ℕ → cInvertibleFieldDefinition) : ℕ → ℕ
  | 0 => 0
  | n + 1 => countSolved fdG n + (if (fdG n).solve then 1 else 0)

/-- Number of conductivity parameters per sounding. -/
def nCondParam (inv : cSBSInverter K) (numberOfLayers : ℕ) : ℕ :=
  if inv.fdC.solve then numberOfLayers else 0

/-- Number of thickness parameters per sounding. -/
def nThickParam (inv : cSBSInverter K) (numberOfLayers : ℕ) : ℕ :=
  if inv.fdT.solve then numberOfLayers - 1 else 0

/-- The set of parameter indices `cindex (si, li)` of the conductivity parameters. -/
def conductivityIndices (s : cSBSInverter K) : Set ℤ :=
  {p | solve_conductivity s = true ∧
    ∃ si li, si < s.nSoundings ∧ li < s.nLayers ∧ p = cindex s si li}

/-- The set of parameter indices `tindex (si, li)` of the thickness parameters. -/
def thicknessIndices (s : cSBSInverter K) : Set ℤ :=
  {p | solve_thickness s = true ∧
    ∃ si li, si < s.nSoundings ∧ li < s.nLayers - 1 ∧ p = tindex s si li}

/-- The set of parameter indices `gindex (si, gi)` of the solved geometry elements. -/
def geometryIndices (s : cSBSInverter K) : Set ℤ :=
  {p | ∃ si gi, si < s.nSoundings ∧ gi < s.geomSize ∧ (s.fdG gi).solve = true ∧
    p = gindex s si gi}

/-- What the bound loops need from the layout: the index functions are injective on
their families, the three families do not meet, and a solved geometry element has a
non-negative index. -/
def LayoutFacts (inv : cSBSInverter K) : Prop :=
  (solve_conductivity inv = true → ∀ si li sj lj, li < inv.nLayers → lj < inv.nLayers →
    (cindex inv si li).toNat = (cindex inv sj lj).toNat → si = sj ∧ li = lj) ∧
  (solve_thickness inv = true → ∀ si li sj lj, li < inv.nLayers - 1 → lj < inv.nLayers - 1 →
    (tindex inv si li).toNat = (tindex inv sj lj).toNat → si = sj ∧ li = lj) ∧
  (∀ si gi sj gj, gi < inv.geomSize → gj < inv.geomSize → (inv.fdG gi).solve = true →
    (inv.fdG gj).solve = true →
    (gindex inv si gi).toNat = (gindex inv sj gj).toNat → si = sj ∧ gi = gj) ∧
  (solve_conductivity inv = true → solve_thickness inv = true → ∀ si li sj lj,
    li < inv.nLayers → lj < inv.nLayers - 1 →
    (cindex inv si li).toNat ≠ (tindex inv sj lj).toNat) ∧
  (solve_conductivity inv = true → ∀ si li sj gj, li < inv.nLayers → gj < inv.geomSize →
    (inv.fdG gj).solve = true → (cindex inv si li).toNat ≠ (gindex inv sj gj).toNat) ∧
  (solve_thickness inv = true → ∀ si li sj gj, li < inv.nLayers - 1 → gj < inv.geomSize →
    (inv.fdG gj).solve = true → (tindex inv si li).toNat ≠ (gindex inv sj gj).toNat) ∧
  (∀ si gi, gi < inv.geomSize → (inv.fdG gi).solve = true → 0 ≤ gindex inv si gi)

/-- Well-formed field definitions: `bound()` is true only for a field that is solved. -/
def BoundsWellFormed (inv : cSBSInverter K) : Prop :=
  (inv.fdC.bound = true → inv.fdC.solve = true) ∧
  (inv.fdT.bound = true → inv.fdT.solve = true) ∧
  (∀ gi, gi < inv.geomSize → (inv.fdG gi).bound = true → (inv.fdG gi).solve = true)

/-! ### Regularisation matrices -/

section Regularisation

variable [LinearOrderedField K]

/-- `Matrix::Zero`. -/
def Mat.zero : Mat K := fun _ _ => 0

/-- Assignment `M(i, j) = v`. -/
def Mat.set (M : Mat K) (i j : ℕ) (v : K) : Mat K :=
  fun a b => if a = i ∧ b = j then v else M a b

/-- Matrix sum `A + B`. -/
def Mat.add (A B : Mat K) : Mat K := fun a b => A a b + B a b

/-- Scaling `M *= c`. -/
def Mat.scale (M : Mat K) (c : K) : Mat K := fun a b => M a b * c

/-- Product `L.transpose() * L` for a matrix `L` with `R` rows. -/
def Mat.transposeMul (R : ℕ) (L : Mat K) : Mat K :=
  fun i j => ∑ r ∈ Finset.range R, L r i * L r j

/-- Element access `v[i]` of a `std::vector<double>`. -/
def vget (v : List K) (i : ℕ) : K := v.getD i 0

/-- Modelled from the spec: `mean` (of `vector_utils.h`, outside `src/`) is the arithmetic
mean of the entries. -/
def mean (v : List K) : K := v.sum / (v.length : K)

/-- Modelled from the spec: `cEarth1D::dummy_thickness` (its definition is outside `src/`) is
the thickness vector extended by one dummy layer equal to `t[L-2] * t[L-2] / t[L-3]`,
duplicated for `L = 2`, and the unit weight `[1]` for `L = 1`, `L` being the number of
layers. -/
def cEarth1D.dummy_thickness (e : cEarth1D K) : List K :=
  if e.conductivity.length = 1 then [1]
  else if e.conductivity.length = 2 then e.thickness ++ [vget e.thickness 0]
  else e.thickness ++
    [vget e.thickness (e.conductivity.length - 2) * vget e.thickness (e.conductivity.length - 2)
      / vget e.thickness (e.conductivity.length - 3)]

/-- The local vector `t` of `initialise_Wc` for the earth `e`: the reference thicknesses
extended to `nLayers` entries. -/
def initialise_Wc_t (nLayers : ℕ) (e : cEarthStruct K) : Vec K :=
  if nLayers = 1 then Function.update (fun _ => 0) 0 1
  else if nLayers = 2 then
    Function.update (Function.update (fun _ => 0) 0 (vget e.ref.thickness 0)) 1
      (vget e.ref.thickness 0)
  else
    let t := forLoop (nLayers - 1)
      (fun i t => Function.update t i (vget e.ref.thickness i)) (fun _ => 0)
    Function.update t (nLayers - 1) ((t (nLayers - 2) / t (nLayers - 3)) * t (nLayers - 2))

/-- Body of the sounding loop of `initialise_Wc`. -/
def initialise_Wc_sounding (inv : cSBSInverter K) (si : ℕ) (W : Mat K) : Mat K :=
  let t := initialise_Wc_t inv.nLayers (inv.E si)
  let tsum := forLoop inv.nLayers (fun li acc => acc + t li) (0 : K)
  let tavg := tsum / (inv.nLayers : K)
  let s := inv.AlphaC / ((inv.nLayers * inv.nSoundings : ℕ) : K)
  forLoop inv.nLayers
    (fun li W =>
      let p := (cindex inv si li).toNat
      W.set p p (s * (t li / tavg) / (inv.RefParamStd p * inv.RefParamStd p)))
    W

/-- Member `initialise_Wc`. -/
def initialise_Wc (inv : cSBSInverter K) : cSBSInverter K :=
  if solve_conductivity inv = false then { inv with Wc := Mat.zero }
  else { inv with Wc := forLoop inv.nSoundings (initialise_Wc_sounding inv) Mat.zero }

/-- Member `initialise_Wt`. -/
def initialise_Wt (inv : cSBSInverter K) : cSBSInverter K :=
  if solve_thickness inv = false then { inv with Wt := Mat.zero }
  else
    let s := inv.AlphaT / (((inv.nLayers - 1) * inv.nSoundings : ℕ) : K)
    { inv with
      Wt := forLoop inv.nSoundings
        (fun si W =>
          forLoop (inv.nLayers - 1)
            (fun li W =>
              let p := (tindex inv si li).toNat
              W.set p p (s / (inv.RefParamStd p * inv.RefParamStd p)))
            W)
        Mat.zero }

/-- Member `initialise_Wg`. -/
def initialise_Wg (inv : cSBSInverter K) : cSBSInverter K :=
  if inv.nGeomParamPerSounding ≤ 0 then { inv with Wg := Mat.zero }
  else
    let s := inv.AlphaG / ((inv.nGeomParamPerSounding * inv.nSoundings : ℕ) : K)
    { inv with
      Wg := forLoop inv.nSoundings
        (fun si W =>
          forLoop inv.geomSize
            (fun gi W =>
              let p := gindex inv si gi
              if p ≥ 0 then
                W.set p.toNat p.toNat
                  (s / (inv.RefParamStd p.toNat * inv.RefParamStd p.toNat))
              else W)
            W)
        Mat.zero }

/-- The operator `L` and the row counter `nrows` built by the loops of
`initialise_L_Ws_1st_derivative`. -/
def L_Ws_1st_derivative (sqrt : K → K) (inv : cSBSInverter K) : Mat K × ℕ :=
  forLoop inv.nSoundings
    (fun si st =>
      let t := (inv.E si).ref.dummy_thickness
      let tavg := mean t
      forLoop (inv.nLayers - 1)
        (fun k st =>
          let li := k + 1
          let pi0 := (cindex inv si (li - 1)).toNat
          let pi1 := (cindex inv si li).toNat
          let t1 := vget t (li - 1)
          let t2 := vget t li
          let d12 := (t1 + t2) / 2
          let s := sqrt (t2 / tavg)
          (((st.1).set st.2 pi0 (-s / d12)).set st.2 pi1 (s / d12), st.2 + 1))
        st)
    (Mat.zero, 0)

/-- Member `initialise_L_Ws_1st_derivative`. -/
def initialise_L_Ws_1st_derivative (sqrt : K → K) (inv : cSBSInverter K) : cSBSInverter K :=
  if inv.AlphaS = 0 ∨ inv.nLayers < 3 then { inv with Ws := Mat.zero }
  else if solve_conductivity inv = false then { inv with Ws := Mat.zero }
  else
    let Ln := L_Ws_1st_derivative sqrt inv
    { inv with
      Ws := (Mat.transposeMul (inv.nSoundings * (inv.nLayers - 1)) Ln.1).scale
        (inv.AlphaS / (Ln.2 : K)) }

/-- The operator `L` and the row counter `nrows` built by the loops of
`initialise_L_Ws_2nd_derivative`. -/
def L_Ws_2nd_derivative (sqrt : K → K) (inv : cSBSInverter K) : Mat K × ℕ :=
  forLoop inv.nSoundings
    (fun si st =>
      let t := (inv.E si).ref.dummy_thickness
      let tavg := mean t
      forLoop (inv.nLayers - 2)
        (fun k st =>
          let li := k + 1
          let pi0 := (cindex inv si (li - 1)).toNat
          let pi1 := (cindex inv si li).toNat
          let pi2 := (cindex inv si (li + 1)).toNat
          let t1 := vget t (li - 1)
          let t2 := vget t li
          let t3 := vget t (li + 1)
          let d12 := (t1 + t2) / 2
          let d23 := (t2 + t3) / 2
          let s := sqrt (t2 / tavg)
          ((((st.1).set st.2 pi0 (s / d12)).set st.2 pi1 (-s / d12 - s / d23)).set st.2 pi2
            (s / d23), st.2 + 1))
        st)
    (Mat.zero, 0)

/-- Member `initialise_L_Ws_2nd_derivative`. -/
def initialise_L_Ws_2nd_derivative (sqrt : K → K) (inv : cSBSInverter K) : cSBSInverter K :=
  if inv.AlphaS = 0 ∨ inv.nLayers < 3 then { inv with Ws := Mat.zero }
  else if solve_conductivity inv = false then { inv with Ws := Mat.zero }
  else
    let Ln := L_Ws_2nd_derivative sqrt inv
    { inv with
      Ws := (Mat.transposeMul (inv.nSoundings * (inv.nLayers - 2)) Ln.1).scale
        (inv.AlphaS / (Ln.2 : K)) }

/-- Member `initialise_Ws`. -/
def initialise_Ws (sqrt : K → K) (inv : cSBSInverter K) : cSBSInverter K :=
  match inv.SmoothnessMethod with
  | eSmoothnessMethod.DERIVATIVE_1ST => initialise_L_Ws_1st_derivative sqrt inv
  | eSmoothnessMethod.DERIVATIVE_2ND => initialise_L_Ws_2nd_derivative sqrt inv

/-- The operator `L` and the row counter `nrows` built by the loops of `initialise_Wq`.
The source also computes `s = sqrt(t[li] / tavg)` inside the innermost loop, but the value
is never used. -/
def L_Wq (inv : cSBSInverter K) : Mat K × ℕ :=
  forLoop inv.nSoundings
    (fun si st =>
      forLoop inv.nLayers
        (fun li st =>
          let lpindex := cindex inv si li
          (forLoop inv.nLayers
            (fun ki L =>
              let pindex := cindex inv si ki
              if lpindex = pindex then L.set st.2 pindex.toNat 1
              else L.set st.2 pindex.toNat (-1 / ((inv.nLayers : K) - 1)))
            st.1, st.2 + 1))
        st)
    (Mat.zero, 0)

/-- Member `initialise_Wq`. -/
def initialise_Wq (inv : cSBSInverter K) : cSBSInverter K :=
  if inv.AlphaQ = 0 then { inv with Wq := Mat.zero }
  else if solve_conductivity inv = false then { inv with Wq := Mat.zero }
  else
    let Ln := L_Wq inv
    { inv with
      Wq := (Mat.transposeMul (inv.nLayers * inv.nSoundings) Ln.1).scale
        (inv.AlphaQ / (Ln.2 : K)) }

/-- Member `initialise_Wr`. -/
def initialise_Wr (inv : cSBSInverter K) : cSBSInverter K :=
  let s := initialise_Wg (initialise_Wt (initialise_Wc inv))
  let Wr0 : Mat K := Mat.zero
  let Wr1 := if s.AlphaC > 0 then Wr0.add s.Wc else Wr0
  let Wr2 := if s.AlphaT > 0 then Wr1.add s.Wt else Wr1
  let Wr3 := if s.AlphaG > 0 then Wr2.add s.Wg else Wr2
  { s with Wr := Wr3 }

/-- Member `initialise_Wm`. -/
def initialise_Wm (sqrt : K → K) (inv : cSBSInverter K) : cSBSInverter K :=
  let s := initialise_Wr (initialise_Ws sqrt (initialise_Wq inv))
  { s with Wm := (s.Wr.add s.Ws).add s.Wq }

/-- The quadratic form `xᵀ W x` over the first `n` indices. -/
def quadForm (n : ℕ) (W : Mat K) (x : Vec K) : K :=
  ∑ i ∈ Finset.range n, ∑ j ∈ Finset.range n, x i * W i j * x j

/-- Symmetry of a matrix. -/
def Mat.IsSymm (W : Mat K) : Prop := ∀ i j, W i j = W j i

/-- Positive semi-definiteness of the leading `n × n` block. -/
def Mat.IsPSD (n : ℕ) (W : Mat K) : Prop := ∀ x : Vec K, 0 ≤ quadForm n W x

/-- A diagonal matrix with non-negative diagonal. -/
def Mat.DiagNonneg [LinearOrderedField K] (W : Mat K) : Prop :=
  (∀ i j, i ≠ j → W i j = 0) ∧ ∀ i, 0 ≤ W i i

/-- Columns `c` and `c2` are conductivity parameters of one and the same sounding. -/
def SameSounding (inv : cSBSInverter K) (c c2 : ℕ) : Prop :=
  ∃ si li lj, si < inv.nSoundings ∧ li < inv.nLayers ∧ lj < inv.nLayers ∧
    (c : ℤ) = cindex inv si li ∧ (c2 : ℤ) = cindex inv si lj

/-- Invariant of the operator loops between two rows: rows from `n` on are still zero and
every row touches conductivity columns of a single sounding only. -/
def RowsOK [LinearOrderedField K] (inv : cSBSInverter K) (L : Mat K) (n : ℕ) : Prop :=
  (∀ r c, n ≤ r → L r c = 0) ∧
  (∀ r c c2, L r c ≠ 0 → L r c2 ≠ 0 → SameSounding inv c c2)

/-- Invariant of the operator loops while row `n` is being filled for sounding `si`. -/
def RowFilling [LinearOrderedField K] (inv : cSBSInverter K) (L : Mat K) (n si : ℕ) : Prop :=
  (∀ r c, n < r → L r c = 0) ∧
  (∀ c, L n c ≠ 0 → ∃ li, li < inv.nLayers ∧ (c : ℤ) = cindex inv si li) ∧
  (∀ r c c2, r ≠ n → L r c ≠ 0 → L r c2 ≠ 0 → SameSounding inv c c2)

end Regularisation

/-! ### The damped linear system -/

section LinearSystem

variable [LinearOrderedField K]

/-- Matrix transpose. -/
def Mat.transpose (A : Mat K) : Mat K := fun i j => A j i

/-- Matrix product `A * B`, `n` being the number of columns of `A`. -/
def Mat.mul (n : ℕ) (A B : Mat K) : Mat K := fun i j => ∑ k ∈ Finset.range n, A i k * B k j

/-- Matrix-vector product `A * v`, `n` being the number of columns of `A`. -/
def Mat.mulVec (n : ℕ) (A : Mat K) (v : Vec K) : Vec K :=
  fun i => ∑ k ∈ Finset.range n, A i k * v k

/-- Scalar multiple `c * A` of a matrix. -/
def Mat.smul (c : K) (A : Mat K) : Mat K := fun i j => c * A i j

/-- Vector sum. -/
def Vec.add (u v : Vec K) : Vec K := fun i => u i + v i

/-- Vector difference. -/
def Vec.sub (u v : Vec K) : Vec K := fun i => u i - v i

/-- Scalar multiple `c * v` of a vector. -/
def Vec.smul (c : K) (v : Vec K) : Vec K := fun i => c * v i

/-- The data-weight matrix `V` of `solve_linear_system`: `Wd`, with each diagonal entry
multiplied by `1 / |r_i|`, `r_i = (d_i - g_i) / e_i`, in L1 mode.  For a residual `r_i = 0`
the code computes `1.0 / 0.0`, an infinity, which the field does not have: the entry of the
matrix below stands for the entry of the code at the data of non-zero residual only. -/
def solve_linear_system_V (inv : cSBSInverter K) (pred : Vec K) : Mat K :=
  if inv.NormType = eNormType.L1 then
    forLoop inv.nData
      (fun i V =>
        let r := (inv.Obs i - pred i) / inv.Err i
        V.set i i (V i i * (1 / |r|)))
      inv.Wd
  else inv.Wd

/-- Member `solve_linear_system`.  `pseudoInverse n A` stands for the library function
`pseudoInverse` applied to the `n × n` matrix `A`. -/
def solve_linear_system (pseudoInverse : ℕ → Mat K → Mat K) (inv : cSBSInverter K)
    (lambda : K) (param pred : Vec K) : Vec K :=
  let m := param
  let g := pred
  let d := inv.Obs
  let m0 := inv.RefParam
  let V := solve_linear_system_V inv pred
  let JtV := Mat.mul inv.nData inv.J.transpose V
  let JtVJ := Mat.mul inv.nData JtV inv.J
  let b := (Mat.mulVec inv.nData JtV ((d.sub g).add (Mat.mulVec inv.nParam inv.J m))).add
    (Vec.smul lambda (Mat.mulVec inv.nParam inv.Wr m0))
  let A := JtVJ.add (Mat.smul lambda inv.Wm)
  Mat.mulVec inv.nParam (pseudoInverse inv.nParam A) b

/-- The matrix `A = Jᵀ Wd J + λ Wm` of the damped normal equations, as the specification
writes it. -/
def normalMatrix (inv : cSBSInverter K) (J : Mat K) (lambda : K) : Mat K :=
  fun i j => (∑ a ∈ Finset.range inv.nData, ∑ b ∈ Finset.range inv.nData,
      J a i * inv.Wd a b * J b j) + lambda * inv.Wm i j

/-- The right-hand side `b = Jᵀ Wd r + λ Wr m0` of the damped normal equations for the
data-space vector `r`, as the specification writes it (`r = d - g + J m`). -/
def normalRhs (inv : cSBSInverter K) (J : Mat K) (lambda : K) (r : Vec K) : Vec K :=
  fun i => (∑ a ∈ Finset.range inv.nData, ∑ b ∈ Finset.range inv.nData,
      J a i * inv.Wd a b * r b)
    + lambda * ∑ q ∈ Finset.range inv.nParam, inv.Wr i q * inv.RefParam q

/-- A linear forward model `g(m) = F m + c`. -/
def linearForward (n : ℕ) (F : Mat K) (c : Vec K) (m : Vec K) : Vec K :=
  fun k => (∑ q ∈ Finset.range n, F k q * m q) + c k

end LinearSystem

/-! ### The bounded parameter change and the Gauss–Newton loop -/

section GaussNewton

variable [LinearOrderedField K]

/-- The collaborators of the inverter that live outside `src/`: the library functions
`std::log10` and `pseudoInverse`, the forward model (prediction and Jacobian, the latter
depending on `FreeGeometry`), the data misfit `phiData` and the lambda search
`lambda_search_target`, which reads the inverter state. -/
structure Collaborators (K : Type) where
  log10 : K → K
  pseudoInverse : ℕ → Mat K → Mat K
  forwardmodel : Vec K → Vec K
  jacobian : Bool → Vec K → Mat K
  phiData : Vec K → K
  lambda_search_target : cSBSInverter K → K → K → cTrial K

/-- One bound test of `parameter_change`: `if (m_new[p] < lo) dm[p] = lo - m_old[p];
else if (m_new[p] > hi) dm[p] = hi - m_old[p];`. -/
def clipWrite (p : ℕ) (lo hi : K) (m_new m_old dm : Vec K) : Vec K :=
  if m_new p < lo then Function.update dm p (lo - m_old p)
  else if m_new p > hi then Function.update dm p (hi - m_old p)
  else dm

/-- The conductivity loops of `parameter_change`. -/
def parameter_change_conductivity (X : Collaborators K) (inv : cSBSInverter K)
    (m_new m_old dm : Vec K) : Vec K :=
  forLoop inv.nSoundings
    (fun si dm =>
      forLoop inv.nLayers
        (fun li dm =>
          let pindex := (cindex inv si li).toNat
          let lmin := X.log10 (vget (inv.E si).min.conductivity li)
          let lmax := X.log10 (vget (inv.E si).max.conductivity li)
          clipWrite pindex lmin lmax m_new m_old dm)
        dm)
    dm

/-- The thickness loops of `parameter_change`. -/
def parameter_change_thickness (X : Collaborators K) (inv : cSBSInverter K)
    (m_new m_old dm : Vec K) : Vec K :=
  forLoop inv.nSoundings
    (fun si dm =>
      forLoop (inv.nLayers - 1)
        (fun li dm =>
          let pindex := (tindex inv si li).toNat
          let lmin := X.log10 (vget (inv.E si).min.thickness li)
          let lmax := X.log10 (vget (inv.E si).max.thickness li)
          clipWrite pindex lmin lmax m_new m_old dm)
        dm)
    dm

/-- The geometry loops of `parameter_change`. -/
def parameter_change_geometry (inv : cSBSInverter K) (m_new m_old dm : Vec K) : Vec K :=
  forLoop inv.nSoundings
    (fun si dm =>
      forLoop inv.geomSize
        (fun i dm =>
          if (inv.fdG i).bound then
            let p := (gindex inv si i).toNat
            let emin := (inv.G si).min i
            let emax := (inv.G si).max i
            clipWrite p emin emax m_new m_old dm
          else dm)
        dm)
    dm

/-- The executions of `parameter_change` that leave the defined behaviour: `cindex` or
`tindex` is called although the field is not solved (the source reports an error), or a
bounded geometry element has no parameter, so that `gindex` returns `-1` and the vectors
are indexed at `-1`. -/
def parameter_change_fault (inv : cSBSInverter K) : Bool :=
  (inv.fdC.bound && !solve_conductivity inv && decide (0 < inv.nSoundings)
    && decide (0 < inv.nLayers)) ||
  (inv.fdT.bound && !solve_thickness inv && decide (0 < inv.nSoundings)
    && decide (0 < inv.nLayers - 1)) ||
  (decide (0 < inv.nSoundings) &&
    (List.range inv.geomSize).any (fun i => (inv.fdG i).bound && decide (gindex inv 0 i < 0)))

/-- Member `parameter_change`; `none` stands for the faulty executions. -/
def parameter_change (X : Collaborators K) (inv : cSBSInverter K) (lambda : K)
    (m_old pred : Vec K) : Option (Vec K) :=
  let m_new := solve_linear_system X.pseudoInverse inv lambda m_old pred
  let dm := Vec.sub m_new m_old
  if parameter_change_fault inv then none
  else
    let dm1 := if inv.fdC.bound then parameter_change_conductivity X inv m_new m_old dm else dm
    let dm2 := if inv.fdT.bound then parameter_change_thickness X inv m_new m_old dm1 else dm1
    some (parameter_change_geometry inv m_new m_old dm2)

/-- The value a bound test leaves in `dm[p]`: `x` is `m_new[p]`, `mo` is `m_old[p]` and `d`
the value of `dm[p]` before the test. -/
def clipStep (lo hi x mo d : K) : K :=
  if x < lo then lo - mo else if x > hi then hi - mo else d

/-- The change `dm` at parameter `p` is the clipped change: `dm[p] = clip(x, lo, hi) - mo`,
so that `mo + dm[p]` is `hi` when `x > hi`, `lo` when `x < lo`, and `x` otherwise. -/
def ClippedChange (dm : Vec K) (p : ℕ) (lo hi x mo : K) : Prop :=
  dm p = max lo (min x hi) - mo ∧
  (x > hi → mo + dm p = hi) ∧ (x < lo → mo + dm p = lo) ∧
  (lo ≤ x → x ≤ hi → mo + dm p = x)


/-- Modelled from the spec: `mtDm` (declared outside `src/`) is the model-norm term
`vᵀ D v` of a diagonal weight matrix `D`. -/
def mtDm (n : ℕ) (v : Vec K) (D : Mat K) : K := ∑ i ∈ Finset.range n, v i * D i i * v i

/-- Modelled from the spec: `mtAm` (declared outside `src/`) is the model-norm term
`vᵀ A v`. -/
def mtAm (n : ℕ) (v : Vec K) (A : Mat K) : K := quadForm n A v

/-- Member `phiC`. -/
def phiC (inv : cSBSInverter K) (p : Vec K) : K :=
  if inv.AlphaC = 0 then 0 else mtDm inv.nParam (Vec.sub p inv.RefParam) inv.Wc

/-- Member `phiT`. -/
def phiT (inv : cSBSInverter K) (p : Vec K) : K :=
  if inv.AlphaT = 0 then 0
  else if solve_thickness inv = false then 0
  else mtDm inv.nParam (Vec.sub p inv.RefParam) inv.Wt

/-- Member `phiG`. -/
def phiG (inv : cSBSInverter K) (p : Vec K) : K :=
  if inv.AlphaG = 0 then 0 else mtDm inv.nParam (Vec.sub p inv.RefParam) inv.Wg

/-- Member `phiS`. -/
def phiS (inv : cSBSInverter K) (p : Vec K) : K :=
  if inv.AlphaS = 0 then 0 else mtAm inv.nParam p inv.Ws

/-- Member `phiQ`. -/
def phiQ (inv : cSBSInverter K) (p : Vec K) : K :=
  if inv.AlphaQ = 0 then 0 else mtAm inv.nParam p inv.Wq

/-- The state of the `while` loop of `iterate`: the inverter and the two locals. -/
structure IterateLoop (K : Type) where
  inv : cSBSInverter K
  percentchange : K
  keepiterating : Bool

/-- The trial of one pass of the loop of `iterate`: the target, the result of the lambda
search, the change `dm`, the trial model `m`, its prediction `g` and its `phid`. -/
structure cTrialModel (K : Type) where
  targetphid : K
  lambda : K
  stepfactor : K
  dm : Vec K
  m : Vec K
  g : Vec K
  phid : K

/-- The part of `iterate` before the loop.  The call `phiModel (CIS.param, CIS.phic,
CIS.phit, CIS.phig, CIS.phis, CIS.phim)` passes `CIS.phim` where the loop passes
`CIS.phiq`: the five terms are summed into `CIS.phim` and `CIS.phiq` keeps its value.
The counters `nForwards` and `nJacobians` are not modelled. -/
def iterate_begin (X : Collaborators K) (inv : cSBSInverter K) : IterateLoop K :=
  let param := inv.RefParam
  let pred := X.forwardmodel param
  let phid := X.phiData pred
  { inv :=
      { inv with
        CIS :=
          { iteration := 0
            lambda := 100000000
            targetphid := phid
            phid := phid
            phim := phiC inv param + phiT inv param + phiG inv param + phiS inv param
              + phiQ inv param
            phic := phiC inv param
            phit := phiT inv param
            phig := phiG inv param
            phis := phiS inv param
            phiq := inv.CIS.phiq
            param := param
            pred := pred }
        TerminationReason := "Has not terminated" }
    percentchange := 100
    keepiterating := true }

/-- The start of a pass that forms a trial: `FreeGeometry` is set and
`forwardmodel_and_jacobian (CIS.param, g, J)` stores the Jacobian.  In
`CIS.iteration + 1 >= BeginGeometrySolveIteration` the left side is a `size_t` and the
right side an `int`, which is converted to `size_t`: a negative value becomes
`2 ^ 64 + BeginGeometrySolveIteration`. -/
def iterate_jacobian (X : Collaborators K) (inv : cSBSInverter K) : cSBSInverter K :=
  { inv with
    FreeGeometry :=
      decide (inv.CIS.iteration + 1 ≥ (inv.BeginGeometrySolveIteration % 2 ^ 64).toNat)
    J := X.jacobian
      (decide (inv.CIS.iteration + 1 ≥ (inv.BeginGeometrySolveIteration % 2 ^ 64).toNat))
      inv.CIS.param }

/-- The trial formed by a pass of the loop of `iterate` from the state `inv`: target,
lambda search, `parameter_change`, `m = CIS.param + stepfactor * dm`, forward model,
`phiData`. -/
def iterate_trial (X : Collaborators K) (inv : cSBSInverter K) : Option (cTrialModel K) :=
  let inv1 := iterate_jacobian X inv
  let targetphid := max (inv1.CIS.phid * (7 / 10)) inv1.MinimumPhiD
  let t := X.lambda_search_target inv1 inv1.CIS.lambda targetphid
  match parameter_change X inv1 t.lambda inv1.CIS.param inv1.CIS.pred with
  | none => none
  | some dm =>
    let m := Vec.add inv1.CIS.param (Vec.smul t.stepfactor dm)
    let g := X.forwardmodel m
    some { targetphid := targetphid, lambda := t.lambda, stepfactor := t.stepfactor,
           dm := dm, m := m, g := g, phid := X.phiData g }

/-- The body of `if (phid <= CIS.phid)` in `iterate`. -/
def iterate_accept (inv : cSBSInverter K) (tr : cTrialModel K) : cSBSInverter K :=
  { inv with
    CIS :=
      { iteration := inv.CIS.iteration + 1
        lambda := tr.lambda
        targetphid := tr.targetphid
        phid := tr.phid
        phim := phiC inv tr.m + phiT inv tr.m + phiG inv tr.m + phiS inv tr.m + phiQ inv tr.m
        phic := phiC inv tr.m
        phit := phiT inv tr.m
        phig := phiG inv tr.m
        phis := phiS inv tr.m
        phiq := phiQ inv tr.m
        param := tr.m
        pred := tr.g } }

/-- One pass of the `while` loop of `iterate`; `none` when `parameter_change` is faulty. -/
def iterate_pass (X : Collaborators K) (s : IterateLoop K) : Option (IterateLoop K) :=
  if s.inv.CIS.iteration ≥ s.inv.MaxIterations then
    some { inv := { s.inv with TerminationReason := "Too many iterations" }
           percentchange := s.percentchange
           keepiterating := false }
  else if s.inv.CIS.phid ≤ s.inv.MinimumPhiD then
    some { inv := { s.inv with TerminationReason := "Reached minimum" }
           percentchange := s.percentchange
           keepiterating := false }
  else if s.inv.CIS.iteration > 4 ∧ s.percentchange < s.inv.MinimumImprovement then
    some { inv := { s.inv with TerminationReason := "Small % improvement" }
           percentchange := s.percentchange
           keepiterating := false }
  else
    match iterate_trial X s.inv with
    | none => none
    | some tr =>
      if tr.phid ≤ s.inv.CIS.phid then
        some { inv := iterate_accept (iterate_jacobian X s.inv) tr
               percentchange := 100 * (s.inv.CIS.phid - tr.phid) / s.inv.CIS.phid
               keepiterating := s.keepiterating }
      else
        some { inv := iterate_jacobian X s.inv
               percentchange := 100 * (s.inv.CIS.phid - tr.phid) / s.inv.CIS.phid
               keepiterating := s.keepiterating }

/-- The `while (keepiterating == true)` loop of `iterate`, cut off after `fuel` passes. -/
def iterate_loop (X : Collaborators K) : ℕ → IterateLoop K → Option (IterateLoop K)
  | 0, s => some s
  | fuel + 1, s =>
    if s.keepiterating then
      match iterate_pass X s with
      | none => none
      | some s2 => iterate_loop X fuel s2
    else some s

/-- The part of `iterate` after the loop, as far as the iteration state is concerned: the
prediction and the Jacobian are recomputed for `CIS.param`.  (The inverted earth and
geometry, the sensitivity and the uncertainty are derived from `CIS.param` and `J` by
collaborators outside `src/`.) -/
def iterate_end (X : Collaborators K) (inv : cSBSInverter K) : cSBSInverter K :=
  { inv with
    CIS := { inv.CIS with pred := X.forwardmodel inv.CIS.param }
    J := X.jacobian inv.FreeGeometry inv.CIS.param }

/-- Member `iterate`, with `fuel` bounding the number of passes of the loop: `none` when
the loop has not stopped within `fuel` passes or `parameter_change` is faulty. -/
def iterate (X : Collaborators K) (fuel : ℕ) (inv : cSBSInverter K) :
    Option (cSBSInverter K) :=
  match iterate_loop X fuel (iterate_begin X inv) with
  | none => none
  | some s => if s.keepiterating then none else some (iterate_end X s.inv)

/-- Every bounded parameter of the model `m` lies inside its bounds. -/
def InBounds (X : Collaborators K) (inv : cSBSInverter K) (m : Vec K) : Prop :=
  (inv.fdC.bound = true → ∀ si li, si < inv.nSoundings → li < inv.nLayers →
    X.log10 (vget (inv.E si).min.conductivity li) ≤ m (cindex inv si li).toNat ∧
    m (cindex inv si li).toNat ≤ X.log10 (vget (inv.E si).max.conductivity li)) ∧
  (inv.fdT.bound = true → ∀ si li, si < inv.nSoundings → li < inv.nLayers - 1 →
    X.log10 (vget (inv.E si).min.thickness li) ≤ m (tindex inv si li).toNat ∧
    m (tindex inv si li).toNat ≤ X.log10 (vget (inv.E si).max.thickness li)) ∧
  (∀ si gi, si < inv.nSoundings → gi < inv.geomSize → (inv.fdG gi).bound = true →
    (inv.G si).min gi ≤ m (gindex inv si gi).toNat ∧
    m (gindex inv si gi).toNat ≤ (inv.G si).max gi)

/-- Every bounded parameter has its lower bound not above its upper bound. -/
def BoundsOrdered (X : Collaborators K) (inv : cSBSInverter K) : Prop :=
  (inv.fdC.bound = true → ∀ si li, si < inv.nSoundings → li < inv.nLayers →
    X.log10 (vget (inv.E si).min.conductivity li)
      ≤ X.log10 (vget (inv.E si).max.conductivity li)) ∧
  (inv.fdT.bound = true → ∀ si li, si < inv.nSoundings → li < inv.nLayers - 1 →
    X.log10 (vget (inv.E si).min.thickness li)
      ≤ X.log10 (vget (inv.E si).max.thickness li)) ∧
  (∀ si gi, si < inv.nSoundings → gi < inv.geomSize → (inv.fdG gi).bound = true →
    (inv.G si).min gi ≤ (inv.G si).max gi)

/-- The states `a` that `iterate` can reach from the state `b`: only the iteration state,
the Jacobian, `FreeGeometry` and the termination reason differ. -/
def SameProblem (a b : cSBSInverter K) : Prop :=
  ∃ cis J free reason,
    a = { b with CIS := cis, J := J, FreeGeometry := free, TerminationReason := reason }

end GaussNewton

/-! ### Spec side of the regularisation weights -/

section WeightsSpec

variable [LinearOrderedField K]

/-- Spec side of the thickness weights of `Wc`: the reference thickness vector `th` of an
earth of `L` layers, extended to `L` entries by a last dummy layer equal to
`t[L-2] * t[L-2] / t[L-3]` when `L ≥ 3`, by duplicating `t[0]` when `L = 2`, and equal to
`[1]` when `L = 1`. -/
def extendedThickness (L : ℕ) (th : List K) (i : ℕ) : K :=
  if L = 1 then 1
  else if L = 2 then vget th 0
  else if i < L - 1 then vget th i
  else vget th (L - 2) * vget th (L - 2) / vget th (L - 3)

/-- Spec side of the second-derivative smoothness operator: the entry at column `c` of the
row for the interior layer `l` of sounding `si`, namely `s / d12`, `-s / d12 - s / d23`,
`s / d23` at the columns of conductivity `l - 1`, `l`, `l + 1` and zero elsewhere, with
`d_ij = (t_i + t_j) / 2`, `s = sqrt (t_l / mean t)` and `t` the dummy-extended reference
thicknesses. -/
def secondDerivativeRow (sqrt : K → K) (inv : cSBSInverter K) (si l c : ℕ) : K :=
  let t := (inv.E si).ref.dummy_thickness
  let d12 := (vget t (l - 1) + vget t l) / 2
  let d23 := (vget t l + vget t (l + 1)) / 2
  let s := sqrt (vget t l / mean t)
  if c = (cindex inv si (l - 1)).toNat then s / d12
  else if c = (cindex inv si l).toNat then -s / d12 - s / d23
  else if c = (cindex inv si (l + 1)).toNat then s / d23
  else 0

/-- Spec side of the second-derivative smoothness operator: one row per sounding `si` and
interior layer `l` (`1 ≤ l ≤ nLayers - 2`), at row `si * (nLayers - 2) + (l - 1)`. -/
def secondDerivativeOperator (sqrt : K → K) (inv : cSBSInverter K) : Mat K :=
  fun r c =>
    if r < inv.nSoundings * (inv.nLayers - 2) then
      secondDerivativeRow sqrt inv (r / (inv.nLayers - 2)) (r % (inv.nLayers - 2) + 1) c
    else 0

/-- The row of the homogeneity operator for layer `l` of sounding `si`, without scaling:
weight `1` on the column of conductivity `l`, `-1 / (nLayers - 1)` on the other
conductivity columns of the sounding, zero elsewhere. -/
def homogeneityRow (inv : cSBSInverter K) (si l c : ℕ) : K :=
  if c = (cindex inv si l).toNat then 1
  else if ∃ k, k < inv.nLayers ∧ c = (cindex inv si k).toNat then -1 / ((inv.nLayers : K) - 1)
  else 0

/-- Spec side of the homogeneity operator: the row for layer `l` of sounding `si`, scaled
by `sqrt (t_l / mean t)` with `t` the dummy-extended reference thicknesses. -/
def homogeneityRowScaled (sqrt : K → K) (inv : cSBSInverter K) (si l c : ℕ) : K :=
  sqrt (vget (inv.E si).ref.dummy_thickness l / mean (inv.E si).ref.dummy_thickness)
    * homogeneityRow inv si l c

/-- The homogeneity operator without scaling: one row per sounding `si` and layer `l`, at
row `si * nLayers + l`. -/
def homogeneityOperator (inv : cSBSInverter K) : Mat K :=
  fun r c =>
    if r < inv.nSoundings * inv.nLayers then
      homogeneityRow inv (r / inv.nLayers) (r % inv.nLayers) c
    else 0

end WeightsSpec

/-! ### Culling of null data and the set-up of a bunch -/

section Bunch

variable [LinearOrderedField K]

/-- An Eigen `Vector`: its `size()` and its coefficients. -/
structure SizedVector (K : Type) where
  size : ℕ
  coeff : Vec K

/-- An Eigen `Matrix`: its `rows()`, its `cols()` and its coefficients. -/
structure SizedMatrix (K : Type) where
  rows : ℕ
  cols : ℕ
  coeff : Mat K

/-- The inverter together with the members that hold the culling of null data and the
message of the bunch: `nAllData`, `ActiveData`, `OutputMessage`, and the lengths
`Obs.size()` and `Err.size()` of the working vectors whose coefficients are `inv.Obs` and
`inv.Err`. -/
structure cBunchInverter (K : Type) where
  inv : cSBSInverter K
  nAllData : ℕ
  ActiveData : List ℕ
  ObsSize : ℕ
  ErrSize : ℕ
  OutputMessage : String

/-- Overload `Vector cull(const Vector& vall)`: `none` when one of its assertions fails.
The vector `vcull(nData)` is allocated without initialisation: `junk` stands for the
coefficients it holds before the loop. -/
def cull (b : cBunchInverter K) (junk : Vec K) (vall : SizedVector K) :
    Option (SizedVector K) :=
  if b.ActiveData.length = b.inv.nData ∧ vall.size = b.nAllData then
    some
      { size := b.inv.nData
        coeff := forLoop b.inv.nData
          (fun i vcull => Function.update vcull i (vall.coeff (b.ActiveData.getD i 0))) junk }
  else none

/-- Overload `Vector cull(const std::vector<double>& vall)`: `none` when one of its
assertions fails.  The vector is allocated as `vcull(nAllData)`. -/
def cull_std_vector (b : cBunchInverter K) (junk : Vec K) (vall : SizedVector K) :
    Option (SizedVector K) :=
  if b.ActiveData.length = b.inv.nData ∧ vall.size = b.nAllData then
    some
      { size := b.nAllData
        coeff := forLoop b.inv.nData
          (fun i vcull => Function.update vcull i (vall.coeff (b.ActiveData.getD i 0))) junk }
  else none

/-- Overload `Matrix cull(const Matrix& mall)`: `none` when one of its assertions fails.
`junk` stands for the coefficients of the uninitialised `mcull(nData, nParam)`. -/
def cull_matrix (b : cBunchInverter K) (junk : Mat K) (mall : SizedMatrix K) :
    Option (SizedMatrix K) :=
  if b.ActiveData.length = b.inv.nData ∧ mall.rows = b.nAllData ∧ mall.cols = b.inv.nParam then
    some
      { rows := b.inv.nData
        cols := b.inv.nParam
        coeff := forLoop b.inv.nData
          (fun i mcull => Function.update mcull i (mall.coeff (b.ActiveData.getD i 0))) junk }
  else none

/-- The identity matrix with `n` rows and columns. -/
def SizedMatrix.identity (n : ℕ) : SizedMatrix K :=
  { rows := n, cols := n, coeff := fun i j => if i = j then 1 else 0 }

/-- Member `initialise_bunch_data`, from the comment "Work out indices to be culled" on.
The local vectors `obs` and `err` (of `nAllData` entries, assembled before from the system
data) and the test `isnull` (outside `src/`) are arguments; `junk` stands for
uninitialised coefficients. -/
def initialise_bunch_data (isnull : K → Bool) (junk : Vec K) (obs err : Vec K)
    (b : cBunchInverter K) : Option (Bool × cBunchInverter K) :=
  let active := forLoop b.nAllData
    (fun i A => if (!isnull (obs i) && !isnull (err i)) = true then A ++ [i] else A)
    ([] : List ℕ)
  let nData := active.length
  let b1 : cBunchInverter K :=
    { b with
      ActiveData := active
      inv := { b.inv with nData := nData }
      OutputMessage :=
        if nData ≠ b.nAllData then
          b.OutputMessage ++ ", " ++ toString (b.nAllData - nData)
            ++ " null data/noise were culled"
        else b.OutputMessage }
  match cull_std_vector b1 junk { size := b.nAllData, coeff := err } with
  | none => none
  | some Err =>
    let b2 : cBunchInverter K :=
      { b1 with inv := { b1.inv with Err := Err.coeff }, ErrSize := Err.size }
    match cull_std_vector b2 junk { size := b.nAllData, coeff := obs } with
    | none => none
    | some Obs =>
      let b3 : cBunchInverter K :=
        { b2 with inv := { b2.inv with Obs := Obs.coeff }, ObsSize := Obs.size }
      let nzeroerr := forLoop nData
        (fun i n => if b3.inv.Err i = 0 then n + 1 else n) (0 : ℕ)
      if nzeroerr > 0 then
        some (false,
          { b3 with
            OutputMessage := b3.OutputMessage ++ ", Skipped " ++ toString nzeroerr
              ++ " noise values were 0.0" })
      else some (true, b3)

/-- Member `initialise_bunch_parameters`. -/
def initialise_bunch_parameters (X : Collaborators K) (inv : cSBSInverter K) :
    cSBSInverter K :=
  forLoop inv.nSoundings
    (fun si inv =>
      let e := inv.E si
      let g := inv.G si
      let inv1 :=
        if solve_conductivity inv = true then
          forLoop inv.nLayers
            (fun li s =>
              { s with
                RefParam := Function.update s.RefParam (cindex s si li).toNat
                  (X.log10 (vget e.ref.conductivity li))
                RefParamStd := Function.update s.RefParamStd (cindex s si li).toNat
                  (vget e.std.conductivity li) })
            inv
        else inv
      let inv2 :=
        if solve_thickness inv1 = true then
          forLoop (inv1.nLayers - 1)
            (fun li s =>
              { s with
                RefParam := Function.update s.RefParam (tindex s si li).toNat
                  (X.log10 (vget e.ref.thickness li))
                RefParamStd := Function.update s.RefParamStd (tindex s si li).toNat
                  (vget e.std.thickness li) })
            inv1
        else inv1
      forLoop inv2.geomSize
        (fun gi s =>
          let p := gindex s si gi
          if p ≥ 0 then
            { s with
              RefParam := Function.update s.RefParam p.toNat (g.ref gi)
              RefParamStd := Function.update s.RefParamStd p.toNat (g.std gi) }
          else s)
        inv2)
    inv

/-- Modelled from the spec: `initialise_Wd` (its definition is outside `src/`) sets `Wd` to
the diagonal matrix of the data weights `1 / e_i²`. -/
def initialise_Wd (inv : cSBSInverter K) : cSBSInverter K :=
  { inv with
    Wd := fun i j => if i = j ∧ i < inv.nData then 1 / (inv.Err i * inv.Err i) else 0 }

/-- Member `initialise_bunch`; `cis0` is the default-constructed `cIterationState()`.
(`dump_W_matrices` only writes files.) -/
def initialise_bunch (X : Collaborators K) (sqrt : K → K) (isnull : K → Bool) (junk : Vec K)
    (cis0 : cIterationState K) (obs err : Vec K) (b : cBunchInverter K) :
    Option (Bool × cBunchInverter K) :=
  let b0 : cBunchInverter K :=
    { b with
      inv := { b.inv with nForwards := 0, nJacobians := 0, CIS := cis0 }
      OutputMessage := "" }
  match initialise_bunch_data isnull junk obs err b0 with
  | none => none
  | some (status, b1) =>
    if status = false then some (false, b1)
    else
      some (true,
        { b1 with
          inv := initialise_Wm sqrt (initialise_Wd (initialise_bunch_parameters X b1.inv)) })

/-- At least one active (non-culled) noise value is zero: some datum below `nAllData` has
a non-null observation and a non-null noise estimate, and its noise estimate is `0`. -/
def ActiveZeroNoise (isnull : K → Bool) (obs err : Vec K) (nAllData : ℕ) : Prop :=
  ∃ i, i < nAllData ∧ isnull (obs i) = false ∧ isnull (err i) = false ∧ err i = 0

end Bunch

/-! ### The report of a bunch -/

/-- What `bunch_result` streams into its string. -/
structure cBunchResult (K : Type) where
  Its : ℕ
  Phid : K
  Time : K
  TerminationReason : String
  OutputMessage : String
  nF : ℕ
  nJ : ℕ

/-- Member `bunch_result`.  `nForwards` and `CIS.iteration` are integer counters (declared
outside `src/`), so `nForwards / CIS.iteration` is an integer division, which has no
defined result for `CIS.iteration = 0`: `none`.  The counters `nForwards` and `nJacobians`
are advanced by the forward-model calls, also by those of the lambda search outside
`src/`; the embedding does not count these calls, so the fields `nF` and `nJ` stand for the
printed values only as far as their being defined goes. -/
def bunch_result (b : cBunchInverter K) (etime : K) : Option (cBunchResult K) :=
  if b.inv.CIS.iteration = 0 then none
  else
    some
      { Its := b.inv.CIS.iteration
        Phid := b.inv.CIS.phid
        Time := etime
        TerminationReason := b.inv.TerminationReason
        OutputMessage := b.OutputMessage
        nF := b.inv.nForwards / b.inv.CIS.iteration
        nJ := b.inv.nJacobians }

/-! ### Reading a bunch and the loop of `execute` -/

section Reading

variable [LinearOrderedField K]

/-- Answers of the input manager `IM` (outside `src/`), by record: the records of the bunch
that `get_bunch` forms at a record (`none` when it returns false), the results of
`load_record`, `is_record_valid`, `parse_record` and of `read` for a field definition, the
earth and geometry that the reads store, and the data vectors `obs`, `err` that
`initialise_bunch_data` assembles for the bunch. -/
structure cInputManager (K : Type) where
  subsamplerate : ℕ
  get_bunch : ℕ → Option (List ℕ)
  load_record : ℕ → Bool
  is_record_valid : ℕ → Bool
  parse_record : ℕ → Bool
  read : ℕ → String → Bool
  earth : ℕ → cEarthStruct K
  geometry : ℕ → cGeomStruct K
  obs : ℕ → Vec K
  err : ℕ → Vec K

/-- Member `read_record` for the loaded record `record`: the returned status and the
inverter with the earth and geometry of sounding `si` as read.  (`read_ancillary_fields`,
`read_geometry` and `read_system_data` do not touch the status; `sanity_check` only
reports.) -/
def read_record (IM : cInputManager K) (inv : cSBSInverter K) (si record : ℕ) :
    Bool × cSBSInverter K :=
  if IM.parse_record record = false then (false, inv)
  else
    let readstatus := true
    let readstatus := if IM.read record "fdC.input" = false then false else readstatus
    let readstatus :=
      if solve_conductivity inv = true then
        let readstatus := if IM.read record "fdC.ref" = false then false else readstatus
        let readstatus := if IM.read record "fdC.std" = false then false else readstatus
        let readstatus := if IM.read record "fdC.min" = false then false else readstatus
        if IM.read record "fdC.max" = false then false else readstatus
      else readstatus
    let readstatus := if IM.read record "fdT.input" = false then false else readstatus
    let readstatus :=
      if solve_thickness inv = true then
        let readstatus := if IM.read record "fdT.ref" = false then false else readstatus
        let readstatus := if IM.read record "fdT.std" = false then false else readstatus
        let readstatus := if IM.read record "fdT.min" = false then false else readstatus
        if IM.read record "fdT.max" = false then false else readstatus
      else readstatus
    (readstatus,
      { inv with
        E := Function.update inv.E si (IM.earth record)
        G := Function.update inv.G si (IM.geometry record) })

/-- The loop of `read_bunch` over the records of the bunch, from sounding `si` on. -/
def read_bunch_records (IM : cInputManager K) :
    List ℕ → ℕ → cBunchInverter K → Bool × cBunchInverter K
  | [], _, b => (true, b)
  | record :: rest, si, b =>
    let loadstatus := IM.load_record record
    if loadstatus = false then
      (false, { b with OutputMessage := b.OutputMessage ++ ", Skipping - could not load record" })
    else
      let valid := IM.is_record_valid record
      if valid = false then
        (false, { b with OutputMessage := b.OutputMessage ++ ", Skipping - record is not valid" })
      else
        let r := read_record IM b.inv si record
        let b1 : cBunchInverter K := { b with inv := r.2 }
        if valid = false then
          (false,
            { b1 with OutputMessage := b1.OutputMessage ++ ", Skipping - could not read record" })
        else read_bunch_records IM rest (si + 1) b1

/-- Member `read_bunch`. -/
def read_bunch (IM : cInputManager K) (b : cBunchInverter K) (record : ℕ) :
    Bool × cBunchInverter K :=
  match IM.get_bunch record with
  | none => (false, b)
  | some Bunch => read_bunch_records IM Bunch 0 b

/-- What `execute` does for a bunch, as far as a later reader of its output can tell. -/
inductive cExecuteEvent where
  | iterate (record : ℕ)
  | writeresult (record : ℕ)
  | logmsg (record : ℕ) (OutputMessage : String)
  deriving DecidableEq

/-- The local state of the loop of `execute`. -/
structure cExecuteState (K : Type) where
  b : cBunchInverter K
  paralleljob : ℕ
  readstatus : Bool
  events : List cExecuteEvent

/-- One pass of the `do ... while (readstatus == true)` loop of `execute`, for the process
`Rank` of `Size`; `fuel` bounds the passes of `iterate`.  After `iterate` and `writeresult`
the pass evaluates `bunch_result (etime)`, whose division has no result when no iteration
was accepted: `none`; the elapsed time `etime`, a clock reading that is only printed, is
passed as `0`. -/
def execute_pass (X : Collaborators K) (sqrt : K → K) (isnull : K → Bool) (junk : Vec K)
    (cis0 : cIterationState K) (IM : cInputManager K) (fuel Size Rank : ℕ)
    (s : cExecuteState K) : Option (cExecuteState K) :=
  let record := s.paralleljob * IM.subsamplerate
  if s.paralleljob % Size = Rank then
    let r := read_bunch IM s.b record
    if r.1 = true then
      match initialise_bunch X sqrt isnull junk cis0 (IM.obs record) (IM.err record) r.2 with
      | none => none
      | some (true, b2) =>
        match iterate X fuel b2.inv with
        | none => none
        | some inv3 =>
          match bunch_result { b2 with inv := inv3 } (0 : K) with
          | none => none
          | some _ =>
            some
              { b := { b2 with inv := inv3 }
                paralleljob := s.paralleljob + 1
                readstatus := true
                events := s.events ++ [cExecuteEvent.iterate record,
                  cExecuteEvent.writeresult record,
                  cExecuteEvent.logmsg record b2.OutputMessage] }
      | some (false, b2) =>
        let msg := b2.OutputMessage ++ ", Skipping - could not initialise the bunch"
        some
          { b := { b2 with OutputMessage := msg }
            paralleljob := s.paralleljob + 1
            readstatus := true
            events := s.events ++ [cExecuteEvent.logmsg record msg] }
    else
      some { s with b := r.2, paralleljob := s.paralleljob + 1, readstatus := false }
  else some { s with paralleljob := s.paralleljob + 1 }

/-- The `do ... while (readstatus == true)` loop of `execute`: `none` when the loop has not
ended within `passes` passes or an iteration has not ended within its fuel. -/
def execute_loop (X : Collaborators K) (sqrt : K → K) (isnull : K → Bool) (junk : Vec K)
    (cis0 : cIterationState K) (IM : cInputManager K) (fuel Size Rank : ℕ) :
    ℕ → cExecuteState K → Option (cExecuteState K)
  | 0, _ => none
  | passes + 1, s =>
    match execute_pass X sqrt isnull junk cis0 IM fuel Size Rank s with
    | none => none
    | some s2 =>
      if s2.readstatus = true then
        execute_loop X sqrt isnull junk cis0 IM fuel Size Rank passes s2
      else some s2

/-- Member `execute` for the inverter `b`: the state of the loop when it has ended. -/
def execute (X : Collaborators K) (sqrt : K → K) (isnull : K → Bool) (junk : Vec K)
    (cis0 : cIterationState K) (IM : cInputManager K) (fuel Size Rank passes : ℕ)
    (b : cBunchInverter K) : Option (cExecuteState K) :=
  execute_loop X sqrt isnull junk cis0 IM fuel Size Rank passes
    { b := b, paralleljob := 0, readstatus := true, events := [] }

end Reading

/-! ### The sanity check of an earth -/

section SanityCheck

variable [LinearOrderedField K]

/-- Modelled from the spec: `::min` of a vector (of `vector_utils.h`, outside `src/`) is its
least entry; the comparison `::min(v) <= 0` of `sanity_check` holds when some entry of `v`
is not positive. -/
def min_le_zero (v : List K) : Bool := v.any (fun x => decide (x ≤ 0))

/-- Modelled from the spec: the difference `a - b` of two vectors (of `vector_utils.h`,
outside `src/`) is taken component by component. -/
def vsub (a b : List K) : List K := List.zipWith (fun x y => x - y) a b

/-- Member `cEarthStruct::sanity_check`: the messages streamed to `oss`, in order.  An error
is reported (`glog.errormsg`) when there is at least one. -/
def cEarthStruct.sanity_check (e : cEarthStruct K) : List String :=
  let nc := e.ref.conductivity.length
  let nt := e.ref.thickness.length
  let oss : List String := []
  let oss := if nc ≠ nt + 1 then
      oss ++ ["The conductivity and/or thickness do not have the correct number of layers"]
    else oss
  let oss := if e.ref.conductivity.length > 0 ∧ min_le_zero e.ref.conductivity = true then
      oss ++ ["The conductivity ref is <= 0 in at least one layer"]
    else oss
  let oss := if e.std.conductivity.length > 0 ∧ min_le_zero e.std.conductivity = true then
      oss ++ ["The conductivity std is <= 0"]
    else oss
  let oss :=
    if e.min.conductivity.length > 0 then
      let oss := if e.min.conductivity.length ≠ nc then
          oss ++ ["The conductivity min does not have the correct number of layer"]
        else oss
      let oss := if e.max.conductivity.length ≠ nc then
          oss ++ ["The conductivity max does not have the correct number of layer"]
        else oss
      let oss := if min_le_zero e.min.conductivity = true then
          oss ++ ["The conductivity min is <= 0 in at least one layer in at least one layer"]
        else oss
      let oss := if min_le_zero e.max.conductivity = true then
          oss ++ ["The conductivity max is <= 0 in at least one layer in at least one layer"]
        else oss
      let oss := if min_le_zero (vsub e.max.conductivity e.min.conductivity) = true then
          oss ++ ["The conductivity max <= min in at least one layer"]
        else oss
      let oss := if min_le_zero (vsub e.ref.conductivity e.min.conductivity) = true then
          oss ++ ["The conductivity ref <= min in at least one layer"]
        else oss
      if min_le_zero (vsub e.max.conductivity e.ref.conductivity) = true then
        oss ++ ["The conductivity ref >= max in at least one layer"]
      else oss
    else oss
  let oss := if e.ref.thickness.length > 0 ∧ min_le_zero e.ref.thickness = true then
      oss ++ ["The thickness ref is <= 0 in at least one layer"]
    else oss
  let oss := if e.std.thickness.length > 0 ∧ min_le_zero e.std.thickness = true then
      oss ++ ["The thickness std is <= 0 in at least one layer"]
    else oss
  let oss :=
    if e.min.thickness.length > 0 then
      let oss := if e.min.thickness.length ≠ nc then
          oss ++ ["The thickness min does not have the correct number of layer"]
        else oss
      let oss := if e.max.thickness.length ≠ nc then
          oss ++ ["The thickness max does not have the correct number of layer"]
        else oss
      let oss := if min_le_zero e.min.thickness = true then
          oss ++ ["The thickness min is <= 0 in at least one layer"]
        else oss
      let oss := if min_le_zero e.max.thickness = true then
          oss ++ ["The thickness max is <= 0 in at least one layer"]
        else oss
      let oss := if min_le_zero (vsub e.max.thickness e.min.thickness) = true then
          oss ++ ["The thickness max <= min in at least one layer"]
        else oss
      let oss := if min_le_zero (vsub e.ref.thickness e.min.thickness) = true then
          oss ++ ["The thickness ref <= min in at least one layer"]
        else oss
      if min_le_zero (vsub e.max.thickness e.ref.thickness) = true then
        oss ++ ["The thickness ref >= max in at least one layer"]
      else oss
    else oss
  oss

/-- Spec side of the data-model invariants of an earth: `|conductivity| = |thickness| + 1`,
all reference and std conductivities and thicknesses positive and, whenever a `min` is
supplied, `min` and `max` of the shape of the reference vector with `0 < min < ref < max`
component by component. -/
def cEarthStruct.WellFormed (e : cEarthStruct K) : Prop :=
  e.ref.conductivity.length = e.ref.thickness.length + 1 ∧
  (∀ x ∈ e.ref.conductivity, 0 < x) ∧ (∀ x ∈ e.std.conductivity, 0 < x) ∧
  (∀ x ∈ e.ref.thickness, 0 < x) ∧ (∀ x ∈ e.std.thickness, 0 < x) ∧
  (e.min.conductivity.length > 0 →
    e.min.conductivity.length = e.ref.conductivity.length ∧
    e.max.conductivity.length = e.ref.conductivity.length ∧
    ∀ i, i < e.ref.conductivity.length →
      0 < vget e.min.conductivity i ∧ vget e.min.conductivity i < vget e.ref.conductivity i ∧
      vget e.ref.conductivity i < vget e.max.conductivity i) ∧
  (e.min.thickness.length > 0 →
    e.min.thickness.length = e.ref.thickness.length ∧
    e.max.thickness.length = e.ref.thickness.length ∧
    ∀ i, i < e.ref.thickness.length →
      0 < vget e.min.thickness i ∧ vget e.min.thickness i < vget e.ref.thickness i ∧
      vget e.ref.thickness i < vget e.max.thickness i)

end SanityCheck

/-! ### The data indices of `setup_data` -/

/-- Constant `XCOMP` of the inverter. -/
def XCOMP : ℕ := 0

/-- Constant `YCOMP` of the inverter. -/
def YCOMP : ℕ := 1

/-- Constant `ZCOMP` of the inverter. -/
def ZCOMP : ℕ := 2

/-- Constant `XZAMP` of the inverter. -/
def XZAMP : ℕ := 3

/-- The members of `cTDEmSystemInfo` (declared outside `src/`) that `setup_data` reads;
`Use ci` is `CompInfo[ci].Use`. -/
structure cTDEmSystemInfo where
  nwindows : ℕ
  invertXPlusZ : Bool
  Use : ℕ → Bool

/-- What `setup_data` writes: the table `_dindex_`, read by `dindex (si, sysi, ci, wi)`,
the member `nAllData` and the local `int di`. -/
structure cDataIndex where
  dindex : ℕ × ℕ × ℕ × ℕ → ℤ
  nAllData : ℕ
  di : ℤ

/-- The block of `setup_data` for one used component of a system: `nAllData += S.nwindows`
and the loop `_dindex_[si][sysi][ci][wi] = di; di++` over the windows. -/
def setup_data_component (S : cTDEmSystemInfo) (si sysi ci : ℕ) (s : cDataIndex) :
    cDataIndex :=
  forLoop S.nwindows
    (fun wi s =>
      { s with dindex := Function.update s.dindex (si, sysi, ci, wi) s.di, di := s.di + 1 })
    { s with nAllData := s.nAllData + S.nwindows }

/-- The body of the system loop of `setup_data` for the system `S`. -/
def setup_data_system (S : cTDEmSystemInfo) (si sysi : ℕ) (s : cDataIndex) : cDataIndex :=
  if S.invertXPlusZ = true then
    let s1 := setup_data_component S si sysi XZAMP s
    if S.Use YCOMP = true then setup_data_component S si sysi YCOMP s1 else s1
  else
    forLoop 3
      (fun ci s => if S.Use ci = true then setup_data_component S si sysi ci s else s)
      s

/-- Member `setup_data` for `nSoundings` soundings and the `nSystems` systems `SV`; `d0` is
the table before the call (its entries outside the resized ranges are not written). -/
def setup_data (nSoundings nSystems : ℕ) (SV : ℕ → cTDEmSystemInfo)
    (d0 : ℕ × ℕ × ℕ × ℕ → ℤ) : cDataIndex :=
  let d := forLoop nSoundings
    (fun si d =>
      forLoop nSystems
        (fun sysi d =>
          forLoop 4
            (fun ci d =>
              forLoop (SV sysi).nwindows
                (fun wi d => Function.update d (si, sysi, ci, wi) (-1))
                d)
            d)
        d)
    d0
  forLoop nSoundings
    (fun si s =>
      forLoop nSystems (fun sysi s => setup_data_system (SV sysi) si sysi s) s)
    { dindex := d, nAllData := 0, di := 0 }

/-- Spec side of the used components of a system, in the order of their data: the XZ
amplitude and, if enabled, Y for a system inverting the XZ amplitude; otherwise those of
X, Y, Z flagged `Use`. -/
def usedComponents (S : cTDEmSystemInfo) : List ℕ :=
  if S.invertXPlusZ = true then XZAMP :: (if S.Use YCOMP = true then [YCOMP] else [])
  else (List.range 3).filter (fun ci => S.Use ci)

/-- Spec side of the data of one component: its windows in order. -/
def componentCombinations (S : cTDEmSystemInfo) (si sysi ci : ℕ) : List (ℕ × ℕ × ℕ × ℕ) :=
  (List.range S.nwindows).map (fun wi => (si, sysi, ci, wi))

/-- Spec side of the used (sounding, system, component, window) combinations, in
sounding-major, then system, then component, then window order. -/
def usedCombinations (nSoundings nSystems : ℕ) (SV : ℕ → cTDEmSystemInfo) :
    List (ℕ × ℕ × ℕ × ℕ) :=
  (List.range nSoundings).flatMap (fun si =>
    (List.range nSystems).flatMap (fun sysi =>
      (usedComponents (SV sysi)).flatMap (fun ci =>
        componentCombinations (SV sysi) si sysi ci)))

/-- The state `s1` is the state `s` after the combinations `ks` have been given the next
data indices in order: entry `i` of `ks` has the index `s.di + i`, the other entries of the
table are those of `s`, and `di` and `nAllData` have grown by the length of `ks`. -/
def WritesInOrder (s s1 : cDataIndex) (ks : List (ℕ × ℕ × ℕ × ℕ)) : Prop :=
  s1.di = s.di + ks.length ∧ s1.nAllData = s.nAllData + ks.length ∧
  (∀ i (h : i < ks.length), s1.dindex (ks.get ⟨i, h⟩) = s.di + i) ∧
  (∀ k, k ∉ ks → s1.dindex k = s.dindex k)

/-! ### Example states -/

/-- An inverter with every member zero, empty or false. -/
def blankInverter : cSBSInverter ℚ where
  geomSize := 0
  nSoundings := 0
  nLayers := 0
  nParamPerSounding := 0
  nGeomParamPerSounding := 0
  cOffset := 0
  tOffset := 0
  gOffset := 0
  nParam := 0
  nData := 0
  fdC := { solve := false, bound := false, offset := -1 }
  fdT := { solve := false, bound := false, offset := -1 }
  fdG := fun _ => { solve := false, bound := false, offset := -1 }
  AlphaC := 0
  AlphaT := 0
  AlphaG := 0
  AlphaS := 0
  AlphaQ := 0
  NormType := eNormType.L2
  SmoothnessMethod := eSmoothnessMethod.DERIVATIVE_2ND
  BeginGeometrySolveIteration := 0
  FreeGeometry := false
  MaxIterations := 0
  MinimumPhiD := 0
  MinimumImprovement := 0
  E := fun _ =>
    { ref := { conductivity := [], thickness := [] }
      std := { conductivity := [], thickness := [] }
      min := { conductivity := [], thickness := [] }
      max := { conductivity := [], thickness := [] }
      invmodel := { conductivity := [], thickness := [] } }
  G := fun _ =>
    { input := fun _ => 0, ref := fun _ => 0, std := fun _ => 0, min := fun _ => 0,
      max := fun _ => 0, tfr := fun _ => 0, invmodel := fun _ => 0 }
  RefParam := fun _ => 0
  RefParamStd := fun _ => 0
  Obs := fun _ => 0
  Err := fun _ => 0
  Wd := fun _ _ => 0
  Wc := fun _ _ => 0
  Wt := fun _ _ => 0
  Wg := fun _ _ => 0
  Wr := fun _ _ => 0
  Ws := fun _ _ => 0
  Wq := fun _ _ => 0
  Wm := fun _ _ => 0
  J := fun _ _ => 0
  CIS :=
    { iteration := 0, lambda := 0, targetphid := 0, phid := 0, phim := 0, phic := 0,
      phit := 0, phig := 0, phis := 0, phiq := 0, param := fun _ => 0, pred := fun _ => 0 }
  TerminationReason := ""
  nForwards := 0
  nJacobians := 0

/-- Example configuration: two soundings, conductivity and thickness solved, three geometry
elements of which the first and the third are solved (and bounded). -/
def layoutExample : cSBSInverter ℚ :=
  { blankInverter with
    geomSize := 3
    nSoundings := 2
    fdC := { solve := true, bound := true, offset := -1 }
    fdT := { solve := true, bound := true, offset := -1 }
    fdG := fun gi =>
      if gi = 1 then { solve := false, bound := false, offset := -1 }
      else { solve := true, bound := true, offset := -1 } }

/-- Pseudo-inverse of a matrix with a single entry: `[a] ↦ [1 / a]` (and `[0] ↦ [0]`). -/
def pseudoInverse1 : ℕ → Mat ℚ → Mat ℚ :=
  fun _ A i j => if i = 0 ∧ j = 0 then 1 / A 0 0 else 0

/-- Example collaborators for one parameter and one datum: the forward model
`g(m) = m² - 3 m + 7/2` with its derivative `2 m - 3`, the misfit `(d - g)²` for the
observation `d = 0`, a lambda search that always answers `lambda = 1` with a full step,
and the identity standing in for `log10`. -/
def exampleCollaborators : Collaborators ℚ where
  log10 := fun x => x
  pseudoInverse := pseudoInverse1
  forwardmodel := fun m k => if k = 0 then m 0 * m 0 - 3 * m 0 + 7 / 2 else 0
  jacobian := fun _ m k q => if k = 0 ∧ q = 0 then 2 * m 0 - 3 else 0
  phiData := fun g => (0 - g 0) * (0 - g 0)
  lambda_search_target := fun _ _ _ => { lambda := 1, stepfactor := 1 }

/-- Example configuration for the bound test (the bound-activation scenario): one
sounding, conductivity solved and bounded to `[1/20, 1/5]`, reference `1/10`; one datum
with observation `3/10`, unit data weight and unit Jacobian. -/
def boundExampleBase : cSBSInverter ℚ :=
  { blankInverter with
    nSoundings := 1
    nData := 1
    fdC := { solve := true, bound := true, offset := -1 }
    E := fun _ =>
      { ref := { conductivity := [1 / 10], thickness := [] }
        std := { conductivity := [1], thickness := [] }
        min := { conductivity := [1 / 20], thickness := [] }
        max := { conductivity := [1 / 5], thickness := [] }
        invmodel := { conductivity := [], thickness := [] } }
    RefParam := fun _ => 1 / 10
    RefParamStd := fun _ => 1
    Obs := fun _ => 3 / 10
    Err := fun _ => 1
    Wd := fun i j => if i = 0 ∧ j = 0 then 1 else 0
    J := fun i j => if i = 0 ∧ j = 0 then 1 else 0 }

/-- The bound-test configuration laid out for one layer. -/
def boundExample : cSBSInverter ℚ := setup_parameters boundExampleBase 1

/-- Example state for the loop of `iterate`: one sounding, one layer, conductivity solved
without bounds, all alpha weights zero (so the weight matrices are zero), one datum with
observation `0` and unit data weight, reference model `1`, `MaxIterations = 10`,
`MinimumPhiD = 0`, `MinimumPercentageImprovement = 1`. -/
def iterateExample : cSBSInverter ℚ :=
  setup_parameters
    { blankInverter with
      nSoundings := 1
      nData := 1
      fdC := { solve := true, bound := false, offset := -1 }
      MaxIterations := 10
      MinimumPhiD := 0
      MinimumImprovement := 1
      RefParam := fun _ => 1
      RefParamStd := fun _ => 1
      Obs := fun _ => 0
      Err := fun _ => 1
      Wd := fun i j => if i = 0 ∧ j = 0 then 1 else 0 }
    1

/-- The loop state of `iterateExample` at the start of a pass, with `k` accepted
iterations on the counter; `k = 0` is the state `iterate_begin` produces. -/
def iterateExampleState (k : ℕ) : IterateLoop ℚ :=
  { inv :=
      { (iterate_begin exampleCollaborators iterateExample).inv with
        CIS :=
          { (iterate_begin exampleCollaborators iterateExample).inv.CIS with iteration := k } }
    percentchange := 100
    keepiterating := true }

/-- Example state for the regularisation matrices: one sounding, three layers with
reference thicknesses `1, 2`, conductivity and thickness solved, one solved geometry
element, unit standard deviations, `AlphaC = 2` and the other weights `1`. -/
def weightsExample : cSBSInverter ℚ :=
  setup_parameters
    { blankInverter with
      geomSize := 1
      nSoundings := 1
      fdC := { solve := true, bound := true, offset := -1 }
      fdT := { solve := true, bound := true, offset := -1 }
      fdG := fun _ => { solve := true, bound := true, offset := -1 }
      AlphaC := 2
      AlphaT := 1
      AlphaG := 1
      AlphaS := 1
      AlphaQ := 1
      E := fun _ =>
        { ref := { conductivity := [1, 1, 1], thickness := [1, 2] }
          std := { conductivity := [1, 1, 1], thickness := [1, 1] }
          min := { conductivity := [], thickness := [] }
          max := { conductivity := [], thickness := [] }
          invmodel := { conductivity := [], thickness := [] } }
      RefParamStd := fun _ => 1 }
    3

/-- Example state for the homogeneity matrix: one sounding with a single layer, the
conductivity solved, `AlphaQ = 1`. -/
def singleLayerExample : cSBSInverter ℚ :=
  setup_parameters
    { blankInverter with
      nSoundings := 1
      fdC := { solve := true, bound := false, offset := -1 }
      AlphaQ := 1
      E := fun _ =>
        { ref := { conductivity := [1], thickness := [] }
          std := { conductivity := [1], thickness := [] }
          min := { conductivity := [], thickness := [] }
          max := { conductivity := [], thickness := [] }
          invmodel := { conductivity := [], thickness := [] } }
      RefParamStd := fun _ => 1 }
    1

/-- Example state for the homogeneity matrix: one sounding of four layers with reference
thicknesses `1, 5, 5` (dummy-extended: `1, 5, 5, 5`, of mean `4`), the conductivity solved,
`AlphaQ = 1`. -/
def fourLayerExample : cSBSInverter ℚ :=
  setup_parameters
    { blankInverter with
      nSoundings := 1
      fdC := { solve := true, bound := false, offset := -1 }
      AlphaQ := 1
      E := fun _ =>
        { ref := { conductivity := [1, 1, 1, 1], thickness := [1, 5, 5] }
          std := { conductivity := [1, 1, 1, 1], thickness := [1, 1, 1] }
          min := { conductivity := [], thickness := [] }
          max := { conductivity := [], thickness := [] }
          invmodel := { conductivity := [], thickness := [] } }
      RefParamStd := fun _ => 1 }
    4

/-- Example state for the L1 data weights: one datum `d = 2` with noise `e = 2`, hence the
weight `Wd(0,0) = 1 / 4`. -/
def l1Example : cSBSInverter ℚ :=
  initialise_Wd
    { blankInverter with
      NormType := eNormType.L1
      nData := 1
      Obs := fun _ => 2
      Err := fun _ => 2 }

/-- Example for `cull`: three logical data of which the first and the last are active. -/
def cullExample : cBunchInverter ℚ :=
  { inv := { blankInverter with nData := 2, nParam := 3 }
    nAllData := 3
    ActiveData := [0, 2]
    ObsSize := 0
    ErrSize := 0
    OutputMessage := "" }

/-- Example null test: the value `-999` marks a null datum. -/
def isnullExample : ℚ → Bool := fun x => decide (x = -999)

/-- Example for `initialise_bunch_data`: ten logical data. -/
def nullDataExample : cBunchInverter ℚ :=
  { inv := blankInverter
    nAllData := 10
    ActiveData := []
    ObsSize := 0
    ErrSize := 0
    OutputMessage := "" }

/-- Example observations: the data `1`, `4` and `7` are null. -/
def nullDataObs : Vec ℚ := fun i => if i = 1 ∨ i = 4 ∨ i = 7 then -999 else 1

/-- Example noise estimates: the noise of datum `2` is zero. -/
def zeroNoiseErr : Vec ℚ := fun i => if i = 2 then 0 else 1

/-- Example input: every bunch is the single record it starts at, every record loads, is
valid, parses and reads; the noise of datum `2` is zero. -/
def inputExample : cInputManager ℚ :=
  { subsamplerate := 1
    get_bunch := fun record => some [record]
    load_record := fun _ => true
    is_record_valid := fun _ => true
    parse_record := fun _ => true
    read := fun _ _ => true
    earth := fun _ => blankInverter.E 0
    geometry := fun _ => blankInverter.G 0
    obs := fun _ _ => 1
    err := fun _ => zeroNoiseErr }

/-- Example input whose records load and are valid but cannot be parsed. -/
def unreadableExample : cInputManager ℚ :=
  { inputExample with parse_record := fun _ => false }

/-- Example state of the loop of `execute`, before the first bunch. -/
def executeExample : cExecuteState ℚ :=
  { b := { nullDataExample with inv := { blankInverter with nSoundings := 1 } }
    paralleljob := 0
    readstatus := true
    events := [] }

/-- Example earth of two layers that satisfies the data-model invariants; its thickness
`min` and `max` have one entry each. -/
def sanityExample : cEarthStruct ℚ :=
  { ref := { conductivity := [2, 2], thickness := [10] }
    std := { conductivity := [1, 1], thickness := [1] }
    min := { conductivity := [1, 1], thickness := [5] }
    max := { conductivity := [3, 3], thickness := [20] }
    invmodel := { conductivity := [], thickness := [] } }

/-- Example input of two bunches, the records `0` and `1`: record `0` cannot be loaded,
record `1` loads, is valid and reads; there is no third bunch. -/
def skipExample : cInputManager ℚ :=
  { inputExample with
    get_bunch := fun record => if record < 2 then some [record] else none
    load_record := fun record => decide (record ≠ 0) }

/-- Example configuration for the stored norms: one sounding of two layers, the conductivity
solved, `AlphaQ = 1` and the other alpha weights zero. -/
def normsExampleBase : cSBSInverter ℚ :=
  setup_parameters
    { blankInverter with
      nSoundings := 1
      fdC := { solve := true, bound := false, offset := -1 }
      AlphaQ := 1
      E := fun _ =>
        { ref := { conductivity := [1, 1], thickness := [1] }
          std := { conductivity := [1, 1], thickness := [1] }
          min := { conductivity := [], thickness := [] }
          max := { conductivity := [], thickness := [] }
          invmodel := { conductivity := [], thickness := [] } }
      RefParamStd := fun _ => 1 }
    2

/-- Example state for the stored norms: `normsExampleBase` with the regularisation matrices
that `initialise_Wm` builds and the reference model `[1, 0]`, whose two layers differ; the
iteration state is the zero state of `blankInverter`. -/
def normsExample : cSBSInverter ℚ :=
  { initialise_Wm id normsExampleBase with RefParam := fun i => if i = 0 then 1 else 0 }

/-- Example systems for the data indices: system `0` has two windows and inverts the XZ
amplitude with Y enabled; every other system has one window and uses X and Z. -/
def dataExampleSystems : ℕ → cTDEmSystemInfo := fun sysi =>
  if sysi = 0 then { nwindows := 2, invertXPlusZ := true, Use := fun ci => decide (ci = 1) }
  else { nwindows := 1, invertXPlusZ := false, Use := fun ci => decide (ci ≠ 1) }

end SBS

namespace RJMCMC

open SBS

variable {K : Type}

/-! ## Definitions: the reversible-jump sampler of `rjmcmc1d.h` -/

/-- Class `cParameterization`: the type tag. -/
inductive cParameterization where
  | LINEAR
  | LOG10
  deriving DecidableEq

/-- Member `cParameterization::islinear`. -/
def cParameterization.islinear : cParameterization → Bool
  | cParameterization.LINEAR => true
  | cParameterization.LOG10 => false

/-- Class `cProposal`: the `uint32_t` counters of proposed and accepted moves. -/
structure cProposal where
  np : ℕ
  na : ℕ

/-- Member `cProposal::inc_np`. -/
def cProposal.inc_np (p : cProposal) : cProposal := { p with np := (p.np + 1) % 2 ^ 32 }

/-- Member `cProposal::inc_na`. -/
def cProposal.inc_na (p : cProposal) : cProposal := { p with na := (p.na + 1) % 2 ^ 32 }

/-- Class `rjMcMC1DLayer`. -/
structure rjMcMC1DLayer (K : Type) where
  ptop : K
  value : K

/-- Class `rjMcMCNuisance`, as far as the sampler reads it. -/
structure rjMcMCNuisance (K : Type) where
  value : K
  min : K
  max : K
  sd_valuechange : K

/-- Class `rjMcMCNoise`. -/
structure rjMcMCNoise (K : Type) where
  value : K
  min : K
  max : K
  sd_valuechange : K
  data_bounds : ℕ × ℕ

/-- Class `rjMcMC1DModel`.  The vectors `predicted`, `residuals_squared` and `nvar` are
total functions on `ℕ`; their logical extent is the number of data of the sampler. -/
structure rjMcMC1DModel (K : Type) where
  pmax : K
  vmin : K
  vmax : K
  misfit : K
  predicted : Vec K
  residuals_squared : Vec K
  nvar : Vec K
  layers : List (rjMcMC1DLayer K)
  nuisances : List (rjMcMCNuisance K)
  mnoises : List (rjMcMCNoise K)

/-- What the sampler takes from outside `src/`: the constants of `<cfloat>`, `std::sort` on
the layers, the elementary functions, `log10space` (entry `i` of the ladder of `n`
temperatures) and the forward model, a pure virtual member of the sampler. -/
structure Externals (K : Type) where
  DBL_MAX : K
  DBL_EPSILON : K
  TWOPI : K
  sort : List (rjMcMC1DLayer K) → List (rjMcMC1DLayer K)
  log : K → K
  exp : K → K
  sqrt : K → K
  pow10 : K → K
  log10space : K → K → ℕ → ℕ → K
  forwardmodel : rjMcMC1DModel K → Vec K

/-- The random number generator of `random_utils.h`, outside `src/`: the values that
`irand (lo, hi)`, `urand (lo, hi)`, `urand<double> ()` and `nrand<double> ()` return when
they make draw number `t` of the run. -/
structure cRandom (K : Type) where
  irand : ℕ → ℕ → ℕ → ℕ
  urand : ℕ → K → K → K
  urand01 : ℕ → K
  nrand : ℕ → K

/-- One record of class `cChainHistory`, as far as the sample index, the temperature and
the model are concerned. -/
structure cHistoryRecord (K : Type) where
  sample : ℕ
  temperature : K
  nlayers : ℕ
  model : rjMcMC1DModel K

/-- Class `cChain`. -/
structure cChain (K : Type) where
  pvaluechange : cProposal
  pmove : cProposal
  pbirth : cProposal
  pdeath : cProposal
  pnuisancechange : cProposal
  pnoisechange : cProposal
  history : List (cHistoryRecord K)
  swap_histogram : ℕ → ℕ
  temperature : K
  model : rjMcMC1DModel K

/-- Class `rjMcMC1DPPDMap`; the `uint32_t` histograms are functions on `ℕ`. -/
structure rjMcMC1DPPDMap (K : Type) where
  nentries : ℕ
  nlmin : ℕ
  nlmax : ℕ
  pmax : K
  vmin : K
  vmax : K
  np : ℕ
  nv : ℕ
  dp : K
  dv : K
  pbin : Vec K
  vbin : Vec K
  counts : ℕ → ℕ
  cpcounts : ℕ → ℕ
  layercounts : ℕ → ℕ
  layercounts_size : ℕ

/-- Class `rjMcMC1DNuisanceMap`, without the type strings. -/
structure rjMcMC1DNuisanceMap (K : Type) where
  nentries : ℕ
  nuisance : List (List K)

/-- Class `rjMcMC1DNoiseMap`. -/
structure rjMcMC1DNoiseMap (K : Type) where
  nentries : ℕ
  datalims : List (ℕ × ℕ)
  nnoises : ℕ
  noises : List (List K)

/-- Class `rjMcMC1DSampler`: the members that `sample` and the proposals read or write.
`chains` is a function on `ℕ`, the chains being those below `nchains`. -/
structure rjMcMC1DSampler (K : Type) where
  nuisance_init : List (rjMcMCNuisance K)
  noisemag_sd : List K
  noisemag_dbounds : List (ℕ × ℕ)
  noisemag_priorbounds : List (K × K)
  nl_min : ℕ
  nl_max : ℕ
  pmax : K
  vmin : K
  vmax : K
  param_position : cParameterization
  param_value : cParameterization
  nsamples : ℕ
  nburnin : ℕ
  thinrate : ℕ
  temperature_high : K
  BirthDeathFromPrior : Bool
  pmap : rjMcMC1DPPDMap K
  nmap : rjMcMC1DNuisanceMap K
  mnmap : rjMcMC1DNoiseMap K
  nchains : ℕ
  chains : ℕ → cChain K
  ensemble : List (rjMcMC1DModel K)
  HighestLikelihood : rjMcMC1DModel K
  LowestMisfit : rjMcMC1DModel K
  ndata : ℕ
  obs : Vec K
  err : Vec K

/-- What a proposal returns: the flag, the chain with its counters, the proposed model and
the number of random draws made so far. -/
structure cProposed (K : Type) where
  accept : Bool
  chn : cChain K
  mpro : rjMcMC1DModel K
  t : ℕ

section Model

variable [LinearOrderedField K]

/-- A default-constructed `rjMcMC1DModel`: empty vectors; the doubles are not initialised
and are taken as zero. -/
def rjMcMC1DModel.blank : rjMcMC1DModel K :=
  { pmax := 0, vmin := 0, vmax := 0, misfit := 0, predicted := fun _ => 0,
    residuals_squared := fun _ => 0, nvar := fun _ => 0, layers := [], nuisances := [],
    mnoises := [] }

/-- Member `rjMcMC1DModel::initialise`. -/
def rjMcMC1DModel.initialise (X : Externals K) (m : rjMcMC1DModel K) (maxp minv maxv : K) :
    rjMcMC1DModel K :=
  { m with
    layers := []
    nuisances := []
    mnoises := []
    misfit := X.DBL_MAX
    pmax := maxp
    vmin := minv
    vmax := maxv }

/-- Member `rjMcMC1DModel::nlayers`. -/
def rjMcMC1DModel.nlayers (m : rjMcMC1DModel K) : ℕ := m.layers.length

/-- Member `rjMcMC1DModel::nnuisances`. -/
def rjMcMC1DModel.nnuisances (m : rjMcMC1DModel K) : ℕ := m.nuisances.length

/-- Member `rjMcMC1DModel::nnoises`. -/
def rjMcMC1DModel.nnoises (m : rjMcMC1DModel K) : ℕ := m.mnoises.length

/-- Member `rjMcMC1DModel::nparams`. -/
def rjMcMC1DModel.nparams (m : rjMcMC1DModel K) : ℕ := 2 * m.nlayers + m.nnuisances

/-- Element access `layers[i]`. -/
def rjMcMC1DModel.layer (m : rjMcMC1DModel K) (i : ℕ) : rjMcMC1DLayer K :=
  m.layers.getD i { ptop := 0, value := 0 }

/-- Element access `mnoises[ni]`. -/
def rjMcMC1DModel.mnoise (m : rjMcMC1DModel K) (ni : ℕ) : rjMcMCNoise K :=
  m.mnoises.getD ni { value := 0, min := 0, max := 0, sd_valuechange := 0, data_bounds := (0, 0) }

/-- Element access `nuisances[ni]`. -/
def rjMcMC1DModel.nuisance (m : rjMcMC1DModel K) (ni : ℕ) : rjMcMCNuisance K :=
  m.nuisances.getD ni { value := 0, min := 0, max := 0, sd_valuechange := 0 }

/-- Member `rjMcMC1DModel::logppd`. -/
def rjMcMC1DModel.logppd (X : Externals K) (m : rjMcMC1DModel K) : K :=
  -m.misfit / 2 - X.log (m.nparams : K)

/-- Member `rjMcMC1DModel::sort_layers`. -/
def rjMcMC1DModel.sort_layers (X : Externals K) (m : rjMcMC1DModel K) : rjMcMC1DModel K :=
  { m with layers := X.sort m.layers }

/-- Member `rjMcMC1DModel::which_layer`. -/
def rjMcMC1DModel.which_layer (m : rjMcMC1DModel K) (pos : K) : ℕ :=
  match (List.range (m.nlayers - 1)).find? (fun li => decide (pos < (m.layer (li + 1)).ptop)) with
  | some li => li
  | none => m.nlayers - 1

/-- Member `rjMcMC1DModel::move_interface`: the returned flag and the model. -/
def rjMcMC1DModel.move_interface (X : Externals K) (m : rjMcMC1DModel K) (index : ℕ)
    (pnew : K) : Bool × rjMcMC1DModel K :=
  let m := { m with misfit := X.DBL_MAX }
  if index = 0 then (false, m)
  else if index ≥ m.nlayers then (false, m)
  else if pnew ≤ 0 then (false, m)
  else if pnew ≥ m.pmax then (false, m)
  else
    (true,
      rjMcMC1DModel.sort_layers X
        { m with layers := m.layers.set index { m.layer index with ptop := pnew } })

/-- Member `rjMcMC1DModel::insert_interface`: the returned flag and the model. -/
def rjMcMC1DModel.insert_interface (X : Externals K) (m : rjMcMC1DModel K) (pos vbelow : K) :
    Bool × rjMcMC1DModel K :=
  let m := { m with misfit := X.DBL_MAX }
  if pos < 0 ∨ pos > m.pmax then (false, m)
  else if vbelow < m.vmin ∨ vbelow > m.vmax then (false, m)
  else
    let minimumthickness := X.DBL_EPSILON
    if m.layers.any (fun l => decide (|pos - l.ptop| < minimumthickness)) = true then (false, m)
    else if m.nlayers = 0 then
      (true, { m with layers := m.layers ++ [{ ptop := 0, value := vbelow }] })
    else
      (true,
        rjMcMC1DModel.sort_layers X
          { m with layers := m.layers ++ [{ ptop := pos, value := vbelow }] })

/-- Member `rjMcMC1DModel::delete_interface`: the returned flag and the model. -/
def rjMcMC1DModel.delete_interface (X : Externals K) (m : rjMcMC1DModel K) (index : ℕ) :
    Bool × rjMcMC1DModel K :=
  let m := { m with misfit := X.DBL_MAX }
  if index ≤ 0 then (false, m)
  else if index ≥ m.nlayers then (false, m)
  else
    let m1 := rjMcMC1DModel.sort_layers X
      { m with layers := m.layers.set index { ptop := X.DBL_MAX, value := X.DBL_MAX } }
    (true, { m1 with layers := m1.layers.dropLast })

end Model

/-! ### The rounding of `double` arithmetic where it selects a histogram bin -/

/-- The arithmetic of `double` in the members of `rjMcMC1DPPDMap`: `fl x` is the binary64
number that the machine stores for the exact result `x` of one arithmetic operation.  The
bin that `getvbin` and `getpbin` return is the integer part of a rounded quotient, so here,
unlike in the rest of the embedding, the rounding is kept. -/
class DoubleArithmetic (K : Type) where
  fl : K → K

/-- The integer nearest to `n / d`, ties to the even one. -/
def roundHalfEven (n d : ℕ) : ℕ :=
  let q := n / d
  let r := n % d
  if 2 * r < d then q else if d < 2 * r then q + 1 else if q % 2 = 0 then q else q + 1

/-- The position of the leading binary digit of `n`, found in at most `fuel` halvings. -/
def leadingBit : ℕ → ℕ → ℕ
  | 0, _ => 0
  | fuel + 1, n => if n < 2 then 0 else leadingBit fuel (n / 2) + 1

/-- The binary exponent `e` of the positive quotient `n / d`:
`2 ^ e ≤ n / d < 2 ^ (e + 1)`. -/
def binaryExponent (n d : ℕ) : ℤ :=
  let e0 : ℤ := (leadingBit n n : ℤ) - (leadingBit d d : ℤ)
  if d * 2 ^ e0.toNat ≤ n * 2 ^ (-e0).toNat then e0 else e0 - 1

/-- The binary64 number nearest to the positive quotient `n / d`, ties to even: a
significand of 53 binary digits at the exponent of the quotient (the exponent range of
binary64, which the quotients of the map do not leave, is not modelled). -/
def roundDoubleNat (n d : ℕ) : ℚ :=
  let s : ℤ := 52 - binaryExponent n d
  (roundHalfEven (n * 2 ^ s.toNat) (d * 2 ^ (-s).toNat) : ℚ) * 2 ^ (-s)

/-- The binary64 number nearest to the rational `x`, ties to even (IEEE 754
round-to-nearest-even, the default rounding of `double` arithmetic). -/
def roundDouble (x : ℚ) : ℚ :=
  if x = 0 then 0
  else if 0 < x then roundDoubleNat x.num.toNat x.den
  else -roundDoubleNat (-x).num.toNat x.den

/-- On the rationals the result of an operation is rounded to the nearest binary64
number. -/
instance : DoubleArithmetic ℚ := ⟨roundDouble⟩

section Maps

variable [LinearOrderedField K] [FloorRing K] [DoubleArithmetic K]

/-- Increment `c[i]++` of a `uint32_t` histogram. -/
def increment (c : ℕ → ℕ) (i : ℕ) : ℕ → ℕ := Function.update c i ((c i + 1) % 2 ^ 32)

/-- Member `rjMcMC1DPPDMap::getvbin`: the difference and the quotient are rounded, and the
cast `(size_t)` of the non-negative double is its integer part. -/
def rjMcMC1DPPDMap.getvbin (p : rjMcMC1DPPDMap K) (val : K) : ℕ :=
  if val < p.vmin then 0
  else if val ≥ p.vmax then p.nv - 1
  else ⌊DoubleArithmetic.fl (DoubleArithmetic.fl (val - p.vmin) / p.dv)⌋₊

/-- Member `rjMcMC1DPPDMap::getpbin`: the quotient is rounded, and the cast `(size_t)` of the
non-negative double is its integer part. -/
def rjMcMC1DPPDMap.getpbin (p : rjMcMC1DPPDMap K) (pos : K) : ℕ :=
  if pos < 0 then 0
  else if pos ≥ p.pmax then p.np - 1
  else ⌊DoubleArithmetic.fl (pos / p.dp)⌋₊

/-- Member `rjMcMC1DPPDMap::resettozero`. -/
def rjMcMC1DPPDMap.resettozero (p : rjMcMC1DPPDMap K) : rjMcMC1DPPDMap K :=
  { p with
    nentries := 0
    layercounts := fun _ => 0
    layercounts_size := p.nlmax - p.nlmin + 1
    counts := fun _ => 0
    cpcounts := fun _ => 0 }

/-- Member `rjMcMC1DPPDMap::initialise`; every arithmetic operation is rounded. -/
def rjMcMC1DPPDMap.initialise (p : rjMcMC1DPPDMap K) (nlmin nlmax : ℕ) (pmax : K) (np : ℕ)
    (vmin vmax : K) (nv : ℕ) : rjMcMC1DPPDMap K :=
  let dp := DoubleArithmetic.fl (pmax / (np : K))
  let dv := DoubleArithmetic.fl (DoubleArithmetic.fl (vmax - vmin) / (nv : K))
  rjMcMC1DPPDMap.resettozero
    { p with
      nlmin := nlmin
      nlmax := nlmax
      np := np
      nv := nv
      pmax := pmax
      vmin := vmin
      vmax := vmax
      dp := dp
      dv := dv
      pbin := fun i =>
        if i < np then DoubleArithmetic.fl (dp * DoubleArithmetic.fl ((i : K) + 1 / 2)) else 0
      vbin := fun i =>
        if i < nv then
          DoubleArithmetic.fl
            (vmin + DoubleArithmetic.fl (dv * DoubleArithmetic.fl ((i : K) + 1 / 2)))
        else 0 }

/-- Member `rjMcMC1DPPDMap::addmodel`. -/
def rjMcMC1DPPDMap.addmodel (p : rjMcMC1DPPDMap K) (m : rjMcMC1DModel K) :
    rjMcMC1DPPDMap K :=
  let p1 := { p with nentries := p.nentries + 1 }
  let p2 := { p1 with layercounts := increment p1.layercounts (m.nlayers - p1.nlmin) }
  let p3 := forLoop p2.np
    (fun pi q =>
      let li := m.which_layer (q.pbin pi)
      let vi := q.getvbin (m.layer li).value
      { q with counts := increment q.counts (pi * q.nv + vi) })
    p2
  forLoop (m.nlayers - 1)
    (fun k q =>
      let li := k + 1
      let pi := q.getpbin (m.layer li).ptop
      { q with cpcounts := increment q.cpcounts pi })
    p3

/-- Member `rjMcMC1DNuisanceMap::addmodel`. -/
def rjMcMC1DNuisanceMap.addmodel (p : rjMcMC1DNuisanceMap K) (m : rjMcMC1DModel K) :
    rjMcMC1DNuisanceMap K :=
  let nuisance :=
    if p.nuisance.length ≠ m.nnuisances then
      (List.range m.nnuisances).map (fun i => p.nuisance.getD i [])
    else p.nuisance
  { nuisance := (List.range nuisance.length).map
      (fun i => nuisance.getD i [] ++ [(m.nuisance i).value])
    nentries := p.nentries + 1 }

/-- Member `rjMcMC1DNoiseMap::addmodel`. -/
def rjMcMC1DNoiseMap.addmodel (p : rjMcMC1DNoiseMap K) (m : rjMcMC1DModel K) :
    rjMcMC1DNoiseMap K :=
  let p1 :=
    if p.noises.length ≠ m.nnoises then
      { p with
        nnoises := m.nnoises
        noises := (List.range m.nnoises).map (fun i => p.noises.getD i [])
        datalims := (List.range m.nnoises).map (fun i => (m.mnoise i).data_bounds) }
    else p
  { p1 with
    noises := (List.range p1.noises.length).map
      (fun i => if i < m.nnoises then p1.noises.getD i [] ++ [(m.mnoise i).value]
        else p1.noises.getD i [])
    nentries := p1.nentries + 1 }

end Maps

section Sampler

variable [LinearOrderedField K] [FloorRing K] [DoubleArithmetic K]

/-- Constant `DEFAULTLOGSTDDECADES = 1.0` of the sampler. -/
def DEFAULTLOGSTDDECADES : K := 1

/-- Constant `DEFAULTMOVESTDFRACTION = 0.25` of the sampler. -/
def DEFAULTMOVESTDFRACTION : K := 1 / 4

/-- Static member `gaussian_pdf`. -/
def gaussian_pdf (X : Externals K) (mean std x : K) : K :=
  X.exp (-(1 / 2) * ((x - mean) / std) ^ 2) / (X.sqrt X.TWOPI * std)

/-- Member `isinbounds`. -/
def isinbounds (bmin bmax b : K) : Bool :=
  if b < bmin ∨ b > bmax then false else true

/-- Member `should_include_in_maps`. -/
def should_include_in_maps (S : rjMcMC1DSampler K) (si : ℕ) : Bool :=
  if si < S.nburnin then false
  else
    let k := si - S.nburnin
    if k % S.thinrate = 0 then true else false

/-- Member `should_save_convergence_record`.  The expression
`(size_t) std::pow (10, std::floor (std::log10 (si)))` is the largest power of ten not
exceeding `si`, here `10 ^ Nat.log 10 si`. -/
def should_save_convergence_record (S : rjMcMC1DSampler K) (si : ℕ) : Bool :=
  if si = 0 ∨ si = S.nsamples - 1 then true
  else
    let k := 10 ^ Nat.log 10 si
    let k := if k > S.thinrate then S.thinrate else k
    if si % k = 0 then true else false

/-- Member `standard_l2misfit`. -/
def standard_l2misfit (S : rjMcMC1DSampler K) (m : rjMcMC1DModel K) : K :=
  let r2 := m.residuals_squared
  forLoop S.ndata
    (fun di sum =>
      let nr := r2 di * (S.obs di * S.obs di) / (S.err di * S.err di)
      sum + nr * nr)
    (0 : K) / (S.ndata : K)

/-- Member `compute_predicted_and_residuals_squared`. -/
def compute_predicted_and_residuals_squared (X : Externals K) (S : rjMcMC1DSampler K)
    (m : rjMcMC1DModel K) : rjMcMC1DModel K :=
  let pred := X.forwardmodel m
  let res2 := forLoop S.ndata
    (fun di res2 =>
      let rd := (S.obs di - pred di) / S.obs di
      Function.update res2 di (rd * rd))
    (fun _ => (0 : K))
  { m with predicted := pred, residuals_squared := res2 }

/-- The loop of `set_misfit` that accumulates `negloglike` for the residuals `res2` and the
variances `nvar`. -/
def negloglike (X : Externals K) (ndata : ℕ) (res2 nvar : Vec K) : K :=
  forLoop ndata (fun di n => n + res2 di / nvar di + X.log (nvar di)) (0 : K)

/-- Member `set_misfit`. -/
def set_misfit (X : Externals K) (S : rjMcMC1DSampler K) (m : rjMcMC1DModel K) :
    rjMcMC1DModel K :=
  let m := compute_predicted_and_residuals_squared X S m
  { m with misfit := negloglike X S.ndata m.residuals_squared m.nvar }

/-- Member `set_misfit_noisechange`. -/
def set_misfit_noisechange (X : Externals K) (m : rjMcMC1DModel K) (nv : K) (ni : ℕ) :
    rjMcMC1DModel K :=
  let prev_nv := (m.mnoise ni).value
  let m := { m with mnoises := m.mnoises.set ni { m.mnoise ni with value := nv } }
  let bounds := (m.mnoise ni).data_bounds
  let res := m.residuals_squared
  let st := forLoop (bounds.2 - bounds.1)
    (fun k (st : Vec K × K) =>
      let di := bounds.1 + k
      let var_old := st.1 di
      let nvar := Function.update st.1 di (st.1 di - prev_nv * prev_nv + nv * nv)
      let negloglike := st.2 - (res di / var_old + X.log var_old)
      let negloglike := negloglike + (res di / nvar di + X.log (nvar di))
      (nvar, negloglike))
    (m.nvar, m.misfit)
  { m with nvar := st.1, misfit := st.2 }

/-- The logarithm of the acceptance ratio shared by the proposals:
`logpqr - (mpro.get_misfit () - mcur.get_misfit ()) / 2.0 / temperature`. -/
def logar (logpqr : K) (mpro mcur : rjMcMC1DModel K) (temperature : K) : K :=
  logpqr + -(mpro.misfit - mcur.misfit) / 2 / temperature

/-- Member `propose_valuechange`, making the draws `t`, `t + 1`, `t + 2`. -/
def propose_valuechange (X : Externals K) (R : cRandom K) (S : rjMcMC1DSampler K) (t : ℕ)
    (chn : cChain K) (mpro : rjMcMC1DModel K) : cProposed K :=
  let mcur := chn.model
  let temperature := chn.temperature
  let chn := { chn with pvaluechange := chn.pvaluechange.inc_np }
  let index := R.irand t 0 (mcur.nlayers - 1)
  let logstd : K := DEFAULTLOGSTDDECADES
  let vold := (mcur.layer index).value
  let z := R.nrand (t + 1)
  let m := (X.pow10 logstd - X.pow10 (-logstd)) / 2
  let vnew := if S.param_value.islinear = true then vold + m * vold * z else vold + logstd * z
  let pqratio :=
    if S.param_value.islinear = true then
      gaussian_pdf X vnew (m * vnew) vold / gaussian_pdf X vold (m * vold) vnew
    else 1
  let isvalid := isinbounds S.vmin S.vmax vnew
  if isvalid = false then { accept := false, chn := chn, mpro := mpro, t := t + 2 }
  else
    let mpro := set_misfit X S
      { mpro with layers := mpro.layers.set index { mpro.layer index with value := vnew } }
    if X.log (R.urand01 (t + 2)) < logar (X.log pqratio) mpro mcur temperature then
      { accept := true, chn := { chn with pvaluechange := chn.pvaluechange.inc_na },
        mpro := mpro, t := t + 3 }
    else { accept := false, chn := chn, mpro := mpro, t := t + 3 }

/-- Member `propose_move`, making the draws `t`, `t + 1`, `t + 2`. -/
def propose_move (X : Externals K) (R : cRandom K) (S : rjMcMC1DSampler K) (t : ℕ)
    (chn : cChain K) (mpro : rjMcMC1DModel K) : cProposed K :=
  let mcur := chn.model
  let temperature := chn.temperature
  let chn := { chn with pmove := chn.pmove.inc_np }
  let n := mcur.nlayers
  if n ≤ 1 then { accept := false, chn := chn, mpro := mpro, t := t }
  else
    let index := R.irand t 1 (n - 1)
    let pold := (mcur.layer index).ptop
    let std := DEFAULTMOVESTDFRACTION * pold
    let pnew := pold + std * R.nrand (t + 1)
    let qpdfforward := gaussian_pdf X pold (pold * DEFAULTMOVESTDFRACTION) pnew
    let qpdfreverse := gaussian_pdf X pnew (pnew * DEFAULTMOVESTDFRACTION) pold
    let r := mpro.move_interface X index pnew
    if r.1 = false then { accept := false, chn := chn, mpro := r.2, t := t + 2 }
    else
      let mpro := set_misfit X S r.2
      let pqratio := qpdfreverse / qpdfforward
      if X.log (R.urand01 (t + 2)) < logar (X.log pqratio) mpro mcur temperature then
        { accept := true, chn := { chn with pmove := chn.pmove.inc_na }, mpro := mpro,
          t := t + 3 }
      else { accept := false, chn := chn, mpro := mpro, t := t + 3 }

/-- The value that `propose_birth` gives the new layer, from the value `vold` of the
enclosing layer and the draw `t`. -/
def propose_birth_value (X : Externals K) (R : cRandom K) (S : rjMcMC1DSampler K) (t : ℕ)
    (vold : K) : K :=
  if S.BirthDeathFromPrior = true then R.urand t S.vmin S.vmax
  else
    let logstd : K := DEFAULTLOGSTDDECADES
    if S.param_value.islinear = true then
      let m := (X.pow10 logstd - X.pow10 (-logstd)) / 2
      vold + m * vold * R.nrand t
    else vold + logstd * R.nrand t

/-- The proposal ratio `pqratio` of `propose_birth` for the new value `vnew` inside a layer
of value `vold`. -/
def propose_birth_pqratio (X : Externals K) (S : rjMcMC1DSampler K) (vold vnew : K) : K :=
  if S.BirthDeathFromPrior = true then 1
  else
    let logstd : K := DEFAULTLOGSTDDECADES
    let vcpdf :=
      if S.param_value.islinear = true then
        let m := (X.pow10 logstd - X.pow10 (-logstd)) / 2
        gaussian_pdf X vold (m * vold) vnew
      else gaussian_pdf X vold logstd vnew
    1 / ((S.vmax - S.vmin) * vcpdf)

/-- Member `propose_birth`, making the draws `t`, `t + 1`, `t + 2`. -/
def propose_birth (X : Externals K) (R : cRandom K) (S : rjMcMC1DSampler K) (t : ℕ)
    (chn : cChain K) (mpro : rjMcMC1DModel K) : cProposed K :=
  let mcur := chn.model
  let temperature := chn.temperature
  let chn := { chn with pbirth := chn.pbirth.inc_np }
  let n := mcur.nlayers
  if n ≥ S.nl_max then { accept := false, chn := chn, mpro := mpro, t := t }
  else
    let pos := R.urand t 0 S.pmax
    let index := mcur.which_layer pos
    let vold := (mcur.layer index).value
    let vnew := propose_birth_value X R S (t + 1) vold
    let pqratio := propose_birth_pqratio X S vold vnew
    let r := mpro.insert_interface X pos vnew
    if r.1 = false then { accept := false, chn := chn, mpro := r.2, t := t + 2 }
    else
      let mpro := set_misfit X S r.2
      if X.log (R.urand01 (t + 2)) < logar (X.log pqratio) mpro mcur temperature then
        { accept := true, chn := { chn with pbirth := chn.pbirth.inc_na }, mpro := mpro,
          t := t + 3 }
      else { accept := false, chn := chn, mpro := mpro, t := t + 3 }

/-- The proposal ratio `pqratio` of `propose_death` for the removal of layer `index` of the
current model `mcur`. -/
def propose_death_pqratio (X : Externals K) (S : rjMcMC1DSampler K) (mcur : rjMcMC1DModel K)
    (index : ℕ) : K :=
  if S.BirthDeathFromPrior = true then 1
  else
    let logstd : K := DEFAULTLOGSTDDECADES
    let vnew := (mcur.layer (index - 1)).value
    let vold := (mcur.layer index).value
    let vcpdf :=
      if S.param_value.islinear = true then
        let m := (X.pow10 logstd - X.pow10 (-logstd)) / 2
        gaussian_pdf X vnew (m * vnew) vold
      else gaussian_pdf X vnew logstd vold
    (S.vmax - S.vmin) * vcpdf

/-- Member `propose_death`, making the draws `t`, `t + 1`. -/
def propose_death (X : Externals K) (R : cRandom K) (S : rjMcMC1DSampler K) (t : ℕ)
    (chn : cChain K) (mpro : rjMcMC1DModel K) : cProposed K :=
  let mcur := chn.model
  let temperature := chn.temperature
  let chn := { chn with pdeath := chn.pdeath.inc_np }
  let n := mcur.nlayers
  if n ≤ S.nl_min then { accept := false, chn := chn, mpro := mpro, t := t }
  else
    let index := R.irand t 1 (n - 1)
    let r := mpro.delete_interface X index
    if r.1 = false then { accept := false, chn := chn, mpro := r.2, t := t + 1 }
    else
      let mpro := set_misfit X S r.2
      let pqratio := propose_death_pqratio X S mcur index
      if X.log (R.urand01 (t + 1)) < logar (X.log pqratio) mpro mcur temperature then
        { accept := true, chn := { chn with pdeath := chn.pdeath.inc_na }, mpro := mpro,
          t := t + 2 }
      else { accept := false, chn := chn, mpro := mpro, t := t + 2 }

/-- Member `propose_nuisancechange`, making the draws `t`, `t + 1`, `t + 2`. -/
def propose_nuisancechange (X : Externals K) (R : cRandom K) (S : rjMcMC1DSampler K) (t : ℕ)
    (chn : cChain K) (mpro : rjMcMC1DModel K) : cProposed K :=
  let mcur := chn.model
  let temperature := chn.temperature
  let chn := { chn with pnuisancechange := chn.pnuisancechange.inc_np }
  let ni := R.irand t 0 (mcur.nnuisances - 1)
  let delta := R.nrand (t + 1) * (mcur.nuisance ni).sd_valuechange
  let nv := (mcur.nuisance ni).value + delta
  let isvalid := isinbounds (mcur.nuisance ni).min (mcur.nuisance ni).max nv
  if isvalid = false then { accept := false, chn := chn, mpro := mpro, t := t + 2 }
  else
    let mpro := set_misfit X S
      { mpro with nuisances := mpro.nuisances.set ni { mpro.nuisance ni with value := nv } }
    if X.log (R.urand01 (t + 2)) < logar 0 mpro mcur temperature then
      { accept := true, chn := { chn with pnuisancechange := chn.pnuisancechange.inc_na },
        mpro := mpro, t := t + 3 }
    else { accept := false, chn := chn, mpro := mpro, t := t + 3 }

/-- Member `propose_noisechange`, making the draws `t`, `t + 1`, `t + 2`. -/
def propose_noisechange (X : Externals K) (R : cRandom K) (t : ℕ)
    (chn : cChain K) (mpro : rjMcMC1DModel K) : cProposed K :=
  let mcur := chn.model
  let temperature := chn.temperature
  let chn := { chn with pnoisechange := chn.pnoisechange.inc_np }
  let ni := R.irand t 0 (mcur.nnoises - 1)
  let delta := R.nrand (t + 1) * (mcur.mnoise ni).sd_valuechange
  let nv := (mcur.mnoise ni).value + delta
  let isvalid := isinbounds (mcur.mnoise ni).min (mcur.mnoise ni).max nv
  if isvalid = false then { accept := false, chn := chn, mpro := mpro, t := t + 2 }
  else
    let mpro := set_misfit_noisechange X mpro nv ni
    if X.log (R.urand01 (t + 2)) < logar 0 mpro mcur temperature then
      { accept := true, chn := { chn with pnoisechange := chn.pnoisechange.inc_na },
        mpro := mpro, t := t + 3 }
    else { accept := false, chn := chn, mpro := mpro, t := t + 3 }

/-- The `while (status == false)` loop of `choosefromprior` for one layer: the draws of a
position and a value are repeated until `insert_interface` succeeds; `none` when it has
not succeeded within `fuel` attempts. -/
def choosefromprior_insert (X : Externals K) (R : cRandom K) (S : rjMcMC1DSampler K) :
    ℕ → ℕ → rjMcMC1DModel K → Option (rjMcMC1DModel K × ℕ)
  | 0, _, _ => none
  | fuel + 1, t, m =>
    let pos := R.urand t 0 S.pmax
    let value := R.urand (t + 1) S.vmin S.vmax
    let r := m.insert_interface X pos value
    if r.1 = true then some (r.2, t + 2)
    else choosefromprior_insert X R S fuel (t + 2) r.2

/-- The loop of `choosefromprior` over the `nl` layers. -/
def choosefromprior_layers (X : Externals K) (R : cRandom K) (S : rjMcMC1DSampler K)
    (fuel : ℕ) : ℕ → ℕ → rjMcMC1DModel K → Option (rjMcMC1DModel K × ℕ)
  | 0, t, m => some (m, t)
  | nl + 1, t, m =>
    match choosefromprior_layers X R S fuel nl t m with
    | none => none
    | some (m1, t1) => choosefromprior_insert X R S fuel t1 m1

/-- The part of `choosefromprior` after the layers: the nuisances, the variances `nvar` of
the data and the noise processes with their sampled magnitudes. -/
def choosefromprior_noises (R : cRandom K) (S : rjMcMC1DSampler K) (t : ℕ)
    (m : rjMcMC1DModel K) : rjMcMC1DModel K × ℕ :=
  let m := { m with nuisances := S.nuisance_init }
  let m := { m with
    nvar := forLoop S.ndata
      (fun di nvar =>
        Function.update nvar di ((S.err di * S.err di) / (S.obs di * S.obs di)))
      m.nvar }
  forLoop S.noisemag_sd.length
    (fun ni (st : rjMcMC1DModel K × ℕ) =>
      let min := (S.noisemag_priorbounds.getD ni (0, 0)).1
      let max := (S.noisemag_priorbounds.getD ni (0, 0)).2
      let data_bounds := S.noisemag_dbounds.getD ni (0, 0)
      let value := R.urand st.2 min max
      let mnoise : rjMcMCNoise K :=
        { value := value, min := min, max := max,
          sd_valuechange := S.noisemag_sd.getD ni 0, data_bounds := data_bounds }
      ({ st.1 with
          mnoises := st.1.mnoises ++ [mnoise]
          nvar := forLoop (data_bounds.2 - data_bounds.1)
            (fun k nvar =>
              Function.update nvar (data_bounds.1 + k)
                (nvar (data_bounds.1 + k) + value * value))
            st.1.nvar },
        st.2 + 1))
    (m, t)

/-- Member `choosefromprior`, starting at draw `t`: the model and the number of draws made,
`none` when a retry loop has not ended within `fuel` attempts. -/
def choosefromprior (X : Externals K) (R : cRandom K) (S : rjMcMC1DSampler K) (fuel t : ℕ) :
    Option (rjMcMC1DModel K × ℕ) :=
  let nl := R.irand t S.nl_min S.nl_max
  let m := (rjMcMC1DModel.blank : rjMcMC1DModel K).initialise X S.pmax S.vmin S.vmax
  match choosefromprior_layers X R S fuel nl (t + 1) m with
  | none => none
  | some (m1, t1) => some (choosefromprior_noises R S t1 m1)

/-- Member `propose_independent`; the prior ratio that it computes is overwritten by
`priorratio = 1.0`. -/
def propose_independent (X : Externals K) (R : cRandom K) (S : rjMcMC1DSampler K)
    (fuel t : ℕ) (chn : cChain K) : Option (cProposed K) :=
  let mcur := chn.model
  let temperature := chn.temperature
  match choosefromprior X R S fuel t with
  | none => none
  | some (m, t1) =>
    let mpro := set_misfit X S m
    let priorratio : K := 1
    if X.log (R.urand01 t1) < logar (X.log priorratio) mpro mcur temperature then
      some { accept := true, chn := chn, mpro := mpro, t := t1 + 1 }
    else some { accept := false, chn := chn, mpro := mpro, t := t1 + 1 }

/-- Static member `propose_chain_swap` with the uniform draw `u`: the returned flag and the
four arguments, passed by reference, after the call. -/
def propose_chain_swap (X : Externals K) (u : K) (Ti : K) (Mi : rjMcMC1DModel K) (Tj : K)
    (Mj : rjMcMC1DModel K) : Bool × K × rjMcMC1DModel K × K × rjMcMC1DModel K :=
  let logar := (1 / Ti - 1 / Tj) * (Mi.misfit - Mj.misfit)
  let logu := X.log u
  if logu < logar then (true, Tj, Mi, Ti, Mj)
  else (false, Ti, Mi, Tj, Mj)

/-- The start of `sample`: `BirthDeathFromPrior = false` and the temperature ladder is
assigned to the chains. -/
def sample_begin (X : Externals K) (S : rjMcMC1DSampler K) : rjMcMC1DSampler K :=
  { S with
    BirthDeathFromPrior := false
    chains := forLoop S.nchains
      (fun ci chains =>
        Function.update chains ci
          { chains ci with temperature := X.log10space 1 S.temperature_high S.nchains ci })
      S.chains }

/-- The kernel dispatch of `sample` for a chain that is not being initialised: the option
is drawn and the proposal executed; `none` when the option is out of range (an error is
reported) or a retry loop of `propose_independent` has not ended. -/
def sample_propose (X : Externals K) (R : cRandom K) (S : rjMcMC1DSampler K) (fuel t : ℕ)
    (chn : cChain K) : Option (cProposed K) :=
  let mcur := chn.model
  let mpro := mcur
  let nopt := 4
  let nopt := if mcur.nnoises > 0 then nopt + 1 else nopt
  let nopt := if mcur.nnuisances > 0 then nopt + 1 else nopt
  let option := R.irand t 0 (nopt - 1)
  match option with
  | 0 => some (propose_valuechange X R S (t + 1) chn mpro)
  | 1 => some (propose_move X R S (t + 1) chn mpro)
  | 2 => some (propose_birth X R S (t + 1) chn mpro)
  | 3 => some (propose_death X R S (t + 1) chn mpro)
  | 4 =>
    if mcur.nnoises > 0 then some (propose_noisechange X R (t + 1) chn mpro)
    else some (propose_nuisancechange X R S (t + 1) chn mpro)
  | 5 => some (propose_nuisancechange X R S (t + 1) chn mpro)
  | 6 => propose_independent X R S fuel (t + 1) chn
  | _ => none

/-- The first part of the body of the chain loop of `sample`: the chain is initialised from
the prior when `si = 0`, otherwise a proposal is made and the proposed model replaces the
current one when it is accepted. -/
def sample_update (X : Externals K) (R : cRandom K) (S : rjMcMC1DSampler K) (fuel si t : ℕ)
    (chn : cChain K) : Option (cChain K × ℕ) :=
  if si = 0 then
    match choosefromprior X R S fuel t with
    | none => none
    | some (m, t1) => some ({ chn with model := set_misfit X S m }, t1)
  else
    match sample_propose X R S fuel t chn with
    | none => none
    | some r =>
      if r.accept = true then some ({ r.chn with model := r.mpro }, r.t)
      else some (r.chn, r.t)

/-- Member `addmodel` of the sampler: the model is added to the three maps. -/
def rjMcMC1DSampler.addmodel (S : rjMcMC1DSampler K) (m : rjMcMC1DModel K) :
    rjMcMC1DSampler K :=
  { S with pmap := S.pmap.addmodel m, nmap := S.nmap.addmodel m, mnmap := S.mnmap.addmodel m }

/-- The second part of the body of the chain loop of `sample`, for chain `ci` holding the
model `mcur`: the best models and the maps when the temperature is `1.0`. -/
def sample_maps (X : Externals K) (S : rjMcMC1DSampler K) (si ci : ℕ) :
    rjMcMC1DSampler K :=
  let chn := S.chains ci
  let mcur := chn.model
  if chn.temperature = 1 then
    let S1 :=
      if ci = 0 ∧ si = 0 then { S with HighestLikelihood := mcur, LowestMisfit := mcur }
      else
        let S0 :=
          if mcur.logppd X > S.HighestLikelihood.logppd X then
            { S with HighestLikelihood := mcur }
          else S
        let cnmf := standard_l2misfit S0 mcur
        let lnmf := standard_l2misfit S0 S0.LowestMisfit
        if cnmf < lnmf then { S0 with LowestMisfit := mcur } else S0
    if should_include_in_maps S1 si = true then
      { (S1.addmodel mcur) with ensemble := S1.ensemble ++ [mcur] }
    else S1
  else S

/-- The third part of the body of the chain loop of `sample`: the convergence record.  The
sample index and the number of layers are stored after the cast `(uint32_t)`. -/
def sample_history (S : rjMcMC1DSampler K) (si ci : ℕ) : rjMcMC1DSampler K :=
  let chn := S.chains ci
  if should_save_convergence_record S si = true then
    { S with
      chains := Function.update S.chains ci
        { chn with
          history := chn.history ++
            [{ sample := si % 2 ^ 32, temperature := chn.temperature,
               nlayers := chn.model.nlayers % 2 ^ 32, model := chn.model }] } }
  else S

/-- The body of the chain loop of `sample` for sample `si` and chain `ci`. -/
def sample_chain (X : Externals K) (R : cRandom K) (fuel si ci : ℕ)
    (st : rjMcMC1DSampler K × ℕ) : Option (rjMcMC1DSampler K × ℕ) :=
  match sample_update X R st.1 fuel si st.2 (st.1.chains ci) with
  | none => none
  | some (chn, t1) =>
    let S1 := { st.1 with chains := Function.update st.1.chains ci chn }
    some (sample_history (sample_maps X S1 si ci) si ci, t1)

/-- The chain loop of `sample` over the first `n` chains. -/
def sample_chains (X : Externals K) (R : cRandom K) (fuel si : ℕ) :
    ℕ → rjMcMC1DSampler K × ℕ → Option (rjMcMC1DSampler K × ℕ)
  | 0, st => some st
  | n + 1, st =>
    match sample_chains X R fuel si n st with
    | none => none
    | some st1 => sample_chain X R fuel si n st1

/-- The parallel-tempering loop of `sample`: `i` runs from `nchains - 1` down to `1`.  (The
C++ index is a `size_t`: without any chain `nchains () - 1` wraps around, so the loop is
meant for `nchains ≥ 1`.) -/
def sample_tempering (X : Externals K) (R : cRandom K) (st : rjMcMC1DSampler K × ℕ) :
    rjMcMC1DSampler K × ℕ :=
  forLoop (st.1.nchains - 1)
    (fun k (st : rjMcMC1DSampler K × ℕ) =>
      let S := st.1
      let i := S.nchains - 1 - k
      let j := R.irand st.2 0 i
      let S1 := { S with
        chains := Function.update S.chains i
          { S.chains i with swap_histogram := increment (S.chains i).swap_histogram j } }
      if i ≠ j then
        let r := propose_chain_swap X (R.urand01 (st.2 + 1)) (S1.chains i).temperature
          (S1.chains i).model (S1.chains j).temperature (S1.chains j).model
        let ci := { S1.chains i with temperature := r.2.1, model := r.2.2.1 }
        let cj := { S1.chains j with temperature := r.2.2.2.1, model := r.2.2.2.2 }
        ({ S1 with chains := Function.update (Function.update S1.chains i ci) j cj },
          st.2 + 2)
      else (S1, st.2 + 1))
    st

/-- The sample loop of `sample` over the first `n` samples. -/
def sample_loop (X : Externals K) (R : cRandom K) (fuel : ℕ) :
    ℕ → rjMcMC1DSampler K × ℕ → Option (rjMcMC1DSampler K × ℕ)
  | 0, st => some st
  | n + 1, st =>
    match sample_loop X R fuel n st with
    | none => none
    | some st1 =>
      match sample_chains X R fuel n st1.1.nchains st1 with
      | none => none
      | some st2 => some (sample_tempering X R st2)

/-- Member `sample`, starting at draw `t`; `none` when a retry loop of `choosefromprior` has
not ended within `fuel` attempts or an option is out of range. -/
def sample (X : Externals K) (R : cRandom K) (fuel t : ℕ) (S : rjMcMC1DSampler K) :
    Option (rjMcMC1DSampler K × ℕ) :=
  sample_loop X R fuel S.nsamples (sample_begin X S, t)

end Sampler

/-- Spec side of the misfit: `Σ res²[i] / nvar[i] + Σ log nvar[i]` over the `ndata` data,
computed from scratch. -/
def misfitFromScratch [LinearOrderedField K] (X : Externals K) (ndata : ℕ)
    (res2 nvar : Vec K) : K :=
  ∑ i ∈ Finset.range ndata, res2 i / nvar i + ∑ i ∈ Finset.range ndata, X.log (nvar i)

/-- The proposal kernels that the `switch` of `sample` can call. -/
inductive cKernel where
  | valuechange
  | move
  | birth
  | death
  | noisechange
  | nuisancechange
  | independent
  deriving DecidableEq

/-- The number `nopt` of options of the kernel dispatch of `sample` for the current model
`mcur`. -/
def sample_nopt (mcur : rjMcMC1DModel K) : ℕ :=
  let nopt := 4
  let nopt := if mcur.nnoises > 0 then nopt + 1 else nopt
  if mcur.nnuisances > 0 then nopt + 1 else nopt

/-- The `switch (option)` of `sample` for the current model `mcur`: the kernel that the
case of the option calls; `none` for the `default` case, which reports an error. -/
def sample_kernel (mcur : rjMcMC1DModel K) (option : ℕ) : Option cKernel :=
  match option with
  | 0 => some cKernel.valuechange
  | 1 => some cKernel.move
  | 2 => some cKernel.birth
  | 3 => some cKernel.death
  | 4 => if mcur.nnoises > 0 then some cKernel.noisechange else some cKernel.nuisancechange
  | 5 => some cKernel.nuisancechange
  | 6 => some cKernel.independent
  | _ => none

/-- The call of a kernel for the chain `chn`, with the proposed model a copy of the current
one, as the cases of the `switch` of `sample` make it. -/
def cKernel.propose [LinearOrderedField K] (X : Externals K) (R : cRandom K)
    (S : rjMcMC1DSampler K) (fuel t : ℕ) (chn : cChain K) : cKernel → Option (cProposed K)
  | cKernel.valuechange => some (propose_valuechange X R S t chn chn.model)
  | cKernel.move => some (propose_move X R S t chn chn.model)
  | cKernel.birth => some (propose_birth X R S t chn chn.model)
  | cKernel.death => some (propose_death X R S t chn chn.model)
  | cKernel.noisechange => some (propose_noisechange X R t chn chn.model)
  | cKernel.nuisancechange => some (propose_nuisancechange X R S t chn chn.model)
  | cKernel.independent => propose_independent X R S fuel t chn

/-- Spec side of the enabled set of kernels for the current model `mcur`: value change,
move, birth and death; the noise kernel when the model has a noise process; the nuisance
kernel when it has a nuisance. -/
def cKernel.enabled (mcur : rjMcMC1DModel K) : cKernel → Prop
  | cKernel.valuechange => True
  | cKernel.move => True
  | cKernel.birth => True
  | cKernel.death => True
  | cKernel.noisechange => 0 < mcur.nnoises
  | cKernel.nuisancechange => 0 < mcur.nnuisances
  | cKernel.independent => False

/-! ### Contracts of the library functions and example states -/

section RJExamples

/-- The contract of `std::sort` with `operator<` of `rjMcMC1DLayer`: the result is a
rearrangement of the argument in which `ptop` does not decrease. -/
def Externals.SortContract [LinearOrderedField K] (X : Externals K) : Prop :=
  ∀ l, (X.sort l).Perm l ∧ (X.sort l).Sorted (fun a b => a.ptop ≤ b.ptop)

/-- Modelled from the spec: `irand (lo, hi)` picks an integer of `[lo, hi]` and
`urand (lo, hi)` a number of `[lo, hi]` (`random_utils.h` is outside `src/`). -/
def cRandom.InRange [LinearOrderedField K] (R : cRandom K) : Prop :=
  (∀ t lo hi, lo ≤ hi → lo ≤ R.irand t lo hi ∧ R.irand t lo hi ≤ hi) ∧
  (∀ t (lo hi : K), lo ≤ hi → lo ≤ R.urand t lo hi ∧ R.urand t lo hi ≤ hi)

/-- The layers of the model are in depth order, none is above the surface, and the first
one is at depth `0`. -/
def rjMcMC1DModel.LayersSorted [LinearOrderedField K] (m : rjMcMC1DModel K) : Prop :=
  m.layers.Sorted (fun a b => a.ptop ≤ b.ptop) ∧
  (∀ l ∈ m.layers, 0 ≤ l.ptop) ∧
  (m.layers ≠ [] → (m.layer 0).ptop = 0)

/-- The models that calls of `insert_interface`, `move_interface` and `delete_interface`,
successful or not, make of an initialised model. -/
inductive InterfaceReachable [LinearOrderedField K] (X : Externals K) :
    rjMcMC1DModel K → Prop where
  | initialise (m : rjMcMC1DModel K) (maxp minv maxv : K) :
      InterfaceReachable X (m.initialise X maxp minv maxv)
  | insert_interface (m : rjMcMC1DModel K) (pos vbelow : K) :
      InterfaceReachable X m → InterfaceReachable X (m.insert_interface X pos vbelow).2
  | move_interface (m : rjMcMC1DModel K) (index : ℕ) (pnew : K) :
      InterfaceReachable X m → InterfaceReachable X (m.move_interface X index pnew).2
  | delete_interface (m : rjMcMC1DModel K) (index : ℕ) :
      InterfaceReachable X m → InterfaceReachable X (m.delete_interface X index).2

/-- Spec side of the variances of the data: `nvar[i] = (err_i / obs_i)²` plus the sum of
`value_k²` over the noise processes `k` whose data bounds satisfy `d_lo ≤ i < d_hi`. -/
def NvarInvariant [LinearOrderedField K] (S : rjMcMC1DSampler K) (m : rjMcMC1DModel K) :
    Prop :=
  ∀ di, di < S.ndata →
    m.nvar di = (S.err di / S.obs di) ^ 2
      + ∑ k ∈ Finset.range m.nnoises,
          if (m.mnoise k).data_bounds.1 ≤ di ∧ di < (m.mnoise k).data_bounds.2 then
            (m.mnoise k).value ^ 2
          else 0

/-- The models that `set_misfit_noisechange` updates make of a model returned by
`choosefromprior`. -/
inductive NoiseReachable [LinearOrderedField K] [FloorRing K] [DoubleArithmetic K]
    (X : Externals K) (R : cRandom K) (S : rjMcMC1DSampler K) : rjMcMC1DModel K → Prop where
  | choosefromprior (fuel t : ℕ) (m : rjMcMC1DModel K) (t1 : ℕ) :
      choosefromprior X R S fuel t = some (m, t1) → NoiseReachable X R S m
  | set_misfit_noisechange (m : rjMcMC1DModel K) (nv : K) (ni : ℕ) :
      NoiseReachable X R S m → ni < m.nnoises →
      NoiseReachable X R S (set_misfit_noisechange X m nv ni)

/-- The number of layers of the model is within the bounds of the sampler. -/
def LayerCountOK (S : rjMcMC1DSampler K) (m : rjMcMC1DModel K) : Prop :=
  S.nl_min ≤ m.layers.length ∧ m.layers.length ≤ S.nl_max

/-- Example externals: `DBL_EPSILON` is `1 / 1000`, `DBL_MAX` is `10 ^ 6`, `std::sort` is an
insertion sort, `exp` and `sqrt` are the constant `1`, `log` and `pow10` the identity, the
ladder is constant `1` and the forward model predicts `1` for every datum. -/
def exampleExternals : Externals ℚ :=
  { DBL_MAX := 1000000
    DBL_EPSILON := 1 / 1000
    TWOPI := 6
    sort := List.insertionSort (fun a b => a.ptop ≤ b.ptop)
    log := fun x => x
    exp := fun _ => 1
    sqrt := fun _ => 1
    pow10 := fun x => x
    log10space := fun _ _ _ _ => 1
    forwardmodel := fun _ _ => 1 }

/-- Example random numbers: every `irand (lo, hi)` returns `lo`, every `urand (lo, hi)`
returns the midpoint, `urand ()` returns `1 / 2` and `nrand ()` returns `1`. -/
def exampleRandom : cRandom ℚ :=
  { irand := fun _ lo _ => lo
    urand := fun _ lo hi => (lo + hi) / 2
    urand01 := fun _ => 1 / 2
    nrand := fun _ => 1 }

/-- Example model: three layers at the depths `0`, `5`, `7` in the prior box
`pmax = 10`, `vmin = 0`, `vmax = 2`; two data with variances `2` and `1`, one noise process
of magnitude `1` on the first datum, residuals `1`, and the misfit
`1 / 2 + 2 + 1 / 1 + 1` that `set_misfit` stores with `log` the identity. -/
def exampleModel : rjMcMC1DModel ℚ :=
  { pmax := 10
    vmin := 0
    vmax := 2
    misfit := 9 / 2
    predicted := fun _ => 1
    residuals_squared := fun _ => 1
    nvar := fun i => if i = 0 then 2 else 1
    layers := [{ ptop := 0, value := 1 }, { ptop := 5, value := 1 / 2 }, { ptop := 7, value := 1 }]
    nuisances := []
    mnoises := [{ value := 1, min := 0, max := 2, sd_valuechange := 1, data_bounds := (0, 1) }] }

/-- Example chain at temperature `1` holding `exampleModel`. -/
def exampleChain : cChain ℚ :=
  { pvaluechange := { np := 0, na := 0 }
    pmove := { np := 0, na := 0 }
    pbirth := { np := 0, na := 0 }
    pdeath := { np := 0, na := 0 }
    pnuisancechange := { np := 0, na := 0 }
    pnoisechange := { np := 0, na := 0 }
    history := []
    swap_histogram := fun _ => 0
    temperature := 1
    model := exampleModel }

/-- Example sampler: one chain, between one and three layers, the prior box of
`exampleModel`, two data `obs = 2` with `err = 2`, one noise process on the first datum,
the value parameterisation `LOG10`, and `BirthDeathFromPrior` configured `true`. -/
def exampleSampler : rjMcMC1DSampler ℚ :=
  { nuisance_init := []
    noisemag_sd := [1]
    noisemag_dbounds := [(0, 1)]
    noisemag_priorbounds := [(0, 2)]
    nl_min := 1
    nl_max := 3
    pmax := 10
    vmin := 0
    vmax := 2
    param_position := cParameterization.LINEAR
    param_value := cParameterization.LOG10
    nsamples := 2
    nburnin := 0
    thinrate := 1
    temperature_high := 1
    BirthDeathFromPrior := true
    pmap := rjMcMC1DPPDMap.initialise
      { nentries := 0, nlmin := 0, nlmax := 0, pmax := 0, vmin := 0, vmax := 0, np := 0,
        nv := 0, dp := 0, dv := 0, pbin := fun _ => 0, vbin := fun _ => 0,
        counts := fun _ => 0, cpcounts := fun _ => 0, layercounts := fun _ => 0,
        layercounts_size := 0 }
      1 3 10 2 0 2 2
    nmap := { nentries := 0, nuisance := [] }
    mnmap := { nentries := 0, datalims := [], nnoises := 0, noises := [] }
    nchains := 1
    chains := fun _ => exampleChain
    ensemble := []
    HighestLikelihood := exampleModel
    LowestMisfit := exampleModel
    ndata := 2
    obs := fun _ => 2
    err := fun _ => 2 }

/-- The part of the sampler `S` that is found again in the sampler `T`: the bounds of the
number of layers, the number of chains and the layout of the layer-count histogram. -/
def SameLayout (S T : rjMcMC1DSampler K) : Prop :=
  T.nl_min = S.nl_min ∧ T.nl_max = S.nl_max ∧ T.nchains = S.nchains ∧
  T.pmap.nlmin = S.pmap.nlmin ∧ T.pmap.nlmax = S.pmap.nlmax ∧
  T.pmap.layercounts_size = S.pmap.layercounts_size

/-- Spec side of the normalised L2 data misfit of the prediction `pred`:
`(1 / ndata) * Σ ((obs_i - pred_i) / err_i)²`. -/
def normalisedL2Misfit [LinearOrderedField K] (S : rjMcMC1DSampler K) (pred : Vec K) : K :=
  (1 / (S.ndata : K)) * ∑ i ∈ Finset.range S.ndata, ((S.obs i - pred i) / S.err i) ^ 2

/-- The schedule of the sampler `S` that is found again in the sampler `T`: the number of
samples, the burn-in and the thinning rate. -/
def SameSchedule (S T : rjMcMC1DSampler K) : Prop :=
  T.nsamples = S.nsamples ∧ T.nburnin = S.nburnin ∧ T.thinrate = S.thinrate

/-- Spec side of the report schedule: `si = 0`, or `si = nsamples - 1`, or
`si mod min (10 ^ ⌊log10 si⌋, thinrate) = 0`. -/
def reportSchedule (nsamples thinrate si : ℕ) : Prop :=
  si = 0 ∨ si = nsamples - 1 ∨ si % min (10 ^ Nat.log 10 si) thinrate = 0

instance reportSchedule.decidable (nsamples thinrate si : ℕ) :
    Decidable (reportSchedule nsamples thinrate si) :=
  inferInstanceAs
    (Decidable (si = 0 ∨ si = nsamples - 1 ∨ si % min (10 ^ Nat.log 10 si) thinrate = 0))

/-- The sample indices of the convergence records of a chain. -/
def cChain.samples (chn : cChain K) : List ℕ := chn.history.map (fun r => r.sample)

/-- The sum of the row `pi` of the PPD histogram. -/
def rjMcMC1DPPDMap.rowSum (p : rjMcMC1DPPDMap K) (pi : ℕ) : ℕ :=
  ∑ v ∈ Finset.range p.nv, p.counts (pi * p.nv + v)

/-- The sum of the layer-count histogram. -/
def rjMcMC1DPPDMap.layerSum (p : rjMcMC1DPPDMap K) : ℕ :=
  ∑ b ∈ Finset.range p.layercounts_size, p.layercounts b

/-- The layout that `initialise`, called with at least one position bin and at least one
value bin, gives the map when its two quotients are exact: the bin widths and the size of
the layer-count histogram. -/
def rjMcMC1DPPDMap.Initialised [LinearOrderedField K] (p : rjMcMC1DPPDMap K) : Prop :=
  1 ≤ p.np ∧ 1 ≤ p.nv ∧ p.dp = p.pmax / (p.np : K) ∧ p.dv = (p.vmax - p.vmin) / (p.nv : K) ∧
  p.layercounts_size = p.nlmax - p.nlmin + 1

/-- The bins of the map `p` that are found again in the map `q`: the numbers of bins, the
bounds of the number of layers, the bin centres and the value bin of every value. -/
def rjMcMC1DPPDMap.SameBins [LinearOrderedField K] [FloorRing K] [DoubleArithmetic K]
    (p q : rjMcMC1DPPDMap K) : Prop :=
  q.np = p.np ∧ q.nv = p.nv ∧ q.nlmin = p.nlmin ∧ q.nlmax = p.nlmax ∧ q.pbin = p.pbin ∧
  ∀ val, q.getvbin val = p.getvbin val

/-- The value bin that `addmodel` computes for the position row `pi` of the map `p` and the
model `m`: `getvbin` of the value of the layer of the bin centre. -/
def rowBin [LinearOrderedField K] [FloorRing K] [DoubleArithmetic K]
    (p : rjMcMC1DPPDMap K) (m : rjMcMC1DModel K) (pi : ℕ) : ℕ :=
  p.getvbin (m.layer (m.which_layer (p.pbin pi))).value

/-- The number of the position rows `pi` of the map `p` for which `addmodel` increments
the cell of index `j`, that is with `pi * nv + vi = j`. -/
def cellCount [LinearOrderedField K] [FloorRing K] [DoubleArithmetic K]
    (p : rjMcMC1DPPDMap K) (m : rjMcMC1DModel K) (j : ℕ) : ℕ :=
  ∑ pi ∈ Finset.range p.np, if pi * p.nv + rowBin p m pi = j then 1 else 0

/-- The number of the interfaces `li ≥ 1` of the model `m` whose depth falls into the
position bin `b` of the map `p`. -/
def interfaceCount [LinearOrderedField K] [FloorRing K] [DoubleArithmetic K]
    (p : rjMcMC1DPPDMap K) (m : rjMcMC1DModel K) (b : ℕ) : ℕ :=
  ∑ k ∈ Finset.range (m.nlayers - 1), if p.getpbin (m.layer (k + 1)).ptop = b then 1 else 0

/-- The map after `n` calls of `addmodel`, with the models `ms 0`, ..., `ms (n - 1)`. -/
def rjMcMC1DPPDMap.addmodels [LinearOrderedField K] [FloorRing K] [DoubleArithmetic K]
    (p : rjMcMC1DPPDMap K) (ms : ℕ → rjMcMC1DModel K) (n : ℕ) : rjMcMC1DPPDMap K :=
  forLoop n (fun k q => q.addmodel (ms k)) p

/-- Example map for the value bins: one position bin over `pmax = 1` and three value bins
over `vmin = 0`, `vmax = 1`, for models of one layer, as `initialise` lays it out. -/
def binsExampleMap : rjMcMC1DPPDMap ℚ :=
  rjMcMC1DPPDMap.initialise
    { nentries := 0, nlmin := 0, nlmax := 0, pmax := 0, vmin := 0, vmax := 0, np := 0,
      nv := 0, dp := 0, dv := 0, pbin := fun _ => 0, vbin := fun _ => 0,
      counts := fun _ => 0, cpcounts := fun _ => 0, layercounts := fun _ => 0,
      layercounts_size := 0 }
    1 1 1 1 0 1 3

/-- Example model for the value bins: one layer from the depth `0` on, of the value `v`. -/
def binsExampleModel (v : ℚ) : rjMcMC1DModel ℚ :=
  { pmax := 1
    vmin := 0
    vmax := 1
    misfit := 0
    predicted := fun _ => 0
    residuals_squared := fun _ => 0
    nvar := fun _ => 1
    layers := [{ ptop := 0, value := v }]
    nuisances := []
    mnoises := [] }

/-- Example map for the position bins: three position bins over `pmax = 1` and one value
bin over `vmin = 0`, `vmax = 1`, for models of one or two layers, as `initialise` lays it
out. -/
def depthsExampleMap : rjMcMC1DPPDMap ℚ :=
  rjMcMC1DPPDMap.initialise
    { nentries := 0, nlmin := 0, nlmax := 0, pmax := 0, vmin := 0, vmax := 0, np := 0,
      nv := 0, dp := 0, dv := 0, pbin := fun _ => 0, vbin := fun _ => 0,
      counts := fun _ => 0, cpcounts := fun _ => 0, layercounts := fun _ => 0,
      layercounts_size := 0 }
    1 2 1 3 0 1 1

/-- Example model for the position bins: two layers of the value `1 / 2`, with the
interface at the depth `d`. -/
def depthsExampleModel (d : ℚ) : rjMcMC1DModel ℚ :=
  { pmax := 1
    vmin := 0
    vmax := 1
    misfit := 0
    predicted := fun _ => 0
    residuals_squared := fun _ => 0
    nvar := fun _ => 1
    layers := [{ ptop := 0, value := 1 / 2 }, { ptop := d, value := 1 / 2 }]
    nuisances := []
    mnoises := [] }

end RJExamples

end RJMCMC

/-! ## Theorems -/

namespace SBS

variable {K : Type}

theorem forLoop_succ {σ : Type} (n : ℕ) (body : ℕ → σ → σ) (s : σ) :
    forLoop (n + 1) body s = body n (forLoop n body s) := rfl

theorem forLoop_zero {σ : Type} (body : ℕ → σ → σ) (s : σ) :
    forLoop 0 body s = s := rfl

/-- Loop invariant rule for `forLoop`. -/
theorem forLoop_invariant {σ : Type} (P : ℕ → σ → Prop) (n : ℕ) (body : ℕ → σ → σ) (s : σ)
    (h0 : P 0 s) (hstep : ∀ i t, i < n → P i t → P (i + 1) (body i t)) :
    P n (forLoop n body s) := by
  induction n with
  | zero => exact h0
  | succ k ih =>
    rw [forLoop_succ]
    exact hstep k _ (Nat.lt_succ_self k)
      (ih (fun i t hi hp => hstep i t (Nat.lt_succ_of_lt hi) hp))

/-! ### Parameter layout -/

/-- What the geometry loop of `setup_parameters` has established after `i` elements. -/
theorem setup_parameters_geometry_loop (s : cSBSInverter K) (n : ℕ) :
    (forLoop n setup_parameters_geometry s).nSoundings = s.nSoundings ∧
    (forLoop n setup_parameters_geometry s).nLayers = s.nLayers ∧
    (forLoop n setup_parameters_geometry s).geomSize = s.geomSize ∧
    (forLoop n setup_parameters_geometry s).cOffset = s.cOffset ∧
    (forLoop n setup_parameters_geometry s).tOffset = s.tOffset ∧
    (forLoop n setup_parameters_geometry s).fdC = s.fdC ∧
    (forLoop n setup_parameters_geometry s).fdT = s.fdT ∧
    (∀ gi, ((forLoop n setup_parameters_geometry s).fdG gi).solve = (s.fdG gi).solve) ∧
    (∀ gi, ((forLoop n setup_parameters_geometry s).fdG gi).bound = (s.fdG gi).bound) ∧
    (forLoop n setup_parameters_geometry s).nParamPerSounding
      = s.nParamPerSounding + countSolved s.fdG n ∧
    (forLoop n setup_parameters_geometry s).nGeomParamPerSounding
      = s.nGeomParamPerSounding + countSolved s.fdG n ∧
    (∀ gi, gi < n → ((forLoop n setup_parameters_geometry s).fdG gi).offset
      = if (s.fdG gi).solve then ((s.nParamPerSounding + countSolved s.fdG gi : ℕ) : ℤ)
        else -1) := by
  induction n with
  | zero =>
    simp [forLoop, countSolved]
  | succ k ih =>
    obtain ⟨h1, h2, h3, h4, h5, h6, h7, h8, h9, h10, h11, h12⟩ := ih
    rw [forLoop_succ]
    generalize forLoop k setup_parameters_geometry s = t at *
    have hk : (t.fdG k).solve = (s.fdG k).solve := h8 k
    unfold setup_parameters_geometry
    by_cases hs : (s.fdG k).solve = true
    · rw [if_pos (by rw [hk]; exact hs)]
      refine ⟨h1, h2, h3, h4, h5, h6, h7, ?_, ?_, ?_, ?_, ?_⟩
      · intro gi
        by_cases hg : gi = k
        · subst hg; simp [h8]
        · simp [Function.update_noteq hg, h8]
      · intro gi
        by_cases hg : gi = k
        · subst hg; simp [h9]
        · simp [Function.update_noteq hg, h9]
      · simp [countSolved, hs, h10]; ring
      · simp [countSolved, hs, h11]; ring
      · intro gi hgi
        by_cases hg : gi = k
        · subst hg; simp [hs, h10]
        · have hlt : gi < k := lt_of_le_of_ne (Nat.lt_succ_iff.mp hgi) hg
          simp only [Function.update_noteq hg]
          exact h12 gi hlt
    · rw [if_neg (by rw [hk]; exact hs)]
      have hs' : (s.fdG k).solve = false := by simpa using hs
      refine ⟨h1, h2, h3, h4, h5, h6, h7, ?_, ?_, ?_, ?_, ?_⟩
      · intro gi
        by_cases hg : gi = k
        · subst hg; simp [h8]
        · simp [Function.update_noteq hg, h8]
      · intro gi
        by_cases hg : gi = k
        · subst hg; simp [h9]
        · simp [Function.update_noteq hg, h9]
      · simp [countSolved, hs', h10]
      · simp [countSolved, hs', h11]
      · intro gi hgi
        by_cases hg : gi = k
        · subst hg; simp [hs']
        · have hlt : gi < k := lt_of_le_of_ne (Nat.lt_succ_iff.mp hgi) hg
          simp only [Function.update_noteq hg]
          exact h12 gi hlt

/-- Closed form of the layout computed by `setup_parameters`. -/
theorem setup_parameters_closed_form (inv : cSBSInverter K) (nl : ℕ) :
    (setup_parameters inv nl).nSoundings = inv.nSoundings ∧
    (setup_parameters inv nl).nLayers = nl ∧
    (setup_parameters inv nl).geomSize = inv.geomSize ∧
    (setup_parameters inv nl).cOffset = 0 ∧
    (setup_parameters inv nl).tOffset = nCondParam inv nl ∧
    (setup_parameters inv nl).fdC.solve = inv.fdC.solve ∧
    (setup_parameters inv nl).fdT.solve = inv.fdT.solve ∧
    (∀ gi, ((setup_parameters inv nl).fdG gi).solve = (inv.fdG gi).solve) ∧
    (setup_parameters inv nl).nParamPerSounding
      = nCondParam inv nl + nThickParam inv nl + countSolved inv.fdG inv.geomSize ∧
    (setup_parameters inv nl).nGeomParamPerSounding = countSolved inv.fdG inv.geomSize ∧
    (setup_parameters inv nl).nParam
      = (setup_parameters inv nl).nParamPerSounding * inv.nSoundings ∧
    (∀ gi, gi < inv.geomSize → ((setup_parameters inv nl).fdG gi).offset
      = if (inv.fdG gi).solve
        then ((nCondParam inv nl + nThickParam inv nl + countSolved inv.fdG gi : ℕ) : ℤ)
        else -1) := by
  unfold setup_parameters
  simp only []
  set s0 : cSBSInverter K :=
    { inv with
      nLayers := nl
      nParamPerSounding := 0
      nGeomParamPerSounding := 0
      cOffset := 0
      tOffset := 0
      gOffset := 0 } with hs0
  set s2 := setup_parameters_thickness (setup_parameters_conductivity s0) with hs2
  have e1 : s2.nSoundings = inv.nSoundings := by
    simp only [hs2, hs0, setup_parameters_thickness, setup_parameters_conductivity,
      solve_thickness, solve_conductivity]
    split_ifs <;> rfl
  have e2 : s2.nLayers = nl := by
    simp only [hs2, hs0, setup_parameters_thickness, setup_parameters_conductivity,
      solve_thickness, solve_conductivity]
    split_ifs <;> rfl
  have e3 : s2.geomSize = inv.geomSize := by
    simp only [hs2, hs0, setup_parameters_thickness, setup_parameters_conductivity,
      solve_thickness, solve_conductivity]
    split_ifs <;> rfl
  have e4 : s2.cOffset = 0 := by
    simp only [hs2, hs0, setup_parameters_thickness, setup_parameters_conductivity,
      solve_thickness, solve_conductivity]
    split_ifs <;> rfl
  have e5 : s2.tOffset = nCondParam inv nl := by
    simp only [hs2, hs0, setup_parameters_thickness, setup_parameters_conductivity,
      solve_thickness, solve_conductivity, nCondParam]
    split_ifs <;> simp_all
  have e6 : s2.fdC.solve = inv.fdC.solve := by
    simp only [hs2, hs0, setup_parameters_thickness, setup_parameters_conductivity,
      solve_thickness, solve_conductivity]
    split_ifs <;> rfl
  have e7 : s2.fdT.solve = inv.fdT.solve := by
    simp only [hs2, hs0, setup_parameters_thickness, setup_parameters_conductivity,
      solve_thickness, solve_conductivity]
    split_ifs <;> rfl
  have e8 : s2.fdG = inv.fdG := by
    simp only [hs2, hs0, setup_parameters_thickness, setup_parameters_conductivity,
      solve_thickness, solve_conductivity]
    split_ifs <;> rfl
  have e9 : s2.nParamPerSounding = nCondParam inv nl + nThickParam inv nl := by
    simp only [hs2, hs0, setup_parameters_thickness, setup_parameters_conductivity,
      solve_thickness, solve_conductivity, nCondParam, nThickParam]
    split_ifs <;> simp_all
  have e10 : s2.nGeomParamPerSounding = 0 := by
    simp only [hs2, hs0, setup_parameters_thickness, setup_parameters_conductivity,
      solve_thickness, solve_conductivity]
    split_ifs <;> rfl
  obtain ⟨h1, h2, h3, h4, h5, h6, h7, h8, _, h10, h11, h12⟩ :=
    setup_parameters_geometry_loop s2 s2.geomSize
  refine ⟨?_, ?_, ?_, ?_, ?_, ?_, ?_, ?_, ?_, ?_, ?_, ?_⟩
  · simpa [e1] using h1
  · simpa [e2] using h2
  · simpa [e3] using h3
  · simpa [e4] using h4
  · simpa [e5] using h5
  · simp [h6, e6]
  · simp [h7, e7]
  · intro gi; simpa [e8] using h8 gi
  · simpa [e9, e8, e3] using h10
  · simpa [e10, e8, e3] using h11
  · simp [h1, e1]
  · intro gi hgi
    have := h12 gi (by rw [e3]; exact hgi)
    simpa [e9, e8] using this

theorem countSolved_mono (f : ℕ → cInvertibleFieldDefinition) {a b : ℕ} (h : a ≤ b) :
    countSolved f a ≤ countSolved f b := by
  induction b with
  | zero =>
    have : a = 0 := Nat.le_zero.mp h
    subst this; exact le_refl _
  | succ k ih =>
    rcases Nat.lt_or_ge a (k + 1) with hlt | hge
    · have := ih (Nat.lt_succ_iff.mp hlt)
      simp only [countSolved]
      omega
    · have : a = k + 1 := le_antisymm h hge
      subst this; exact le_refl _

theorem countSolved_lt (f : ℕ → cInvertibleFieldDefinition) {gi n : ℕ} (hlt : gi < n)
    (hs : (f gi).solve = true) : countSolved f gi < countSolved f n := by
  have h1 : countSolved f (gi + 1) = countSolved f gi + 1 := by
    simp [countSolved, hs]
  have h2 : countSolved f (gi + 1) ≤ countSolved f n :=
    countSolved_mono f (Nat.succ_le_of_lt hlt)
  omega

theorem countSolved_surj (f : ℕ → cInvertibleFieldDefinition) (n k : ℕ)
    (hk : k < countSolved f n) :
    ∃ gi, gi < n ∧ (f gi).solve = true ∧ countSolved f gi = k := by
  induction n with
  | zero => simp [countSolved] at hk
  | succ m ih =>
    by_cases hlt : k < countSolved f m
    · obtain ⟨gi, h1, h2, h3⟩ := ih hlt
      exact ⟨gi, Nat.lt_succ_of_lt h1, h2, h3⟩
    · by_cases hs : (f m).solve = true
      · have hc : countSolved f (m + 1) = countSolved f m + 1 := by
          simp [countSolved, hs]
        exact ⟨m, Nat.lt_succ_self m, hs, by omega⟩
      · have hc : countSolved f (m + 1) = countSolved f m := by
          simp [countSolved, hs]
        omega

/-- A position inside a block determines the block and the offset. -/
theorem block_unique {n a b si sj : ℕ} (ha : a < n) (hb : b < n)
    (h : si * n + a = sj * n + b) : si = sj ∧ a = b := by
  have hn : 0 < n := by omega
  have e1 : (si * n + a) / n = si := by
    rw [Nat.add_comm, Nat.add_mul_div_right _ _ hn, Nat.div_eq_of_lt ha, zero_add]
  have e2 : (sj * n + b) / n = sj := by
    rw [Nat.add_comm, Nat.add_mul_div_right _ _ hn, Nat.div_eq_of_lt hb, zero_add]
  have hs : si = sj := by rw [← e1, ← e2, h]
  subst hs
  exact ⟨rfl, by omega⟩

/-- A position below `n * m` lies in one of the `m` blocks of length `n`. -/
theorem block_exists {n m q : ℕ} (hq : q < n * m) :
    ∃ si off, si < m ∧ off < n ∧ q = si * n + off := by
  have hn : 0 < n := by
    rcases Nat.eq_zero_or_pos n with h0 | h0
    · subst h0; simp at hq
    · exact h0
  refine ⟨q / n, q % n, ?_, Nat.mod_lt _ hn, ?_⟩
  · exact (Nat.div_lt_iff_lt_mul hn).mpr (by rw [Nat.mul_comm]; exact hq)
  · have := Nat.div_add_mod q n
    rw [Nat.mul_comm] at this
    exact this.symm

/-- The index functions after `setup_parameters`, in closed form. -/
theorem index_closed_form (inv : cSBSInverter K) (nl : ℕ) :
    (∀ si li, cindex (setup_parameters inv nl) si li
      = ((si * (setup_parameters inv nl).nParamPerSounding + li : ℕ) : ℤ)) ∧
    (∀ si li, tindex (setup_parameters inv nl) si li
      = ((si * (setup_parameters inv nl).nParamPerSounding + nCondParam inv nl + li : ℕ) : ℤ)) ∧
    (∀ si gi, gi < inv.geomSize → (inv.fdG gi).solve = true →
      gindex (setup_parameters inv nl) si gi
      = ((si * (setup_parameters inv nl).nParamPerSounding
          + (nCondParam inv nl + nThickParam inv nl + countSolved inv.fdG gi) : ℕ) : ℤ)) ∧
    (∀ si gi, gi < inv.geomSize → (inv.fdG gi).solve = false →
      gindex (setup_parameters inv nl) si gi = -1) := by
  obtain ⟨_, _, _, h4, h5, _, _, _, _, _, _, h12⟩ := setup_parameters_closed_form inv nl
  refine ⟨?_, ?_, ?_, ?_⟩
  · intro si li
    simp [cindex, h4]
  · intro si li
    simp [tindex, h5]
  · intro si gi hgi hs
    have ho := h12 gi hgi
    rw [if_pos hs] at ho
    unfold gindex
    simp only [ho]
    rw [if_neg (by push_cast; omega)]
    push_cast
    ring
  · intro si gi hgi hs
    have ho := h12 gi hgi
    rw [hs] at ho
    simp at ho
    unfold gindex
    simp [ho]

theorem block_lt {n m si off : ℕ} (hsi : si < m) (hoff : off < n) : si * n + off < n * m := by
  calc si * n + off < si * n + n := by omega
    _ = (si + 1) * n := by ring
    _ ≤ m * n := Nat.mul_le_mul_right n hsi
    _ = n * m := Nat.mul_comm m n

/-- C3: after `setup_parameters` (any choice of solved fields, at least one layer) the
conductivity, thickness and solved-geometry index sets are pairwise disjoint and their
union is exactly the set of parameter indices `0, ..., nParam - 1`. -/
theorem C3_index_sets_partition (inv : cSBSInverter K) (nl : ℕ) (_hnl : 1 ≤ nl) :
    Disjoint (conductivityIndices (setup_parameters inv nl))
        (thicknessIndices (setup_parameters inv nl)) ∧
    Disjoint (conductivityIndices (setup_parameters inv nl))
        (geometryIndices (setup_parameters inv nl)) ∧
    Disjoint (thicknessIndices (setup_parameters inv nl))
        (geometryIndices (setup_parameters inv nl)) ∧
    conductivityIndices (setup_parameters inv nl) ∪ thicknessIndices (setup_parameters inv nl)
        ∪ geometryIndices (setup_parameters inv nl)
      = {p : ℤ | 0 ≤ p ∧ p < ((setup_parameters inv nl).nParam : ℤ)} := by
  obtain ⟨h1, h2, h3, _, _, h6, h7, h8, h9, _, h11, _⟩ := setup_parameters_closed_form inv nl
  obtain ⟨hc, ht, hg, _⟩ := index_closed_form inv nl
  have hcN : inv.fdC.solve = true → nCondParam inv nl = nl := by
    intro h; simp [nCondParam, h]
  have htN : inv.fdT.solve = true → nThickParam inv nl = nl - 1 := by
    intro h; simp [nThickParam, h]
  refine ⟨?_, ?_, ?_, ?_⟩
  · rw [Set.disjoint_left]
    rintro p ⟨hsc, si, li, _, hli, rfl⟩ ⟨hst, sj, lj, _, hlj, heq⟩
    simp only [solve_conductivity, solve_thickness, h6, h7] at hsc hst
    rw [h2] at hli hlj
    rw [hc, ht] at heq
    have heq2 : si * (setup_parameters inv nl).nParamPerSounding + li
        = sj * (setup_parameters inv nl).nParamPerSounding + (nCondParam inv nl + lj) := by
      have : si * (setup_parameters inv nl).nParamPerSounding + li
          = sj * (setup_parameters inv nl).nParamPerSounding + nCondParam inv nl + lj := by
        exact_mod_cast heq
      omega
    have := block_unique (by rw [h9, hcN hsc]; omega)
      (by rw [h9, hcN hsc, htN hst]; omega) heq2
    have := hcN hsc
    omega
  · rw [Set.disjoint_left]
    rintro p ⟨hsc, si, li, _, hli, rfl⟩ ⟨sj, gj, _, hgj, hsg, heq⟩
    simp only [solve_conductivity, h6] at hsc
    rw [h2] at hli
    rw [h3] at hgj
    rw [h8] at hsg
    rw [hc, hg sj gj hgj hsg] at heq
    have heq2 : si * (setup_parameters inv nl).nParamPerSounding + li
        = sj * (setup_parameters inv nl).nParamPerSounding
          + (nCondParam inv nl + nThickParam inv nl + countSolved inv.fdG gj) := by
      exact_mod_cast heq
    have hlt := countSolved_lt inv.fdG hgj hsg
    have := block_unique (by rw [h9, hcN hsc]; omega) (by rw [h9]; omega) heq2
    have := hcN hsc
    omega
  · rw [Set.disjoint_left]
    rintro p ⟨hst, si, li, _, hli, rfl⟩ ⟨sj, gj, _, hgj, hsg, heq⟩
    simp only [solve_thickness, h7] at hst
    rw [h2] at hli
    rw [h3] at hgj
    rw [h8] at hsg
    rw [ht, hg sj gj hgj hsg] at heq
    have heq2 : si * (setup_parameters inv nl).nParamPerSounding + (nCondParam inv nl + li)
        = sj * (setup_parameters inv nl).nParamPerSounding
          + (nCondParam inv nl + nThickParam inv nl + countSolved inv.fdG gj) := by
      have : si * (setup_parameters inv nl).nParamPerSounding + nCondParam inv nl + li
        = sj * (setup_parameters inv nl).nParamPerSounding
          + (nCondParam inv nl + nThickParam inv nl + countSolved inv.fdG gj) := by
        exact_mod_cast heq
      omega
    have hlt := countSolved_lt inv.fdG hgj hsg
    have := block_unique (by rw [h9, htN hst]; omega) (by rw [h9]; omega) heq2
    have := htN hst
    omega
  · ext p
    simp only [Set.mem_union, Set.mem_setOf_eq]
    constructor
    · rintro ((⟨hsc, si, li, hsi, hli, rfl⟩ | ⟨hst, si, li, hsi, hli, rfl⟩)
        | ⟨si, gi, hsi, hgi, hsg, rfl⟩)
      · simp only [solve_conductivity, h6] at hsc
        rw [h2] at hli
        rw [h1] at hsi
        rw [hc, h11]
        refine ⟨by positivity, ?_⟩
        have := block_lt (n := (setup_parameters inv nl).nParamPerSounding) hsi
          (show li < (setup_parameters inv nl).nParamPerSounding by
            rw [h9, hcN hsc]; omega)
        exact_mod_cast this
      · simp only [solve_thickness, h7] at hst
        rw [h2] at hli
        rw [h1] at hsi
        rw [ht, h11]
        refine ⟨by positivity, ?_⟩
        have := block_lt (n := (setup_parameters inv nl).nParamPerSounding) hsi
          (show nCondParam inv nl + li < (setup_parameters inv nl).nParamPerSounding by
            rw [h9, htN hst]; omega)
        have e : si * (setup_parameters inv nl).nParamPerSounding + nCondParam inv nl + li
            = si * (setup_parameters inv nl).nParamPerSounding + (nCondParam inv nl + li) := by
          omega
        rw [e]
        exact_mod_cast this
      · rw [h3] at hgi
        rw [h8] at hsg
        rw [h1] at hsi
        rw [hg si gi hgi hsg, h11]
        refine ⟨by positivity, ?_⟩
        have hlt := countSolved_lt inv.fdG hgi hsg
        have := block_lt (n := (setup_parameters inv nl).nParamPerSounding) hsi
          (show nCondParam inv nl + nThickParam inv nl + countSolved inv.fdG gi
              < (setup_parameters inv nl).nParamPerSounding by rw [h9]; omega)
        exact_mod_cast this
    · rintro ⟨hp0, hpP⟩
      obtain ⟨q, rfl⟩ := Int.eq_ofNat_of_zero_le hp0
      have hq : q < (setup_parameters inv nl).nParamPerSounding * inv.nSoundings := by
        rw [h11] at hpP
        exact_mod_cast hpP
      obtain ⟨si, off, hsi, hoff, rfl⟩ := block_exists hq
      by_cases hoc : off < nCondParam inv nl
      · have hsc : inv.fdC.solve = true := by
          by_contra hn
          simp [nCondParam, hn] at hoc
        left; left
        refine ⟨by simp [solve_conductivity, h6, hsc], si, off, by rw [h1]; exact hsi, ?_, ?_⟩
        · rw [h2, ← hcN hsc]; exact hoc
        · rw [hc]
      · by_cases hot : off < nCondParam inv nl + nThickParam inv nl
        · have hst : inv.fdT.solve = true := by
            by_contra hn
            simp [nThickParam, hn] at hot
            omega
          left; right
          refine ⟨by simp [solve_thickness, h7, hst], si, off - nCondParam inv nl,
            by rw [h1]; exact hsi, ?_, ?_⟩
          · rw [h2, ← htN hst]; omega
          · rw [ht]
            have : si * (setup_parameters inv nl).nParamPerSounding + nCondParam inv nl
                + (off - nCondParam inv nl)
                = si * (setup_parameters inv nl).nParamPerSounding + off := by omega
            rw [this]
        · right
          have hk : off - (nCondParam inv nl + nThickParam inv nl)
              < countSolved inv.fdG inv.geomSize := by
            rw [h9] at hoff; omega
          obtain ⟨gi, hgi, hsg, hcs⟩ := countSolved_surj inv.fdG inv.geomSize _ hk
          refine ⟨si, gi, by rw [h1]; exact hsi, by rw [h3]; exact hgi,
            by rw [h8]; exact hsg, ?_⟩
          rw [hg si gi hgi hsg, hcs]
          have : nCondParam inv nl + nThickParam inv nl
              + (off - (nCondParam inv nl + nThickParam inv nl)) = off := by omega
          rw [this]

/-- Witness for C3 on `layoutExample` with two layers. -/
theorem C3_index_sets_partition_witness :
    1 ≤ 2 ∧
    Disjoint (conductivityIndices (setup_parameters layoutExample 2))
      (thicknessIndices (setup_parameters layoutExample 2)) ∧
    (7 : ℤ) ∈ conductivityIndices (setup_parameters layoutExample 2)
        ∪ thicknessIndices (setup_parameters layoutExample 2)
        ∪ geometryIndices (setup_parameters layoutExample 2) :=
  ⟨by decide, (C3_index_sets_partition layoutExample 2 (by decide)).1, by
    rw [(C3_index_sets_partition layoutExample 2 (by decide)).2.2.2]
    decide⟩

/-- C4: after `setup_parameters`, `nParam = nParamPerSounding * nSoundings` with
`nParamPerSounding` = (nLayers if conductivity is solved) + (nLayers - 1 if thickness is
solved) + (number of solved geometry elements); inside the block of sounding `si` the
conductivity parameters come first, the thickness parameters next, and the solved geometry
elements follow consecutively in declaration order; an unsolved geometry element has
offset `-1` and `gindex` returns `-1` for it. -/
theorem C4_block_layout (inv : cSBSInverter K) (nl : ℕ) (_hnl : 1 ≤ nl) :
    (setup_parameters inv nl).nParam
      = (setup_parameters inv nl).nParamPerSounding * (setup_parameters inv nl).nSoundings ∧
    (setup_parameters inv nl).nParamPerSounding
      = (if solve_conductivity inv then nl else 0) + (if solve_thickness inv then nl - 1 else 0)
        + countSolved inv.fdG inv.geomSize ∧
    (∀ si li, cindex (setup_parameters inv nl) si li
      = ((si * (setup_parameters inv nl).nParamPerSounding + li : ℕ) : ℤ)) ∧
    (∀ si li, tindex (setup_parameters inv nl) si li
      = ((si * (setup_parameters inv nl).nParamPerSounding
          + (if solve_conductivity inv then nl else 0) + li : ℕ) : ℤ)) ∧
    (∀ si gi, gi < inv.geomSize → (inv.fdG gi).solve = true →
      gindex (setup_parameters inv nl) si gi
      = ((si * (setup_parameters inv nl).nParamPerSounding
          + ((if solve_conductivity inv then nl else 0)
            + (if solve_thickness inv then nl - 1 else 0)
            + countSolved inv.fdG gi) : ℕ) : ℤ)) ∧
    (∀ si gi, gi < inv.geomSize → (inv.fdG gi).solve = false →
      ((setup_parameters inv nl).fdG gi).offset = -1 ∧
      gindex (setup_parameters inv nl) si gi = -1) := by
  obtain ⟨h1, _, _, _, _, _, _, _, h9, _, h11, h12⟩ := setup_parameters_closed_form inv nl
  obtain ⟨hc, ht, hg, hu⟩ := index_closed_form inv nl
  refine ⟨by rw [h11, h1], ?_, hc, ?_, ?_, ?_⟩
  · simpa [nCondParam, nThickParam, solve_conductivity, solve_thickness] using h9
  · simpa [nCondParam, solve_conductivity] using ht
  · simpa [nCondParam, nThickParam, solve_conductivity, solve_thickness] using hg
  · intro si gi hgi hs
    refine ⟨?_, hu si gi hgi hs⟩
    have := h12 gi hgi
    simpa [hs] using this

/-- Witness for C4 on `layoutExample` with two layers: five parameters per sounding, ten
in all, and the unsolved middle geometry element has no index. -/
theorem C4_block_layout_witness :
    1 ≤ 2 ∧ (setup_parameters layoutExample 2).nParam = 10 ∧
    gindex (setup_parameters layoutExample 2) 1 2 = 9 ∧
    gindex (setup_parameters layoutExample 2) 1 1 = -1 :=
  ⟨by decide, by
    rw [(C4_block_layout layoutExample 2 (by decide)).1,
      (C4_block_layout layoutExample 2 (by decide)).2.1]
    decide, by
    rw [(C4_block_layout layoutExample 2 (by decide)).2.2.2.2.1 1 2 (by decide) (by decide)]
    decide,
    ((C4_block_layout layoutExample 2 (by decide)).2.2.2.2.2 1 1 (by decide) (by decide)).2⟩

/-! ### Regularisation matrices: symmetry and positive semi-definiteness -/

section RegularisationTheorems

variable [LinearOrderedField K]

theorem Mat.diagNonneg_zero : (Mat.zero : Mat K).DiagNonneg :=
  ⟨fun _ _ _ => rfl, fun _ => le_refl _⟩

theorem Mat.diagNonneg_set {W : Mat K} (h : W.DiagNonneg) (p : ℕ) {v : K} (hv : 0 ≤ v) :
    (W.set p p v).DiagNonneg := by
  refine ⟨?_, ?_⟩
  · intro i j hij
    unfold Mat.set
    rw [if_neg (by rintro ⟨rfl, rfl⟩; exact hij rfl)]
    exact h.1 i j hij
  · intro i
    unfold Mat.set
    split_ifs
    · exact hv
    · exact h.2 i

theorem Mat.diagNonneg_symm {W : Mat K} (h : W.DiagNonneg) : W.IsSymm := by
  intro i j
  by_cases hij : i = j
  · rw [hij]
  · rw [h.1 i j hij, h.1 j i (Ne.symm hij)]

theorem Mat.diagNonneg_psd {W : Mat K} (h : W.DiagNonneg) (n : ℕ) : W.IsPSD n := by
  intro x
  unfold quadForm
  apply Finset.sum_nonneg
  intro i hi
  rw [Finset.sum_eq_single i]
  · have : x i * W i i * x i = W i i * (x i * x i) := by ring
    rw [this]
    exact mul_nonneg (h.2 i) (mul_self_nonneg _)
  · intro j _ hji
    rw [h.1 i j (Ne.symm hji)]
    ring
  · intro hni
    exact absurd hi hni

theorem Mat.transposeMul_scale_symm (R : ℕ) (L : Mat K) (c : K) :
    ((Mat.transposeMul R L).scale c).IsSymm := by
  intro i j
  unfold Mat.scale Mat.transposeMul
  congr 1
  apply Finset.sum_congr rfl
  intro r _
  ring

theorem quadForm_transposeMul_scale (n R : ℕ) (L : Mat K) (c : K) (x : Vec K) :
    quadForm n ((Mat.transposeMul R L).scale c) x
      = c * ∑ r ∈ Finset.range R, (∑ i ∈ Finset.range n, L r i * x i) ^ 2 := by
  unfold quadForm Mat.scale Mat.transposeMul
  have h1 : ∀ i j, x i * ((∑ r ∈ Finset.range R, L r i * L r j) * c) * x j
      = ∑ r ∈ Finset.range R, c * ((L r i * x i) * (L r j * x j)) := by
    intro i j
    rw [Finset.sum_mul, Finset.mul_sum, Finset.sum_mul]
    apply Finset.sum_congr rfl
    intro r _
    ring
  simp only [h1]
  have h2 : ∀ r, (∑ i ∈ Finset.range n, L r i * x i) ^ 2
      = ∑ i ∈ Finset.range n, ∑ j ∈ Finset.range n, (L r i * x i) * (L r j * x j) := by
    intro r
    rw [sq, Finset.sum_mul_sum]
  simp only [h2, Finset.mul_sum]
  refine (Finset.sum_congr rfl (fun i _ => Finset.sum_comm)).trans ?_
  exact Finset.sum_comm

theorem Mat.transposeMul_scale_psd (n R : ℕ) (L : Mat K) {c : K} (hc : 0 ≤ c) :
    ((Mat.transposeMul R L).scale c).IsPSD n := by
  intro x
  rw [quadForm_transposeMul_scale]
  exact mul_nonneg hc (Finset.sum_nonneg (fun r _ => sq_nonneg _))

theorem Mat.zero_symm : (Mat.zero : Mat K).IsSymm := fun _ _ => rfl

theorem Mat.zero_psd (n : ℕ) : (Mat.zero : Mat K).IsPSD n := by
  intro x
  unfold quadForm Mat.zero
  simp

theorem Mat.add_symm {A B : Mat K} (hA : A.IsSymm) (hB : B.IsSymm) : (A.add B).IsSymm := by
  intro i j
  unfold Mat.add
  rw [hA i j, hB i j]

theorem quadForm_add (n : ℕ) (A B : Mat K) (x : Vec K) :
    quadForm n (A.add B) x = quadForm n A x + quadForm n B x := by
  unfold quadForm Mat.add
  rw [← Finset.sum_add_distrib]
  apply Finset.sum_congr rfl
  intro i _
  rw [← Finset.sum_add_distrib]
  apply Finset.sum_congr rfl
  intro j _
  ring

theorem Mat.add_psd {n : ℕ} {A B : Mat K} (hA : A.IsPSD n) (hB : B.IsPSD n) :
    (A.add B).IsPSD n := by
  intro x
  rw [quadForm_add]
  exact add_nonneg (hA x) (hB x)

theorem update_nonneg {f : Vec K} (hf : ∀ i, 0 ≤ f i) (k : ℕ) {v : K} (hv : 0 ≤ v) :
    ∀ i, 0 ≤ Function.update f k v i := by
  intro i
  by_cases h : i = k
  · subst h; simpa using hv
  · rw [Function.update_noteq h]; exact hf i

/-- The extended thickness vector of `initialise_Wc` has no negative entry. -/
theorem initialise_Wc_t_nonneg (nl : ℕ) (e : cEarthStruct K)
    (h : ∀ i, i < nl - 1 → 0 < vget e.ref.thickness i) :
    ∀ i, 0 ≤ initialise_Wc_t nl e i := by
  unfold initialise_Wc_t
  split_ifs with h1 h2
  · exact update_nonneg (fun _ => le_refl _) 0 zero_le_one
  · have h0 : 0 ≤ vget e.ref.thickness 0 := le_of_lt (h 0 (by omega))
    exact update_nonneg (update_nonneg (fun _ => le_refl _) 0 h0) 1 h0
  · have ht : ∀ i, 0 ≤ forLoop (nl - 1)
        (fun i t => Function.update t i (vget e.ref.thickness i)) (fun _ => (0 : K)) i := by
      refine forLoop_invariant (fun _ (t : Vec K) => ∀ i, 0 ≤ t i) (nl - 1) _ _
        (fun _ => le_refl _) ?_
      intro i t hi ht
      exact update_nonneg ht i (le_of_lt (h i hi))
    exact update_nonneg ht _ (mul_nonneg (div_nonneg (ht _) (ht _)) (ht _))

theorem forLoop_sum_nonneg (n : ℕ) (t : Vec K) (ht : ∀ i, 0 ≤ t i) :
    0 ≤ forLoop n (fun li acc => acc + t li) (0 : K) := by
  refine forLoop_invariant (fun _ (a : K) => 0 ≤ a) n _ _ (le_refl _) ?_
  intro i a _ ha
  exact add_nonneg ha (ht i)

theorem initialise_Wc_diagNonneg (inv : cSBSInverter K) (hα : 0 ≤ inv.AlphaC)
    (hthk : ∀ si, si < inv.nSoundings → ∀ i, i < inv.nLayers - 1 →
      0 < vget (inv.E si).ref.thickness i) :
    (initialise_Wc inv).Wc.DiagNonneg := by
  unfold initialise_Wc
  split_ifs
  · exact Mat.diagNonneg_zero
  · refine forLoop_invariant (fun _ (W : Mat K) => W.DiagNonneg) _ _ _ Mat.diagNonneg_zero ?_
    intro si W hsi hW
    unfold initialise_Wc_sounding
    refine forLoop_invariant (fun _ (W : Mat K) => W.DiagNonneg) _ _ _ hW ?_
    intro li W2 _ hW2
    have ht := initialise_Wc_t_nonneg inv.nLayers (inv.E si) (hthk si hsi)
    refine Mat.diagNonneg_set hW2 _ ?_
    refine div_nonneg (mul_nonneg (div_nonneg hα (Nat.cast_nonneg _))
      (div_nonneg (ht li) (div_nonneg (forLoop_sum_nonneg _ _ ht) (Nat.cast_nonneg _))))
      (mul_self_nonneg _)

theorem initialise_Wt_diagNonneg (inv : cSBSInverter K) (hα : 0 ≤ inv.AlphaT) :
    (initialise_Wt inv).Wt.DiagNonneg := by
  unfold initialise_Wt
  split_ifs
  · exact Mat.diagNonneg_zero
  · refine forLoop_invariant (fun _ (W : Mat K) => W.DiagNonneg) _ _ _ Mat.diagNonneg_zero ?_
    intro si W _ hW
    refine forLoop_invariant (fun _ (W : Mat K) => W.DiagNonneg) _ _ _ hW ?_
    intro li W2 _ hW2
    exact Mat.diagNonneg_set hW2 _
      (div_nonneg (div_nonneg hα (Nat.cast_nonneg _)) (mul_self_nonneg _))

theorem initialise_Wg_diagNonneg (inv : cSBSInverter K) (hα : 0 ≤ inv.AlphaG) :
    (initialise_Wg inv).Wg.DiagNonneg := by
  unfold initialise_Wg
  split_ifs
  · exact Mat.diagNonneg_zero
  · refine forLoop_invariant (fun _ (W : Mat K) => W.DiagNonneg) _ _ _ Mat.diagNonneg_zero ?_
    intro si W _ hW
    refine forLoop_invariant (fun _ (W : Mat K) => W.DiagNonneg) _ _ _ hW ?_
    intro gi W2 _ hW2
    simp only []
    split_ifs
    · exact Mat.diagNonneg_set hW2 _
        (div_nonneg (div_nonneg hα (Nat.cast_nonneg _)) (mul_self_nonneg _))
    · exact hW2

theorem initialise_Ws_symm_psd (sqrt : K → K) (inv : cSBSInverter K) (hα : 0 ≤ inv.AlphaS)
    (n : ℕ) :
    (initialise_Ws sqrt inv).Ws.IsSymm ∧ (initialise_Ws sqrt inv).Ws.IsPSD n := by
  unfold initialise_Ws
  cases inv.SmoothnessMethod with
  | DERIVATIVE_1ST =>
    simp only []
    unfold initialise_L_Ws_1st_derivative
    split_ifs
    · exact ⟨Mat.zero_symm, Mat.zero_psd n⟩
    · exact ⟨Mat.zero_symm, Mat.zero_psd n⟩
    · exact ⟨Mat.transposeMul_scale_symm _ _ _,
        Mat.transposeMul_scale_psd _ _ _ (div_nonneg hα (Nat.cast_nonneg _))⟩
  | DERIVATIVE_2ND =>
    simp only []
    unfold initialise_L_Ws_2nd_derivative
    split_ifs
    · exact ⟨Mat.zero_symm, Mat.zero_psd n⟩
    · exact ⟨Mat.zero_symm, Mat.zero_psd n⟩
    · exact ⟨Mat.transposeMul_scale_symm _ _ _,
        Mat.transposeMul_scale_psd _ _ _ (div_nonneg hα (Nat.cast_nonneg _))⟩

theorem initialise_Wq_symm_psd (inv : cSBSInverter K) (hα : 0 ≤ inv.AlphaQ) (n : ℕ) :
    (initialise_Wq inv).Wq.IsSymm ∧ (initialise_Wq inv).Wq.IsPSD n := by
  unfold initialise_Wq
  split_ifs
  · exact ⟨Mat.zero_symm, Mat.zero_psd n⟩
  · exact ⟨Mat.zero_symm, Mat.zero_psd n⟩
  · exact ⟨Mat.transposeMul_scale_symm _ _ _,
      Mat.transposeMul_scale_psd _ _ _ (div_nonneg hα (Nat.cast_nonneg _))⟩

/-- Each `initialise_W*` member function changes only its own matrix. -/
theorem initialise_Wc_frame (inv : cSBSInverter K) :
    initialise_Wc inv = { inv with Wc := (initialise_Wc inv).Wc } := by
  unfold initialise_Wc
  split_ifs <;> rfl

theorem initialise_Wt_frame (inv : cSBSInverter K) :
    initialise_Wt inv = { inv with Wt := (initialise_Wt inv).Wt } := by
  unfold initialise_Wt
  split_ifs <;> rfl

theorem initialise_Wg_frame (inv : cSBSInverter K) :
    initialise_Wg inv = { inv with Wg := (initialise_Wg inv).Wg } := by
  unfold initialise_Wg
  split_ifs <;> rfl

theorem initialise_Wq_frame (inv : cSBSInverter K) :
    initialise_Wq inv = { inv with Wq := (initialise_Wq inv).Wq } := by
  unfold initialise_Wq
  split_ifs <;> rfl

theorem initialise_Ws_frame (sqrt : K → K) (inv : cSBSInverter K) :
    initialise_Ws sqrt inv = { inv with Ws := (initialise_Ws sqrt inv).Ws } := by
  unfold initialise_Ws
  split
  · unfold initialise_L_Ws_1st_derivative
    split_ifs <;> rfl
  · unfold initialise_L_Ws_2nd_derivative
    split_ifs <;> rfl

theorem Mat.ite_add_symm {A B : Mat K} (c : Prop) [Decidable c] (hA : A.IsSymm)
    (hB : B.IsSymm) : (if c then A.add B else A).IsSymm := by
  split_ifs
  · exact Mat.add_symm hA hB
  · exact hA

theorem Mat.ite_add_psd {n : ℕ} {A B : Mat K} (c : Prop) [Decidable c] (hA : A.IsPSD n)
    (hB : B.IsPSD n) : (if c then A.add B else A).IsPSD n := by
  split_ifs
  · exact Mat.add_psd hA hB
  · exact hA

/-- Symmetry and positive semi-definiteness of what `initialise_Wr` builds. -/
theorem initialise_Wr_symm_psd (inv : cSBSInverter K) (n : ℕ)
    (hC : 0 ≤ inv.AlphaC) (hT : 0 ≤ inv.AlphaT) (hG : 0 ≤ inv.AlphaG)
    (hthk : ∀ si, si < inv.nSoundings → ∀ i, i < inv.nLayers - 1 →
      0 < vget (inv.E si).ref.thickness i) :
    (initialise_Wr inv).Wc.DiagNonneg ∧ (initialise_Wr inv).Wt.DiagNonneg ∧
    (initialise_Wr inv).Wg.DiagNonneg ∧
    ((initialise_Wr inv).Wr.IsSymm ∧ (initialise_Wr inv).Wr.IsPSD n) ∧
    (initialise_Wr inv).Ws = inv.Ws ∧ (initialise_Wr inv).Wq = inv.Wq := by
  have hc := initialise_Wc_frame inv
  have hd := initialise_Wt_frame (initialise_Wc inv)
  have he := initialise_Wg_frame (initialise_Wt (initialise_Wc inv))
  have pc : (initialise_Wc inv).Wc.DiagNonneg := initialise_Wc_diagNonneg inv hC hthk
  have pd : (initialise_Wt (initialise_Wc inv)).Wt.DiagNonneg :=
    initialise_Wt_diagNonneg _ (by
      have : (initialise_Wc inv).AlphaT = inv.AlphaT := congrArg (fun s => s.AlphaT) hc
      rw [this]; exact hT)
  have pe : (initialise_Wg (initialise_Wt (initialise_Wc inv))).Wg.DiagNonneg :=
    initialise_Wg_diagNonneg _ (by
      have h1 : (initialise_Wt (initialise_Wc inv)).AlphaG = (initialise_Wc inv).AlphaG :=
        congrArg (fun s => s.AlphaG) hd
      have h2 : (initialise_Wc inv).AlphaG = inv.AlphaG := congrArg (fun s => s.AlphaG) hc
      rw [h1, h2]; exact hG)
  have ec : (initialise_Wg (initialise_Wt (initialise_Wc inv))).Wc = (initialise_Wc inv).Wc :=
    (congrArg (fun s => s.Wc) he).trans (congrArg (fun s => s.Wc) hd)
  have et : (initialise_Wg (initialise_Wt (initialise_Wc inv))).Wt
      = (initialise_Wt (initialise_Wc inv)).Wt := congrArg (fun s => s.Wt) he
  have es : (initialise_Wg (initialise_Wt (initialise_Wc inv))).Ws = inv.Ws :=
    ((congrArg (fun s => s.Ws) he).trans (congrArg (fun s => s.Ws) hd)).trans
      (congrArg (fun s => s.Ws) hc)
  have eq : (initialise_Wg (initialise_Wt (initialise_Wc inv))).Wq = inv.Wq :=
    ((congrArg (fun s => s.Wq) he).trans (congrArg (fun s => s.Wq) hd)).trans
      (congrArg (fun s => s.Wq) hc)
  have qc : (initialise_Wg (initialise_Wt (initialise_Wc inv))).Wc.DiagNonneg := by
    rw [ec]; exact pc
  have qt : (initialise_Wg (initialise_Wt (initialise_Wc inv))).Wt.DiagNonneg := by
    rw [et]; exact pd
  refine ⟨qc, qt, pe, ?_, es, eq⟩
  unfold initialise_Wr
  simp only []
  exact ⟨Mat.ite_add_symm _ (Mat.ite_add_symm _ (Mat.ite_add_symm _ Mat.zero_symm
      (Mat.diagNonneg_symm qc)) (Mat.diagNonneg_symm qt)) (Mat.diagNonneg_symm pe),
    Mat.ite_add_psd _ (Mat.ite_add_psd _ (Mat.ite_add_psd _ (Mat.zero_psd n)
      (Mat.diagNonneg_psd qc n)) (Mat.diagNonneg_psd qt n)) (Mat.diagNonneg_psd pe n)⟩

/-- C8: for strictly positive reference thicknesses, non-zero parameter standard deviations
and non-negative alpha weights, each of `Wc`, `Wt`, `Wg`, `Ws`, `Wq`, `Wr` and `Wm` built
by `initialise_Wm` is symmetric and positive semi-definite, for both smoothness methods
(`inv.SmoothnessMethod` is arbitrary) and for every layout, valid ones included. -/
theorem C8_weight_matrices_symm_psd (sqrt : K → K) (inv : cSBSInverter K)
    (_hnl : 1 ≤ inv.nLayers)
    (hthk : ∀ si, si < inv.nSoundings → ∀ i, i < inv.nLayers - 1 →
      0 < vget (inv.E si).ref.thickness i)
    (_hstd : ∀ p, p < inv.nParam → inv.RefParamStd p ≠ 0)
    (hC : 0 ≤ inv.AlphaC) (hT : 0 ≤ inv.AlphaT) (hG : 0 ≤ inv.AlphaG)
    (hS : 0 ≤ inv.AlphaS) (hQ : 0 ≤ inv.AlphaQ) :
    ((initialise_Wm sqrt inv).Wc.IsSymm ∧ (initialise_Wm sqrt inv).Wc.IsPSD inv.nParam) ∧
    ((initialise_Wm sqrt inv).Wt.IsSymm ∧ (initialise_Wm sqrt inv).Wt.IsPSD inv.nParam) ∧
    ((initialise_Wm sqrt inv).Wg.IsSymm ∧ (initialise_Wm sqrt inv).Wg.IsPSD inv.nParam) ∧
    ((initialise_Wm sqrt inv).Ws.IsSymm ∧ (initialise_Wm sqrt inv).Ws.IsPSD inv.nParam) ∧
    ((initialise_Wm sqrt inv).Wq.IsSymm ∧ (initialise_Wm sqrt inv).Wq.IsPSD inv.nParam) ∧
    ((initialise_Wm sqrt inv).Wr.IsSymm ∧ (initialise_Wm sqrt inv).Wr.IsPSD inv.nParam) ∧
    ((initialise_Wm sqrt inv).Wm.IsSymm ∧ (initialise_Wm sqrt inv).Wm.IsPSD inv.nParam) := by
  have ha := initialise_Wq_frame inv
  have hb := initialise_Ws_frame sqrt (initialise_Wq inv)
  have pq := initialise_Wq_symm_psd inv hQ inv.nParam
  have ps := initialise_Ws_symm_psd sqrt (initialise_Wq inv)
    (by
      have : (initialise_Wq inv).AlphaS = inv.AlphaS := congrArg (fun s => s.AlphaS) ha
      rw [this]; exact hS) inv.nParam
  have fb : ∀ {α : Type} (f : cSBSInverter K → α),
      (∀ s M, f { s with Wq := M } = f s) → (∀ s M, f { s with Ws := M } = f s) →
      f (initialise_Ws sqrt (initialise_Wq inv)) = f inv := by
    intro α f h1 h2
    rw [hb, h2, ha, h1]
  obtain ⟨rc, rt, rg, rr, rs, rq⟩ :=
    initialise_Wr_symm_psd (initialise_Ws sqrt (initialise_Wq inv)) inv.nParam
      (by rw [fb (fun s => s.AlphaC) (fun _ _ => rfl) (fun _ _ => rfl)]; exact hC)
      (by rw [fb (fun s => s.AlphaT) (fun _ _ => rfl) (fun _ _ => rfl)]; exact hT)
      (by rw [fb (fun s => s.AlphaG) (fun _ _ => rfl) (fun _ _ => rfl)]; exact hG)
      (by
        rw [fb (fun s => s.nSoundings) (fun _ _ => rfl) (fun _ _ => rfl),
          fb (fun s => s.nLayers) (fun _ _ => rfl) (fun _ _ => rfl),
          fb (fun s => s.E) (fun _ _ => rfl) (fun _ _ => rfl)]
        exact hthk)
  have es : (initialise_Wr (initialise_Ws sqrt (initialise_Wq inv))).Ws
      = (initialise_Ws sqrt (initialise_Wq inv)).Ws := rs
  have eq : (initialise_Wr (initialise_Ws sqrt (initialise_Wq inv))).Wq
      = (initialise_Wq inv).Wq := rq.trans (congrArg (fun s => s.Wq) hb)
  have qs : (initialise_Wr (initialise_Ws sqrt (initialise_Wq inv))).Ws.IsSymm ∧
      (initialise_Wr (initialise_Ws sqrt (initialise_Wq inv))).Ws.IsPSD inv.nParam := by
    rw [es]; exact ps
  have qq : (initialise_Wr (initialise_Ws sqrt (initialise_Wq inv))).Wq.IsSymm ∧
      (initialise_Wr (initialise_Ws sqrt (initialise_Wq inv))).Wq.IsPSD inv.nParam := by
    rw [eq]; exact pq
  refine ⟨⟨Mat.diagNonneg_symm rc, Mat.diagNonneg_psd rc _⟩,
    ⟨Mat.diagNonneg_symm rt, Mat.diagNonneg_psd rt _⟩,
    ⟨Mat.diagNonneg_symm rg, Mat.diagNonneg_psd rg _⟩, qs, qq, rr, ?_⟩
  exact ⟨Mat.add_symm (Mat.add_symm rr.1 qs.1) qq.1, Mat.add_psd (Mat.add_psd rr.2 qs.2) qq.2⟩

/-! ### The matrices held after `initialise_Wm` -/

theorem initialise_Wc_congr (inv : cSBSInverter K) (Mt Mg Ms Mq : Mat K) :
    (initialise_Wc { inv with Wt := Mt, Wg := Mg, Ws := Ms, Wq := Mq }).Wc
      = (initialise_Wc inv).Wc := by
  unfold initialise_Wc solve_conductivity
  split_ifs <;> rfl

theorem initialise_Wt_congr (inv : cSBSInverter K) (Mc Mg Ms Mq : Mat K) :
    (initialise_Wt { inv with Wc := Mc, Wg := Mg, Ws := Ms, Wq := Mq }).Wt
      = (initialise_Wt inv).Wt := by
  unfold initialise_Wt solve_thickness
  split_ifs <;> rfl

theorem initialise_Wg_congr (inv : cSBSInverter K) (Mc Mt Ms Mq : Mat K) :
    (initialise_Wg { inv with Wc := Mc, Wt := Mt, Ws := Ms, Wq := Mq }).Wg
      = (initialise_Wg inv).Wg := by
  unfold initialise_Wg
  split_ifs <;> rfl

theorem initialise_Ws_congr (sqrt : K → K) (inv : cSBSInverter K) (Mq : Mat K) :
    (initialise_Ws sqrt { inv with Wq := Mq }).Ws = (initialise_Ws sqrt inv).Ws := by
  unfold initialise_Ws
  simp only []
  split
  · unfold initialise_L_Ws_1st_derivative solve_conductivity
    split_ifs <;> rfl
  · unfold initialise_L_Ws_2nd_derivative solve_conductivity
    split_ifs <;> rfl

theorem initialise_Wq_congr (inv : cSBSInverter K) (Mc Mt Mg Ms : Mat K) :
    (initialise_Wq { inv with Wc := Mc, Wt := Mt, Wg := Mg, Ws := Ms }).Wq
      = (initialise_Wq inv).Wq := by
  unfold initialise_Wq solve_conductivity
  split_ifs <;> rfl

/-- The state after `initialise_Wq` and `initialise_Ws`. -/
theorem initialise_Ws_Wq_state (sqrt : K → K) (inv : cSBSInverter K) :
    initialise_Ws sqrt (initialise_Wq inv)
      = { inv with Ws := (initialise_Ws sqrt inv).Ws, Wq := (initialise_Wq inv).Wq } := by
  rw [initialise_Ws_frame, initialise_Wq_frame inv, initialise_Ws_congr]

/-- The state after `initialise_Wc`, `initialise_Wt` and `initialise_Wg`. -/
theorem initialise_Wc_Wt_Wg_state (inv : cSBSInverter K) :
    initialise_Wg (initialise_Wt (initialise_Wc inv))
      = { inv with Wc := (initialise_Wc inv).Wc, Wt := (initialise_Wt inv).Wt,
                   Wg := (initialise_Wg inv).Wg } := by
  have h1 : (initialise_Wt (initialise_Wc inv)).Wt = (initialise_Wt inv).Wt := by
    rw [initialise_Wc_frame inv]
    exact initialise_Wt_congr inv _ inv.Wg inv.Ws inv.Wq
  have h2 : (initialise_Wg (initialise_Wt (initialise_Wc inv))).Wg = (initialise_Wg inv).Wg := by
    rw [initialise_Wt_frame, h1, initialise_Wc_frame inv]
    exact initialise_Wg_congr inv _ _ inv.Ws inv.Wq
  rw [initialise_Wg_frame, h2, initialise_Wt_frame, h1, initialise_Wc_frame inv]

/-- The matrix `Wr` after `initialise_Wr`, in terms of the three diagonal matrices. -/
theorem initialise_Wr_state (inv : cSBSInverter K) :
    initialise_Wr inv
      = { inv with
          Wc := (initialise_Wc inv).Wc, Wt := (initialise_Wt inv).Wt,
          Wg := (initialise_Wg inv).Wg,
          Wr :=
            if inv.AlphaG > 0 then
              (if inv.AlphaT > 0 then
                (if inv.AlphaC > 0 then (Mat.zero : Mat K).add (initialise_Wc inv).Wc
                  else Mat.zero).add (initialise_Wt inv).Wt
                else (if inv.AlphaC > 0 then (Mat.zero : Mat K).add (initialise_Wc inv).Wc
                  else Mat.zero)).add (initialise_Wg inv).Wg
            else
              (if inv.AlphaT > 0 then
                (if inv.AlphaC > 0 then (Mat.zero : Mat K).add (initialise_Wc inv).Wc
                  else Mat.zero).add (initialise_Wt inv).Wt
                else (if inv.AlphaC > 0 then (Mat.zero : Mat K).add (initialise_Wc inv).Wc
                  else Mat.zero)) } := by
  unfold initialise_Wr
  simp only []
  rw [initialise_Wc_Wt_Wg_state]

/-- The seven matrices held after `initialise_Wm` are the ones each member function builds
from the incoming state. -/
theorem initialise_Wm_matrices (sqrt : K → K) (inv : cSBSInverter K) :
    (initialise_Wm sqrt inv).Wc = (initialise_Wc inv).Wc ∧
    (initialise_Wm sqrt inv).Wt = (initialise_Wt inv).Wt ∧
    (initialise_Wm sqrt inv).Wg = (initialise_Wg inv).Wg ∧
    (initialise_Wm sqrt inv).Ws = (initialise_Ws sqrt inv).Ws ∧
    (initialise_Wm sqrt inv).Wq = (initialise_Wq inv).Wq ∧
    (initialise_Wm sqrt inv).Wr = (initialise_Wr inv).Wr ∧
    (initialise_Wm sqrt inv).Wm
      = ((initialise_Wr inv).Wr.add (initialise_Ws sqrt inv).Ws).add (initialise_Wq inv).Wq := by
  have hWr : (initialise_Wr inv).Wr = (initialise_Wr
      { inv with Ws := (initialise_Ws sqrt inv).Ws, Wq := (initialise_Wq inv).Wq }).Wr := by
    rw [initialise_Wr_state, initialise_Wr_state]
    simp only []
    rw [initialise_Wc_congr inv inv.Wt inv.Wg (initialise_Ws sqrt inv).Ws (initialise_Wq inv).Wq,
      initialise_Wt_congr inv inv.Wc inv.Wg (initialise_Ws sqrt inv).Ws (initialise_Wq inv).Wq,
      initialise_Wg_congr inv inv.Wc inv.Wt (initialise_Ws sqrt inv).Ws (initialise_Wq inv).Wq]
  have h0 : initialise_Wm sqrt inv
      = { initialise_Wr
            { inv with Ws := (initialise_Ws sqrt inv).Ws, Wq := (initialise_Wq inv).Wq } with
          Wm := (((initialise_Wr
              { inv with Ws := (initialise_Ws sqrt inv).Ws, Wq := (initialise_Wq inv).Wq }).Wr.add
            (initialise_Wr
              { inv with Ws := (initialise_Ws sqrt inv).Ws, Wq := (initialise_Wq inv).Wq }).Ws).add
            (initialise_Wr
              { inv with Ws := (initialise_Ws sqrt inv).Ws,
                         Wq := (initialise_Wq inv).Wq }).Wq) } := by
    unfold initialise_Wm
    simp only []
    rw [initialise_Ws_Wq_state]
  have h1 := initialise_Wr_state
    { inv with Ws := (initialise_Ws sqrt inv).Ws, Wq := (initialise_Wq inv).Wq }
  have eWs : (initialise_Wr
      { inv with Ws := (initialise_Ws sqrt inv).Ws, Wq := (initialise_Wq inv).Wq }).Ws
      = (initialise_Ws sqrt inv).Ws := congrArg (fun s => s.Ws) h1
  have eWq : (initialise_Wr
      { inv with Ws := (initialise_Ws sqrt inv).Ws, Wq := (initialise_Wq inv).Wq }).Wq
      = (initialise_Wq inv).Wq := congrArg (fun s => s.Wq) h1
  have eWc : (initialise_Wr
      { inv with Ws := (initialise_Ws sqrt inv).Ws, Wq := (initialise_Wq inv).Wq }).Wc
      = (initialise_Wc inv).Wc :=
    (congrArg (fun s => s.Wc) h1).trans (initialise_Wc_congr inv inv.Wt inv.Wg _ _)
  have eWt : (initialise_Wr
      { inv with Ws := (initialise_Ws sqrt inv).Ws, Wq := (initialise_Wq inv).Wq }).Wt
      = (initialise_Wt inv).Wt :=
    (congrArg (fun s => s.Wt) h1).trans (initialise_Wt_congr inv inv.Wc inv.Wg _ _)
  have eWg : (initialise_Wr
      { inv with Ws := (initialise_Ws sqrt inv).Ws, Wq := (initialise_Wq inv).Wq }).Wg
      = (initialise_Wg inv).Wg :=
    (congrArg (fun s => s.Wg) h1).trans (initialise_Wg_congr inv inv.Wc inv.Wt _ _)
  rw [h0]
  refine ⟨eWc, eWt, eWg, eWs, eWq, hWr.symm, ?_⟩
  show ((initialise_Wr
      { inv with Ws := (initialise_Ws sqrt inv).Ws, Wq := (initialise_Wq inv).Wq }).Wr.add
    (initialise_Wr
      { inv with Ws := (initialise_Ws sqrt inv).Ws, Wq := (initialise_Wq inv).Wq }).Ws).add
    (initialise_Wr
      { inv with Ws := (initialise_Ws sqrt inv).Ws, Wq := (initialise_Wq inv).Wq }).Wq = _
  rw [← hWr, eWs, eWq]

end RegularisationTheorems

/-! ### Regularisation matrices: which entries can be non-zero -/

theorem cindex_toNat (inv : cSBSInverter K) (si li : ℕ) :
    (((cindex inv si li).toNat : ℕ) : ℤ) = cindex inv si li := by
  unfold cindex
  exact Int.toNat_of_nonneg (by positivity)

theorem tindex_toNat (inv : cSBSInverter K) (si li : ℕ) :
    (((tindex inv si li).toNat : ℕ) : ℤ) = tindex inv si li := by
  unfold tindex
  exact Int.toNat_of_nonneg (by positivity)

section Support

variable [LinearOrderedField K]

theorem Mat.set_support {W : Mat K} {Q : ℕ → ℕ → Prop} (h : ∀ i j, W i j ≠ 0 → Q i j)
    (p q : ℕ) (v : K) (hQ : Q p q) : ∀ i j, (W.set p q v) i j ≠ 0 → Q i j := by
  intro i j hij
  unfold Mat.set at hij
  split_ifs at hij with hc
  · rw [hc.1, hc.2]; exact hQ
  · exact h i j hij

theorem Mat.zero_support {Q : ℕ → ℕ → Prop} : ∀ i j, (Mat.zero : Mat K) i j ≠ 0 → Q i j :=
  fun _ _ h => absurd rfl h

/-- `Wc` is non-zero only on diagonal entries of conductivity parameters. -/
theorem initialise_Wc_support (inv : cSBSInverter K) :
    ∀ i j, (initialise_Wc inv).Wc i j ≠ 0 →
      i = j ∧ solve_conductivity inv = true ∧
      ∃ si li, si < inv.nSoundings ∧ li < inv.nLayers ∧ (i : ℤ) = cindex inv si li := by
  unfold initialise_Wc
  split_ifs with hs
  · exact Mat.zero_support
  · have hs2 : solve_conductivity inv = true := by simpa using hs
    refine forLoop_invariant (fun _ (W : Mat K) => ∀ i j, W i j ≠ 0 →
      i = j ∧ solve_conductivity inv = true ∧
      ∃ si li, si < inv.nSoundings ∧ li < inv.nLayers ∧ (i : ℤ) = cindex inv si li)
      _ _ _ Mat.zero_support ?_
    intro si W hsi hW
    unfold initialise_Wc_sounding
    refine forLoop_invariant (fun _ (W : Mat K) => ∀ i j, W i j ≠ 0 →
      i = j ∧ solve_conductivity inv = true ∧
      ∃ si li, si < inv.nSoundings ∧ li < inv.nLayers ∧ (i : ℤ) = cindex inv si li)
      _ _ _ hW ?_
    intro li W2 hli hW2
    exact Mat.set_support hW2 _ _ _ ⟨rfl, hs2, si, li, hsi, hli, cindex_toNat inv si li⟩

/-- `Wt` is non-zero only on diagonal entries of thickness parameters. -/
theorem initialise_Wt_support (inv : cSBSInverter K) :
    ∀ i j, (initialise_Wt inv).Wt i j ≠ 0 →
      i = j ∧ solve_thickness inv = true ∧
      ∃ si li, si < inv.nSoundings ∧ li < inv.nLayers - 1 ∧ (i : ℤ) = tindex inv si li := by
  unfold initialise_Wt
  split_ifs with hs
  · exact Mat.zero_support
  · have hs2 : solve_thickness inv = true := by simpa using hs
    refine forLoop_invariant (fun _ (W : Mat K) => ∀ i j, W i j ≠ 0 →
      i = j ∧ solve_thickness inv = true ∧
      ∃ si li, si < inv.nSoundings ∧ li < inv.nLayers - 1 ∧ (i : ℤ) = tindex inv si li)
      _ _ _ Mat.zero_support ?_
    intro si W hsi hW
    refine forLoop_invariant (fun _ (W : Mat K) => ∀ i j, W i j ≠ 0 →
      i = j ∧ solve_thickness inv = true ∧
      ∃ si li, si < inv.nSoundings ∧ li < inv.nLayers - 1 ∧ (i : ℤ) = tindex inv si li)
      _ _ _ hW ?_
    intro li W2 hli hW2
    exact Mat.set_support hW2 _ _ _ ⟨rfl, hs2, si, li, hsi, hli, tindex_toNat inv si li⟩

/-- `Wg` is non-zero only on diagonal entries that `gindex` assigns to a geometry
element. -/
theorem initialise_Wg_support (inv : cSBSInverter K) :
    ∀ i j, (initialise_Wg inv).Wg i j ≠ 0 →
      i = j ∧ 0 < inv.nGeomParamPerSounding ∧
      ∃ si gi, si < inv.nSoundings ∧ gi < inv.geomSize ∧ (i : ℤ) = gindex inv si gi := by
  unfold initialise_Wg
  split_ifs with hs
  · exact Mat.zero_support
  · have hs2 : 0 < inv.nGeomParamPerSounding := by omega
    refine forLoop_invariant (fun _ (W : Mat K) => ∀ i j, W i j ≠ 0 →
      i = j ∧ 0 < inv.nGeomParamPerSounding ∧
      ∃ si gi, si < inv.nSoundings ∧ gi < inv.geomSize ∧ (i : ℤ) = gindex inv si gi)
      _ _ _ Mat.zero_support ?_
    intro si W hsi hW
    refine forLoop_invariant (fun _ (W : Mat K) => ∀ i j, W i j ≠ 0 →
      i = j ∧ 0 < inv.nGeomParamPerSounding ∧
      ∃ si gi, si < inv.nSoundings ∧ gi < inv.geomSize ∧ (i : ℤ) = gindex inv si gi)
      _ _ _ hW ?_
    intro gi W2 hgi hW2
    split_ifs with hp
    · exact Mat.set_support hW2 _ _ _ ⟨rfl, hs2, si, gi, hsi, hgi, Int.toNat_of_nonneg hp⟩
    · exact hW2

theorem rowsOK_zero (inv : cSBSInverter K) : RowsOK inv (Mat.zero : Mat K) 0 :=
  ⟨fun _ _ _ => rfl, fun _ _ _ h => absurd rfl h⟩

theorem rowsOK_to_filling {inv : cSBSInverter K} {L : Mat K} {n : ℕ} (h : RowsOK inv L n)
    (si : ℕ) : RowFilling inv L n si :=
  ⟨fun r c hr => h.1 r c (le_of_lt hr), fun c hc => absurd (h.1 n c (le_refl n)) hc,
    fun r c c2 _ h1 h2 => h.2 r c c2 h1 h2⟩

theorem rowFilling_set {inv : cSBSInverter K} {L : Mat K} {n si : ℕ}
    (h : RowFilling inv L n si) {li : ℕ} (hli : li < inv.nLayers) (v : K) :
    RowFilling inv (L.set n (cindex inv si li).toNat v) n si := by
  refine ⟨?_, ?_, ?_⟩
  · intro r c hr
    unfold Mat.set
    rw [if_neg (by rintro ⟨rfl, _⟩; exact lt_irrefl _ hr)]
    exact h.1 r c hr
  · intro c hc
    unfold Mat.set at hc
    split_ifs at hc with hcond
    · exact ⟨li, hli, by rw [hcond.2]; exact cindex_toNat inv si li⟩
    · exact h.2.1 c hc
  · intro r c c2 hr h1 h2
    unfold Mat.set at h1 h2
    rw [if_neg (by rintro ⟨rfl, _⟩; exact hr rfl)] at h1 h2
    exact h.2.2 r c c2 hr h1 h2

theorem rowFilling_to_ok {inv : cSBSInverter K} {L : Mat K} {n si : ℕ}
    (h : RowFilling inv L n si) (hsi : si < inv.nSoundings) : RowsOK inv L (n + 1) := by
  refine ⟨fun r c hr => h.1 r c hr, ?_⟩
  intro r c c2 h1 h2
  by_cases hr : r = n
  · subst hr
    obtain ⟨li, hli, e1⟩ := h.2.1 c h1
    obtain ⟨lj, hlj, e2⟩ := h.2.1 c2 h2
    exact ⟨si, li, lj, hsi, hli, hlj, e1, e2⟩
  · exact h.2.2 r c c2 hr h1 h2

/-- A non-zero entry of `L.transpose() * L`, scaled, needs a row of `L` that is non-zero
in both columns. -/
theorem Mat.transposeMul_scale_support {inv : cSBSInverter K} {L : Mat K} {n : ℕ}
    (h : RowsOK inv L n) (R : ℕ) (c : K) :
    ∀ i j, ((Mat.transposeMul R L).scale c) i j ≠ 0 → SameSounding inv i j := by
  intro i j hij
  by_contra hns
  apply hij
  unfold Mat.scale Mat.transposeMul
  rw [Finset.sum_eq_zero, zero_mul]
  intro r _
  by_contra hne
  have h1 : L r i ≠ 0 := left_ne_zero_of_mul hne
  have h2 : L r j ≠ 0 := right_ne_zero_of_mul hne
  exact hns (h.2 r i j h1 h2)

theorem L_Ws_1st_derivative_rowsOK (sqrt : K → K) (inv : cSBSInverter K) :
    RowsOK inv (L_Ws_1st_derivative sqrt inv).1 (L_Ws_1st_derivative sqrt inv).2 := by
  unfold L_Ws_1st_derivative
  refine forLoop_invariant (fun _ (st : Mat K × ℕ) => RowsOK inv st.1 st.2) _ _ _
    (rowsOK_zero inv) ?_
  intro si st hsi hst
  refine forLoop_invariant (fun _ (st : Mat K × ℕ) => RowsOK inv st.1 st.2) _ _ _ hst ?_
  intro k st2 hk hst2
  simp only []
  exact rowFilling_to_ok
    (rowFilling_set (rowFilling_set (rowsOK_to_filling hst2 si) (by omega) _) (by omega) _) hsi

theorem L_Ws_2nd_derivative_rowsOK (sqrt : K → K) (inv : cSBSInverter K) :
    RowsOK inv (L_Ws_2nd_derivative sqrt inv).1 (L_Ws_2nd_derivative sqrt inv).2 := by
  unfold L_Ws_2nd_derivative
  refine forLoop_invariant (fun _ (st : Mat K × ℕ) => RowsOK inv st.1 st.2) _ _ _
    (rowsOK_zero inv) ?_
  intro si st hsi hst
  refine forLoop_invariant (fun _ (st : Mat K × ℕ) => RowsOK inv st.1 st.2) _ _ _ hst ?_
  intro k st2 hk hst2
  simp only []
  exact rowFilling_to_ok
    (rowFilling_set (rowFilling_set (rowFilling_set (rowsOK_to_filling hst2 si) (by omega) _)
      (by omega) _) (by omega) _) hsi

theorem L_Wq_rowsOK (inv : cSBSInverter K) : RowsOK inv (L_Wq inv).1 (L_Wq inv).2 := by
  unfold L_Wq
  refine forLoop_invariant (fun _ (st : Mat K × ℕ) => RowsOK inv st.1 st.2) _ _ _
    (rowsOK_zero inv) ?_
  intro si st hsi hst
  refine forLoop_invariant (fun _ (st : Mat K × ℕ) => RowsOK inv st.1 st.2) _ _ _ hst ?_
  intro li st2 hli hst2
  simp only []
  refine rowFilling_to_ok ?_ hsi
  refine forLoop_invariant (fun _ (L : Mat K) => RowFilling inv L st2.2 si) _ _ _
    (rowsOK_to_filling hst2 si) ?_
  intro ki L hki hL
  split_ifs
  · exact rowFilling_set hL hki _
  · exact rowFilling_set hL hki _

/-- `Ws` is non-zero only where row and column are conductivity parameters of one
sounding. -/
theorem initialise_Ws_support (sqrt : K → K) (inv : cSBSInverter K) :
    ∀ i j, (initialise_Ws sqrt inv).Ws i j ≠ 0 →
      solve_conductivity inv = true ∧ SameSounding inv i j := by
  unfold initialise_Ws
  split
  · unfold initialise_L_Ws_1st_derivative
    split_ifs with h1 h2
    · exact Mat.zero_support
    · exact Mat.zero_support
    · intro i j hij
      exact ⟨by simpa using h2,
        Mat.transposeMul_scale_support (L_Ws_1st_derivative_rowsOK sqrt inv) _ _ i j hij⟩
  · unfold initialise_L_Ws_2nd_derivative
    split_ifs with h1 h2
    · exact Mat.zero_support
    · exact Mat.zero_support
    · intro i j hij
      exact ⟨by simpa using h2,
        Mat.transposeMul_scale_support (L_Ws_2nd_derivative_rowsOK sqrt inv) _ _ i j hij⟩

/-- `Wq` is non-zero only where row and column are conductivity parameters of one
sounding. -/
theorem initialise_Wq_support (inv : cSBSInverter K) :
    ∀ i j, (initialise_Wq inv).Wq i j ≠ 0 →
      solve_conductivity inv = true ∧ SameSounding inv i j := by
  unfold initialise_Wq
  split_ifs with h1 h2
  · exact Mat.zero_support
  · exact Mat.zero_support
  · intro i j hij
    exact ⟨by simpa using h2,
      Mat.transposeMul_scale_support (L_Wq_rowsOK inv) _ _ i j hij⟩

/-- C9: on every layout produced by `setup_parameters`, the regularisation matrices built
by `initialise_Wm` only touch the parameters they regularise: `Wc`, `Wt`, `Wg` are
non-zero only on diagonal entries of conductivity, thickness and solved-geometry
parameters respectively, `Ws` and `Wq` only at entries whose row and column are
conductivity parameters of one sounding; `Wc`, `Ws`, `Wq` vanish when conductivity is not
solved, `Wt` when thickness is not solved, `Wg` when no geometry element is solved. -/
theorem C9_weight_matrices_frame (sqrt : K → K) (inv : cSBSInverter K) (nl : ℕ)
    (_hnl : 1 ≤ nl) :
    (∀ i j, (initialise_Wm sqrt (setup_parameters inv nl)).Wc i j ≠ 0 →
      i = j ∧ (i : ℤ) ∈ conductivityIndices (setup_parameters inv nl)) ∧
    (∀ i j, (initialise_Wm sqrt (setup_parameters inv nl)).Wt i j ≠ 0 →
      i = j ∧ (i : ℤ) ∈ thicknessIndices (setup_parameters inv nl)) ∧
    (∀ i j, (initialise_Wm sqrt (setup_parameters inv nl)).Wg i j ≠ 0 →
      i = j ∧ (i : ℤ) ∈ geometryIndices (setup_parameters inv nl)) ∧
    (∀ i j, (initialise_Wm sqrt (setup_parameters inv nl)).Ws i j ≠ 0 →
      SameSounding (setup_parameters inv nl) i j) ∧
    (∀ i j, (initialise_Wm sqrt (setup_parameters inv nl)).Wq i j ≠ 0 →
      SameSounding (setup_parameters inv nl) i j) ∧
    (solve_conductivity (setup_parameters inv nl) = false →
      (initialise_Wm sqrt (setup_parameters inv nl)).Wc = Mat.zero ∧
      (initialise_Wm sqrt (setup_parameters inv nl)).Ws = Mat.zero ∧
      (initialise_Wm sqrt (setup_parameters inv nl)).Wq = Mat.zero) ∧
    (solve_thickness (setup_parameters inv nl) = false →
      (initialise_Wm sqrt (setup_parameters inv nl)).Wt = Mat.zero) ∧
    ((∀ gi, gi < inv.geomSize → (inv.fdG gi).solve = false) →
      (initialise_Wm sqrt (setup_parameters inv nl)).Wg = Mat.zero) := by
  obtain ⟨eWc, eWt, eWg, eWs, eWq, _, _⟩ := initialise_Wm_matrices sqrt (setup_parameters inv nl)
  obtain ⟨_, _, h3, _, _, _, _, h8, _, _, _, _⟩ := setup_parameters_closed_form inv nl
  obtain ⟨_, _, _, hu⟩ := index_closed_form inv nl
  rw [eWc, eWt, eWg, eWs, eWq]
  have hg : ∀ i j, (initialise_Wg (setup_parameters inv nl)).Wg i j ≠ 0 →
      i = j ∧ (i : ℤ) ∈ geometryIndices (setup_parameters inv nl) := by
    intro i j hij
    obtain ⟨e, _, si, gi, hsi, hgi, hi⟩ := initialise_Wg_support _ i j hij
    refine ⟨e, si, gi, hsi, hgi, ?_, hi⟩
    by_contra hns
    have hf : (inv.fdG gi).solve = false := by
      rw [h8] at hns
      simpa using hns
    rw [h3] at hgi
    rw [hu si gi hgi hf] at hi
    omega
  refine ⟨?_, ?_, hg, ?_, ?_, ?_, ?_, ?_⟩
  · intro i j hij
    obtain ⟨e, hs, h⟩ := initialise_Wc_support _ i j hij
    exact ⟨e, hs, h⟩
  · intro i j hij
    obtain ⟨e, hs, h⟩ := initialise_Wt_support _ i j hij
    exact ⟨e, hs, h⟩
  · intro i j hij
    exact (initialise_Ws_support sqrt _ i j hij).2
  · intro i j hij
    exact (initialise_Wq_support _ i j hij).2
  · intro hs
    refine ⟨?_, ?_, ?_⟩
    · funext i j
      by_contra hij
      have := (initialise_Wc_support _ i j hij).2.1
      rw [hs] at this
      exact Bool.noConfusion this
    · funext i j
      by_contra hij
      have := (initialise_Ws_support sqrt _ i j hij).1
      rw [hs] at this
      exact Bool.noConfusion this
    · funext i j
      by_contra hij
      have := (initialise_Wq_support _ i j hij).1
      rw [hs] at this
      exact Bool.noConfusion this
  · intro hs
    funext i j
    by_contra hij
    have := (initialise_Wt_support _ i j hij).2.1
    rw [hs] at this
    exact Bool.noConfusion this
  · intro hnone
    funext i j
    by_contra hij
    obtain ⟨_, si, gi, _, hgi, hsol, _⟩ := hg i j hij
    rw [h3] at hgi
    rw [h8, hnone gi hgi] at hsol
    exact Bool.noConfusion hsol

end Support

/-! ### Regularisation matrices: the example state, `Wr` and `Wm` -/

theorem weightsExample_fields :
    weightsExample.nLayers = 3 ∧ weightsExample.nSoundings = 1 ∧ weightsExample.nParam = 6 ∧
    weightsExample.AlphaC = 2 ∧ weightsExample.AlphaT = 1 ∧ weightsExample.AlphaG = 1 ∧
    weightsExample.AlphaS = 1 ∧ weightsExample.AlphaQ = 1 ∧
    (∀ si, (weightsExample.E si).ref.thickness = [1, 2]) ∧
    (∀ p, weightsExample.RefParamStd p = 1) :=
  ⟨rfl, rfl, rfl, rfl, rfl, rfl, rfl, rfl, fun _ => rfl, fun _ => rfl⟩

theorem weightsExample_thickness_pos :
    ∀ si, si < weightsExample.nSoundings → ∀ i, i < weightsExample.nLayers - 1 →
      0 < vget (weightsExample.E si).ref.thickness i := by
  intro si _ i hi
  rw [weightsExample_fields.2.2.2.2.2.2.2.2.1 si]
  have h3 : weightsExample.nLayers = 3 := rfl
  rw [h3] at hi
  interval_cases i <;> simp [vget]

theorem weightsExample_Wc_entry : (initialise_Wc weightsExample).Wc 0 0 = 2 / 7 := by
  simp [initialise_Wc, weightsExample, setup_parameters, blankInverter, solve_conductivity,
    setup_parameters_conductivity, setup_parameters_thickness, solve_thickness, forLoop,
    setup_parameters_geometry, initialise_Wc_sounding, initialise_Wc_t, cindex, Mat.set,
    Mat.zero, vget]
  norm_num

theorem weightsExample_Wt_entry : (initialise_Wt weightsExample).Wt 0 0 = 0 := by
  simp [initialise_Wt, weightsExample, setup_parameters, blankInverter, solve_conductivity,
    setup_parameters_conductivity, setup_parameters_thickness, solve_thickness, forLoop,
    setup_parameters_geometry, tindex, Mat.set, Mat.zero]

theorem weightsExample_Wg_entry : (initialise_Wg weightsExample).Wg 0 0 = 0 := by
  simp [initialise_Wg, weightsExample, setup_parameters, blankInverter, solve_conductivity,
    setup_parameters_conductivity, setup_parameters_thickness, solve_thickness, forLoop,
    setup_parameters_geometry, gindex, Mat.set, Mat.zero]

section WrWm

variable [LinearOrderedField K]

/-- Entry-wise form of the matrix `Wr` built by `initialise_Wr`. -/
theorem initialise_Wr_entry (inv : cSBSInverter K) (i j : ℕ) :
    (initialise_Wr inv).Wr i j
      = (if inv.AlphaC > 0 then (initialise_Wc inv).Wc i j else 0)
        + (if inv.AlphaT > 0 then (initialise_Wt inv).Wt i j else 0)
        + (if inv.AlphaG > 0 then (initialise_Wg inv).Wg i j else 0) := by
  rw [initialise_Wr_state]
  simp only []
  split_ifs <;> simp [Mat.add, Mat.zero]

/-- C10 (as the code has it): `Wr` is the sum of those of `Wc`, `Wt`, `Wg` whose alpha
weight is strictly positive, the three matrices being the ones built by `initialise_Wc`,
`initialise_Wt`, `initialise_Wg` (which already carry the factors `AlphaC`, `AlphaT`,
`AlphaG`); and `Wm = Wr + Ws + Wq`. -/
theorem C10_Wr_Wm_composition (sqrt : K → K) (inv : cSBSInverter K) :
    (∀ i j, (initialise_Wm sqrt inv).Wr i j
      = (if inv.AlphaC > 0 then (initialise_Wm sqrt inv).Wc i j else 0)
        + (if inv.AlphaT > 0 then (initialise_Wm sqrt inv).Wt i j else 0)
        + (if inv.AlphaG > 0 then (initialise_Wm sqrt inv).Wg i j else 0)) ∧
    (∀ i j, (initialise_Wm sqrt inv).Wm i j
      = (initialise_Wm sqrt inv).Wr i j + (initialise_Wm sqrt inv).Ws i j
        + (initialise_Wm sqrt inv).Wq i j) := by
  obtain ⟨eWc, eWt, eWg, eWs, eWq, eWr, eWm⟩ := initialise_Wm_matrices sqrt inv
  rw [eWc, eWt, eWg, eWs, eWq, eWr, eWm]
  exact ⟨fun i j => initialise_Wr_entry inv i j, fun _ _ => rfl⟩

end WrWm

/-- C10, counterexample to the claim as stated: on `weightsExample` (`AlphaC = 2`) the
entry `Wr(0,0)` is `Wc(0,0) = 2/7`, not `AlphaC * Wc(0,0) + AlphaT * Wt(0,0) +
AlphaG * Wg(0,0) = 4/7`. -/
theorem C10_counterexample :
    (initialise_Wm id weightsExample).Wr 0 0 = 2 / 7 ∧
    weightsExample.AlphaC * (initialise_Wm id weightsExample).Wc 0 0
      + weightsExample.AlphaT * (initialise_Wm id weightsExample).Wt 0 0
      + weightsExample.AlphaG * (initialise_Wm id weightsExample).Wg 0 0 = 4 / 7 ∧
    (initialise_Wm id weightsExample).Wr 0 0
      ≠ weightsExample.AlphaC * (initialise_Wm id weightsExample).Wc 0 0
        + weightsExample.AlphaT * (initialise_Wm id weightsExample).Wt 0 0
        + weightsExample.AlphaG * (initialise_Wm id weightsExample).Wg 0 0 := by
  obtain ⟨eWc, eWt, eWg, _, _, eWr, _⟩ := initialise_Wm_matrices id weightsExample
  obtain ⟨_, _, _, hC, hT, hG, _⟩ := weightsExample_fields
  rw [eWc, eWt, eWg, eWr, initialise_Wr_entry, weightsExample_Wc_entry,
    weightsExample_Wt_entry, weightsExample_Wg_entry, hC, hT, hG]
  norm_num

/-- Witness for C8 on `weightsExample`. -/
theorem C8_weight_matrices_symm_psd_witness :
    (1 ≤ weightsExample.nLayers ∧ 0 ≤ weightsExample.AlphaC ∧ 0 ≤ weightsExample.AlphaS) ∧
    (initialise_Wm id weightsExample).Wm.IsSymm ∧
    (initialise_Wm id weightsExample).Wm.IsPSD weightsExample.nParam :=
  ⟨⟨by decide, by rw [weightsExample_fields.2.2.2.1]; norm_num,
      by rw [weightsExample_fields.2.2.2.2.2.2.1]; norm_num⟩,
    (C8_weight_matrices_symm_psd id weightsExample (by decide) weightsExample_thickness_pos
      (fun p _ => by rw [weightsExample_fields.2.2.2.2.2.2.2.2.2 p]; norm_num)
      (by rw [weightsExample_fields.2.2.2.1]; norm_num)
      (by rw [weightsExample_fields.2.2.2.2.1]; norm_num)
      (by rw [weightsExample_fields.2.2.2.2.2.1]; norm_num)
      (by rw [weightsExample_fields.2.2.2.2.2.2.1]; norm_num)
      (by rw [weightsExample_fields.2.2.2.2.2.2.2.1]; norm_num)).2.2.2.2.2.2⟩

/-- Witness for C9 on `layoutExample` with two layers. -/
theorem C9_weight_matrices_frame_witness :
    1 ≤ 2 ∧
    ∀ i j, (initialise_Wm id (setup_parameters layoutExample 2)).Wt i j ≠ 0 →
      i = j ∧ (i : ℤ) ∈ thicknessIndices (setup_parameters layoutExample 2) :=
  ⟨by decide, (C9_weight_matrices_frame id layoutExample 2 (by decide)).2.1⟩

/-! ### The damped linear system -/

section LinearSystemTheorems

variable [LinearOrderedField K]

/-- In L2 mode the assembled system is the damped normal system of the specification. -/
theorem solve_linear_system_L2 (pseudoInverse : ℕ → Mat K → Mat K) (inv : cSBSInverter K)
    (hL2 : inv.NormType = eNormType.L2) (lambda : K) (m g : Vec K) :
    solve_linear_system pseudoInverse inv lambda m g
      = Mat.mulVec inv.nParam (pseudoInverse inv.nParam (normalMatrix inv inv.J lambda))
          (normalRhs inv inv.J lambda
            (fun k => inv.Obs k - g k + ∑ q ∈ Finset.range inv.nParam, inv.J k q * m q)) := by
  have hV : solve_linear_system_V inv g = inv.Wd := by
    unfold solve_linear_system_V
    rw [if_neg (by rw [hL2]; decide)]
  unfold solve_linear_system
  simp only [hV]
  have hA : (Mat.mul inv.nData (Mat.mul inv.nData inv.J.transpose inv.Wd) inv.J).add
      (Mat.smul lambda inv.Wm) = normalMatrix inv inv.J lambda := by
    funext i j
    unfold Mat.add Mat.mul Mat.smul Mat.transpose normalMatrix
    congr 1
    rw [Finset.sum_comm]
    apply Finset.sum_congr rfl
    intro a _
    rw [Finset.sum_mul]
  have hb : (Mat.mulVec inv.nData (Mat.mul inv.nData inv.J.transpose inv.Wd)
        ((Vec.sub inv.Obs g).add (Mat.mulVec inv.nParam inv.J m))).add
      (Vec.smul lambda (Mat.mulVec inv.nParam inv.Wr inv.RefParam))
      = normalRhs inv inv.J lambda
          (fun k => inv.Obs k - g k + ∑ q ∈ Finset.range inv.nParam, inv.J k q * m q) := by
    funext i
    unfold Vec.add Vec.sub Vec.smul Mat.mulVec Mat.mul Mat.transpose normalRhs
    congr 1
    rw [Finset.sum_comm]
    apply Finset.sum_congr rfl
    intro a _
    rw [Finset.sum_mul]
  rw [hA, hb]

/-- C5: in L2 mode `solve_linear_system (lambda, m, g)` returns `pinv(A) * b` with
`A = Jᵀ Wd J + lambda Wm` and `b = Jᵀ Wd (d - g + J m) + lambda Wr m0`; for a linear
forward model `g(m) = F m + c` with `J = F` the result is
`pinv(Fᵀ Wd F + lambda Wm) * (Fᵀ Wd (d - c) + lambda Wr m0)` for every current model `m`,
hence the same for any two current models. -/
theorem C5_linear_system (pseudoInverse : ℕ → Mat K → Mat K) (inv : cSBSInverter K)
    (hL2 : inv.NormType = eNormType.L2) (lambda : K) :
    (∀ m g : Vec K, solve_linear_system pseudoInverse inv lambda m g
      = Mat.mulVec inv.nParam (pseudoInverse inv.nParam (normalMatrix inv inv.J lambda))
          (normalRhs inv inv.J lambda
            (fun k => inv.Obs k - g k + ∑ q ∈ Finset.range inv.nParam, inv.J k q * m q))) ∧
    (∀ (F : Mat K) (c m : Vec K),
      solve_linear_system pseudoInverse { inv with J := F } lambda m
          (linearForward inv.nParam F c m)
        = Mat.mulVec inv.nParam (pseudoInverse inv.nParam (normalMatrix inv F lambda))
            (normalRhs inv F lambda (fun k => inv.Obs k - c k))) ∧
    (∀ (F : Mat K) (c m m2 : Vec K),
      solve_linear_system pseudoInverse { inv with J := F } lambda m
          (linearForward inv.nParam F c m)
        = solve_linear_system pseudoInverse { inv with J := F } lambda m2
          (linearForward inv.nParam F c m2)) := by
  have key : ∀ (F : Mat K) (c m : Vec K),
      solve_linear_system pseudoInverse { inv with J := F } lambda m
          (linearForward inv.nParam F c m)
        = Mat.mulVec inv.nParam (pseudoInverse inv.nParam (normalMatrix inv F lambda))
            (normalRhs inv F lambda (fun k => inv.Obs k - c k)) := by
    intro F c m
    rw [solve_linear_system_L2 pseudoInverse { inv with J := F } hL2]
    have hr : (fun k => inv.Obs k - linearForward inv.nParam F c m k
        + ∑ q ∈ Finset.range inv.nParam, F k q * m q) = fun k => inv.Obs k - c k := by
      funext k
      unfold linearForward
      ring
    show Mat.mulVec inv.nParam (pseudoInverse inv.nParam (normalMatrix inv F lambda))
        (normalRhs inv F lambda (fun k => inv.Obs k - linearForward inv.nParam F c m k
          + ∑ q ∈ Finset.range inv.nParam, F k q * m q)) = _
    rw [hr]
  refine ⟨fun m g => solve_linear_system_L2 pseudoInverse inv hL2 lambda m g, key, ?_⟩
  intro F c m m2
  rw [key, key]

end LinearSystemTheorems

/-- The layout computed by `setup_parameters` has the properties the bound loops need. -/
theorem layoutFacts_setup_parameters (inv : cSBSInverter K) (nl : ℕ) :
    LayoutFacts (setup_parameters inv nl) := by
  obtain ⟨_, h2, h3, _, _, h6, h7, h8, h9, _, _, _⟩ := setup_parameters_closed_form inv nl
  obtain ⟨hc, ht, hg, _⟩ := index_closed_form inv nl
  have hcN : inv.fdC.solve = true → nCondParam inv nl = nl := by
    intro h; simp [nCondParam, h]
  have htN : inv.fdT.solve = true → nThickParam inv nl = nl - 1 := by
    intro h; simp [nThickParam, h]
  simp only [LayoutFacts, solve_conductivity, solve_thickness, h2, h3, h6, h7, h8]
  refine ⟨?_, ?_, ?_, ?_, ?_, ?_, ?_⟩
  · intro hsc si li sj lj hli hlj heq
    rw [hc, hc, Int.toNat_ofNat, Int.toNat_ofNat] at heq
    exact block_unique (by rw [h9, hcN hsc]; omega) (by rw [h9, hcN hsc]; omega) heq
  · intro hst si li sj lj hli hlj heq
    rw [ht, ht, Int.toNat_ofNat, Int.toNat_ofNat] at heq
    have heq2 : si * (setup_parameters inv nl).nParamPerSounding + (nCondParam inv nl + li)
        = sj * (setup_parameters inv nl).nParamPerSounding + (nCondParam inv nl + lj) := by
      omega
    have := block_unique (by rw [h9, htN hst]; omega) (by rw [h9, htN hst]; omega) heq2
    exact ⟨this.1, by omega⟩
  · intro si gi sj gj hgi hgj hsi hsj heq
    rw [hg si gi hgi hsi, hg sj gj hgj hsj, Int.toNat_ofNat, Int.toNat_ofNat] at heq
    have l1 := countSolved_lt inv.fdG hgi hsi
    have l2 := countSolved_lt inv.fdG hgj hsj
    have := block_unique (by rw [h9]; omega) (by rw [h9]; omega) heq
    refine ⟨this.1, ?_⟩
    have hcs : countSolved inv.fdG gi = countSolved inv.fdG gj := by omega
    rcases Nat.lt_trichotomy gi gj with h | h | h
    · have := countSolved_lt inv.fdG h hsi
      omega
    · exact h
    · have := countSolved_lt inv.fdG h hsj
      omega
  · intro hsc hst si li sj lj hli hlj heq
    rw [hc, ht, Int.toNat_ofNat, Int.toNat_ofNat] at heq
    have heq2 : si * (setup_parameters inv nl).nParamPerSounding + li
        = sj * (setup_parameters inv nl).nParamPerSounding + (nCondParam inv nl + lj) := by
      omega
    have := block_unique (by rw [h9, hcN hsc]; omega)
      (by rw [h9, hcN hsc, htN hst]; omega) heq2
    have := hcN hsc
    omega
  · intro hsc si li sj gj hli hgj hsg heq
    rw [hc, hg sj gj hgj hsg, Int.toNat_ofNat, Int.toNat_ofNat] at heq
    have l2 := countSolved_lt inv.fdG hgj hsg
    have := block_unique (by rw [h9, hcN hsc]; omega) (by rw [h9]; omega) heq
    have := hcN hsc
    omega
  · intro hst si li sj gj hli hgj hsg heq
    rw [ht, hg sj gj hgj hsg, Int.toNat_ofNat, Int.toNat_ofNat] at heq
    have heq2 : si * (setup_parameters inv nl).nParamPerSounding + (nCondParam inv nl + li)
        = sj * (setup_parameters inv nl).nParamPerSounding
          + (nCondParam inv nl + nThickParam inv nl + countSolved inv.fdG gj) := by
      omega
    have l2 := countSolved_lt inv.fdG hgj hsg
    have := block_unique (by rw [h9, htN hst]; omega) (by rw [h9]; omega) heq2
    have := htN hst
    omega
  · intro si gi hgi hsg
    rw [hg si gi hgi hsg]
    positivity

/-! ### The bounded parameter change -/

/-- Under well-formed bounds no execution of `parameter_change` is faulty. -/
theorem parameter_change_no_fault (inv : cSBSInverter K) (hL : LayoutFacts inv)
    (hwf : BoundsWellFormed inv) : parameter_change_fault inv = false := by
  unfold parameter_change_fault
  have h1 : (inv.fdC.bound && !solve_conductivity inv) = false := by
    by_cases hb : inv.fdC.bound = true
    · simp [solve_conductivity, hwf.1 hb]
    · simp [hb]
  have h2 : (inv.fdT.bound && !solve_thickness inv) = false := by
    by_cases hb : inv.fdT.bound = true
    · simp [solve_thickness, hwf.2.1 hb]
    · simp [hb]
  have h3 : (List.range inv.geomSize).any
      (fun i => (inv.fdG i).bound && decide (gindex inv 0 i < 0)) = false := by
    rw [List.any_eq_false]
    intro i hi
    have hi2 : i < inv.geomSize := List.mem_range.mp hi
    by_cases hb : (inv.fdG i).bound = true
    · have := hL.2.2.2.2.2.2 0 i hi2 (hwf.2.2 i hi2 hb)
      simp [hb]
      exact this
    · simp [hb]
  rw [h1, h2, h3]
  simp

/-- Two nested loops of guarded single-entry writes at pairwise distinct positions: every
guarded position receives its write applied to the initial value, every other position
keeps its initial value. -/
theorem nested_writes (n1 n2 : ℕ) (idx : ℕ → ℕ → ℕ) (guard : ℕ → ℕ → Bool)
    (body : ℕ → ℕ → Vec K → Vec K) (val : ℕ → ℕ → K → K)
    (hbody : ∀ si li dm q, body si li dm q
      = if guard si li = true ∧ q = idx si li then val si li (dm q) else dm q)
    (hinj : ∀ si li sj lj, si < n1 → li < n2 → sj < n1 → lj < n2 →
      guard si li = true → guard sj lj = true → idx si li = idx sj lj → si = sj ∧ li = lj)
    (dm0 : Vec K) :
    (∀ si li, si < n1 → li < n2 → guard si li = true →
      forLoop n1 (fun si dm => forLoop n2 (fun li dm => body si li dm) dm) dm0 (idx si li)
        = val si li (dm0 (idx si li))) ∧
    (∀ q, (∀ si li, si < n1 → li < n2 → guard si li = true → q ≠ idx si li) →
      forLoop n1 (fun si dm => forLoop n2 (fun li dm => body si li dm) dm) dm0 q = dm0 q) := by
  have hinv := forLoop_invariant
    (fun k (r : Vec K) =>
      (∀ si li, si < k → li < n2 → guard si li = true →
        r (idx si li) = val si li (dm0 (idx si li))) ∧
      (∀ q, (∀ si li, si < k → li < n2 → guard si li = true → q ≠ idx si li) → r q = dm0 q))
    n1 (fun si dm => forLoop n2 (fun li dm => body si li dm) dm) dm0
    ⟨fun si li h => absurd h (Nat.not_lt_zero si), fun q _ => rfl⟩ ?_
  · exact hinv
  · intro k r hk hr
    have hin := forLoop_invariant
      (fun j (t : Vec K) =>
        (∀ si li, (si < k ∨ (si = k ∧ li < j)) → li < n2 → guard si li = true →
          t (idx si li) = val si li (dm0 (idx si li))) ∧
        (∀ q, (∀ si li, (si < k ∨ (si = k ∧ li < j)) → li < n2 → guard si li = true →
          q ≠ idx si li) → t q = dm0 q))
      n2 (fun li dm => body k li dm) r
      ⟨fun si li h hli hg => by
          rcases h with h | ⟨_, h⟩
          · exact hr.1 si li h hli hg
          · exact absurd h (Nat.not_lt_zero li),
        fun q hq => hr.2 q (fun si li hsi hli hg => hq si li (Or.inl hsi) hli hg)⟩ ?_
    · refine ⟨?_, ?_⟩
      · intro si li hsi hli hg
        rcases Nat.lt_succ_iff_lt_or_eq.mp hsi with h | h
        · exact hin.1 si li (Or.inl h) hli hg
        · exact hin.1 si li (Or.inr ⟨h, hli⟩) hli hg
      · intro q hq
        refine hin.2 q ?_
        intro si li h hli hg
        rcases h with h | ⟨h, _⟩
        · exact hq si li (Nat.lt_succ_of_lt h) hli hg
        · exact hq si li (by rw [h]; exact Nat.lt_succ_self k) hli hg
    · intro j t hj ht
      have hproc : ∀ si li, (si < k ∨ (si = k ∧ li < j)) → li < n2 → guard si li = true →
          guard k j = true → idx si li ≠ idx k j := by
        intro si li h hli hg hgk heq
        have hsi : si < n1 := by
          rcases h with h | ⟨h, _⟩
          · exact lt_trans h hk
          · rw [h]; exact hk
        obtain ⟨e1, e2⟩ := hinj si li k j hsi hli hk hj hg hgk heq
        rcases h with h | ⟨_, h⟩
        · omega
        · omega
      refine ⟨?_, ?_⟩
      · intro si li h hli hg
        show body k j t (idx si li) = _
        rw [hbody]
        by_cases hcur : si = k ∧ li = j
        · obtain ⟨rfl, rfl⟩ := hcur
          rw [if_pos ⟨hg, rfl⟩]
          congr 1
          exact ht.2 _ (fun sj lj h2 hlj hg2 => (hproc sj lj h2 hlj hg2 hg).symm)
        · have hprev : si < k ∨ (si = k ∧ li < j) := by
            rcases h with h | ⟨h1, h2⟩
            · exact Or.inl h
            · refine Or.inr ⟨h1, ?_⟩
              rcases Nat.lt_succ_iff_lt_or_eq.mp h2 with h3 | h3
              · exact h3
              · exact absurd ⟨h1, h3⟩ hcur
          rw [if_neg]
          · exact ht.1 si li hprev hli hg
          · rintro ⟨hgk, heq⟩
            exact hproc si li hprev hli hg hgk heq
      · intro q hq
        show body k j t q = _
        rw [hbody, if_neg]
        · exact ht.2 q (fun si li h hli hg => hq si li (by
            rcases h with h | ⟨h1, h2⟩
            · exact Or.inl h
            · exact Or.inr ⟨h1, Nat.lt_succ_of_lt h2⟩) hli hg)
        · rintro ⟨hgk, heq⟩
          exact hq k j (Or.inr ⟨rfl, Nat.lt_succ_self j⟩) hj hgk heq

section ParameterChange

variable [LinearOrderedField K]

theorem clipWrite_apply (p : ℕ) (lo hi : K) (m_new m_old dm : Vec K) (q : ℕ) :
    clipWrite p lo hi m_new m_old dm q
      = if q = p then clipStep lo hi (m_new p) (m_old p) (dm q) else dm q := by
  unfold clipWrite clipStep
  by_cases hq : q = p
  · subst hq
    rw [if_pos rfl]
    split_ifs <;> simp
  · rw [if_neg hq]
    split_ifs <;> simp [Function.update_noteq hq]

theorem clipStep_eq_clip {lo hi : K} (h : lo ≤ hi) (x mo : K) :
    clipStep lo hi x mo (x - mo) = max lo (min x hi) - mo := by
  unfold clipStep
  split_ifs with h1 h2
  · rw [max_eq_left (le_trans (min_le_left _ _) (le_of_lt h1))]
  · rw [min_eq_right (le_of_lt h2), max_eq_right h]
  · rw [min_eq_left (not_lt.mp h2), max_eq_right (not_lt.mp h1)]

theorem clippedChange_of_eq {dm : Vec K} {p : ℕ} {lo hi x mo : K} (h : lo ≤ hi)
    (hd : dm p = clipStep lo hi x mo (x - mo)) : ClippedChange dm p lo hi x mo := by
  have e := clipStep_eq_clip h x mo
  refine ⟨hd.trans e, ?_, ?_, ?_⟩
  · intro hx
    rw [hd, e, min_eq_right (le_of_lt hx), max_eq_right h]
    ring
  · intro hx
    rw [hd, e, max_eq_left (le_trans (min_le_left _ _) (le_of_lt hx))]
    ring
  · intro h1 h2
    rw [hd, e, min_eq_left h2, max_eq_right h1]
    ring

theorem parameter_change_conductivity_spec (X : Collaborators K) (inv : cSBSInverter K)
    (hs : solve_conductivity inv = true) (hL : LayoutFacts inv) (m_new m_old dm0 : Vec K) :
    (∀ si li, si < inv.nSoundings → li < inv.nLayers →
      parameter_change_conductivity X inv m_new m_old dm0 (cindex inv si li).toNat
        = clipStep (X.log10 (vget (inv.E si).min.conductivity li))
            (X.log10 (vget (inv.E si).max.conductivity li))
            (m_new (cindex inv si li).toNat) (m_old (cindex inv si li).toNat)
            (dm0 (cindex inv si li).toNat)) ∧
    (∀ q, (∀ si li, si < inv.nSoundings → li < inv.nLayers → q ≠ (cindex inv si li).toNat) →
      parameter_change_conductivity X inv m_new m_old dm0 q = dm0 q) := by
  have h := nested_writes inv.nSoundings inv.nLayers (fun si li => (cindex inv si li).toNat)
    (fun _ _ => true)
    (fun si li dm => clipWrite (cindex inv si li).toNat
      (X.log10 (vget (inv.E si).min.conductivity li))
      (X.log10 (vget (inv.E si).max.conductivity li)) m_new m_old dm)
    (fun si li d => clipStep (X.log10 (vget (inv.E si).min.conductivity li))
      (X.log10 (vget (inv.E si).max.conductivity li))
      (m_new (cindex inv si li).toNat) (m_old (cindex inv si li).toNat) d)
    (by intro si li dm q; beta_reduce; rw [clipWrite_apply]; simp)
    (fun si li sj lj _ hli _ hlj _ _ heq => hL.1 hs si li sj lj hli hlj heq) dm0
  exact ⟨fun si li hsi hli => h.1 si li hsi hli rfl,
    fun q hq => h.2 q (fun si li hsi hli _ => hq si li hsi hli)⟩

theorem parameter_change_thickness_spec (X : Collaborators K) (inv : cSBSInverter K)
    (hs : solve_thickness inv = true) (hL : LayoutFacts inv) (m_new m_old dm0 : Vec K) :
    (∀ si li, si < inv.nSoundings → li < inv.nLayers - 1 →
      parameter_change_thickness X inv m_new m_old dm0 (tindex inv si li).toNat
        = clipStep (X.log10 (vget (inv.E si).min.thickness li))
            (X.log10 (vget (inv.E si).max.thickness li))
            (m_new (tindex inv si li).toNat) (m_old (tindex inv si li).toNat)
            (dm0 (tindex inv si li).toNat)) ∧
    (∀ q, (∀ si li, si < inv.nSoundings → li < inv.nLayers - 1 →
        q ≠ (tindex inv si li).toNat) →
      parameter_change_thickness X inv m_new m_old dm0 q = dm0 q) := by
  have h := nested_writes inv.nSoundings (inv.nLayers - 1)
    (fun si li => (tindex inv si li).toNat) (fun _ _ => true)
    (fun si li dm => clipWrite (tindex inv si li).toNat
      (X.log10 (vget (inv.E si).min.thickness li))
      (X.log10 (vget (inv.E si).max.thickness li)) m_new m_old dm)
    (fun si li d => clipStep (X.log10 (vget (inv.E si).min.thickness li))
      (X.log10 (vget (inv.E si).max.thickness li))
      (m_new (tindex inv si li).toNat) (m_old (tindex inv si li).toNat) d)
    (by intro si li dm q; beta_reduce; rw [clipWrite_apply]; simp)
    (fun si li sj lj _ hli _ hlj _ _ heq => hL.2.1 hs si li sj lj hli hlj heq) dm0
  exact ⟨fun si li hsi hli => h.1 si li hsi hli rfl,
    fun q hq => h.2 q (fun si li hsi hli _ => hq si li hsi hli)⟩

theorem parameter_change_geometry_spec (inv : cSBSInverter K) (hL : LayoutFacts inv)
    (hwf : BoundsWellFormed inv) (m_new m_old dm0 : Vec K) :
    (∀ si gi, si < inv.nSoundings → gi < inv.geomSize → (inv.fdG gi).bound = true →
      parameter_change_geometry inv m_new m_old dm0 (gindex inv si gi).toNat
        = clipStep ((inv.G si).min gi) ((inv.G si).max gi)
            (m_new (gindex inv si gi).toNat) (m_old (gindex inv si gi).toNat)
            (dm0 (gindex inv si gi).toNat)) ∧
    (∀ q, (∀ si gi, si < inv.nSoundings → gi < inv.geomSize → (inv.fdG gi).bound = true →
        q ≠ (gindex inv si gi).toNat) →
      parameter_change_geometry inv m_new m_old dm0 q = dm0 q) := by
  have h := nested_writes inv.nSoundings inv.geomSize
    (fun si gi => (gindex inv si gi).toNat) (fun _ gi => (inv.fdG gi).bound)
    (fun si gi dm =>
      if (inv.fdG gi).bound then
        clipWrite (gindex inv si gi).toNat ((inv.G si).min gi) ((inv.G si).max gi)
          m_new m_old dm
      else dm)
    (fun si gi d => clipStep ((inv.G si).min gi) ((inv.G si).max gi)
      (m_new (gindex inv si gi).toNat) (m_old (gindex inv si gi).toNat) d)
    (by
      intro si gi dm q
      beta_reduce
      by_cases hb : (inv.fdG gi).bound = true
      · rw [if_pos hb, clipWrite_apply]
        simp [hb]
      · rw [if_neg hb, if_neg (fun h => hb h.1)])
    (fun si gi sj gj _ hgi _ hgj hbi hbj heq =>
      hL.2.2.1 si gi sj gj hgi hgj (hwf.2.2 gi hgi hbi) (hwf.2.2 gj hgj hbj) heq) dm0
  exact h

/-- `parameter_change` on a valid layout with well-formed bounds: it returns a change, and
at every bounded parameter the change is the clipped one. -/
theorem parameter_change_spec (X : Collaborators K) (inv : cSBSInverter K)
    (hL : LayoutFacts inv) (hwf : BoundsWellFormed inv) (lambda : K) (m_old pred : Vec K) :
    ∃ dm, parameter_change X inv lambda m_old pred = some dm ∧
      (inv.fdC.bound = true → ∀ si li, si < inv.nSoundings → li < inv.nLayers →
        dm (cindex inv si li).toNat
          = clipStep (X.log10 (vget (inv.E si).min.conductivity li))
              (X.log10 (vget (inv.E si).max.conductivity li))
              (solve_linear_system X.pseudoInverse inv lambda m_old pred
                (cindex inv si li).toNat)
              (m_old (cindex inv si li).toNat)
              (solve_linear_system X.pseudoInverse inv lambda m_old pred
                (cindex inv si li).toNat - m_old (cindex inv si li).toNat)) ∧
      (inv.fdT.bound = true → ∀ si li, si < inv.nSoundings → li < inv.nLayers - 1 →
        dm (tindex inv si li).toNat
          = clipStep (X.log10 (vget (inv.E si).min.thickness li))
              (X.log10 (vget (inv.E si).max.thickness li))
              (solve_linear_system X.pseudoInverse inv lambda m_old pred
                (tindex inv si li).toNat)
              (m_old (tindex inv si li).toNat)
              (solve_linear_system X.pseudoInverse inv lambda m_old pred
                (tindex inv si li).toNat - m_old (tindex inv si li).toNat)) ∧
      (∀ si gi, si < inv.nSoundings → gi < inv.geomSize → (inv.fdG gi).bound = true →
        dm (gindex inv si gi).toNat
          = clipStep ((inv.G si).min gi) ((inv.G si).max gi)
              (solve_linear_system X.pseudoInverse inv lambda m_old pred
                (gindex inv si gi).toNat)
              (m_old (gindex inv si gi).toNat)
              (solve_linear_system X.pseudoInverse inv lambda m_old pred
                (gindex inv si gi).toNat - m_old (gindex inv si gi).toNat)) := by
  unfold parameter_change
  simp only [parameter_change_no_fault inv hL hwf]
  refine ⟨_, rfl, ?_, ?_, ?_⟩
  all_goals
    generalize solve_linear_system X.pseudoInverse inv lambda m_old pred = m_new
  · intro hbC si li hsi hli
    have hsC : solve_conductivity inv = true := hwf.1 hbC
    obtain ⟨g1, g2⟩ := parameter_change_geometry_spec inv hL hwf m_new m_old
      (if inv.fdT.bound = true then
        parameter_change_thickness X inv m_new m_old
          (if inv.fdC.bound = true then
            parameter_change_conductivity X inv m_new m_old (Vec.sub m_new m_old)
          else Vec.sub m_new m_old)
      else
        (if inv.fdC.bound = true then
          parameter_change_conductivity X inv m_new m_old (Vec.sub m_new m_old)
        else Vec.sub m_new m_old))
    rw [g2 _ (fun sj gj _ hgj hbj => hL.2.2.2.2.1 hsC si li sj gj hli hgj
      (hwf.2.2 gj hgj hbj))]
    rw [if_pos hbC]
    obtain ⟨c1, _⟩ := parameter_change_conductivity_spec X inv hsC hL m_new m_old
      (Vec.sub m_new m_old)
    by_cases hbT : inv.fdT.bound = true
    · rw [if_pos hbT]
      have hsT : solve_thickness inv = true := hwf.2.1 hbT
      obtain ⟨_, t2⟩ := parameter_change_thickness_spec X inv hsT hL m_new m_old
        (parameter_change_conductivity X inv m_new m_old (Vec.sub m_new m_old))
      rw [t2 _ (fun sj lj _ hlj => hL.2.2.2.1 hsC hsT si li sj lj hli hlj)]
      exact c1 si li hsi hli
    · rw [if_neg hbT]
      exact c1 si li hsi hli
  · intro hbT si li hsi hli
    have hsT : solve_thickness inv = true := hwf.2.1 hbT
    obtain ⟨g1, g2⟩ := parameter_change_geometry_spec inv hL hwf m_new m_old
      (if inv.fdT.bound = true then
        parameter_change_thickness X inv m_new m_old
          (if inv.fdC.bound = true then
            parameter_change_conductivity X inv m_new m_old (Vec.sub m_new m_old)
          else Vec.sub m_new m_old)
      else
        (if inv.fdC.bound = true then
          parameter_change_conductivity X inv m_new m_old (Vec.sub m_new m_old)
        else Vec.sub m_new m_old))
    rw [g2 _ (fun sj gj _ hgj hbj => hL.2.2.2.2.2.1 hsT si li sj gj hli hgj
      (hwf.2.2 gj hgj hbj))]
    rw [if_pos hbT]
    obtain ⟨t1, _⟩ := parameter_change_thickness_spec X inv hsT hL m_new m_old
      (if inv.fdC.bound = true then
        parameter_change_conductivity X inv m_new m_old (Vec.sub m_new m_old)
      else Vec.sub m_new m_old)
    rw [t1 si li hsi hli]
    congr 1
    by_cases hbC : inv.fdC.bound = true
    · rw [if_pos hbC]
      have hsC : solve_conductivity inv = true := hwf.1 hbC
      obtain ⟨_, c2⟩ := parameter_change_conductivity_spec X inv hsC hL m_new m_old
        (Vec.sub m_new m_old)
      rw [c2 _ (fun sj lj _ hlj h => hL.2.2.2.1 hsC hsT sj lj si li hlj hli h.symm)]
      rfl
    · rw [if_neg hbC]
      rfl
  · intro si gi hsi hgi hbG
    have hsG : (inv.fdG gi).solve = true := hwf.2.2 gi hgi hbG
    obtain ⟨g1, _⟩ := parameter_change_geometry_spec inv hL hwf m_new m_old
      (if inv.fdT.bound = true then
        parameter_change_thickness X inv m_new m_old
          (if inv.fdC.bound = true then
            parameter_change_conductivity X inv m_new m_old (Vec.sub m_new m_old)
          else Vec.sub m_new m_old)
      else
        (if inv.fdC.bound = true then
          parameter_change_conductivity X inv m_new m_old (Vec.sub m_new m_old)
        else Vec.sub m_new m_old))
    rw [g1 si gi hsi hgi hbG]
    congr 1
    have hC : (if inv.fdC.bound = true then
          parameter_change_conductivity X inv m_new m_old (Vec.sub m_new m_old)
        else Vec.sub m_new m_old) (gindex inv si gi).toNat
        = Vec.sub m_new m_old (gindex inv si gi).toNat := by
      by_cases hbC : inv.fdC.bound = true
      · rw [if_pos hbC]
        have hsC : solve_conductivity inv = true := hwf.1 hbC
        obtain ⟨_, c2⟩ := parameter_change_conductivity_spec X inv hsC hL m_new m_old
          (Vec.sub m_new m_old)
        exact c2 _ (fun sj lj _ hlj h => hL.2.2.2.2.1 hsC sj lj si gi hlj hgi hsG h.symm)
      · rw [if_neg hbC]
    by_cases hbT : inv.fdT.bound = true
    · rw [if_pos hbT]
      have hsT : solve_thickness inv = true := hwf.2.1 hbT
      obtain ⟨_, t2⟩ := parameter_change_thickness_spec X inv hsT hL m_new m_old
        (if inv.fdC.bound = true then
          parameter_change_conductivity X inv m_new m_old (Vec.sub m_new m_old)
        else Vec.sub m_new m_old)
      rw [t2 _ (fun sj lj _ hlj h => hL.2.2.2.2.2.1 hsT sj lj si gi hlj hgi hsG h.symm), hC]
      rfl
    · rw [if_neg hbT, hC]
      rfl

/-- C1: on every layout produced by `setup_parameters` (at least one layer, `bound()` true
only for solved fields) `parameter_change` returns a change `dm`, and for every parameter
`p` whose field has `bound = true` and whose lower bound does not exceed the upper bound,
`dm[p] = clip(x[p], lo, hi) - m_old[p]` with `x = solve_linear_system (lambda, m_old, pred)`,
`lo`/`hi` being `log10` of the linear-space min/max for conductivity and thickness and the
raw min/max for a geometry element; so `m_old[p] + dm[p]` is `hi` when `x[p] > hi`, `lo`
when `x[p] < lo` and `x[p]` otherwise (this is `ClippedChange`). -/
theorem C1_parameter_change_clips (X : Collaborators K) (inv : cSBSInverter K) (nl : ℕ)
    (_hnl : 1 ≤ nl) (hwf : BoundsWellFormed (setup_parameters inv nl))
    (lambda : K) (m_old pred : Vec K) :
    ∃ dm, parameter_change X (setup_parameters inv nl) lambda m_old pred = some dm ∧
      (∀ si li, si < (setup_parameters inv nl).nSoundings →
        li < (setup_parameters inv nl).nLayers →
        (setup_parameters inv nl).fdC.bound = true →
        X.log10 (vget ((setup_parameters inv nl).E si).min.conductivity li)
          ≤ X.log10 (vget ((setup_parameters inv nl).E si).max.conductivity li) →
        ClippedChange dm (cindex (setup_parameters inv nl) si li).toNat
          (X.log10 (vget ((setup_parameters inv nl).E si).min.conductivity li))
          (X.log10 (vget ((setup_parameters inv nl).E si).max.conductivity li))
          (solve_linear_system X.pseudoInverse (setup_parameters inv nl) lambda m_old pred
            (cindex (setup_parameters inv nl) si li).toNat)
          (m_old (cindex (setup_parameters inv nl) si li).toNat)) ∧
      (∀ si li, si < (setup_parameters inv nl).nSoundings →
        li < (setup_parameters inv nl).nLayers - 1 →
        (setup_parameters inv nl).fdT.bound = true →
        X.log10 (vget ((setup_parameters inv nl).E si).min.thickness li)
          ≤ X.log10 (vget ((setup_parameters inv nl).E si).max.thickness li) →
        ClippedChange dm (tindex (setup_parameters inv nl) si li).toNat
          (X.log10 (vget ((setup_parameters inv nl).E si).min.thickness li))
          (X.log10 (vget ((setup_parameters inv nl).E si).max.thickness li))
          (solve_linear_system X.pseudoInverse (setup_parameters inv nl) lambda m_old pred
            (tindex (setup_parameters inv nl) si li).toNat)
          (m_old (tindex (setup_parameters inv nl) si li).toNat)) ∧
      (∀ si gi, si < (setup_parameters inv nl).nSoundings →
        gi < (setup_parameters inv nl).geomSize →
        ((setup_parameters inv nl).fdG gi).bound = true →
        ((setup_parameters inv nl).G si).min gi ≤ ((setup_parameters inv nl).G si).max gi →
        ClippedChange dm (gindex (setup_parameters inv nl) si gi).toNat
          (((setup_parameters inv nl).G si).min gi) (((setup_parameters inv nl).G si).max gi)
          (solve_linear_system X.pseudoInverse (setup_parameters inv nl) lambda m_old pred
            (gindex (setup_parameters inv nl) si gi).toNat)
          (m_old (gindex (setup_parameters inv nl) si gi).toNat)) := by
  obtain ⟨dm, hdm, hc, ht, hg⟩ := parameter_change_spec X (setup_parameters inv nl)
    (layoutFacts_setup_parameters inv nl) hwf lambda m_old pred
  refine ⟨dm, hdm, ?_, ?_, ?_⟩
  · intro si li hsi hli hb hle
    exact clippedChange_of_eq hle (hc hb si li hsi hli)
  · intro si li hsi hli hb hle
    exact clippedChange_of_eq hle (ht hb si li hsi hli)
  · intro si gi hsi hgi hb hle
    exact clippedChange_of_eq hle (hg si gi hsi hgi hb)

end ParameterChange

/-! ### The Gauss–Newton loop -/

theorem sameProblem_refl (a : cSBSInverter K) : SameProblem a a :=
  ⟨a.CIS, a.J, a.FreeGeometry, a.TerminationReason, rfl⟩

theorem sameProblem_iterate_jacobian (X : Collaborators K) {a b : cSBSInverter K}
    (h : SameProblem a b) : SameProblem (iterate_jacobian X a) b := by
  obtain ⟨c, j, f, r, rfl⟩ := h
  exact ⟨c, _, _, r, rfl⟩

theorem sameProblem_reason {a b : cSBSInverter K} (reason : String)
    (h : SameProblem a b) : SameProblem { a with TerminationReason := reason } b := by
  obtain ⟨c, j, f, r, rfl⟩ := h
  exact ⟨c, j, f, reason, rfl⟩

theorem layoutFacts_of_sameProblem {a b : cSBSInverter K} (h : SameProblem a b)
    (hb : LayoutFacts b) : LayoutFacts a := by
  obtain ⟨c, j, f, r, rfl⟩ := h
  exact hb

theorem boundsWellFormed_of_sameProblem {a b : cSBSInverter K} (h : SameProblem a b)
    (hb : BoundsWellFormed b) : BoundsWellFormed a := by
  obtain ⟨c, j, f, r, rfl⟩ := h
  exact hb

section Iterate

variable [LinearOrderedField K]

theorem clipStep_range {lo hi : K} (h : lo ≤ hi) (x mo : K) :
    lo ≤ mo + clipStep lo hi x mo (x - mo) ∧ mo + clipStep lo hi x mo (x - mo) ≤ hi := by
  unfold clipStep
  split_ifs with h1 h2
  · constructor <;> linarith
  · constructor <;> linarith
  · have := not_lt.mp h1
    have := not_lt.mp h2
    constructor <;> linarith

/-- A shortened step towards a point of an interval stays in the interval. -/
theorem shortened_step_range {lo hi p0 d sf : K} (hp : lo ≤ p0 ∧ p0 ≤ hi)
    (hc : lo ≤ p0 + d ∧ p0 + d ≤ hi) (hsf : 0 < sf ∧ sf ≤ 1) :
    lo ≤ p0 + sf * d ∧ p0 + sf * d ≤ hi := by
  have e1 : p0 + sf * d - lo = (1 - sf) * (p0 - lo) + sf * (p0 + d - lo) := by ring
  have e2 : hi - (p0 + sf * d) = (1 - sf) * (hi - p0) + sf * (hi - (p0 + d)) := by ring
  have hs1 : 0 ≤ 1 - sf := by linarith [hsf.2]
  have hs0 : 0 ≤ sf := le_of_lt hsf.1
  constructor
  · have : 0 ≤ p0 + sf * d - lo := by
      rw [e1]
      exact add_nonneg (mul_nonneg hs1 (by linarith [hp.1])) (mul_nonneg hs0 (by linarith [hc.1]))
    linarith
  · have : 0 ≤ hi - (p0 + sf * d) := by
      rw [e2]
      exact add_nonneg (mul_nonneg hs1 (by linarith [hp.2])) (mul_nonneg hs0 (by linarith [hc.2]))
    linarith

/-- The trial model stays inside the bounds when the current model is inside them. -/
theorem trial_inBounds (X : Collaborators K) (inv : cSBSInverter K) (hL : LayoutFacts inv)
    (hwf : BoundsWellFormed inv) (hord : BoundsOrdered X inv) (param : Vec K)
    (hin : InBounds X inv param) (lambda : K) (pred : Vec K) (sf : K)
    (hsf : 0 < sf ∧ sf ≤ 1) (dm : Vec K)
    (hdm : parameter_change X inv lambda param pred = some dm) :
    InBounds X inv (Vec.add param (Vec.smul sf dm)) := by
  obtain ⟨dm2, hdm2, hc, ht, hg⟩ := parameter_change_spec X inv hL hwf lambda param pred
  have e : dm2 = dm := Option.some.inj (hdm2.symm.trans hdm)
  subst e
  refine ⟨?_, ?_, ?_⟩
  · intro hb si li hsi hli
    unfold Vec.add Vec.smul
    refine shortened_step_range (hin.1 hb si li hsi hli) ?_ hsf
    rw [hc hb si li hsi hli]
    exact clipStep_range (hord.1 hb si li hsi hli) _ _
  · intro hb si li hsi hli
    unfold Vec.add Vec.smul
    refine shortened_step_range (hin.2.1 hb si li hsi hli) ?_ hsf
    rw [ht hb si li hsi hli]
    exact clipStep_range (hord.2.1 hb si li hsi hli) _ _
  · intro si gi hsi hgi hb
    unfold Vec.add Vec.smul
    refine shortened_step_range (hin.2.2 si gi hsi hgi hb) ?_ hsf
    rw [hg si gi hsi hgi hb]
    exact clipStep_range (hord.2.2 si gi hsi hgi hb) _ _

theorem sameProblem_iterate_begin (X : Collaborators K) (a : cSBSInverter K) :
    SameProblem (iterate_begin X a).inv a :=
  ⟨_, a.J, a.FreeGeometry, _, rfl⟩

theorem sameProblem_iterate_accept {a b : cSBSInverter K} (tr : cTrialModel K)
    (h : SameProblem a b) : SameProblem (iterate_accept a tr) b := by
  obtain ⟨c, j, f, r, rfl⟩ := h
  exact ⟨_, j, f, r, rfl⟩

theorem sameProblem_iterate_pass (X : Collaborators K) {s s2 : IterateLoop K}
    {b : cSBSInverter K} (h : SameProblem s.inv b) (hp : iterate_pass X s = some s2) :
    SameProblem s2.inv b := by
  unfold iterate_pass at hp
  split_ifs at hp with h1 h2 h3
  · rw [← Option.some.inj hp]; exact sameProblem_reason _ h
  · rw [← Option.some.inj hp]; exact sameProblem_reason _ h
  · rw [← Option.some.inj hp]; exact sameProblem_reason _ h
  · cases htr : iterate_trial X s.inv with
    | none => rw [htr] at hp; exact absurd hp (by simp)
    | some tr =>
      rw [htr] at hp
      simp only [] at hp
      split_ifs at hp with h4
      · rw [← Option.some.inj hp]
        exact sameProblem_iterate_accept tr (sameProblem_iterate_jacobian X h)
      · rw [← Option.some.inj hp]
        exact sameProblem_iterate_jacobian X h

theorem boundsOrdered_of_sameProblem (X : Collaborators K) {a b : cSBSInverter K}
    (h : SameProblem a b) (hb : BoundsOrdered X b) : BoundsOrdered X a := by
  obtain ⟨c, j, f, r, rfl⟩ := h
  exact hb

theorem inBounds_sameProblem (X : Collaborators K) {a b : cSBSInverter K}
    (h : SameProblem a b) (m : Vec K) : InBounds X a m ↔ InBounds X b m := by
  obtain ⟨c, j, f, r, rfl⟩ := h
  exact Iff.rfl

/-- A trial formed from a state of the problem `b` whose model is inside the bounds is
inside the bounds. -/
theorem iterate_trial_inBounds (X : Collaborators K) {a b : cSBSInverter K}
    (h : SameProblem a b) (hL : LayoutFacts b) (hwf : BoundsWellFormed b)
    (hord : BoundsOrdered X b)
    (hstep : ∀ (c : cSBSInverter K) (lam target : K),
      0 < (X.lambda_search_target c lam target).stepfactor ∧
      (X.lambda_search_target c lam target).stepfactor ≤ 1)
    (hin : InBounds X b a.CIS.param) {tr : cTrialModel K}
    (htr : iterate_trial X a = some tr) : InBounds X b tr.m := by
  have h1 : SameProblem (iterate_jacobian X a) b := sameProblem_iterate_jacobian X h
  unfold iterate_trial at htr
  simp only [] at htr
  cases hpc : parameter_change X (iterate_jacobian X a)
      (X.lambda_search_target (iterate_jacobian X a) (iterate_jacobian X a).CIS.lambda
        (max ((iterate_jacobian X a).CIS.phid * (7 / 10))
          (iterate_jacobian X a).MinimumPhiD)).lambda
      (iterate_jacobian X a).CIS.param (iterate_jacobian X a).CIS.pred with
  | none => rw [hpc] at htr; exact absurd htr (by simp)
  | some dm =>
    rw [hpc] at htr
    have e := Option.some.inj htr
    rw [← e]
    have hin1 : InBounds X (iterate_jacobian X a) (iterate_jacobian X a).CIS.param :=
      (inBounds_sameProblem X h1 _).mpr hin
    exact (inBounds_sameProblem X h1 _).mp
      (trial_inBounds X (iterate_jacobian X a) (layoutFacts_of_sameProblem h1 hL)
        (boundsWellFormed_of_sameProblem h1 hwf) (boundsOrdered_of_sameProblem X h1 hord)
        _ hin1 _ _ _ (hstep _ _ _) dm hpc)

/-- A pass of the loop keeps the stored model inside the bounds. -/
theorem iterate_pass_inBounds (X : Collaborators K) {s s2 : IterateLoop K}
    {b : cSBSInverter K} (h : SameProblem s.inv b) (hL : LayoutFacts b)
    (hwf : BoundsWellFormed b) (hord : BoundsOrdered X b)
    (hstep : ∀ (c : cSBSInverter K) (lam target : K),
      0 < (X.lambda_search_target c lam target).stepfactor ∧
      (X.lambda_search_target c lam target).stepfactor ≤ 1)
    (hin : InBounds X b s.inv.CIS.param) (hp : iterate_pass X s = some s2) :
    InBounds X b s2.inv.CIS.param := by
  unfold iterate_pass at hp
  split_ifs at hp with h1 h2 h3
  · rw [← Option.some.inj hp]; exact hin
  · rw [← Option.some.inj hp]; exact hin
  · rw [← Option.some.inj hp]; exact hin
  · cases htr : iterate_trial X s.inv with
    | none => rw [htr] at hp; exact absurd hp (by simp)
    | some tr =>
      rw [htr] at hp
      simp only [] at hp
      split_ifs at hp with h4
      · rw [← Option.some.inj hp]
        exact iterate_trial_inBounds X h hL hwf hord hstep hin htr
      · rw [← Option.some.inj hp]
        exact hin

/-- Every state the loop reaches is a state of the same problem with its model inside the
bounds. -/
theorem iterate_loop_inBounds (X : Collaborators K) (b : cSBSInverter K)
    (hL : LayoutFacts b) (hwf : BoundsWellFormed b) (hord : BoundsOrdered X b)
    (hstep : ∀ (c : cSBSInverter K) (lam target : K),
      0 < (X.lambda_search_target c lam target).stepfactor ∧
      (X.lambda_search_target c lam target).stepfactor ≤ 1) :
    ∀ (fuel : ℕ) (s st : IterateLoop K), SameProblem s.inv b →
      InBounds X b s.inv.CIS.param → iterate_loop X fuel s = some st →
      SameProblem st.inv b ∧ InBounds X b st.inv.CIS.param := by
  intro fuel
  induction fuel with
  | zero =>
    intro s st h hin hl
    rw [← Option.some.inj hl]
    exact ⟨h, hin⟩
  | succ n ih =>
    intro s st h hin hl
    unfold iterate_loop at hl
    split_ifs at hl with hk
    · cases hp : iterate_pass X s with
      | none => rw [hp] at hl; exact absurd hl (by simp)
      | some s2 =>
        rw [hp] at hl
        exact ih s2 st (sameProblem_iterate_pass X h hp)
          (iterate_pass_inBounds X h hL hwf hord hstep hin hp) hl
    · rw [← Option.some.inj hl]
      exact ⟨h, hin⟩

/-- C2: on a layout produced by `setup_parameters`, if every bounded parameter has lower
bound ≤ upper bound, the starting model `m0 = RefParam` lies within the bounds and every
step factor returned by the lambda search lies in `(0, 1]`, then every parameter vector
stored in the iteration state, every trial model `m = m_old + stepfactor * dm` formed from
such a state, and the parameter vector of the result of `iterate` have each bounded
parameter inside `[m_min, m_max]`. -/
theorem C2_bounds_never_violated (X : Collaborators K) (inv : cSBSInverter K) (nl : ℕ)
    (_hnl : 1 ≤ nl) (hwf : BoundsWellFormed (setup_parameters inv nl))
    (hord : BoundsOrdered X (setup_parameters inv nl))
    (hm0 : InBounds X (setup_parameters inv nl) (setup_parameters inv nl).RefParam)
    (hstep : ∀ (c : cSBSInverter K) (lam target : K),
      0 < (X.lambda_search_target c lam target).stepfactor ∧
      (X.lambda_search_target c lam target).stepfactor ≤ 1) :
    (∀ (fuel : ℕ) (st : IterateLoop K),
      iterate_loop X fuel (iterate_begin X (setup_parameters inv nl)) = some st →
      InBounds X (setup_parameters inv nl) st.inv.CIS.param ∧
      ∀ tr, iterate_trial X st.inv = some tr → InBounds X (setup_parameters inv nl) tr.m) ∧
    (∀ (fuel : ℕ) (r : cSBSInverter K),
      iterate X fuel (setup_parameters inv nl) = some r →
      InBounds X (setup_parameters inv nl) r.CIS.param) := by
  have hL := layoutFacts_setup_parameters inv nl
  have hreach : ∀ (fuel : ℕ) (st : IterateLoop K),
      iterate_loop X fuel (iterate_begin X (setup_parameters inv nl)) = some st →
      SameProblem st.inv (setup_parameters inv nl) ∧
      InBounds X (setup_parameters inv nl) st.inv.CIS.param := by
    intro fuel st hl
    exact iterate_loop_inBounds X _ hL hwf hord hstep fuel _ st
      (sameProblem_iterate_begin X _) hm0 hl
  refine ⟨?_, ?_⟩
  · intro fuel st hl
    obtain ⟨hs, hin⟩ := hreach fuel st hl
    exact ⟨hin, fun tr htr => iterate_trial_inBounds X hs hL hwf hord hstep hin htr⟩
  · intro fuel r hr
    unfold iterate at hr
    cases hl : iterate_loop X fuel (iterate_begin X (setup_parameters inv nl)) with
    | none => rw [hl] at hr; exact absurd hr (by simp)
    | some st =>
      rw [hl] at hr
      simp only [] at hr
      split_ifs at hr with hk
      rw [← Option.some.inj hr]
      exact (hreach fuel st hl).2

/-- What a pass that forms the trial `tr` returns. -/
theorem iterate_pass_of_trial (X : Collaborators K) (s : IterateLoop K) (tr : cTrialModel K)
    (h1 : ¬ s.inv.CIS.iteration ≥ s.inv.MaxIterations)
    (h2 : ¬ s.inv.CIS.phid ≤ s.inv.MinimumPhiD)
    (h3 : ¬ (s.inv.CIS.iteration > 4 ∧ s.percentchange < s.inv.MinimumImprovement))
    (htr : iterate_trial X s.inv = some tr) :
    iterate_pass X s
      = some (if tr.phid ≤ s.inv.CIS.phid then
          { inv := iterate_accept (iterate_jacobian X s.inv) tr
            percentchange := 100 * (s.inv.CIS.phid - tr.phid) / s.inv.CIS.phid
            keepiterating := s.keepiterating }
        else
          { inv := iterate_jacobian X s.inv
            percentchange := 100 * (s.inv.CIS.phid - tr.phid) / s.inv.CIS.phid
            keepiterating := s.keepiterating }) := by
  unfold iterate_pass
  rw [if_neg h1, if_neg h2, if_neg h3, htr]
  simp only []
  split_ifs <;> rfl

/-- A pass of the loop never increases the stored `phid`. -/
theorem iterate_pass_phid_le (X : Collaborators K) {s s2 : IterateLoop K}
    (hp : iterate_pass X s = some s2) : s2.inv.CIS.phid ≤ s.inv.CIS.phid := by
  unfold iterate_pass at hp
  split_ifs at hp with h1 h2 h3
  · rw [← Option.some.inj hp]
  · rw [← Option.some.inj hp]
  · rw [← Option.some.inj hp]
  · cases htr : iterate_trial X s.inv with
    | none => rw [htr] at hp; exact absurd hp (by simp)
    | some tr =>
      rw [htr] at hp
      simp only [] at hp
      split_ifs at hp with h4
      · rw [← Option.some.inj hp]
        exact h4
      · rw [← Option.some.inj hp]
        exact le_refl _

theorem iterate_loop_phid_le (X : Collaborators K) :
    ∀ (fuel : ℕ) (s st : IterateLoop K), iterate_loop X fuel s = some st →
      st.inv.CIS.phid ≤ s.inv.CIS.phid := by
  intro fuel
  induction fuel with
  | zero =>
    intro s st hl
    rw [← Option.some.inj hl]
  | succ n ih =>
    intro s st hl
    unfold iterate_loop at hl
    split_ifs at hl with hk
    · cases hp : iterate_pass X s with
      | none => rw [hp] at hl; exact absurd hl (by simp)
      | some s2 =>
        rw [hp] at hl
        exact le_trans (ih s2 st hl) (iterate_pass_phid_le X hp)
    · rw [← Option.some.inj hl]

/-- C6: a pass of the loop of `iterate` that forms a trial accepts it if and only if its
PhiD does not exceed the current PhiD; on acceptance the iteration counter increases by
exactly one and `param`, `pred`, `phid`, `targetphid` and `lambda` are replaced by the
values of the trial, on rejection the iteration state is unchanged.  Consequently the stored
`phid` never increases from one pass to the next, over any number of passes, and the final
`phid` is at most the starting `phid`. -/
theorem C6_accept_iff_not_worse (X : Collaborators K) :
    (∀ (s : IterateLoop K) (tr : cTrialModel K),
      ¬ s.inv.CIS.iteration ≥ s.inv.MaxIterations →
      ¬ s.inv.CIS.phid ≤ s.inv.MinimumPhiD →
      ¬ (s.inv.CIS.iteration > 4 ∧ s.percentchange < s.inv.MinimumImprovement) →
      iterate_trial X s.inv = some tr →
      ∃ s2, iterate_pass X s = some s2 ∧
        (s2.inv.CIS.iteration = s.inv.CIS.iteration + 1 ↔ tr.phid ≤ s.inv.CIS.phid) ∧
        (tr.phid ≤ s.inv.CIS.phid →
          s2.inv.CIS.iteration = s.inv.CIS.iteration + 1 ∧ s2.inv.CIS.param = tr.m ∧
          s2.inv.CIS.pred = tr.g ∧ s2.inv.CIS.phid = tr.phid ∧
          s2.inv.CIS.targetphid = tr.targetphid ∧ s2.inv.CIS.lambda = tr.lambda) ∧
        (¬ tr.phid ≤ s.inv.CIS.phid → s2.inv.CIS = s.inv.CIS)) ∧
    (∀ (s s2 : IterateLoop K), iterate_pass X s = some s2 →
      s2.inv.CIS.phid ≤ s.inv.CIS.phid) ∧
    (∀ (fuel : ℕ) (s st : IterateLoop K), iterate_loop X fuel s = some st →
      st.inv.CIS.phid ≤ s.inv.CIS.phid) ∧
    (∀ (fuel : ℕ) (inv r : cSBSInverter K), iterate X fuel inv = some r →
      r.CIS.phid ≤ (iterate_begin X inv).inv.CIS.phid) := by
  refine ⟨?_, fun s s2 hp => iterate_pass_phid_le X hp, iterate_loop_phid_le X, ?_⟩
  · intro s tr h1 h2 h3 htr
    refine ⟨_, iterate_pass_of_trial X s tr h1 h2 h3 htr, ?_, ?_, ?_⟩
    · by_cases h4 : tr.phid ≤ s.inv.CIS.phid
      · rw [if_pos h4]
        exact ⟨fun _ => h4, fun _ => rfl⟩
      · rw [if_neg h4]
        refine ⟨fun h => ?_, fun h => absurd h h4⟩
        have h5 : s.inv.CIS.iteration = s.inv.CIS.iteration + 1 := h
        omega
    · intro h4
      rw [if_pos h4]
      exact ⟨rfl, rfl, rfl, rfl, rfl, rfl⟩
    · intro h4
      rw [if_neg h4]
      rfl
  · intro fuel inv r hr
    unfold iterate at hr
    cases hl : iterate_loop X fuel (iterate_begin X inv) with
    | none => rw [hl] at hr; exact absurd hr (by simp)
    | some st =>
      rw [hl] at hr
      simp only [] at hr
      split_ifs at hr with hk
      rw [← Option.some.inj hr]
      exact iterate_loop_phid_le X fuel _ st hl

/-- A pass of the loop of `iterate` that rejects its trial leaves the iteration state
unchanged (the best iterate so far is kept), does not stop the loop and sets no termination
reason; when more than 4 iterations have been accepted and the percentage change of the
rejected trial is below `MinimumImprovement`, the next pass stops the loop with
`TerminationReason = "Small % improvement"` and the kept iterate is the model `iterate`
ends with. -/
theorem rejected_trial_pass (X : Collaborators K) (s : IterateLoop K) (tr : cTrialModel K)
    (h1 : ¬ s.inv.CIS.iteration ≥ s.inv.MaxIterations)
    (h2 : ¬ s.inv.CIS.phid ≤ s.inv.MinimumPhiD)
    (h3 : ¬ (s.inv.CIS.iteration > 4 ∧ s.percentchange < s.inv.MinimumImprovement))
    (htr : iterate_trial X s.inv = some tr) (hrej : ¬ tr.phid ≤ s.inv.CIS.phid) :
    ∃ s1, iterate_pass X s = some s1 ∧ s1.inv.CIS = s.inv.CIS ∧
      s1.keepiterating = s.keepiterating ∧
      s1.inv.TerminationReason = s.inv.TerminationReason ∧
      s1.percentchange = 100 * (s.inv.CIS.phid - tr.phid) / s.inv.CIS.phid ∧
      (4 < s.inv.CIS.iteration → s1.percentchange < s.inv.MinimumImprovement →
        ∃ s2, iterate_pass X s1 = some s2 ∧ s2.keepiterating = false ∧
          s2.inv.TerminationReason = "Small % improvement" ∧ s2.inv.CIS = s.inv.CIS ∧
          (iterate_end X s2.inv).CIS.param = s.inv.CIS.param) := by
  refine ⟨_, iterate_pass_of_trial X s tr h1 h2 h3 htr, ?_, ?_, ?_, ?_, ?_⟩
  · rw [if_neg hrej]; rfl
  · rw [if_neg hrej]
  · rw [if_neg hrej]; rfl
  · rw [if_neg hrej]
  · rw [if_neg hrej]
    intro h4 h5
    refine ⟨{ inv := { iterate_jacobian X s.inv with
                       TerminationReason := "Small % improvement" }
              percentchange := 100 * (s.inv.CIS.phid - tr.phid) / s.inv.CIS.phid
              keepiterating := false }, ?_, rfl, rfl, rfl, rfl⟩
    unfold iterate_pass
    rw [if_neg (show ¬ (iterate_jacobian X s.inv).CIS.iteration
        ≥ (iterate_jacobian X s.inv).MaxIterations from h1),
      if_neg (show ¬ (iterate_jacobian X s.inv).CIS.phid
        ≤ (iterate_jacobian X s.inv).MinimumPhiD from h2),
      if_pos (show (iterate_jacobian X s.inv).CIS.iteration > 4 ∧
        100 * (s.inv.CIS.phid - tr.phid) / s.inv.CIS.phid
          < (iterate_jacobian X s.inv).MinimumImprovement from ⟨h4, h5⟩)]

end Iterate

/-! ### The example states, witnesses and counterexamples of the Gauss–Newton part -/

theorem iterateExample_eq : iterateExample =
    { blankInverter with
      nSoundings := 1
      nLayers := 1
      nParamPerSounding := 1
      tOffset := 1
      gOffset := 1
      nParam := 1
      nData := 1
      fdC := { solve := true, bound := false, offset := 0 }
      MaxIterations := 10
      MinimumPhiD := 0
      MinimumImprovement := 1
      RefParam := fun _ => 1
      RefParamStd := fun _ => 1
      Obs := fun _ => 0
      Err := fun _ => 1
      Wd := fun i j => if i = 0 ∧ j = 0 then 1 else 0 } := rfl

theorem boundExample_eq : boundExample =
    { boundExampleBase with
      nLayers := 1
      nParamPerSounding := 1
      tOffset := 1
      gOffset := 1
      nParam := 1
      fdC := { solve := true, bound := true, offset := 0 } } := rfl

theorem iterateExampleState_zero :
    iterateExampleState 0 = iterate_begin exampleCollaborators iterateExample := rfl

theorem iterateExampleState_phid (k : ℕ) : (iterateExampleState k).inv.CIS.phid = 9 / 4 := by
  simp [iterateExampleState, iterate_begin, exampleCollaborators, iterateExample_eq,
    blankInverter]
  norm_num

/-- In the example every pass forms the same trial: the full Gauss–Newton step from
`m = 1` to `m = 5/2`, whose `phid = 81/16` exceeds the current `phid = 9/4`. -/
theorem iterateExampleState_trial (k : ℕ) :
    ∃ tr, iterate_trial exampleCollaborators (iterateExampleState k).inv = some tr ∧
      tr.phid = 81 / 16 := by
  have hf : parameter_change_fault
      (iterate_jacobian exampleCollaborators (iterateExampleState k).inv) = false := by
    simp [parameter_change_fault, iterate_jacobian, iterateExampleState, iterate_begin,
      iterateExample_eq, blankInverter, solve_conductivity, solve_thickness]
  unfold iterate_trial
  simp only [parameter_change, hf]
  refine ⟨_, rfl, ?_⟩
  simp [exampleCollaborators, Vec.add, Vec.smul, Vec.sub, parameter_change_geometry,
    iterate_jacobian, iterateExampleState, iterate_begin, iterateExample_eq, blankInverter,
    forLoop, solve_linear_system, solve_linear_system_V, Mat.mulVec, Mat.mul, Mat.add,
    Mat.smul, Mat.transpose, pseudoInverse1]
  norm_num

theorem iterateExampleState_guards (k : ℕ) (hk : k < 10) :
    (¬ (iterateExampleState k).inv.CIS.iteration ≥ (iterateExampleState k).inv.MaxIterations) ∧
    (¬ (iterateExampleState k).inv.CIS.phid ≤ (iterateExampleState k).inv.MinimumPhiD) ∧
    (¬ ((iterateExampleState k).inv.CIS.iteration > 4 ∧
      (iterateExampleState k).percentchange
        < (iterateExampleState k).inv.MinimumImprovement)) := by
  have e1 : (iterateExampleState k).inv.CIS.iteration = k := rfl
  have e2 : (iterateExampleState k).inv.MaxIterations = 10 := rfl
  have e3 : (iterateExampleState k).inv.MinimumPhiD = 0 := rfl
  have e4 : (iterateExampleState k).percentchange = 100 := rfl
  have e5 : (iterateExampleState k).inv.MinimumImprovement = 1 := rfl
  rw [iterateExampleState_phid, e1, e2, e3, e4, e5]
  refine ⟨by omega, by norm_num, ?_⟩
  rintro ⟨_, h⟩
  norm_num at h

/-- In the example, with five accepted iterations on the counter, the rejected trial is
followed by the stop `"Small % improvement"`. -/
theorem rejected_trial_pass_example :
    ∃ s1 s2,
      iterate_pass exampleCollaborators (iterateExampleState 5) = some s1 ∧
      s1.inv.CIS = (iterateExampleState 5).inv.CIS ∧
      iterate_pass exampleCollaborators s1 = some s2 ∧
      s2.inv.TerminationReason = "Small % improvement" := by
  obtain ⟨tr, htr, hphid⟩ := iterateExampleState_trial 5
  obtain ⟨h1, h2, h3⟩ := iterateExampleState_guards 5 (by decide)
  have hrej : ¬ tr.phid ≤ (iterateExampleState 5).inv.CIS.phid := by
    rw [hphid, iterateExampleState_phid]
    norm_num
  obtain ⟨s1, hp1, hcis, _, _, hpc, hnext⟩ :=
    rejected_trial_pass exampleCollaborators (iterateExampleState 5) tr h1 h2 h3 htr hrej
  obtain ⟨s2, hp2, _, hreason, _, _⟩ := hnext (by decide) (by
    rw [hpc, hphid, iterateExampleState_phid]
    have e5 : (iterateExampleState 5).inv.MinimumImprovement = 1 := rfl
    rw [e5]
    norm_num)
  exact ⟨s1, s2, hp1, hcis, hp2, hreason⟩

/-- Witness for C6: the first pass of the example forms a trial and does not increase
`phid`. -/
theorem C6_accept_iff_not_worse_witness :
    ∃ s2, iterate_pass exampleCollaborators (iterateExampleState 0) = some s2 ∧
      s2.inv.CIS.phid ≤ (iterateExampleState 0).inv.CIS.phid := by
  obtain ⟨tr, htr, _⟩ := iterateExampleState_trial 0
  obtain ⟨h1, h2, h3⟩ := iterateExampleState_guards 0 (by decide)
  obtain ⟨s2, hp, _⟩ :=
    (C6_accept_iff_not_worse exampleCollaborators).1 (iterateExampleState 0) tr h1 h2 h3 htr
  exact ⟨s2, hp, (C6_accept_iff_not_worse exampleCollaborators).2.1 _ _ hp⟩

theorem boundExample_wellFormed : BoundsWellFormed boundExample := by
  refine ⟨fun _ => rfl, fun h => absurd h (by decide), fun gi hgi _ => ?_⟩
  have e : boundExample.geomSize = 0 := rfl
  rw [e] at hgi
  exact absurd hgi (Nat.not_lt_zero gi)

theorem boundExample_ordered : BoundsOrdered exampleCollaborators boundExample := by
  refine ⟨fun _ si li _ hli => ?_, fun h => absurd h (by decide), fun si gi _ hgi _ => ?_⟩
  · have e : boundExample.nLayers = 1 := rfl
    rw [e] at hli
    have hl0 : li = 0 := by omega
    subst hl0
    simp [boundExample_eq, boundExampleBase, blankInverter, exampleCollaborators, vget]
    norm_num
  · have e : boundExample.geomSize = 0 := rfl
    rw [e] at hgi
    exact absurd hgi (Nat.not_lt_zero gi)

theorem boundExample_start_inBounds :
    InBounds exampleCollaborators boundExample boundExample.RefParam := by
  refine ⟨fun _ si li _ hli => ?_, fun h => absurd h (by decide), fun si gi _ hgi _ => ?_⟩
  · have e : boundExample.nLayers = 1 := rfl
    rw [e] at hli
    have hl0 : li = 0 := by omega
    subst hl0
    simp [boundExample_eq, boundExampleBase, blankInverter, exampleCollaborators, vget]
    norm_num
  · have e : boundExample.geomSize = 0 := rfl
    rw [e] at hgi
    exact absurd hgi (Nat.not_lt_zero gi)

/-- Witness for C1 on the bound-activation example. -/
theorem C1_parameter_change_clips_witness :
    (1 ≤ 1 ∧ BoundsWellFormed (setup_parameters boundExampleBase 1)) ∧
    ∃ dm, parameter_change exampleCollaborators (setup_parameters boundExampleBase 1) 1
      (fun _ => 1 / 10) (fun _ => 1 / 10) = some dm :=
  ⟨⟨le_refl 1, boundExample_wellFormed⟩,
    (C1_parameter_change_clips exampleCollaborators boundExampleBase 1 (le_refl 1)
      boundExample_wellFormed 1 (fun _ => 1 / 10) (fun _ => 1 / 10)).imp (fun _ h => h.1)⟩

/-- Witness for C2 on the bound-activation example: the starting state of the loop is
inside the bounds. -/
theorem C2_bounds_never_violated_witness :
    (1 ≤ 1 ∧ BoundsOrdered exampleCollaborators (setup_parameters boundExampleBase 1)) ∧
    InBounds exampleCollaborators (setup_parameters boundExampleBase 1)
      (iterate_begin exampleCollaborators (setup_parameters boundExampleBase 1)).inv.CIS.param :=
  ⟨⟨le_refl 1, boundExample_ordered⟩,
    ((C2_bounds_never_violated exampleCollaborators boundExampleBase 1 (le_refl 1)
      boundExample_wellFormed boundExample_ordered boundExample_start_inBounds
      (fun _ _ _ => ⟨by simp [exampleCollaborators], by simp [exampleCollaborators]⟩)).1 0
      (iterate_begin exampleCollaborators (setup_parameters boundExampleBase 1)) rfl).1⟩

/-- Witness for C5 on the bound-activation example (L2 norm). -/
theorem C5_linear_system_witness :
    boundExample.NormType = eNormType.L2 ∧
    solve_linear_system pseudoInverse1 { boundExample with J := fun _ _ => 1 } 1 (fun _ => 0)
        (linearForward boundExample.nParam (fun _ _ => 1) (fun _ => 0) (fun _ => 0))
      = solve_linear_system pseudoInverse1 { boundExample with J := fun _ _ => 1 } 1
        (fun _ => 1)
        (linearForward boundExample.nParam (fun _ _ => 1) (fun _ => 0) (fun _ => 1)) :=
  ⟨rfl, (C5_linear_system pseudoInverse1 boundExample rfl 1).2.2 (fun _ _ => 1) (fun _ => 0)
    (fun _ => 0) (fun _ => 1)⟩

/-! ### The diagonal of `Wc` -/

/-- A map that commutes with the body of a loop commutes with the loop. -/
theorem forLoop_map {σ τ : Type} (f : σ → τ) (n : ℕ) (body : ℕ → σ → σ) (body2 : ℕ → τ → τ)
    (h : ∀ i s, f (body i s) = body2 i (f s)) (s : σ) :
    f (forLoop n body s) = forLoop n body2 (f s) := by
  induction n with
  | zero => rfl
  | succ k ih => rw [forLoop_succ, forLoop_succ, h, ih]

/-- A loop that writes entry `i` of a vector in pass `i`. -/
theorem forLoop_update (n : ℕ) (f : ℕ → K) (v0 : Vec K) (j : ℕ) :
    forLoop n (fun i v => Function.update v i (f i)) v0 j = if j < n then f j else v0 j := by
  induction n with
  | zero => simp [forLoop]
  | succ k ih =>
    rw [forLoop_succ]
    by_cases hj : j = k
    · subst hj; simp
    · rw [Function.update_noteq hj, ih]
      by_cases h1 : j < k
      · rw [if_pos h1, if_pos (by omega)]
      · rw [if_neg h1, if_neg (by omega)]

/-- Two nested loops that write the diagonal entries `idx si li`, all different, leave the
value of the write at each of them. -/
theorem nested_diag_writes (n1 n2 : ℕ) (idx : ℕ → ℕ → ℕ) (val : ℕ → ℕ → K)
    (hinj : ∀ si li sj lj, si < n1 → li < n2 → sj < n1 → lj < n2 →
      idx si li = idx sj lj → si = sj ∧ li = lj)
    (W0 : Mat K) (si li : ℕ) (hsi : si < n1) (hli : li < n2) :
    forLoop n1 (fun si W => forLoop n2
      (fun li W => W.set (idx si li) (idx si li) (val si li)) W) W0 (idx si li) (idx si li)
      = val si li := by
  have hmap : (fun (W : Mat K) (p : ℕ) => W p p)
      (forLoop n1 (fun si W => forLoop n2
        (fun li W => W.set (idx si li) (idx si li) (val si li)) W) W0)
      = forLoop n1 (fun si d => forLoop n2
        (fun li (d : Vec K) => fun q => if q = idx si li then val si li else d q) d)
        (fun p => W0 p p) := by
    refine forLoop_map (fun (W : Mat K) (p : ℕ) => W p p) n1 _ _ ?_ W0
    intro a W
    refine forLoop_map (fun (W : Mat K) (p : ℕ) => W p p) n2 _ _ ?_ W
    intro c W2
    funext q
    simp [Mat.set]
  have hw := (nested_writes n1 n2 idx (fun _ _ => true)
    (fun si li (d : Vec K) => fun q => if q = idx si li then val si li else d q)
    (fun si li _ => val si li)
    (by intro a c d q; simp)
    (by intro a c a2 c2 h1 h2 h3 h4 _ _ h; exact hinj a c a2 c2 h1 h2 h3 h4 h)
    (fun p => W0 p p)).1 si li hsi hli rfl
  have := congrFun hmap (idx si li)
  simp only [] at this
  rw [this]
  exact hw

section WcDiagonal

variable [LinearOrderedField K]

/-- The accumulation `tsum += t[li]` is the sum of the entries. -/
theorem forLoop_sum (n : ℕ) (t : Vec K) :
    forLoop n (fun li acc => acc + t li) (0 : K) = ∑ li ∈ Finset.range n, t li := by
  induction n with
  | zero => simp [forLoop]
  | succ k ih => rw [forLoop_succ, ih, Finset.sum_range_succ]

/-- The local vector `t` of `initialise_Wc` is the extended thickness vector of the spec. -/
theorem initialise_Wc_t_eq (L : ℕ) (e : cEarthStruct K) (i : ℕ) (hi : i < L) :
    initialise_Wc_t L e i = extendedThickness L e.ref.thickness i := by
  unfold initialise_Wc_t extendedThickness
  by_cases h1 : L = 1
  · subst h1
    have : i = 0 := by omega
    subst this
    simp
  · rw [if_neg h1, if_neg h1]
    by_cases h2 : L = 2
    · subst h2
      rw [if_pos rfl, if_pos rfl]
      have : i = 0 ∨ i = 1 := by omega
      rcases this with h | h <;> subst h <;> simp
    · rw [if_neg h2, if_neg h2]
      by_cases h3 : i < L - 1
      · rw [if_pos h3, Function.update_noteq (by omega), forLoop_update, if_pos h3]
      · have h4 : i = L - 1 := by omega
        rw [if_neg h3, h4, Function.update_same, forLoop_update, forLoop_update,
          if_pos (by omega), if_pos (by omega), div_mul_eq_mul_div]

/-- C11: for a state with a valid parameter layout in which the conductivities are solved,
the diagonal entry of `Wc` at the conductivity parameter `p` of layer `l` of sounding `si`
is `k * (t l / mean t) / (σ_p * σ_p)`, where `k = AlphaC / (nLayers * nSoundings)` is the
same for all layers and soundings, `σ_p = RefParamStd[p]`, and `t` is the reference
thickness vector of the sounding extended to `nLayers` entries (dummy last layer
`t[L-2] * t[L-2] / t[L-3]` for `L ≥ 3`, `t[0]` duplicated for `L = 2`, `[1]` for
`L = 1`), its mean being the sum of its `nLayers` entries over `nLayers`. -/
theorem C11_Wc_diagonal (sqrt : K → K) (inv : cSBSInverter K) (hlay : LayoutFacts inv)
    (hsolve : solve_conductivity inv = true) (si l : ℕ) (hsi : si < inv.nSoundings)
    (hl : l < inv.nLayers) :
    (initialise_Wm sqrt inv).Wc (cindex inv si l).toNat (cindex inv si l).toNat
      = (inv.AlphaC / ((inv.nLayers * inv.nSoundings : ℕ) : K))
        * (extendedThickness inv.nLayers (inv.E si).ref.thickness l
            / ((∑ i ∈ Finset.range inv.nLayers,
                  extendedThickness inv.nLayers (inv.E si).ref.thickness i)
                / (inv.nLayers : K)))
        / (inv.RefParamStd (cindex inv si l).toNat * inv.RefParamStd (cindex inv si l).toNat) := by
  rw [(initialise_Wm_matrices sqrt inv).1]
  unfold initialise_Wc
  rw [if_neg (by rw [hsolve]; decide)]
  simp only []
  unfold initialise_Wc_sounding
  simp only []
  rw [nested_diag_writes inv.nSoundings inv.nLayers (fun si li => (cindex inv si li).toNat)
    (fun si li => inv.AlphaC / ((inv.nLayers * inv.nSoundings : ℕ) : K)
      * (initialise_Wc_t inv.nLayers (inv.E si) li
        / (forLoop inv.nLayers (fun li acc => acc + initialise_Wc_t inv.nLayers (inv.E si) li)
            (0 : K) / (inv.nLayers : K)))
      / (inv.RefParamStd (cindex inv si li).toNat * inv.RefParamStd (cindex inv si li).toNat))
    (fun a c a2 c2 _ h2 _ h4 h => hlay.1 hsolve a c a2 c2 h2 h4 h) Mat.zero si l hsi hl]
  rw [forLoop_sum, initialise_Wc_t_eq _ _ _ hl]
  rw [Finset.sum_congr rfl (fun i hi => initialise_Wc_t_eq inv.nLayers (inv.E si) i
    (Finset.mem_range.mp hi))]

end WcDiagonal

/-! ### The operators of the smoothness and homogeneity matrices -/

/-- Within one sounding the conductivity index determines the layer. -/
theorem cindex_layer_inj (inv : cSBSInverter K) (si a b : ℕ)
    (h : (cindex inv si a).toNat = (cindex inv si b).toNat) : a = b := by
  unfold cindex at h
  rw [Int.toNat_ofNat, Int.toNat_ofNat] at h
  omega

section Operators

variable [LinearOrderedField K]

/-- Two nested loops whose body fills the next row of an operator and advances the row
counter build the operator row by row. -/
theorem row_loops (n1 M : ℕ) (body : ℕ → ℕ → Mat K × ℕ → Mat K × ℕ) (row : ℕ → ℕ → ℕ → K)
    (hbody : ∀ si k (st : Mat K × ℕ), si < n1 → k < M → (∀ c, st.1 st.2 c = 0) →
      (body si k st).2 = st.2 + 1 ∧
      ∀ r c, (body si k st).1 r c = if r = st.2 then row si k c else st.1 r c) :
    (forLoop n1 (fun si st => forLoop M (fun k st => body si k st) st) (Mat.zero, 0)).2
      = n1 * M ∧
    (∀ r c, n1 * M ≤ r →
      (forLoop n1 (fun si st => forLoop M (fun k st => body si k st) st) (Mat.zero, 0)).1 r c
        = 0) ∧
    (∀ si k, si < n1 → k < M → ∀ c,
      (forLoop n1 (fun si st => forLoop M (fun k st => body si k st) st) (Mat.zero, 0)).1
        (si * M + k) c = row si k c) := by
  refine forLoop_invariant
    (fun a (st : Mat K × ℕ) =>
      st.2 = a * M ∧
      (∀ r c, a * M ≤ r → st.1 r c = 0) ∧
      (∀ si k, si < a → k < M → ∀ c, st.1 (si * M + k) c = row si k c))
    n1 _ _ ?_ ?_
  · exact ⟨by simp, fun r c _ => rfl, fun si k h => absurd h (Nat.not_lt_zero _)⟩
  · intro a st ha hP
    obtain ⟨h1, h2, h3⟩ := hP
    have hin := forLoop_invariant
      (fun j (s2 : Mat K × ℕ) =>
        s2.2 = a * M + j ∧
        (∀ r c, a * M + j ≤ r → s2.1 r c = 0) ∧
        (∀ si k, (si < a ∨ (si = a ∧ k < j)) → k < M → ∀ c,
          s2.1 (si * M + k) c = row si k c))
      M (fun k st => body a k st) st
      ⟨by rw [h1]; simp, fun r c hr => h2 r c (by omega), fun si k hs hk c => by
        rcases hs with hs | hs
        · exact h3 si k hs hk c
        · omega⟩
      (by
        intro j s2 hj hQ
        obtain ⟨q1, q2, q3⟩ := hQ
        obtain ⟨b1, b2⟩ := hbody a j s2 ha hj (fun c => q2 s2.2 c (by omega))
        refine ⟨by simp only []; rw [b1, q1]; ring, ?_, ?_⟩
        · intro r c hr
          simp only []
          rw [b2 r c, if_neg (by omega)]
          exact q2 r c (by omega)
        · intro si k hs hk c
          simp only []
          rw [b2 _ c]
          by_cases hrow : si * M + k = s2.2
          · rw [if_pos hrow]
            rw [q1] at hrow
            obtain ⟨e1, e2⟩ := block_unique hk hj hrow
            rw [e1, e2]
          · rw [if_neg hrow]
            refine q3 si k ?_ hk c
            rcases hs with hs | ⟨hs, hkj⟩
            · exact Or.inl hs
            · refine Or.inr ⟨hs, ?_⟩
              rcases Nat.lt_succ_iff_lt_or_eq.mp hkj with h | h
              · exact h
              · exfalso; apply hrow; rw [q1, hs, h])
    obtain ⟨r1, r2, r3⟩ := hin
    refine ⟨by rw [r1]; ring, fun r c hr => r2 r c (by
      have : (a + 1) * M = a * M + M := by ring
      omega), ?_⟩
    intro si k hs hk c
    refine r3 si k ?_ hk c
    rcases Nat.lt_succ_iff_lt_or_eq.mp hs with h | h
    · exact Or.inl h
    · exact Or.inr ⟨h, hk⟩

/-- The three writes of one row of the second-derivative operator. -/
theorem second_derivative_row_writes (sqrt : K → K) (inv : cSBSInverter K) (L : Mat K)
    (n si k : ℕ) (hz : ∀ c, L n c = 0) (r c : ℕ) :
    (((L.set n (cindex inv si (k + 1 - 1)).toNat
        (sqrt (vget (inv.E si).ref.dummy_thickness (k + 1) / mean (inv.E si).ref.dummy_thickness)
          / ((vget (inv.E si).ref.dummy_thickness (k + 1 - 1)
              + vget (inv.E si).ref.dummy_thickness (k + 1)) / 2))).set n
        (cindex inv si (k + 1)).toNat
        (-sqrt (vget (inv.E si).ref.dummy_thickness (k + 1) / mean (inv.E si).ref.dummy_thickness)
            / ((vget (inv.E si).ref.dummy_thickness (k + 1 - 1)
              + vget (inv.E si).ref.dummy_thickness (k + 1)) / 2)
          - sqrt (vget (inv.E si).ref.dummy_thickness (k + 1)
              / mean (inv.E si).ref.dummy_thickness)
            / ((vget (inv.E si).ref.dummy_thickness (k + 1)
              + vget (inv.E si).ref.dummy_thickness (k + 1 + 1)) / 2))).set n
        (cindex inv si (k + 1 + 1)).toNat
        (sqrt (vget (inv.E si).ref.dummy_thickness (k + 1) / mean (inv.E si).ref.dummy_thickness)
          / ((vget (inv.E si).ref.dummy_thickness (k + 1)
              + vget (inv.E si).ref.dummy_thickness (k + 1 + 1)) / 2))) r c
      = if r = n then secondDerivativeRow sqrt inv si (k + 1) c else L r c := by
  have h01 : (cindex inv si k).toNat ≠ (cindex inv si (k + 1)).toNat :=
    fun h => by have := cindex_layer_inj inv si _ _ h; omega
  have h02 : (cindex inv si k).toNat ≠ (cindex inv si (k + 1 + 1)).toNat :=
    fun h => by have := cindex_layer_inj inv si _ _ h; omega
  have h12 : (cindex inv si (k + 1)).toNat ≠ (cindex inv si (k + 1 + 1)).toNat :=
    fun h => by have := cindex_layer_inj inv si _ _ h; omega
  simp only [Nat.add_sub_cancel]
  by_cases hr : r = n
  · subst hr
    rw [if_pos rfl]
    unfold secondDerivativeRow Mat.set
    simp only [Nat.add_sub_cancel, true_and]
    by_cases c0 : c = (cindex inv si k).toNat
    · subst c0
      rw [if_neg h02, if_neg h01, if_pos rfl, if_pos rfl]
    · by_cases c1 : c = (cindex inv si (k + 1)).toNat
      · subst c1
        rw [if_neg h12, if_pos rfl, if_neg c0, if_pos rfl]
      · by_cases c2 : c = (cindex inv si (k + 1 + 1)).toNat
        · subst c2
          rw [if_pos rfl, if_neg c0, if_neg c1, if_pos rfl]
        · rw [if_neg c2, if_neg c1, if_neg c0, if_neg c0, if_neg c1, if_neg c2]
          exact hz c
  · rw [if_neg hr]
    simp [Mat.set, hr]

/-- Closed form of the operator `L` and of the row counter built by the loops of
`initialise_L_Ws_2nd_derivative`. -/
theorem L_Ws_2nd_derivative_rows (sqrt : K → K) (inv : cSBSInverter K) :
    (L_Ws_2nd_derivative sqrt inv).2 = inv.nSoundings * (inv.nLayers - 2) ∧
    (∀ r c, inv.nSoundings * (inv.nLayers - 2) ≤ r → (L_Ws_2nd_derivative sqrt inv).1 r c = 0) ∧
    (∀ si k, si < inv.nSoundings → k < inv.nLayers - 2 → ∀ c,
      (L_Ws_2nd_derivative sqrt inv).1 (si * (inv.nLayers - 2) + k) c
        = secondDerivativeRow sqrt inv si (k + 1) c) :=
  row_loops inv.nSoundings (inv.nLayers - 2)
    (fun si k st =>
      let t := (inv.E si).ref.dummy_thickness
      let tavg := mean t
      let li := k + 1
      let pi0 := (cindex inv si (li - 1)).toNat
      let pi1 := (cindex inv si li).toNat
      let pi2 := (cindex inv si (li + 1)).toNat
      let t1 := vget t (li - 1)
      let t2 := vget t li
      let t3 := vget t (li + 1)
      let d12 := (t1 + t2) / 2
      let d23 := (t2 + t3) / 2
      let s := sqrt (t2 / tavg)
      ((((st.1).set st.2 pi0 (s / d12)).set st.2 pi1 (-s / d12 - s / d23)).set st.2 pi2
        (s / d23), st.2 + 1))
    (fun si k c => secondDerivativeRow sqrt inv si (k + 1) c)
    (fun si k st _ _ hz =>
      ⟨rfl, fun r c => second_derivative_row_writes sqrt inv st.1 st.2 si k hz r c⟩)

/-- The operator built by `initialise_L_Ws_2nd_derivative` is the one of the spec. -/
theorem L_Ws_2nd_derivative_eq (sqrt : K → K) (inv : cSBSInverter K) :
    (L_Ws_2nd_derivative sqrt inv).1 = secondDerivativeOperator sqrt inv := by
  obtain ⟨_, h2, h3⟩ := L_Ws_2nd_derivative_rows sqrt inv
  funext r c
  unfold secondDerivativeOperator
  by_cases hr : r < inv.nSoundings * (inv.nLayers - 2)
  · rw [if_pos hr]
    have hM : 0 < inv.nLayers - 2 := by
      rcases Nat.eq_zero_or_pos (inv.nLayers - 2) with h | h
      · rw [h] at hr; simp at hr
      · exact h
    have hdiv : r / (inv.nLayers - 2) < inv.nSoundings :=
      (Nat.div_lt_iff_lt_mul hM).mpr hr
    have hrow : r = r / (inv.nLayers - 2) * (inv.nLayers - 2) + r % (inv.nLayers - 2) := by
      have := Nat.div_add_mod r (inv.nLayers - 2)
      rw [Nat.mul_comm] at this
      exact this.symm
    have := h3 _ _ hdiv (Nat.mod_lt r hM) c
    rw [← hrow] at this
    exact this
  · rw [if_neg hr]
    exact h2 r c (by omega)

/-- C12: with the second-derivative smoothness method, the conductivities solved,
`AlphaS ≠ 0` and `nLayers ≥ 3`, the matrix `Ws` held after `initialise_Wm` is
`Lᵀ L * AlphaS / nrows` with `nrows = nSoundings * (nLayers - 2)`, where `L` has one row per
sounding `si` and interior layer `l` (`1 ≤ l ≤ nLayers - 2`) whose entries are `s / d12`,
`-s / d12 - s / d23`, `s / d23` at the columns of conductivity `l - 1`, `l`, `l + 1` of the
sounding and zero elsewhere, and no other non-zero row; when `AlphaS = 0` or `nLayers < 3`,
`Ws` is the zero matrix. -/
theorem C12_Ws_second_derivative (sqrt : K → K) (inv : cSBSInverter K)
    (hm : inv.SmoothnessMethod = eSmoothnessMethod.DERIVATIVE_2ND) :
    (solve_conductivity inv = true → inv.AlphaS ≠ 0 → 3 ≤ inv.nLayers →
      (initialise_Wm sqrt inv).Ws
        = (Mat.transposeMul (inv.nSoundings * (inv.nLayers - 2))
            (secondDerivativeOperator sqrt inv)).scale
            (inv.AlphaS / ((inv.nSoundings * (inv.nLayers - 2) : ℕ) : K)) ∧
      (∀ si l, si < inv.nSoundings → 1 ≤ l → l ≤ inv.nLayers - 2 → ∀ c,
        secondDerivativeOperator sqrt inv (si * (inv.nLayers - 2) + (l - 1)) c
          = secondDerivativeRow sqrt inv si l c) ∧
      (∀ r c, inv.nSoundings * (inv.nLayers - 2) ≤ r →
        secondDerivativeOperator sqrt inv r c = 0)) ∧
    ((inv.AlphaS = 0 ∨ inv.nLayers < 3) → (initialise_Wm sqrt inv).Ws = Mat.zero) := by
  have hWs : (initialise_Wm sqrt inv).Ws = (initialise_L_Ws_2nd_derivative sqrt inv).Ws := by
    rw [(initialise_Wm_matrices sqrt inv).2.2.2.1]
    unfold initialise_Ws
    rw [hm]
  obtain ⟨h1, h2, h3⟩ := L_Ws_2nd_derivative_rows sqrt inv
  refine ⟨fun hs ha hl => ⟨?_, ?_, ?_⟩, ?_⟩
  · rw [hWs]
    unfold initialise_L_Ws_2nd_derivative
    rw [if_neg (by rintro (h | h); exact ha h; omega), if_neg (by rw [hs]; decide)]
    simp only []
    rw [h1, L_Ws_2nd_derivative_eq]
  · intro si l hsi hl1 hl2 c
    rw [← L_Ws_2nd_derivative_eq, h3 si (l - 1) hsi (by omega) c]
    have : l - 1 + 1 = l := by omega
    rw [this]
  · intro r c hr
    rw [← L_Ws_2nd_derivative_eq]
    exact h2 r c hr
  · intro h
    rw [hWs]
    unfold initialise_L_Ws_2nd_derivative
    rw [if_pos h]

/-- The writes of one row of the homogeneity operator. -/
theorem homogeneity_row_writes (inv : cSBSInverter K) (L : Mat K) (n si li : ℕ)
    (hli : li < inv.nLayers) (hz : ∀ c, L n c = 0) (r c : ℕ) :
    forLoop inv.nLayers
      (fun ki L =>
        let pindex := cindex inv si ki
        if cindex inv si li = pindex then L.set n pindex.toNat 1
        else L.set n pindex.toNat (-1 / ((inv.nLayers : K) - 1)))
      L r c
      = if r = n then homogeneityRow inv si li c else L r c := by
  have hinv := forLoop_invariant
    (fun j (L2 : Mat K) => ∀ r c, L2 r c =
      if r = n ∧ ∃ k, k < j ∧ c = (cindex inv si k).toNat then
        (if c = (cindex inv si li).toNat then 1 else -1 / ((inv.nLayers : K) - 1))
      else L r c)
    inv.nLayers
    (fun ki L =>
      let pindex := cindex inv si ki
      if cindex inv si li = pindex then L.set n pindex.toNat 1
      else L.set n pindex.toNat (-1 / ((inv.nLayers : K) - 1)))
    L
    (by intro r c; simp)
    (by
      intro j L2 hj hQ r c
      have hset : (if cindex inv si li = cindex inv si j then L2.set n (cindex inv si j).toNat 1
          else L2.set n (cindex inv si j).toNat (-1 / ((inv.nLayers : K) - 1)))
          = L2.set n (cindex inv si j).toNat
            (if (cindex inv si j).toNat = (cindex inv si li).toNat then 1
              else -1 / ((inv.nLayers : K) - 1)) := by
        by_cases h : cindex inv si li = cindex inv si j
        · rw [if_pos h, if_pos (by rw [h])]
        · rw [if_neg h, if_neg]
          intro h2
          exact h (by rw [cindex_layer_inj inv si _ _ h2])
      simp only []
      rw [hset]
      unfold Mat.set
      by_cases hrc : r = n ∧ c = (cindex inv si j).toNat
      · have hex : r = n ∧ ∃ k, k < j + 1 ∧ c = (cindex inv si k).toNat :=
          ⟨hrc.1, j, Nat.lt_succ_self j, hrc.2⟩
        rw [if_pos hrc, if_pos hex, hrc.2]
      · rw [if_neg hrc, hQ r c]
        by_cases h1 : r = n ∧ ∃ k, k < j ∧ c = (cindex inv si k).toNat
        · have hex : r = n ∧ ∃ k, k < j + 1 ∧ c = (cindex inv si k).toNat := by
            obtain ⟨h1a, k, hk, hc⟩ := h1
            exact ⟨h1a, k, Nat.lt_succ_of_lt hk, hc⟩
          rw [if_pos h1, if_pos hex]
        · have hex : ¬ (r = n ∧ ∃ k, k < j + 1 ∧ c = (cindex inv si k).toNat) := by
            rintro ⟨h2a, k, hk, hc⟩
            rcases Nat.lt_succ_iff_lt_or_eq.mp hk with h | h
            · exact h1 ⟨h2a, k, h, hc⟩
            · exact hrc ⟨h2a, by rw [hc, h]⟩
          rw [if_neg h1, if_neg hex])
  rw [hinv r c]
  unfold homogeneityRow
  by_cases hr : r = n
  · subst hr
    rw [if_pos rfl]
    by_cases hc : c = (cindex inv si li).toNat
    · have hex : r = r ∧ ∃ k, k < inv.nLayers ∧ c = (cindex inv si k).toNat :=
        ⟨rfl, li, hli, hc⟩
      rw [if_pos hc, if_pos hex, if_pos hc]
    · rw [if_neg hc]
      by_cases he : ∃ k, k < inv.nLayers ∧ c = (cindex inv si k).toNat
      · have hex : r = r ∧ ∃ k, k < inv.nLayers ∧ c = (cindex inv si k).toNat := ⟨rfl, he⟩
        rw [if_pos hex, if_neg hc, if_pos he]
      · have hex : ¬ (r = r ∧ ∃ k, k < inv.nLayers ∧ c = (cindex inv si k).toNat) :=
          fun h => he h.2
        rw [if_neg hex, if_neg he, if_neg hc]
        exact hz c
  · have hex : ¬ (r = n ∧ ∃ k, k < inv.nLayers ∧ c = (cindex inv si k).toNat) :=
      fun h => hr h.1
    rw [if_neg hex, if_neg hr]

/-- Closed form of the operator `L` and of the row counter built by the loops of
`initialise_Wq`: the rows are not scaled. -/
theorem L_Wq_rows (inv : cSBSInverter K) :
    (L_Wq inv).2 = inv.nSoundings * inv.nLayers ∧
    (∀ r c, inv.nSoundings * inv.nLayers ≤ r → (L_Wq inv).1 r c = 0) ∧
    (∀ si li, si < inv.nSoundings → li < inv.nLayers → ∀ c,
      (L_Wq inv).1 (si * inv.nLayers + li) c = homogeneityRow inv si li c) :=
  row_loops inv.nSoundings inv.nLayers
    (fun si li st =>
      let lpindex := cindex inv si li
      (forLoop inv.nLayers
        (fun ki L =>
          let pindex := cindex inv si ki
          if lpindex = pindex then L.set st.2 pindex.toNat 1
          else L.set st.2 pindex.toNat (-1 / ((inv.nLayers : K) - 1)))
        st.1, st.2 + 1))
    (fun si li c => homogeneityRow inv si li c)
    (fun si li st _ hli hz =>
      ⟨rfl, fun r c => homogeneity_row_writes inv st.1 st.2 si li hli hz r c⟩)

/-- The operator built by `initialise_Wq` is the homogeneity operator without scaling. -/
theorem L_Wq_eq (inv : cSBSInverter K) : (L_Wq inv).1 = homogeneityOperator inv := by
  obtain ⟨_, h2, h3⟩ := L_Wq_rows inv
  funext r c
  unfold homogeneityOperator
  by_cases hr : r < inv.nSoundings * inv.nLayers
  · rw [if_pos hr]
    have hM : 0 < inv.nLayers := by
      rcases Nat.eq_zero_or_pos inv.nLayers with h | h
      · rw [h] at hr; simp at hr
      · exact h
    have hdiv : r / inv.nLayers < inv.nSoundings := (Nat.div_lt_iff_lt_mul hM).mpr hr
    have hrow : r = r / inv.nLayers * inv.nLayers + r % inv.nLayers := by
      have := Nat.div_add_mod r inv.nLayers
      rw [Nat.mul_comm] at this
      exact this.symm
    have := h3 _ _ hdiv (Nat.mod_lt r hM) c
    rw [← hrow] at this
    exact this
  · rw [if_neg hr]
    exact h2 r c (by omega)

/-- The matrix `Wq` held after `initialise_Wm`, when `AlphaQ ≠ 0` and the conductivities
are solved: `Lᵀ L * AlphaQ / nrows` for the homogeneity operator without scaling. -/
theorem initialise_Wm_Wq (sqrt : K → K) (inv : cSBSInverter K) (ha : inv.AlphaQ ≠ 0)
    (hs : solve_conductivity inv = true) :
    (initialise_Wm sqrt inv).Wq
      = (Mat.transposeMul (inv.nLayers * inv.nSoundings) (homogeneityOperator inv)).scale
          (inv.AlphaQ / ((inv.nSoundings * inv.nLayers : ℕ) : K)) := by
  rw [(initialise_Wm_matrices sqrt inv).2.2.2.2.1]
  unfold initialise_Wq
  rw [if_neg ha, if_neg (by rw [hs]; decide)]
  simp only []
  rw [(L_Wq_rows inv).1, L_Wq_eq]

/-- With at least two layers the row of the homogeneity operator for a layer sums to zero
over the conductivity columns of its sounding. -/
theorem homogeneityRow_sum (inv : cSBSInverter K) (h2 : 2 ≤ inv.nLayers) (si li : ℕ)
    (hli : li < inv.nLayers) :
    ∑ k ∈ Finset.range inv.nLayers, homogeneityRow inv si li (cindex inv si k).toNat = 0 := by
  have hrow : ∀ k ∈ Finset.range inv.nLayers,
      homogeneityRow inv si li (cindex inv si k).toNat
        = -1 / ((inv.nLayers : K) - 1)
          + (if k = li then 1 - -1 / ((inv.nLayers : K) - 1) else 0) := by
    intro k hk
    unfold homogeneityRow
    by_cases h : k = li
    · subst h
      rw [if_pos rfl, if_pos rfl]
      ring
    · rw [if_neg (fun h3 => h (cindex_layer_inj inv si _ _ h3)),
        if_pos ⟨k, Finset.mem_range.mp hk, rfl⟩, if_neg h, add_zero]
  rw [Finset.sum_congr rfl hrow, Finset.sum_add_distrib, Finset.sum_const, Finset.card_range,
    Finset.sum_ite_eq', if_pos (Finset.mem_range.mpr hli), nsmul_eq_mul]
  have hne : (inv.nLayers : K) - 1 ≠ 0 := by
    have : (2 : K) ≤ (inv.nLayers : K) := by exact_mod_cast h2
    intro h
    linarith
  field_simp

/-- With at least two layers, the product of a row of the homogeneity operator with a model
whose conductivity parameters are equal within the sounding of the row is zero. -/
theorem homogeneityRow_mul_homogeneous (inv : cSBSInverter K) (h2 : 2 ≤ inv.nLayers)
    (si li : ℕ) (hli : li < inv.nLayers)
    (hcol : ∀ k, k < inv.nLayers → (cindex inv si k).toNat < inv.nParam) (x : Vec K)
    (hx : ∀ k, k < inv.nLayers → x (cindex inv si k).toNat = x (cindex inv si 0).toNat) :
    ∑ i ∈ Finset.range inv.nParam, homogeneityRow inv si li i * x i = 0 := by
  have hsub : (Finset.range inv.nLayers).image (fun k => (cindex inv si k).toNat)
      ⊆ Finset.range inv.nParam := by
    intro i hi
    obtain ⟨k, hk, rfl⟩ := Finset.mem_image.mp hi
    exact Finset.mem_range.mpr (hcol k (Finset.mem_range.mp hk))
  rw [← Finset.sum_subset hsub, Finset.sum_image]
  · rw [Finset.sum_congr rfl (fun k hk => by rw [hx k (Finset.mem_range.mp hk)]),
      ← Finset.sum_mul, homogeneityRow_sum inv h2 si li hli, zero_mul]
  · intro a _ b _ hab
    exact cindex_layer_inj inv si a b hab
  · intro i _ hi
    have hne : ¬ ∃ k, k < inv.nLayers ∧ i = (cindex inv si k).toNat := by
      rintro ⟨k, hk, rfl⟩
      exact hi (Finset.mem_image.mpr ⟨k, Finset.mem_range.mpr hk, rfl⟩)
    have hne2 : i ≠ (cindex inv si li).toNat := fun h => hne ⟨li, hli, h⟩
    unfold homogeneityRow
    rw [if_neg hne2, if_neg hne, zero_mul]

/-- With at least two layers, the homogeneity penalty of a model whose conductivity
parameters are equal within each sounding is zero. -/
theorem Wq_homogeneous_zero (sqrt : K → K) (inv : cSBSInverter K) (h2 : 2 ≤ inv.nLayers)
    (hcol : ∀ si k, si < inv.nSoundings → k < inv.nLayers →
      (cindex inv si k).toNat < inv.nParam) (x : Vec K)
    (hx : ∀ si k, si < inv.nSoundings → k < inv.nLayers →
      x (cindex inv si k).toNat = x (cindex inv si 0).toNat) :
    quadForm inv.nParam (initialise_Wm sqrt inv).Wq x = 0 := by
  rw [(initialise_Wm_matrices sqrt inv).2.2.2.2.1]
  have hz : quadForm inv.nParam (Mat.zero : Mat K) x = 0 := by
    simp [quadForm, Mat.zero]
  unfold initialise_Wq
  split_ifs with ha hs
  · exact hz
  · exact hz
  · simp only []
    rw [quadForm_transposeMul_scale, L_Wq_eq]
    have hrows : ∀ r ∈ Finset.range (inv.nLayers * inv.nSoundings),
        (∑ i ∈ Finset.range inv.nParam, homogeneityOperator inv r i * x i) ^ 2 = 0 := by
      intro r hr
      have hr2 : r < inv.nSoundings * inv.nLayers := by
        rw [Nat.mul_comm]; exact Finset.mem_range.mp hr
      have hM : 0 < inv.nLayers := by omega
      have hdiv : r / inv.nLayers < inv.nSoundings := (Nat.div_lt_iff_lt_mul hM).mpr hr2
      unfold homogeneityOperator
      simp only [if_pos hr2]
      rw [homogeneityRow_mul_homogeneous inv h2 _ _ (Nat.mod_lt r hM)
        (fun k hk => hcol _ k hdiv hk) x (fun k hk => hx _ k hdiv hk)]
      simp
    rw [Finset.sum_eq_zero hrows, mul_zero]

end Operators

/-! ### Culling of null data -/

/-- The loop that collects the indices passing a test collects them in increasing order. -/
theorem forLoop_push_back (n : ℕ) (p : ℕ → Bool) :
    forLoop n (fun i A => if p i = true then A ++ [i] else A) ([] : List ℕ)
      = (List.range n).filter p := by
  induction n with
  | zero => rfl
  | succ k ih =>
    rw [forLoop_succ, ih, List.range_succ, List.filter_append]
    by_cases h : p k = true
    · rw [if_pos h]; simp [List.filter, h]
    · rw [if_neg h]; simp [List.filter, h]

/-- The loop that counts the indices passing a test counts at least one exactly when there
is one. -/
theorem forLoop_count_pos (n : ℕ) (q : ℕ → Prop) [DecidablePred q] :
    0 < forLoop n (fun i c => if q i then c + 1 else c) (0 : ℕ) ↔ ∃ i, i < n ∧ q i := by
  induction n with
  | zero => simp [forLoop]
  | succ k ih =>
    rw [forLoop_succ]
    by_cases h : q k
    · rw [if_pos h]
      exact ⟨fun _ => ⟨k, Nat.lt_succ_self k, h⟩, fun _ => Nat.succ_pos _⟩
    · rw [if_neg h, ih]
      constructor
      · rintro ⟨i, hi, hq⟩
        exact ⟨i, Nat.lt_succ_of_lt hi, hq⟩
      · rintro ⟨i, hi, hq⟩
        rcases Nat.lt_succ_iff_lt_or_eq.mp hi with h2 | h2
        · exact ⟨i, h2, hq⟩
        · subst h2; exact absurd hq h

/-- The overload of `cull` for an Eigen vector, when its assertions hold. -/
theorem cull_eq (b : cBunchInverter K) (junk : Vec K) (vall : SizedVector K)
    (hA : b.ActiveData.length = b.inv.nData) (hv : vall.size = b.nAllData) :
    cull b junk vall = some
      { size := b.inv.nData
        coeff := fun i =>
          if i < b.inv.nData then vall.coeff (b.ActiveData.getD i 0) else junk i } := by
  unfold cull
  rw [if_pos ⟨hA, hv⟩]
  congr 2
  funext i
  exact forLoop_update _ _ _ i

/-- The overload of `cull` for a `std::vector<double>`, when its assertions hold: the
result has `nAllData` entries. -/
theorem cull_std_vector_eq (b : cBunchInverter K) (junk : Vec K) (vall : SizedVector K)
    (hA : b.ActiveData.length = b.inv.nData) (hv : vall.size = b.nAllData) :
    cull_std_vector b junk vall = some
      { size := b.nAllData
        coeff := fun i =>
          if i < b.inv.nData then vall.coeff (b.ActiveData.getD i 0) else junk i } := by
  unfold cull_std_vector
  rw [if_pos ⟨hA, hv⟩]
  congr 2
  funext i
  exact forLoop_update _ _ _ i

/-- The overload of `cull` for a matrix, when its assertions hold. -/
theorem cull_matrix_eq (b : cBunchInverter K) (junk : Mat K) (mall : SizedMatrix K)
    (hA : b.ActiveData.length = b.inv.nData) (hr : mall.rows = b.nAllData)
    (hc : mall.cols = b.inv.nParam) :
    cull_matrix b junk mall = some
      { rows := b.inv.nData
        cols := b.inv.nParam
        coeff := fun i =>
          if i < b.inv.nData then mall.coeff (b.ActiveData.getD i 0) else junk i } := by
  unfold cull_matrix
  rw [if_pos ⟨hA, hr, hc⟩]
  congr 2
  funext i
  have := forLoop_update (K := ℕ → K) b.inv.nData
    (fun i => mall.coeff (b.ActiveData.getD i 0)) junk i
  exact this

section CullTheorems

variable [LinearOrderedField K]

/-- What `initialise_bunch_data` returns and leaves in the inverter. -/
theorem initialise_bunch_data_spec (isnull : K → Bool) (junk : Vec K) (obs err : Vec K)
    (b : cBunchInverter K) :
    ∃ st b1, initialise_bunch_data isnull junk obs err b = some (st, b1) ∧
      b1.ActiveData
        = (List.range b.nAllData).filter (fun i => !isnull (obs i) && !isnull (err i)) ∧
      b1.inv.nData = b1.ActiveData.length ∧
      b1.nAllData = b.nAllData ∧
      b1.ObsSize = b.nAllData ∧ b1.ErrSize = b.nAllData ∧
      (∀ i, i < b1.inv.nData →
        b1.inv.Obs i = obs (b1.ActiveData.getD i 0) ∧
        b1.inv.Err i = err (b1.ActiveData.getD i 0)) ∧
      (st = false ↔ ∃ i, i < b1.inv.nData ∧ b1.inv.Err i = 0) ∧
      b1.inv = { b.inv with nData := b1.inv.nData, Obs := b1.inv.Obs, Err := b1.inv.Err } := by
  unfold initialise_bunch_data
  simp only []
  rw [cull_std_vector_eq _ _ _ rfl rfl]
  simp only []
  rw [cull_std_vector_eq _ _ _ rfl rfl]
  simp only []
  rw [forLoop_push_back b.nAllData (fun i => !isnull (obs i) && !isnull (err i))]
  have hcount := forLoop_count_pos
    ((List.filter (fun i => !isnull (obs i) && !isnull (err i)) (List.range b.nAllData)).length)
    (fun i => (if i < (List.filter (fun i => !isnull (obs i) && !isnull (err i))
        (List.range b.nAllData)).length
      then err ((List.filter (fun i => !isnull (obs i) && !isnull (err i))
        (List.range b.nAllData)).getD i 0) else junk i) = 0)
  generalize forLoop
    ((List.filter (fun i => !isnull (obs i) && !isnull (err i)) (List.range b.nAllData)).length)
    (fun i n => if (if i < (List.filter (fun i => !isnull (obs i) && !isnull (err i))
        (List.range b.nAllData)).length
      then err ((List.filter (fun i => !isnull (obs i) && !isnull (err i))
        (List.range b.nAllData)).getD i 0) else junk i) = 0 then n + 1 else n) 0 = nz
    at hcount ⊢
  by_cases hz : nz > 0
  · rw [if_pos hz]
    refine ⟨false, _, rfl, rfl, rfl, rfl, rfl, rfl, ?_, ?_, rfl⟩
    · intro i hi
      simp only [] at hi
      simp only [if_pos hi, and_self]
    · simp only [true_iff]
      exact hcount.mp hz
  · rw [if_neg hz]
    refine ⟨true, _, rfl, rfl, rfl, rfl, rfl, rfl, ?_, ?_, rfl⟩
    · intro i hi
      simp only [] at hi
      simp only [if_pos hi, and_self]
    · simp only [Bool.true_eq_false, false_iff]
      exact fun h => hz (hcount.mpr h)

end CullTheorems

/-! ### The example states of the weights -/

/-- Witness for C11 on `weightsExample`: the last (dummy) layer of its only sounding. -/
theorem C11_Wc_diagonal_witness :
    LayoutFacts weightsExample ∧ solve_conductivity weightsExample = true ∧
    0 < weightsExample.nSoundings ∧ 2 < weightsExample.nLayers ∧
    (initialise_Wm id weightsExample).Wc (cindex weightsExample 0 2).toNat
        (cindex weightsExample 0 2).toNat
      = (weightsExample.AlphaC / ((weightsExample.nLayers * weightsExample.nSoundings : ℕ) : ℚ))
        * (extendedThickness weightsExample.nLayers (weightsExample.E 0).ref.thickness 2
            / ((∑ i ∈ Finset.range weightsExample.nLayers,
                  extendedThickness weightsExample.nLayers (weightsExample.E 0).ref.thickness i)
                / (weightsExample.nLayers : ℚ)))
        / (weightsExample.RefParamStd (cindex weightsExample 0 2).toNat
            * weightsExample.RefParamStd (cindex weightsExample 0 2).toNat) :=
  ⟨layoutFacts_setup_parameters _ 3, rfl, by decide, by decide,
    C11_Wc_diagonal id weightsExample (layoutFacts_setup_parameters _ 3) rfl 0 2 (by decide)
      (by decide)⟩

/-- Witness for C12 on `weightsExample` (three layers, `AlphaS = 1`). -/
theorem C12_Ws_second_derivative_witness :
    weightsExample.SmoothnessMethod = eSmoothnessMethod.DERIVATIVE_2ND ∧
    solve_conductivity weightsExample = true ∧ weightsExample.AlphaS ≠ 0 ∧
    3 ≤ weightsExample.nLayers ∧
    (initialise_Wm id weightsExample).Ws
      = (Mat.transposeMul (weightsExample.nSoundings * (weightsExample.nLayers - 2))
          (secondDerivativeOperator id weightsExample)).scale
          (weightsExample.AlphaS
            / ((weightsExample.nSoundings * (weightsExample.nLayers - 2) : ℕ) : ℚ)) :=
  ⟨rfl, rfl, by rw [weightsExample_fields.2.2.2.2.2.2.1]; norm_num, by decide,
    ((C12_Ws_second_derivative id weightsExample rfl).1 rfl
      (by rw [weightsExample_fields.2.2.2.2.2.2.1]; norm_num) (by decide)).1⟩

theorem singleLayerExample_fields :
    singleLayerExample.nLayers = 1 ∧ singleLayerExample.nSoundings = 1 ∧
    singleLayerExample.nParam = 1 ∧ singleLayerExample.AlphaQ = 1 ∧
    solve_conductivity singleLayerExample = true ∧
    (cindex singleLayerExample 0 0).toNat = 0 :=
  ⟨rfl, rfl, rfl, rfl, rfl, rfl⟩

theorem fourLayerExample_fields :
    fourLayerExample.nLayers = 4 ∧ fourLayerExample.nSoundings = 1 ∧
    fourLayerExample.nParam = 4 ∧ fourLayerExample.AlphaQ = 1 ∧
    solve_conductivity fourLayerExample = true ∧
    (cindex fourLayerExample 0 0).toNat = 0 ∧
    (fourLayerExample.E 0).ref.dummy_thickness = [1, 5, 5, 5 * 5 / 5] :=
  ⟨rfl, rfl, rfl, rfl, rfl, rfl, rfl⟩

/-- C13 (the code at a single layer): for one sounding with `nLayers = 1` the only row of
the operator built by `initialise_Wq` is `[1]`, which sums to `1` over the conductivity
column of the sounding, and the homogeneity penalty `xᵀ Wq x` of the model `x = [1]`, whose
layers are trivially all equal, is `1`, not zero. -/
theorem C13_single_layer_row :
    singleLayerExample.nLayers = 1 ∧ singleLayerExample.nSoundings = 1 ∧
    (∑ k ∈ Finset.range singleLayerExample.nLayers,
      (L_Wq singleLayerExample).1 0 (cindex singleLayerExample 0 k).toNat) = 1 ∧
    quadForm singleLayerExample.nParam (initialise_Wm id singleLayerExample).Wq (fun _ => 1)
      = 1 := by
  obtain ⟨h1, h2, h3, h4, h5, h6⟩ := singleLayerExample_fields
  have hrow : (L_Wq singleLayerExample).1 0 0 = 1 := by
    have h := (L_Wq_rows singleLayerExample).2.2 0 0 (by rw [h2]; decide) (by rw [h1]; decide) 0
    rw [h1] at h
    rw [h]
    unfold homogeneityRow
    rw [if_pos h6.symm]
  refine ⟨h1, h2, ?_, ?_⟩
  · rw [h1, Finset.sum_range_one, h6, hrow]
  · rw [initialise_Wm_Wq id singleLayerExample (by rw [h4]; norm_num) h5,
      quadForm_transposeMul_scale, ← L_Wq_eq, h1, h2, h3, h4]
    simp [hrow]

/-- C14 (the code against the claimed scaling): for one sounding of four layers with
dummy-extended reference thicknesses `1, 5, 5, 5`, the entry of the operator built by
`initialise_Wq` in the row of layer `0` at its own column is `1`, whereas
`t_0 / mean t = 1 / 4`, so that the row scaled as claimed has the entry `sqrt (1 / 4)`
there. -/
theorem C14_row_not_scaled :
    (L_Wq fourLayerExample).1 0 0 = 1 ∧
    vget (fourLayerExample.E 0).ref.dummy_thickness 0
      / mean (fourLayerExample.E 0).ref.dummy_thickness = 1 / 4 ∧
    ∀ sq : ℚ → ℚ, homogeneityRowScaled sq fourLayerExample 0 0 0 = sq (1 / 4) := by
  obtain ⟨h1, h2, h3, h4, h5, h6, h7⟩ := fourLayerExample_fields
  have hrow : (L_Wq fourLayerExample).1 0 0 = 1 := by
    have h := (L_Wq_rows fourLayerExample).2.2 0 0 (by rw [h2]; decide) (by rw [h1]; decide) 0
    rw [h1] at h
    rw [h]
    unfold homogeneityRow
    rw [if_pos h6.symm]
  have hratio : vget (fourLayerExample.E 0).ref.dummy_thickness 0
      / mean (fourLayerExample.E 0).ref.dummy_thickness = 1 / 4 := by
    rw [h7]
    simp [vget, mean]
    norm_num
  refine ⟨hrow, hratio, ?_⟩
  intro sq
  unfold homogeneityRowScaled
  rw [hratio]
  unfold homogeneityRow
  rw [if_pos h6.symm, mul_one]

/-! ### The data weights in L1 mode -/

section L1Weights

variable [LinearOrderedField K]

/-- The data weights that `solve_linear_system` uses in L1 mode: the diagonal entries of
`Wd` below `nData` are multiplied by `1 / |r|`, the other entries are those of `Wd`. -/
theorem solve_linear_system_V_L1 (inv : cSBSInverter K) (hL1 : inv.NormType = eNormType.L1)
    (pred : Vec K) (i j : ℕ) :
    solve_linear_system_V inv pred i j
      = if i = j ∧ i < inv.nData then
          inv.Wd i i * (1 / |(inv.Obs i - pred i) / inv.Err i|)
        else inv.Wd i j := by
  unfold solve_linear_system_V
  rw [if_pos hL1]
  have hinv := forLoop_invariant
    (fun k (V : Mat K) => ∀ i j, V i j
      = if i = j ∧ i < k then inv.Wd i i * (1 / |(inv.Obs i - pred i) / inv.Err i|)
        else inv.Wd i j)
    inv.nData
    (fun i V =>
      let r := (inv.Obs i - pred i) / inv.Err i
      V.set i i (V i i * (1 / |r|)))
    inv.Wd
    (by intro i j; simp)
    (by
      intro k V _ hV a c
      simp only []
      unfold Mat.set
      by_cases h : a = k ∧ c = k
      · obtain ⟨h1, h2⟩ := h
        rw [h1, h2]
        have h3 : k = k ∧ k < k + 1 := ⟨rfl, Nat.lt_succ_self k⟩
        have h4 : ¬ (k = k ∧ k < k) := fun h => Nat.lt_irrefl k h.2
        rw [if_pos ⟨rfl, rfl⟩, if_pos h3, hV k k, if_neg h4]
      · rw [if_neg h, hV a c]
        by_cases h5 : a = c ∧ a < k
        · have h6 : a = c ∧ a < k + 1 := ⟨h5.1, Nat.lt_succ_of_lt h5.2⟩
          rw [if_pos h5, if_pos h6]
        · have h6 : ¬ (a = c ∧ a < k + 1) := by
            rintro ⟨h7, h8⟩
            rcases Nat.lt_succ_iff_lt_or_eq.mp h8 with h9 | h9
            · exact h5 ⟨h7, h9⟩
            · exact h ⟨h9, by rw [← h7, h9]⟩
          rw [if_neg h5, if_neg h6])
  exact hinv i j

/-- C15 (amended): in L1 norm mode the diagonal entry of the data-weight matrix that
`solve_linear_system` assembles `A` and `b` with is, for every datum `i < nData` with
non-zero residual `(d_i - g_i) / e_i`, the weight `Wd(i,i)` multiplied by
`1 / |(d_i - g_i) / e_i|`, and it is strictly positive whenever `Wd(i,i) > 0`. -/
theorem C15_L1_data_weights (inv : cSBSInverter K) (hL1 : inv.NormType = eNormType.L1)
    (pred : Vec K) (i : ℕ) (hi : i < inv.nData)
    (hr : (inv.Obs i - pred i) / inv.Err i ≠ 0) :
    solve_linear_system_V inv pred i i
      = inv.Wd i i * (1 / |(inv.Obs i - pred i) / inv.Err i|) ∧
    (0 < inv.Wd i i → 0 < solve_linear_system_V inv pred i i) := by
  have h := solve_linear_system_V_L1 inv hL1 pred i i
  rw [if_pos ⟨rfl, hi⟩] at h
  refine ⟨h, fun hW => ?_⟩
  rw [h]
  exact mul_pos hW (one_div_pos.mpr (abs_pos.mpr hr))

end L1Weights

theorem l1Example_fields :
    l1Example.NormType = eNormType.L1 ∧ l1Example.nData = 1 ∧ l1Example.Obs 0 = 2 ∧
    l1Example.Err 0 = 2 ∧ l1Example.Wd 0 0 = 1 / (2 * 2) :=
  ⟨rfl, rfl, rfl, rfl, rfl⟩

/-- Witness for C15 on `l1Example` with the prediction `0`: the residual is `1`, not zero,
and the weight is `Wd(0,0) * 1 = 1 / 4`, which is positive. -/
theorem C15_L1_data_weights_witness :
    l1Example.NormType = eNormType.L1 ∧ 0 < l1Example.nData ∧
    (l1Example.Obs 0 - 0) / l1Example.Err 0 ≠ 0 ∧
    solve_linear_system_V l1Example (fun _ => 0) 0 0
      = l1Example.Wd 0 0 * (1 / |(l1Example.Obs 0 - 0) / l1Example.Err 0|) ∧
    0 < solve_linear_system_V l1Example (fun _ => 0) 0 0 := by
  have hr : (l1Example.Obs 0 - (fun _ => (0 : ℚ)) 0) / l1Example.Err 0 ≠ 0 := by
    show ((2 : ℚ) - 0) / 2 ≠ 0
    norm_num
  have hW : 0 < l1Example.Wd 0 0 := by
    show (0 : ℚ) < 1 / (2 * 2)
    norm_num
  have h := C15_L1_data_weights l1Example rfl (fun _ => 0) 0 (by decide) hr
  exact ⟨rfl, by decide, hr, h.1, h.2 hW⟩

/-- Counterexample to C15 as stated: in L1 mode, for the datum of `l1Example` (residual
`(2 - 0) / 2 = 1`, not zero), the weight used is `1 / 4`, not `1 / |residual| = 1`: the
weight `Wd(0,0)` is multiplied by the factor, not replaced by it; and with the weight
`Wd(0,0) = 0` in its place the entry is `0`, which is not strictly positive. -/
theorem C15_counterexample :
    l1Example.NormType = eNormType.L1 ∧ 0 < l1Example.nData ∧
    (l1Example.Obs 0 - 0) / l1Example.Err 0 ≠ 0 ∧
    solve_linear_system_V l1Example (fun _ => 0) 0 0
      ≠ 1 / |(l1Example.Obs 0 - 0) / l1Example.Err 0| ∧
    solve_linear_system_V { l1Example with Wd := fun _ _ => 0 } (fun _ => 0) 0 0 = 0 := by
  obtain ⟨h1, h2, h3, h4, h5⟩ := l1Example_fields
  have hV := solve_linear_system_V_L1 l1Example h1 (fun _ => 0) 0 0
  rw [if_pos ⟨rfl, by rw [h2]; decide⟩] at hV
  have hV0 := solve_linear_system_V_L1 { l1Example with Wd := fun _ _ => 0 } rfl
    (fun _ => 0) 0 0
  rw [if_pos ⟨rfl, by decide⟩] at hV0
  refine ⟨h1, by rw [h2]; decide, ?_, ?_, ?_⟩
  · rw [h3, h4]; norm_num
  · rw [hV, h3, h4, h5]; norm_num
  · rw [hV0]
    exact zero_mul _

/-! ### Culling: the claims -/

section CullClaims

variable [LinearOrderedField K]

/-- C16: when `ActiveData` has `nData` entries, `cull` of an Eigen vector of length
`nAllData` returns a vector of exactly `nData` entries whose entry `i` is
`vall[ActiveData[i]]`, `cull` of a matrix of `nAllData` rows and `nParam` columns returns a
matrix of exactly `nData` rows whose row `i` is row `ActiveData[i]` of the argument, and
culling the identity matrix (of `nAllData = nParam` rows and columns) gives the unit rows
listed in `ActiveData`, in order. -/
theorem C16_cull_selects_active (b : cBunchInverter K)
    (hA : b.ActiveData.length = b.inv.nData) :
    (∀ (junk : Vec K) (vall : SizedVector K), vall.size = b.nAllData →
      ∃ v, cull b junk vall = some v ∧ v.size = b.inv.nData ∧
        ∀ i, i < b.inv.nData → v.coeff i = vall.coeff (b.ActiveData.getD i 0)) ∧
    (∀ (junk : Mat K) (mall : SizedMatrix K), mall.rows = b.nAllData →
      mall.cols = b.inv.nParam →
      ∃ m, cull_matrix b junk mall = some m ∧ m.rows = b.inv.nData ∧
        m.cols = b.inv.nParam ∧
        ∀ i, i < b.inv.nData → ∀ j, m.coeff i j = mall.coeff (b.ActiveData.getD i 0) j) ∧
    (b.inv.nParam = b.nAllData → ∀ junk : Mat K,
      ∃ m, cull_matrix b junk (SizedMatrix.identity b.nAllData) = some m ∧
        m.rows = b.inv.nData ∧
        ∀ i, i < b.inv.nData → ∀ j,
          m.coeff i j = if b.ActiveData.getD i 0 = j then 1 else 0) := by
  refine ⟨fun junk vall hv => ?_, fun junk mall hr hc => ?_, fun hp junk => ?_⟩
  · refine ⟨_, cull_eq b junk vall hA hv, rfl, fun i hi => ?_⟩
    simp only [if_pos hi]
  · refine ⟨_, cull_matrix_eq b junk mall hA hr hc, rfl, rfl, fun i hi j => ?_⟩
    simp only [if_pos hi]
  · refine ⟨_, cull_matrix_eq b junk (SizedMatrix.identity b.nAllData) hA rfl hp.symm, rfl,
      fun i hi j => ?_⟩
    simp only [if_pos hi]
    rfl

end CullClaims

/-- Witness for C16 on `cullExample`: the vector `(0, 1, 2)` is culled to `(0, 2)`. -/
theorem C16_cull_selects_active_witness :
    cullExample.ActiveData.length = cullExample.inv.nData ∧
    ∃ v, cull cullExample (fun _ => 0) { size := 3, coeff := fun i => (i : ℚ) } = some v ∧
      v.size = cullExample.inv.nData ∧
      ∀ i, i < cullExample.inv.nData →
        v.coeff i = (fun i : ℕ => (i : ℚ)) (cullExample.ActiveData.getD i 0) :=
  ⟨rfl, (C16_cull_selects_active cullExample rfl).1 (fun _ => 0)
    { size := 3, coeff := fun i => (i : ℚ) } rfl⟩

/-! ### The data of a bunch: the claims -/

section BunchClaims

variable [LinearOrderedField K]

/-- A noise value of the working vector `Err` is zero exactly when an active noise value
of the logical layout is. -/
theorem active_zero_noise_iff (isnull : K → Bool) (obs err : Vec K) (n : ℕ) (Err : Vec K)
    (hErr : ∀ i, i < ((List.range n).filter
        (fun i => !isnull (obs i) && !isnull (err i))).length →
      Err i = err (((List.range n).filter
        (fun i => !isnull (obs i) && !isnull (err i))).getD i 0)) :
    (∃ i, i < ((List.range n).filter (fun i => !isnull (obs i) && !isnull (err i))).length ∧
      Err i = 0) ↔ ActiveZeroNoise isnull obs err n := by
  unfold ActiveZeroNoise
  constructor
  · rintro ⟨i, hi, h0⟩
    rw [hErr i hi] at h0
    have hmem : ((List.range n).filter (fun i => !isnull (obs i) && !isnull (err i))).getD i 0
        ∈ (List.range n).filter (fun i => !isnull (obs i) && !isnull (err i)) := by
      rw [List.getD_eq_getElem _ _ hi]
      exact List.getElem_mem hi
    rw [List.mem_filter, List.mem_range] at hmem
    obtain ⟨hlt, hp⟩ := hmem
    simp only [Bool.and_eq_true, Bool.not_eq_true'] at hp
    exact ⟨_, hlt, hp.1, hp.2, h0⟩
  · rintro ⟨j, hj, h1, h2, h0⟩
    have hmem : j ∈ (List.range n).filter (fun i => !isnull (obs i) && !isnull (err i)) := by
      rw [List.mem_filter, List.mem_range]
      exact ⟨hj, by simp [h1, h2]⟩
    obtain ⟨i, hi, hget⟩ := List.getElem_of_mem hmem
    refine ⟨i, hi, ?_⟩
    rw [hErr i hi, List.getD_eq_getElem _ _ hi, hget, h0]

/-- The status of `initialise_bunch_data` in terms of the logical data. -/
theorem initialise_bunch_data_status (isnull : K → Bool) (junk : Vec K) (obs err : Vec K)
    (b : cBunchInverter K) :
    ∃ st b1, initialise_bunch_data isnull junk obs err b = some (st, b1) ∧
      (st = false ↔ ActiveZeroNoise isnull obs err b.nAllData) ∧
      b1.inv = { b.inv with nData := b1.inv.nData, Obs := b1.inv.Obs, Err := b1.inv.Err } := by
  obtain ⟨st, b1, h1, h2, h3, _, _, _, h7, h8, h9⟩ :=
    initialise_bunch_data_spec isnull junk obs err b
  refine ⟨st, b1, h1, ?_, h9⟩
  rw [h8, h3, h2]
  refine active_zero_noise_iff isnull obs err b.nAllData b1.inv.Err ?_
  intro i hi
  have := (h7 i (by rw [h3, h2]; exact hi)).2
  rw [h2] at this
  exact this

/-- With an active zero noise value `initialise_bunch` returns false and leaves the reference
parameters and the weight matrices as they were. -/
theorem initialise_bunch_zero_noise (X : Collaborators K) (sqrt : K → K) (isnull : K → Bool)
    (junk : Vec K) (cis0 : cIterationState K) (obs err : Vec K) (b : cBunchInverter K)
    (hz : ActiveZeroNoise isnull obs err b.nAllData) :
    ∃ b2, initialise_bunch X sqrt isnull junk cis0 obs err b = some (false, b2) ∧
      b2.inv.RefParam = b.inv.RefParam ∧ b2.inv.RefParamStd = b.inv.RefParamStd ∧
      b2.inv.Wd = b.inv.Wd ∧ b2.inv.Wc = b.inv.Wc ∧ b2.inv.Wt = b.inv.Wt ∧
      b2.inv.Wg = b.inv.Wg ∧ b2.inv.Ws = b.inv.Ws ∧ b2.inv.Wq = b.inv.Wq ∧
      b2.inv.Wr = b.inv.Wr ∧ b2.inv.Wm = b.inv.Wm := by
  obtain ⟨st, b1, h1, h2, h3⟩ := initialise_bunch_data_status isnull junk obs err
    { b with
      inv := { b.inv with nForwards := 0, nJacobians := 0, CIS := cis0 }
      OutputMessage := "" }
  have hst : st = false := h2.mpr hz
  subst hst
  unfold initialise_bunch
  simp only []
  rw [h1]
  simp only []
  refine ⟨b1, rfl, ?_⟩
  rw [h3]
  exact ⟨rfl, rfl, rfl, rfl, rfl, rfl, rfl, rfl, rfl, rfl⟩

/-- C18: `initialise_bunch_data` returns false exactly when at least one active noise value
is zero; in that case `initialise_bunch` returns false with the reference parameters
`RefParam`, `RefParamStd` and the weight matrices `Wd`, `Wc`, `Wt`, `Wg`, `Ws`, `Wq`, `Wr`,
`Wm` untouched, and the pass of `execute` on such a bunch that was read logs a message
only: it neither iterates nor writes a result, and the loop goes on. -/
theorem C18_zero_noise_skips_bunch (X : Collaborators K) (sqrt : K → K) (isnull : K → Bool)
    (junk : Vec K) (cis0 : cIterationState K) :
    (∀ (obs err : Vec K) (b : cBunchInverter K),
      ∃ st b1, initialise_bunch_data isnull junk obs err b = some (st, b1) ∧
        (st = false ↔ ActiveZeroNoise isnull obs err b.nAllData)) ∧
    (∀ (obs err : Vec K) (b : cBunchInverter K),
      ActiveZeroNoise isnull obs err b.nAllData →
      ∃ b2, initialise_bunch X sqrt isnull junk cis0 obs err b = some (false, b2) ∧
        b2.inv.RefParam = b.inv.RefParam ∧ b2.inv.RefParamStd = b.inv.RefParamStd ∧
        b2.inv.Wd = b.inv.Wd ∧ b2.inv.Wc = b.inv.Wc ∧ b2.inv.Wt = b.inv.Wt ∧
        b2.inv.Wg = b.inv.Wg ∧ b2.inv.Ws = b.inv.Ws ∧ b2.inv.Wq = b.inv.Wq ∧
        b2.inv.Wr = b.inv.Wr ∧ b2.inv.Wm = b.inv.Wm) ∧
    (∀ (IM : cInputManager K) (fuel Size Rank : ℕ) (s : cExecuteState K),
      s.paralleljob % Size = Rank →
      (read_bunch IM s.b (s.paralleljob * IM.subsamplerate)).1 = true →
      ActiveZeroNoise isnull (IM.obs (s.paralleljob * IM.subsamplerate))
        (IM.err (s.paralleljob * IM.subsamplerate))
        (read_bunch IM s.b (s.paralleljob * IM.subsamplerate)).2.nAllData →
      ∃ s2 msg, execute_pass X sqrt isnull junk cis0 IM fuel Size Rank s = some s2 ∧
        s2.events = s.events
          ++ [cExecuteEvent.logmsg (s.paralleljob * IM.subsamplerate) msg] ∧
        s2.readstatus = true ∧ s2.paralleljob = s.paralleljob + 1) := by
  refine ⟨fun obs err b => ?_, fun obs err b hz => ?_, fun IM fuel Size Rank s hr hread hz => ?_⟩
  · obtain ⟨st, b1, h1, h2, _⟩ := initialise_bunch_data_status isnull junk obs err b
    exact ⟨st, b1, h1, h2⟩
  · exact initialise_bunch_zero_noise X sqrt isnull junk cis0 obs err b hz
  · obtain ⟨b2, h1, _⟩ := initialise_bunch_zero_noise X sqrt isnull junk cis0 _ _ _ hz
    unfold execute_pass
    simp only []
    rw [if_pos hr, if_pos hread, h1]
    exact ⟨_, _, rfl, rfl, rfl, rfl⟩

end BunchClaims

/-! ### The data of a bunch: the examples -/

theorem zeroNoise_example :
    ActiveZeroNoise isnullExample (fun _ => 1) zeroNoiseErr 10 := by
  refine ⟨2, by decide, ?_, ?_, ?_⟩
  · simp [isnullExample]; norm_num
  · simp [isnullExample, zeroNoiseErr]
  · simp [zeroNoiseErr]

/-- Witness for C18: with the noise of datum `2` equal to zero, `initialise_bunch` returns
false on `nullDataExample`, and the first pass of `execute` on `inputExample` logs a message
only. -/
theorem C18_zero_noise_skips_bunch_witness :
    ActiveZeroNoise isnullExample (fun _ => 1) zeroNoiseErr nullDataExample.nAllData ∧
    (∃ b2, initialise_bunch exampleCollaborators id isnullExample (fun _ => 0)
        blankInverter.CIS (fun _ => 1) zeroNoiseErr nullDataExample = some (false, b2) ∧
      b2.inv.RefParam = nullDataExample.inv.RefParam ∧
      b2.inv.RefParamStd = nullDataExample.inv.RefParamStd ∧
      b2.inv.Wd = nullDataExample.inv.Wd ∧ b2.inv.Wc = nullDataExample.inv.Wc ∧
      b2.inv.Wt = nullDataExample.inv.Wt ∧ b2.inv.Wg = nullDataExample.inv.Wg ∧
      b2.inv.Ws = nullDataExample.inv.Ws ∧ b2.inv.Wq = nullDataExample.inv.Wq ∧
      b2.inv.Wr = nullDataExample.inv.Wr ∧ b2.inv.Wm = nullDataExample.inv.Wm) ∧
    executeExample.paralleljob % 1 = 0 ∧
    (read_bunch inputExample executeExample.b
      (executeExample.paralleljob * inputExample.subsamplerate)).1 = true ∧
    ∃ s2 msg, execute_pass exampleCollaborators id isnullExample (fun _ => 0)
        blankInverter.CIS inputExample 10 1 0 executeExample = some s2 ∧
      s2.events = executeExample.events
        ++ [cExecuteEvent.logmsg (executeExample.paralleljob * inputExample.subsamplerate)
          msg] ∧
      s2.readstatus = true ∧ s2.paralleljob = executeExample.paralleljob + 1 :=
  ⟨zeroNoise_example,
    (C18_zero_noise_skips_bunch exampleCollaborators id isnullExample (fun _ => 0)
      blankInverter.CIS).2.1 (fun _ => 1) zeroNoiseErr nullDataExample zeroNoise_example,
    rfl, rfl,
    (C18_zero_noise_skips_bunch exampleCollaborators id isnullExample (fun _ => 0)
      blankInverter.CIS).2.2 inputExample 10 1 0 executeExample rfl rfl zeroNoise_example⟩

/-- C17 (the code on ten logical data of which three observations are null): after
`initialise_bunch_data` the list `ActiveData` holds the seven indices of the non-null data
and `nData = 7`, but the working vectors `Obs` and `Err` have `nAllData = 10` entries each:
the overload of `cull` for a `std::vector<double>` allocates `vcull(nAllData)`. -/
theorem C17_working_vectors_size (junk : Vec ℚ) :
    ∃ b1, initialise_bunch_data isnullExample junk nullDataObs (fun _ => 1) nullDataExample
        = some (true, b1) ∧
      b1.ActiveData = [0, 2, 3, 5, 6, 8, 9] ∧ b1.inv.nData = 7 ∧
      b1.ObsSize = 10 ∧ b1.ErrSize = 10 := by
  obtain ⟨st, b1, h1, h2, h3, _, h5, h6, h7, h8, _⟩ :=
    initialise_bunch_data_spec isnullExample junk nullDataObs (fun _ => 1) nullDataExample
  have hA : b1.ActiveData = [0, 2, 3, 5, 6, 8, 9] := by
    rw [h2]
    have : nullDataExample.nAllData = 10 := rfl
    rw [this]
    simp [List.range_succ, List.filter, isnullExample, nullDataObs]
    norm_num
  have hst : st = true := by
    rcases Bool.eq_false_or_eq_true st with h | h
    · exact h
    · exfalso
      obtain ⟨i, hi, h0⟩ := h8.mp h
      rw [(h7 i hi).2] at h0
      norm_num at h0
  subst hst
  refine ⟨b1, h1, hA, ?_, h5, h6⟩
  rw [h3, hA]
  rfl

/-! ### The sanity check of an earth: the example -/

/-- C19 (the code on a well-formed earth): `sanityExample` has two layers and satisfies the
data-model invariants, its thickness `min` and `max` have `L - 1 = 1` entry each, and
`sanity_check` reports an error with the two messages on the number of layers of the
thickness bounds, which it compares with the number of conductivities. -/
theorem C19_thickness_bounds_rejected :
    sanityExample.WellFormed ∧
    sanityExample.min.thickness.length = sanityExample.ref.conductivity.length - 1 ∧
    sanityExample.max.thickness.length = sanityExample.ref.conductivity.length - 1 ∧
    sanityExample.sanity_check
      = ["The thickness min does not have the correct number of layer",
         "The thickness max does not have the correct number of layer"] := by
  refine ⟨?_, rfl, rfl, ?_⟩
  · unfold cEarthStruct.WellFormed
    simp [sanityExample, vget]
    refine ⟨?_, ?_⟩
    · intro i hi
      interval_cases i <;> simp <;> norm_num
    · norm_num
  · simp [cEarthStruct.sanity_check, sanityExample, min_le_zero, vsub]
    norm_num

/-! ### Reading a bunch -/

/-- The loop of `read_bunch` succeeds exactly when every record of the bunch loads and is
valid: the status returned by `read_record` does not enter. -/
theorem read_bunch_records_status (IM : cInputManager K) (records : List ℕ) (si : ℕ)
    (b : cBunchInverter K) :
    (read_bunch_records IM records si b).1 = true
      ↔ ∀ record ∈ records, IM.load_record record = true ∧ IM.is_record_valid record = true := by
  induction records generalizing si b with
  | nil => simp [read_bunch_records]
  | cons r rest ih =>
    unfold read_bunch_records
    simp only []
    by_cases h1 : IM.load_record r = false
    · rw [if_pos h1]
      simp [h1]
    · rw [if_neg h1]
      by_cases h2 : IM.is_record_valid r = false
      · rw [if_pos h2]
        simp [h2]
      · rw [if_neg h2, if_neg h2, ih]
        simp only [Bool.not_eq_false] at h1 h2
        simp [h1, h2]

/-- A record of the bunch that cannot be loaded or is not valid makes `read_bunch` return
false. -/
theorem read_bunch_false_of_bad_record (IM : cInputManager K) (b : cBunchInverter K)
    (record : ℕ) (records : List ℕ) (hb : IM.get_bunch record = some records) (r : ℕ)
    (hr : r ∈ records) (hbad : IM.load_record r = false ∨ IM.is_record_valid r = false) :
    (read_bunch IM b record).1 = false := by
  unfold read_bunch
  rw [hb]
  simp only []
  rcases Bool.eq_false_or_eq_true (read_bunch_records IM records 0 b).1 with h | h
  · exfalso
    have := (read_bunch_records_status IM records 0 b).mp h r hr
    rcases hbad with h2 | h2
    · rw [this.1] at h2; exact Bool.noConfusion h2
    · rw [this.2] at h2; exact Bool.noConfusion h2
  · exact h

/-- C20 (the code on a record that cannot be parsed): the record `0` of `unreadableExample`
loads and is valid, `read_record` returns false for it, and yet `read_bunch` returns true
and appends nothing to `OutputMessage`. -/
theorem C20_unread_record_accepted :
    unreadableExample.get_bunch 0 = some [0] ∧
    unreadableExample.load_record 0 = true ∧ unreadableExample.is_record_valid 0 = true ∧
    (read_record unreadableExample nullDataExample.inv 0 0).1 = false ∧
    (read_bunch unreadableExample nullDataExample 0).1 = true ∧
    (read_bunch unreadableExample nullDataExample 0).2.OutputMessage
      = nullDataExample.OutputMessage :=
  ⟨rfl, rfl, rfl, rfl, rfl, rfl⟩

/-! ### The loop of `execute` -/

section ExecuteLoop

variable [LinearOrderedField K]

/-- A pass of the loop of `execute` for a job of another process does nothing but count the
job. -/
theorem execute_pass_other_rank (X : Collaborators K) (sqrt : K → K) (isnull : K → Bool)
    (junk : Vec K) (cis0 : cIterationState K) (IM : cInputManager K) (fuel Size Rank : ℕ)
    (s : cExecuteState K) (h : s.paralleljob % Size ≠ Rank) :
    execute_pass X sqrt isnull junk cis0 IM fuel Size Rank s
      = some { s with paralleljob := s.paralleljob + 1 } := by
  unfold execute_pass
  dsimp only
  rw [if_neg h]

/-- A pass of the loop of `execute` for a job of this process whose bunch `read_bunch`
does not return: nothing is inverted, written or logged, and `readstatus` is false. -/
theorem execute_pass_read_false (X : Collaborators K) (sqrt : K → K) (isnull : K → Bool)
    (junk : Vec K) (cis0 : cIterationState K) (IM : cInputManager K) (fuel Size Rank : ℕ)
    (s : cExecuteState K) (h : s.paralleljob % Size = Rank)
    (hr : (read_bunch IM s.b (s.paralleljob * IM.subsamplerate)).1 = false) :
    execute_pass X sqrt isnull junk cis0 IM fuel Size Rank s
      = some { s with
          b := (read_bunch IM s.b (s.paralleljob * IM.subsamplerate)).2
          paralleljob := s.paralleljob + 1
          readstatus := false } := by
  unfold execute_pass
  dsimp only
  have hne : ¬ ((read_bunch IM s.b (s.paralleljob * IM.subsamplerate)).1 = true) := by
    rw [hr]; exact Bool.noConfusion
  rw [if_pos h, if_neg hne]

/-- The loop of `execute` ends at the first bunch of this process that `read_bunch` does
not return, whatever the reason: the later bunches are not visited. -/
theorem execute_loop_read_false (X : Collaborators K) (sqrt : K → K) (isnull : K → Bool)
    (junk : Vec K) (cis0 : cIterationState K) (IM : cInputManager K) (fuel Size Rank : ℕ)
    (passes : ℕ) (s : cExecuteState K) (h : s.paralleljob % Size = Rank)
    (hr : (read_bunch IM s.b (s.paralleljob * IM.subsamplerate)).1 = false) :
    execute_loop X sqrt isnull junk cis0 IM fuel Size Rank (passes + 1) s
      = some { s with
          b := (read_bunch IM s.b (s.paralleljob * IM.subsamplerate)).2
          paralleljob := s.paralleljob + 1
          readstatus := false } := by
  rw [execute_loop, execute_pass_read_false X sqrt isnull junk cis0 IM fuel Size Rank s h hr]
  rfl

end ExecuteLoop

/-- C21 (the code on a record that cannot be loaded): in `skipExample` the record `0`
cannot be loaded and the bunch of record `1` is readable; with `Size = 1` and `Rank = 0`
both bunches are jobs of this process, and yet `execute`, whatever its collaborators and
however many passes it is allowed, ends after the first job: it has counted one job and has
inverted, written and logged nothing, so the bunch of record `1` is never visited. -/
theorem C21_load_failure_ends_execute :
    skipExample.load_record 0 = false ∧
    (read_bunch skipExample nullDataExample 1).1 = true ∧
    0 % 1 = 0 ∧ 1 % 1 = 0 ∧
    ∀ (X : Collaborators ℚ) (sqrt : ℚ → ℚ) (isnull : ℚ → Bool) (junk : Vec ℚ)
      (cis0 : cIterationState ℚ) (fuel passes : ℕ),
      ∃ s, execute X sqrt isnull junk cis0 skipExample fuel 1 0 (passes + 1) nullDataExample
          = some s ∧
        s.paralleljob = 1 ∧ s.readstatus = false ∧ s.events = [] :=
  ⟨rfl, rfl, rfl, rfl, fun X sqrt isnull junk cis0 fuel passes =>
    ⟨_, execute_loop_read_false X sqrt isnull junk cis0 skipExample fuel 1 0 passes
      { b := nullDataExample, paralleljob := 0, readstatus := true, events := [] } rfl rfl,
      rfl, rfl, rfl⟩⟩

/-! ### The loop of `iterate` after a rejected trial -/

section IterateStuck

variable [LinearOrderedField K]

/-- A pass that rejects its trial before the fifth accepted iteration leads to a state that
the next pass reproduces: same iteration state, same trial, same rejection. -/
theorem iterate_pass_rejected_fixed (X : Collaborators K) (s : IterateLoop K)
    (tr : cTrialModel K) (hk : s.keepiterating = true)
    (h1 : ¬ s.inv.CIS.iteration ≥ s.inv.MaxIterations)
    (h2 : ¬ s.inv.CIS.phid ≤ s.inv.MinimumPhiD)
    (h3 : ¬ s.inv.CIS.iteration > 4)
    (htr : iterate_trial X s.inv = some tr) (hrej : ¬ tr.phid ≤ s.inv.CIS.phid) :
    iterate_pass X s
      = some { inv := iterate_jacobian X s.inv
               percentchange := 100 * (s.inv.CIS.phid - tr.phid) / s.inv.CIS.phid
               keepiterating := true } ∧
    iterate_pass X { inv := iterate_jacobian X s.inv
                     percentchange := 100 * (s.inv.CIS.phid - tr.phid) / s.inv.CIS.phid
                     keepiterating := true }
      = some { inv := iterate_jacobian X s.inv
               percentchange := 100 * (s.inv.CIS.phid - tr.phid) / s.inv.CIS.phid
               keepiterating := true } := by
  constructor
  · rw [iterate_pass_of_trial X s tr h1 h2 (fun h => h3 h.1) htr, if_neg hrej, hk]
  · have hp := iterate_pass_of_trial X
      { inv := iterate_jacobian X s.inv
        percentchange := 100 * (s.inv.CIS.phid - tr.phid) / s.inv.CIS.phid
        keepiterating := true } tr h1 h2 (fun h => h3 h.1) htr
    have hrej2 : ¬ tr.phid ≤ ({ inv := iterate_jacobian X s.inv
                                percentchange := 100 * (s.inv.CIS.phid - tr.phid) / s.inv.CIS.phid
                                keepiterating := true } : IterateLoop K).inv.CIS.phid := hrej
    rw [hp, if_neg hrej2]
    rfl

/-- The loop of `iterate` does not leave a state that a pass reproduces. -/
theorem iterate_loop_fixed (X : Collaborators K) (s : IterateLoop K)
    (hk : s.keepiterating = true) (hp : iterate_pass X s = some s) :
    ∀ fuel, iterate_loop X fuel s = some s := by
  intro fuel
  induction fuel with
  | zero => rfl
  | succ k ih =>
    rw [iterate_loop, if_pos hk, hp]
    exact ih

/-- When a trial is rejected before the fifth accepted iteration, the loop of `iterate` is
still running after any number of passes, with the iteration state it had. -/
theorem iterate_loop_rejected (X : Collaborators K) (s : IterateLoop K)
    (tr : cTrialModel K) (hk : s.keepiterating = true)
    (h1 : ¬ s.inv.CIS.iteration ≥ s.inv.MaxIterations)
    (h2 : ¬ s.inv.CIS.phid ≤ s.inv.MinimumPhiD)
    (h3 : ¬ s.inv.CIS.iteration > 4)
    (htr : iterate_trial X s.inv = some tr) (hrej : ¬ tr.phid ≤ s.inv.CIS.phid) :
    ∀ fuel, ∃ s1, iterate_loop X fuel s = some s1 ∧ s1.keepiterating = true ∧
      s1.inv.CIS = s.inv.CIS := by
  obtain ⟨hp1, hp2⟩ := iterate_pass_rejected_fixed X s tr hk h1 h2 h3 htr hrej
  intro fuel
  cases fuel with
  | zero => exact ⟨s, rfl, hk, rfl⟩
  | succ k =>
    refine ⟨{ inv := iterate_jacobian X s.inv
              percentchange := 100 * (s.inv.CIS.phid - tr.phid) / s.inv.CIS.phid
              keepiterating := true }, ?_, rfl, rfl⟩
    rw [iterate_loop, if_pos hk, hp1]
    exact iterate_loop_fixed X _ rfl hp2 k

end IterateStuck

/-- C7 (the code on a rejected trial): in `iterateExample` the first trial has
`phid = 81/16` above the current `9/4` and is rejected; the rejecting pass does not stop
the loop and sets no termination reason, which stays `"Has not terminated"` and is not
`"No improvement"`; after any number of passes the loop is still running with the
iteration state of the start, and `iterate` returns no result. -/
theorem C7_rejected_trial_not_stopped :
    (∃ tr s1,
      iterate_trial exampleCollaborators
        (iterate_begin exampleCollaborators iterateExample).inv = some tr ∧
      ¬ tr.phid ≤ (iterate_begin exampleCollaborators iterateExample).inv.CIS.phid ∧
      iterate_pass exampleCollaborators (iterate_begin exampleCollaborators iterateExample)
        = some s1 ∧
      s1.keepiterating = true ∧ s1.inv.TerminationReason = "Has not terminated" ∧
      s1.inv.TerminationReason ≠ "No improvement") ∧
    (∀ fuel, ∃ s, iterate_loop exampleCollaborators fuel
        (iterate_begin exampleCollaborators iterateExample) = some s ∧
      s.keepiterating = true ∧
      s.inv.CIS = (iterate_begin exampleCollaborators iterateExample).inv.CIS) ∧
    ∀ fuel, iterate exampleCollaborators fuel iterateExample = none := by
  obtain ⟨tr, htr, hphid⟩ := iterateExampleState_trial 0
  obtain ⟨h1, h2, h3⟩ := iterateExampleState_guards 0 (by decide)
  have hp := iterate_pass_of_trial exampleCollaborators (iterateExampleState 0) tr h1 h2 h3 htr
  have hrej : ¬ tr.phid ≤ (iterateExampleState 0).inv.CIS.phid := by
    rw [hphid, iterateExampleState_phid]
    norm_num
  have h4 : ¬ (iterateExampleState 0).inv.CIS.iteration > 4 := by
    show ¬ 0 > 4
    decide
  have hloop := iterate_loop_rejected exampleCollaborators (iterateExampleState 0) tr rfl
    h1 h2 h4 htr hrej
  rw [if_neg hrej] at hp
  rw [iterateExampleState_zero] at htr hrej hp hloop
  refine ⟨⟨tr, _, htr, hrej, hp, rfl, rfl, ?_⟩, hloop, fun fuel => ?_⟩
  · show ("Has not terminated" : String) ≠ "No improvement"
    decide
  · obtain ⟨s, hs, hk, _⟩ := hloop fuel
    unfold iterate
    rw [hs]
    dsimp only
    rw [if_pos hk]

/-- C35 (the code on a trial rejected before the fifth accepted iteration): in
`iterateExample` (`MaxIterations = 10`, `MinimumPhiD = 0`, deterministic forward model and
lambda search) the first trial has `phid = 81/16` above the starting `9/4` and is rejected;
after any number of passes the loop of `iterate` is still running with no iteration
accepted, so that `iterate` does not return, whatever the number of passes it is allowed. -/
theorem C35_rejected_trial_loops_forever :
    (∃ tr, iterate_trial exampleCollaborators
        (iterate_begin exampleCollaborators iterateExample).inv = some tr ∧
      ¬ tr.phid ≤ (iterate_begin exampleCollaborators iterateExample).inv.CIS.phid) ∧
    (∀ fuel, ∃ s, iterate_loop exampleCollaborators fuel
        (iterate_begin exampleCollaborators iterateExample) = some s ∧
      s.keepiterating = true ∧ s.inv.CIS.iteration = 0) ∧
    ∀ fuel, iterate exampleCollaborators fuel iterateExample = none := by
  obtain ⟨tr, htr, hphid⟩ := iterateExampleState_trial 0
  obtain ⟨h1, h2, h3⟩ := iterateExampleState_guards 0 (by decide)
  have hrej : ¬ tr.phid ≤ (iterateExampleState 0).inv.CIS.phid := by
    rw [hphid, iterateExampleState_phid]
    norm_num
  have h4 : ¬ (iterateExampleState 0).inv.CIS.iteration > 4 := by
    show ¬ 0 > 4
    decide
  have hloop := iterate_loop_rejected exampleCollaborators (iterateExampleState 0) tr rfl
    h1 h2 h4 htr hrej
  rw [iterateExampleState_zero] at htr hrej hloop
  refine ⟨⟨tr, htr, hrej⟩, fun fuel => ?_, fun fuel => ?_⟩
  · obtain ⟨s, hs, hk, hc⟩ := hloop fuel
    exact ⟨s, hs, hk, by rw [hc]; rfl⟩
  · obtain ⟨s, hs, hk, _⟩ := hloop fuel
    unfold iterate
    rw [hs]
    dsimp only
    rw [if_pos hk]

/-! ### The norms stored in the iteration state -/

section StoredNorms

variable [LinearOrderedField K]

/-- The iteration state that an accepted trial leaves has its norms consistent with its
parameter vector. -/
theorem iterate_accept_norms (inv : cSBSInverter K) (tr : cTrialModel K) :
    (iterate_accept inv tr).CIS.param = tr.m ∧
    (iterate_accept inv tr).CIS.phic = phiC (iterate_accept inv tr) tr.m ∧
    (iterate_accept inv tr).CIS.phit = phiT (iterate_accept inv tr) tr.m ∧
    (iterate_accept inv tr).CIS.phig = phiG (iterate_accept inv tr) tr.m ∧
    (iterate_accept inv tr).CIS.phis = phiS (iterate_accept inv tr) tr.m ∧
    (iterate_accept inv tr).CIS.phiq = phiQ (iterate_accept inv tr) tr.m ∧
    (iterate_accept inv tr).CIS.phim
      = (iterate_accept inv tr).CIS.phic + (iterate_accept inv tr).CIS.phit
        + (iterate_accept inv tr).CIS.phig + (iterate_accept inv tr).CIS.phis
        + (iterate_accept inv tr).CIS.phiq :=
  ⟨rfl, rfl, rfl, rfl, rfl, rfl, rfl⟩

/-- The initial iteration state of `iterate`: `phiq` keeps the value it had before the
call, and `phim` is the sum of the five norms of the reference model. -/
theorem iterate_begin_norms (X : Collaborators K) (inv : cSBSInverter K) :
    (iterate_begin X inv).inv.CIS.phiq = inv.CIS.phiq ∧
    (iterate_begin X inv).inv.CIS.param = inv.RefParam ∧
    (iterate_begin X inv).inv.CIS.phim
      = phiC inv inv.RefParam + phiT inv inv.RefParam + phiG inv inv.RefParam
        + phiS inv inv.RefParam + phiQ inv inv.RefParam :=
  ⟨rfl, rfl, rfl⟩

end StoredNorms

theorem normsExampleBase_fields :
    normsExampleBase.nLayers = 2 ∧ normsExampleBase.nSoundings = 1 ∧
    normsExampleBase.nParam = 2 ∧ normsExampleBase.AlphaQ = 1 ∧
    solve_conductivity normsExampleBase = true ∧
    (cindex normsExampleBase 0 0).toNat = 0 ∧ (cindex normsExampleBase 0 1).toNat = 1 :=
  ⟨rfl, rfl, rfl, rfl, rfl, rfl, rfl⟩

/-- The homogeneity norm of the reference model `[1, 0]` of `normsExample` is `1`. -/
theorem normsExample_phiQ : phiQ normsExample normsExample.RefParam = 1 := by
  obtain ⟨h1, h2, h3, h4, h5, h6, h7⟩ := normsExampleBase_fields
  have hq : normsExample.Wq = (initialise_Wm id normsExampleBase).Wq := rfl
  have ha : normsExample.AlphaQ = 1 := rfl
  have hn : normsExample.nParam = 2 := rfl
  have hr : normsExample.RefParam = fun i => if i = 0 then 1 else 0 := rfl
  unfold phiQ mtAm
  rw [ha, if_neg one_ne_zero, hq, hn, hr,
    initialise_Wm_Wq id normsExampleBase (by rw [h4]; norm_num) h5,
    quadForm_transposeMul_scale, h1, h2, h4]
  have hL : ∀ r i, r < 2 → i < 2 →
      homogeneityOperator normsExampleBase r i = if r = i then 1 else -1 := by
    intro r i hr hi
    unfold homogeneityOperator homogeneityRow
    rw [h1, h2]
    interval_cases r <;> interval_cases i <;> simp [h6, h7]
    · rw [if_pos ⟨1, by decide, h7.symm⟩]; norm_num
    · rw [if_pos ⟨0, by decide, h6.symm⟩]; norm_num
  simp [Finset.sum_range_succ, hL]
  norm_num

/-- C36 (the code on the initial iteration state): in `normsExample`, whose reference model
`[1, 0]` has the homogeneity norm `phiQ = 1`, the state that `iterate` holds before any
step is accepted has `CIS.param` the reference model and `CIS.phim = 1`, but `CIS.phiq` is
still the `0` it had before the call: `CIS.phiq` is not `phiQ (CIS.param)`, and `CIS.phim`
is not the sum of the five stored norms, which is `0`. -/
theorem C36_initial_phiq_stale :
    (iterate_begin exampleCollaborators normsExample).inv.CIS.param = normsExample.RefParam ∧
    phiQ (iterate_begin exampleCollaborators normsExample).inv
      (iterate_begin exampleCollaborators normsExample).inv.CIS.param = 1 ∧
    (iterate_begin exampleCollaborators normsExample).inv.CIS.phiq = 0 ∧
    (iterate_begin exampleCollaborators normsExample).inv.CIS.phim = 1 ∧
    (iterate_begin exampleCollaborators normsExample).inv.CIS.phic
      + (iterate_begin exampleCollaborators normsExample).inv.CIS.phit
      + (iterate_begin exampleCollaborators normsExample).inv.CIS.phig
      + (iterate_begin exampleCollaborators normsExample).inv.CIS.phis
      + (iterate_begin exampleCollaborators normsExample).inv.CIS.phiq = 0 := by
  have hc : phiC normsExample normsExample.RefParam = 0 := if_pos rfl
  have ht : phiT normsExample normsExample.RefParam = 0 := if_pos rfl
  have hg : phiG normsExample normsExample.RefParam = 0 := if_pos rfl
  have hs : phiS normsExample normsExample.RefParam = 0 := if_pos rfl
  have hq := normsExample_phiQ
  refine ⟨rfl, hq, rfl, ?_, ?_⟩
  · rw [(iterate_begin_norms exampleCollaborators normsExample).2.2, hc, ht, hg, hs, hq]
    norm_num
  · show phiC normsExample normsExample.RefParam + phiT normsExample normsExample.RefParam
      + phiG normsExample normsExample.RefParam + phiS normsExample normsExample.RefParam
      + (0 : ℚ) = 0
    rw [hc, ht, hg, hs]
    norm_num

/-! ### The result line of a bunch -/

section BunchResult

variable [LinearOrderedField K]

/-- With `MaxIterations = 0` the loop of `iterate` stops at its first pass: `iterate`
returns with no iteration accepted. -/
theorem iterate_of_no_iterations (X : Collaborators K) (inv : cSBSInverter K) (fuel : ℕ)
    (h : inv.MaxIterations = 0) :
    ∃ inv1, iterate X (fuel + 1) inv = some inv1 ∧ inv1.CIS.iteration = 0 ∧
      inv1.TerminationReason = "Too many iterations" := by
  have hp : iterate_pass X (iterate_begin X inv)
      = some { inv := { (iterate_begin X inv).inv with
                        TerminationReason := "Too many iterations" }
               percentchange := (iterate_begin X inv).percentchange
               keepiterating := false } := by
    unfold iterate_pass
    have h0 : (iterate_begin X inv).inv.CIS.iteration
        ≥ (iterate_begin X inv).inv.MaxIterations := by
      show 0 ≥ inv.MaxIterations
      rw [h]
    rw [if_pos h0]
  have hl : ∀ s2 : IterateLoop K, iterate_pass X (iterate_begin X inv) = some s2 →
      s2.keepiterating = false →
      iterate_loop X (fuel + 1) (iterate_begin X inv) = some s2 := by
    intro s2 h1 h2
    have hk : (iterate_begin X inv).keepiterating = true := rfl
    have hk2 : ¬ s2.keepiterating = true := by rw [h2]; decide
    rw [iterate_loop, if_pos hk, h1]
    cases fuel with
    | zero => rfl
    | succ k =>
      show iterate_loop X (k + 1) s2 = some s2
      rw [iterate_loop, if_neg hk2]
  have hf : ¬ (false = true) := by decide
  refine ⟨iterate_end X { (iterate_begin X inv).inv with
      TerminationReason := "Too many iterations" }, ?_, rfl, rfl⟩
  unfold iterate
  rw [hl _ hp rfl]
  dsimp only
  rw [if_neg hf]

end BunchResult

/-- Member `bunch_result` has a result exactly when an iteration was accepted. -/
theorem bunch_result_isSome (b : cBunchInverter K) (etime : K) :
    (bunch_result b etime).isSome = true ↔ b.inv.CIS.iteration ≠ 0 := by
  unfold bunch_result
  by_cases h : b.inv.CIS.iteration = 0
  · rw [if_pos h]
    exact ⟨fun hf => Bool.noConfusion hf, fun hf => absurd h hf⟩
  · rw [if_neg h]
    exact ⟨fun _ => h, fun _ => rfl⟩

/-- C38 (the code on a run without an accepted iteration): `blankInverter` has
`MaxIterations = 0`; `iterate` returns for it with `CIS.iteration = 0` and the reason
`"Too many iterations"`, and `bunch_result`, which `execute` calls next, divides
`nForwards` by that `0`: it has no defined result. -/
theorem C38_bunch_result_divides_by_zero :
    blankInverter.MaxIterations = 0 ∧
    ∀ fuel : ℕ, ∃ inv1,
      iterate exampleCollaborators (fuel + 1) blankInverter = some inv1 ∧
      inv1.CIS.iteration = 0 ∧ inv1.TerminationReason = "Too many iterations" ∧
      ∀ etime : ℚ, bunch_result { nullDataExample with inv := inv1 } etime = none := by
  refine ⟨rfl, fun fuel => ?_⟩
  obtain ⟨inv1, h1, h2, h3⟩ :=
    iterate_of_no_iterations exampleCollaborators blankInverter fuel rfl
  refine ⟨inv1, h1, h2, h3, fun etime => ?_⟩
  unfold bunch_result
  rw [if_pos h2]

/-! ### The data indices of `setup_data` -/

/-- Nothing written gives the next indices to no combination. -/
theorem WritesInOrder.nil (s : cDataIndex) : WritesInOrder s s [] :=
  ⟨by simp, by simp, fun i h => absurd h (Nat.not_lt_zero i), fun _ _ => rfl⟩

/-- Two runs of writes, the second on combinations that the first has not written, make
one run. -/
theorem WritesInOrder.append {s s1 s2 : cDataIndex} {ks1 ks2 : List (ℕ × ℕ × ℕ × ℕ)}
    (h1 : WritesInOrder s s1 ks1) (h2 : WritesInOrder s1 s2 ks2)
    (hd : ∀ k, k ∈ ks1 → k ∉ ks2) : WritesInOrder s s2 (ks1 ++ ks2) := by
  obtain ⟨a1, b1, c1, d1⟩ := h1
  obtain ⟨a2, b2, c2, d2⟩ := h2
  refine ⟨?_, ?_, fun i h => ?_, fun k hk => ?_⟩
  · rw [a2, a1, List.length_append]; push_cast; ring
  · rw [b2, b1, List.length_append]; ring
  · by_cases hi : i < ks1.length
    · have e : (ks1 ++ ks2).get ⟨i, h⟩ = ks1.get ⟨i, hi⟩ := List.getElem_append_left hi
      rw [e, d2 _ (hd _ (List.get_mem ks1 i hi)), c1 i hi]
    · have hi2 : i - ks1.length < ks2.length := by
        rw [List.length_append] at h; omega
      have e : (ks1 ++ ks2).get ⟨i, h⟩ = ks2.get ⟨i - ks1.length, hi2⟩ :=
        List.getElem_append_right (not_lt.mp hi)
      rw [e, c2 _ hi2, a1]
      have : ((i - ks1.length : ℕ) : ℤ) = (i : ℤ) - (ks1.length : ℤ) :=
        Nat.cast_sub (not_lt.mp hi)
      rw [this]; ring
  · rw [List.mem_append, not_or] at hk
    rw [d2 k hk.2, d1 k hk.1]

/-- A loop whose pass `i` writes the combinations `ks i` in order, the lists of different
passes having no combination in common, writes their concatenation in order. -/
theorem WritesInOrder.loop (n : ℕ) (body : ℕ → cDataIndex → cDataIndex)
    (ks : ℕ → List (ℕ × ℕ × ℕ × ℕ))
    (hbody : ∀ i s, WritesInOrder s (body i s) (ks i))
    (hd : ∀ i j, i ≠ j → ∀ k, k ∈ ks i → k ∉ ks j) (s : cDataIndex) :
    WritesInOrder s (forLoop n body s) ((List.range n).flatMap ks) := by
  induction n with
  | zero => exact WritesInOrder.nil s
  | succ m ih =>
    rw [forLoop_succ, List.range_succ, List.flatMap_append, List.flatMap_singleton]
    refine ih.append (hbody m _) (fun k hk hk2 => ?_)
    obtain ⟨i, hi, hki⟩ := List.mem_flatMap.mp hk
    exact hd i m (Nat.ne_of_lt (List.mem_range.mp hi)) k hki hk2

/-- The block of one used component writes its windows in order. -/
theorem setup_data_component_writes (S : cTDEmSystemInfo) (si sysi ci : ℕ) (s : cDataIndex) :
    WritesInOrder s (setup_data_component S si sysi ci s)
      (componentCombinations S si sysi ci) := by
  unfold setup_data_component componentCombinations
  have hloop := forLoop_invariant
    (fun n (t : cDataIndex) =>
      t.di = s.di + n ∧ t.nAllData = s.nAllData + S.nwindows ∧
      (∀ wi, wi < n → t.dindex (si, sysi, ci, wi) = s.di + wi) ∧
      (∀ k, (∀ wi, wi < n → k ≠ (si, sysi, ci, wi)) → t.dindex k = s.dindex k))
    S.nwindows
    (fun wi s =>
      { s with dindex := Function.update s.dindex (si, sysi, ci, wi) s.di, di := s.di + 1 })
    { s with nAllData := s.nAllData + S.nwindows }
    ⟨by simp, rfl, fun wi h => absurd h (Nat.not_lt_zero wi), fun _ _ => rfl⟩
    (by
      intro n t _ ht
      obtain ⟨a, b, c, d⟩ := ht
      refine ⟨by dsimp only; rw [a]; push_cast; ring, b, fun wi hwi => ?_, fun k hk => ?_⟩
      · dsimp only
        by_cases e : wi = n
        · rw [e, Function.update_same, a]
        · have hne : (si, sysi, ci, wi) ≠ (si, sysi, ci, n) := fun h => e (by
            have := congrArg (fun q : ℕ × ℕ × ℕ × ℕ => q.2.2.2) h
            exact this)
          rw [Function.update_noteq hne]
          exact c wi (by omega)
      · dsimp only
        rw [Function.update_noteq (hk n (Nat.lt_succ_self n))]
        exact d k (fun wi hwi => hk wi (Nat.lt_succ_of_lt hwi)))
  obtain ⟨a, b, c, d⟩ := hloop
  refine ⟨by rw [a, List.length_map, List.length_range],
    by rw [b, List.length_map, List.length_range], fun i h => ?_, fun k hk => ?_⟩
  · have hi : i < S.nwindows := by
      rw [List.length_map, List.length_range] at h; exact h
    have e : ((List.range S.nwindows).map (fun wi => (si, sysi, ci, wi))).get ⟨i, h⟩
        = (si, sysi, ci, i) := by
      simp
    rw [e]
    exact c i hi
  · refine d k (fun wi hwi hkw => hk ?_)
    rw [hkw]
    exact List.mem_map.mpr ⟨wi, List.mem_range.mpr hwi, rfl⟩

/-- The combinations of a component carry its sounding, system and component. -/
theorem mem_componentCombinations (S : cTDEmSystemInfo) (si sysi ci : ℕ)
    (k : ℕ × ℕ × ℕ × ℕ) :
    k ∈ componentCombinations S si sysi ci
      ↔ k.1 = si ∧ k.2.1 = sysi ∧ k.2.2.1 = ci ∧ k.2.2.2 < S.nwindows := by
  unfold componentCombinations
  rw [List.mem_map]
  constructor
  · rintro ⟨wi, hwi, rfl⟩
    exact ⟨rfl, rfl, rfl, List.mem_range.mp hwi⟩
  · rintro ⟨h1, h2, h3, h4⟩
    refine ⟨k.2.2.2, List.mem_range.mpr h4, ?_⟩
    rw [← h1, ← h2, ← h3]


/-- The combinations of a system are those of its used components. -/
theorem mem_systemCombinations (S : cTDEmSystemInfo) (si sysi : ℕ) (k : ℕ × ℕ × ℕ × ℕ) :
    k ∈ (usedComponents S).flatMap (fun ci => componentCombinations S si sysi ci)
      ↔ k.1 = si ∧ k.2.1 = sysi ∧ k.2.2.1 ∈ usedComponents S ∧ k.2.2.2 < S.nwindows := by
  rw [List.mem_flatMap]
  constructor
  · rintro ⟨ci, hci, hk⟩
    obtain ⟨h1, h2, h3, h4⟩ := (mem_componentCombinations S si sysi ci k).mp hk
    exact ⟨h1, h2, by rw [h3]; exact hci, h4⟩
  · rintro ⟨h1, h2, h3, h4⟩
    exact ⟨k.2.2.1, h3, (mem_componentCombinations S si sysi k.2.2.1 k).mpr ⟨h1, h2, rfl, h4⟩⟩

/-- The used components of a system: the XZ amplitude and, if enabled, Y for a system
inverting the XZ amplitude, so that X and Z are not used; otherwise those of X, Y, Z
flagged `Use`. -/
theorem mem_usedComponents (S : cTDEmSystemInfo) (ci : ℕ) :
    ci ∈ usedComponents S
      ↔ (S.invertXPlusZ = true ∧ (ci = XZAMP ∨ (ci = YCOMP ∧ S.Use YCOMP = true))) ∨
        (S.invertXPlusZ = false ∧ ci < 3 ∧ S.Use ci = true) := by
  unfold usedComponents
  by_cases hx : S.invertXPlusZ = true
  · rw [if_pos hx]
    by_cases hy : S.Use YCOMP = true
    · rw [if_pos hy]
      simp [hx, hy]
    · rw [if_neg hy]
      simp [hx, hy]
  · rw [if_neg hx]
    simp [hx, List.mem_filter]

/-- The body of the system loop writes the combinations of the used components of the
system in order. -/
theorem setup_data_system_writes (S : cTDEmSystemInfo) (si sysi : ℕ) (s : cDataIndex) :
    WritesInOrder s (setup_data_system S si sysi s)
      ((usedComponents S).flatMap (fun ci => componentCombinations S si sysi ci)) := by
  have hdis : ∀ c1 c2 : ℕ, c1 ≠ c2 → ∀ k, k ∈ componentCombinations S si sysi c1 →
      k ∉ componentCombinations S si sysi c2 := by
    intro c1 c2 hne k h1 h2
    have e1 := ((mem_componentCombinations S si sysi c1 k).mp h1).2.2.1
    have e2 := ((mem_componentCombinations S si sysi c2 k).mp h2).2.2.1
    exact hne (e1.symm.trans e2)
  unfold setup_data_system usedComponents
  by_cases hx : S.invertXPlusZ = true
  · rw [if_pos hx, if_pos hx]
    dsimp only
    by_cases hy : S.Use YCOMP = true
    · rw [if_pos hy, if_pos hy]
      have h := (setup_data_component_writes S si sysi XZAMP s).append
        (setup_data_component_writes S si sysi YCOMP _) (hdis XZAMP YCOMP (by decide))
      simpa using h
    · rw [if_neg hy, if_neg hy]
      have h := setup_data_component_writes S si sysi XZAMP s
      simpa using h
  · rw [if_neg hx, if_neg hx]
    have h := WritesInOrder.loop 3
      (fun ci s => if S.Use ci = true then setup_data_component S si sysi ci s else s)
      (fun ci => if S.Use ci = true then componentCombinations S si sysi ci else [])
      (fun ci s => by
        dsimp only
        by_cases hu : S.Use ci = true
        · rw [if_pos hu, if_pos hu]
          exact setup_data_component_writes S si sysi ci s
        · rw [if_neg hu, if_neg hu]
          exact WritesInOrder.nil s)
      (fun c1 c2 hne k h1 h2 => by
        dsimp only at h1 h2
        by_cases hu1 : S.Use c1 = true
        · by_cases hu2 : S.Use c2 = true
          · rw [if_pos hu1] at h1
            rw [if_pos hu2] at h2
            exact hdis c1 c2 hne k h1 h2
          · rw [if_neg hu2] at h2
            exact absurd h2 (List.not_mem_nil k)
        · rw [if_neg hu1] at h1
          exact absurd h1 (List.not_mem_nil k))
      s
    have e : (List.range 3).flatMap
        (fun ci => if S.Use ci = true then componentCombinations S si sysi ci else [])
        = ((List.range 3).filter (fun ci => S.Use ci)).flatMap
            (fun ci => componentCombinations S si sysi ci) := by
      have h3 : List.range 3 = [0, 1, 2] := rfl
      rw [h3]
      by_cases h0 : S.Use 0 = true <;> by_cases h1 : S.Use 1 = true <;>
        by_cases h2 : S.Use 2 = true <;> simp [List.filter, h0, h1, h2]
    rw [e] at h
    exact h

/-- The two loops of `setup_data` that assign the indices write the used combinations in
order. -/
theorem setup_data_loops_write (nSoundings nSystems : ℕ) (SV : ℕ → cTDEmSystemInfo)
    (s : cDataIndex) :
    WritesInOrder s
      (forLoop nSoundings
        (fun si s =>
          forLoop nSystems (fun sysi s => setup_data_system (SV sysi) si sysi s) s)
        s)
      (usedCombinations nSoundings nSystems SV) := by
  unfold usedCombinations
  refine WritesInOrder.loop nSoundings _ _ (fun si s => ?_) (fun i j hne k h1 h2 => ?_) s
  · refine WritesInOrder.loop nSystems _ _
      (fun sysi s => setup_data_system_writes (SV sysi) si sysi s)
      (fun i j hne k h1 h2 => ?_) s
    exact hne (((mem_systemCombinations (SV i) si i k).mp h1).2.1.symm.trans
      ((mem_systemCombinations (SV j) si j k).mp h2).2.1)
  · obtain ⟨a, _, ha⟩ := List.mem_flatMap.mp h1
    obtain ⟨b, _, hb⟩ := List.mem_flatMap.mp h2
    exact hne (((mem_systemCombinations (SV a) i a k).mp ha).1.symm.trans
      ((mem_systemCombinations (SV b) j b k).mp hb).1)

/-- The used combinations: sounding, system and window in range, the component a used
component of the system. -/
theorem mem_usedCombinations (nSoundings nSystems : ℕ) (SV : ℕ → cTDEmSystemInfo)
    (k : ℕ × ℕ × ℕ × ℕ) :
    k ∈ usedCombinations nSoundings nSystems SV
      ↔ k.1 < nSoundings ∧ k.2.1 < nSystems ∧ k.2.2.1 ∈ usedComponents (SV k.2.1) ∧
        k.2.2.2 < (SV k.2.1).nwindows := by
  unfold usedCombinations
  constructor
  · intro h
    obtain ⟨si, hsi, h1⟩ := List.mem_flatMap.mp h
    obtain ⟨sysi, hsysi, h2⟩ := List.mem_flatMap.mp h1
    obtain ⟨e1, e2, e3, e4⟩ := (mem_systemCombinations (SV sysi) si sysi k).mp h2
    rw [e1, e2]
    exact ⟨List.mem_range.mp hsi, List.mem_range.mp hsysi, e3, e4⟩
  · rintro ⟨h1, h2, h3, h4⟩
    exact List.mem_flatMap.mpr ⟨k.1, List.mem_range.mpr h1,
      List.mem_flatMap.mpr ⟨k.2.1, List.mem_range.mpr h2,
        (mem_systemCombinations (SV k.2.1) k.1 k.2.1 k).mpr ⟨rfl, rfl, h3, h4⟩⟩⟩


/-- A loop of passes that only write `-1`: an entry that a pass is to write, or that was
`-1` before, is `-1` after the loop. -/
theorem forLoop_writes_minus_one {α : Type} (n : ℕ) (body : ℕ → (α → ℤ) → (α → ℤ))
    (Q : ℕ → α → Prop) (hest : ∀ i d k, Q i k → body i d k = -1)
    (hpres : ∀ i d k, d k = -1 → body i d k = -1) (d : α → ℤ) (k : α) :
    ((∃ i, i < n ∧ Q i k) → forLoop n body d k = -1) ∧
    (d k = -1 → forLoop n body d k = -1) := by
  induction n with
  | zero => exact ⟨fun ⟨i, hi, _⟩ => absurd hi (Nat.not_lt_zero i), fun h => h⟩
  | succ m ih =>
    rw [forLoop_succ]
    refine ⟨fun ⟨i, hi, hq⟩ => ?_, fun h => hpres m _ k (ih.2 h)⟩
    by_cases e : i = m
    · rw [e] at hq
      exact hest m _ k hq
    · exact hpres m _ k (ih.1 ⟨i, by omega, hq⟩)

/-- The first loops of `setup_data` leave `-1` at every combination of a sounding, a
system, one of the four components and a window of the system. -/
theorem setup_data_reset (nSoundings nSystems : ℕ) (SV : ℕ → cTDEmSystemInfo)
    (d0 : ℕ × ℕ × ℕ × ℕ → ℤ) (k : ℕ × ℕ × ℕ × ℕ) (h1 : k.1 < nSoundings)
    (h2 : k.2.1 < nSystems) (h3 : k.2.2.1 < 4) (h4 : k.2.2.2 < (SV k.2.1).nwindows) :
    forLoop nSoundings
      (fun si d =>
        forLoop nSystems
          (fun sysi d =>
            forLoop 4
              (fun ci d =>
                forLoop (SV sysi).nwindows
                  (fun wi d => Function.update d (si, sysi, ci, wi) (-1))
                  d)
              d)
          d)
      d0 k = -1 := by
  have l4 : ∀ si sysi ci (d : ℕ × ℕ × ℕ × ℕ → ℤ) (k : ℕ × ℕ × ℕ × ℕ),
      ((∃ wi, wi < (SV sysi).nwindows ∧ k = (si, sysi, ci, wi)) →
        forLoop (SV sysi).nwindows
          (fun wi d => Function.update d (si, sysi, ci, wi) (-1)) d k = -1) ∧
      (d k = -1 →
        forLoop (SV sysi).nwindows
          (fun wi d => Function.update d (si, sysi, ci, wi) (-1)) d k = -1) :=
    fun si sysi ci d k =>
      forLoop_writes_minus_one (SV sysi).nwindows
        (fun wi d => Function.update d (si, sysi, ci, wi) (-1))
        (fun wi k => k = (si, sysi, ci, wi))
        (fun wi d k hk => by
          have hk2 : k = (si, sysi, ci, wi) := hk
          rw [hk2]
          exact Function.update_same _ _ _)
        (fun wi d k hk => by
          show Function.update d (si, sysi, ci, wi) (-1) k = -1
          by_cases e : k = (si, sysi, ci, wi)
          · rw [e, Function.update_same]
          · rw [Function.update_noteq e]; exact hk)
        d k
  have l3 : ∀ si sysi (d : ℕ × ℕ × ℕ × ℕ → ℤ) (k : ℕ × ℕ × ℕ × ℕ),
      ((∃ ci, ci < 4 ∧ ∃ wi, wi < (SV sysi).nwindows ∧ k = (si, sysi, ci, wi)) →
        forLoop 4
          (fun ci d =>
            forLoop (SV sysi).nwindows
              (fun wi d => Function.update d (si, sysi, ci, wi) (-1)) d) d k = -1) ∧
      (d k = -1 →
        forLoop 4
          (fun ci d =>
            forLoop (SV sysi).nwindows
              (fun wi d => Function.update d (si, sysi, ci, wi) (-1)) d) d k = -1) :=
    fun si sysi d k =>
      forLoop_writes_minus_one 4 _
        (fun ci k => ∃ wi, wi < (SV sysi).nwindows ∧ k = (si, sysi, ci, wi))
        (fun ci d k hk => (l4 si sysi ci d k).1 hk)
        (fun ci d k hk => (l4 si sysi ci d k).2 hk)
        d k
  have l2 : ∀ si (d : ℕ × ℕ × ℕ × ℕ → ℤ) (k : ℕ × ℕ × ℕ × ℕ),
      ((∃ sysi, sysi < nSystems ∧ ∃ ci, ci < 4 ∧
          ∃ wi, wi < (SV sysi).nwindows ∧ k = (si, sysi, ci, wi)) →
        forLoop nSystems
          (fun sysi d =>
            forLoop 4
              (fun ci d =>
                forLoop (SV sysi).nwindows
                  (fun wi d => Function.update d (si, sysi, ci, wi) (-1)) d) d) d k = -1) ∧
      (d k = -1 →
        forLoop nSystems
          (fun sysi d =>
            forLoop 4
              (fun ci d =>
                forLoop (SV sysi).nwindows
                  (fun wi d => Function.update d (si, sysi, ci, wi) (-1)) d) d) d k = -1) :=
    fun si d k =>
      forLoop_writes_minus_one nSystems _
        (fun sysi k => ∃ ci, ci < 4 ∧ ∃ wi, wi < (SV sysi).nwindows ∧ k = (si, sysi, ci, wi))
        (fun sysi d k hk => (l3 si sysi d k).1 hk)
        (fun sysi d k hk => (l3 si sysi d k).2 hk)
        d k
  exact (forLoop_writes_minus_one nSoundings _
    (fun si k => ∃ sysi, sysi < nSystems ∧ ∃ ci, ci < 4 ∧
      ∃ wi, wi < (SV sysi).nwindows ∧ k = (si, sysi, ci, wi))
    (fun si d k hk => (l2 si d k).1 hk)
    (fun si d k hk => (l2 si d k).2 hk)
    d0 k).1 ⟨k.1, h1, k.2.1, h2, k.2.2.1, h3, k.2.2.2, h4, rfl⟩

/-- C37: after `setup_data` (with fewer than `2 ^ 31` data, the index being an `int`) the
used (sounding, system, component, window) combinations, taken in sounding-major, then
system, then component, then window order, hold the data indices `0, 1, 2, ...`
consecutively up to `nAllData - 1`, `nAllData` being their number: the indices of the used
combinations are pairwise distinct and are exactly `0, ..., nAllData - 1`; every unused
combination of a sounding, a system, one of the four components and a window of the system
has the index `-1`; for a system inverting the XZ amplitude the used components are the XZ
amplitude and, if enabled, Y (X and Z stay `-1`), otherwise they are those of X, Y, Z
flagged `Use`. -/
theorem C37_data_indices (nSoundings nSystems : ℕ) (SV : ℕ → cTDEmSystemInfo)
    (d0 : ℕ × ℕ × ℕ × ℕ → ℤ)
    (_hsize : (usedCombinations nSoundings nSystems SV).length < 2 ^ 31) :
    (setup_data nSoundings nSystems SV d0).nAllData
      = (usedCombinations nSoundings nSystems SV).length ∧
    (∀ i (h : i < (usedCombinations nSoundings nSystems SV).length),
      (setup_data nSoundings nSystems SV d0).dindex
        ((usedCombinations nSoundings nSystems SV).get ⟨i, h⟩) = i) ∧
    (∀ k1 k2, k1 ∈ usedCombinations nSoundings nSystems SV →
      k2 ∈ usedCombinations nSoundings nSystems SV →
      (setup_data nSoundings nSystems SV d0).dindex k1
        = (setup_data nSoundings nSystems SV d0).dindex k2 → k1 = k2) ∧
    (∀ k, k ∈ usedCombinations nSoundings nSystems SV →
      0 ≤ (setup_data nSoundings nSystems SV d0).dindex k ∧
      (setup_data nSoundings nSystems SV d0).dindex k
        < (setup_data nSoundings nSystems SV d0).nAllData) ∧
    (∀ v : ℕ, v < (setup_data nSoundings nSystems SV d0).nAllData →
      ∃ k, k ∈ usedCombinations nSoundings nSystems SV ∧
        (setup_data nSoundings nSystems SV d0).dindex k = v) ∧
    (∀ si sysi ci wi, si < nSoundings → sysi < nSystems → ci < 4 →
      wi < (SV sysi).nwindows →
      ((si, sysi, ci, wi) ∈ usedCombinations nSoundings nSystems SV
        ↔ ci ∈ usedComponents (SV sysi)) ∧
      (ci ∉ usedComponents (SV sysi) →
        (setup_data nSoundings nSystems SV d0).dindex (si, sysi, ci, wi) = -1)) ∧
    (∀ sysi ci, ci ∈ usedComponents (SV sysi)
      ↔ ((SV sysi).invertXPlusZ = true ∧
          (ci = XZAMP ∨ (ci = YCOMP ∧ (SV sysi).Use YCOMP = true))) ∨
        ((SV sysi).invertXPlusZ = false ∧ ci < 3 ∧ (SV sysi).Use ci = true)) := by
  obtain ⟨_, hb, hc, hd⟩ := setup_data_loops_write nSoundings nSystems SV
    { dindex := forLoop nSoundings
        (fun si d =>
          forLoop nSystems
            (fun sysi d =>
              forLoop 4
                (fun ci d =>
                  forLoop (SV sysi).nwindows
                    (fun wi d => Function.update d (si, sysi, ci, wi) (-1))
                    d)
                d)
            d)
        d0
      nAllData := 0
      di := 0 }
  have hn : (setup_data nSoundings nSystems SV d0).nAllData
      = (usedCombinations nSoundings nSystems SV).length := by
    unfold setup_data
    dsimp only
    rw [hb]
    exact Nat.zero_add _
  have hidx : ∀ i (h : i < (usedCombinations nSoundings nSystems SV).length),
      (setup_data nSoundings nSystems SV d0).dindex
        ((usedCombinations nSoundings nSystems SV).get ⟨i, h⟩) = i := by
    intro i h
    unfold setup_data
    dsimp only
    rw [hc i h]
    exact zero_add _
  have hget : ∀ k, k ∈ usedCombinations nSoundings nSystems SV →
      ∃ i, ∃ h : i < (usedCombinations nSoundings nSystems SV).length,
        (usedCombinations nSoundings nSystems SV).get ⟨i, h⟩ = k := by
    intro k hk
    obtain ⟨n, hn2⟩ := List.get_of_mem hk
    exact ⟨n.1, n.2, hn2⟩
  refine ⟨hn, hidx, fun k1 k2 h1 h2 he => ?_, fun k hk => ?_, fun v hv => ?_,
    fun si sysi ci wi h1 h2 h3 h4 => ⟨?_, fun hci => ?_⟩,
    fun sysi ci => mem_usedComponents (SV sysi) ci⟩
  · obtain ⟨i, hi, e1⟩ := hget k1 h1
    obtain ⟨j, hj, e2⟩ := hget k2 h2
    rw [← e1, ← e2, hidx i hi, hidx j hj] at he
    have hij : i = j := by exact_mod_cast he
    subst hij
    rw [← e1, ← e2]
  · obtain ⟨i, hi, e1⟩ := hget k hk
    rw [← e1, hidx i hi, hn]
    exact ⟨Int.natCast_nonneg i, by exact_mod_cast hi⟩
  · rw [hn] at hv
    exact ⟨_, List.get_mem _ v hv, hidx v hv⟩
  · rw [mem_usedCombinations]
    exact ⟨fun h => h.2.2.1, fun h => ⟨h1, h2, h, h4⟩⟩
  · have hnot : (si, sysi, ci, wi) ∉ usedCombinations nSoundings nSystems SV := fun h =>
      hci ((mem_usedCombinations nSoundings nSystems SV _).mp h).2.2.1
    unfold setup_data
    dsimp only
    rw [hd _ hnot]
    exact setup_data_reset nSoundings nSystems SV d0 (si, sysi, ci, wi) h1 h2 h3 h4


/-- The used combinations of one sounding of the two example systems. -/
theorem dataExample_usedCombinations :
    usedCombinations 1 2 dataExampleSystems
      = [(0, 0, 3, 0), (0, 0, 3, 1), (0, 0, 1, 0), (0, 0, 1, 1), (0, 1, 0, 0), (0, 1, 2, 0)] := by
  decide

/-- C37 at one sounding of the two example systems: six data; the XZ amplitude of system
`0` has the indices `0, 1`, its Y component `2, 3`, the X and Z components of system `1`
have `4` and `5`, and the unused X component of system `0` has `-1`. -/
theorem C37_data_indices_witness :
    (usedCombinations 1 2 dataExampleSystems).length < 2 ^ 31 ∧
    (setup_data 1 2 dataExampleSystems (fun _ => 0)).nAllData = 6 ∧
    (setup_data 1 2 dataExampleSystems (fun _ => 0)).dindex (0, 0, 3, 1) = 1 ∧
    (setup_data 1 2 dataExampleSystems (fun _ => 0)).dindex (0, 0, 1, 0) = 2 ∧
    (setup_data 1 2 dataExampleSystems (fun _ => 0)).dindex (0, 1, 2, 0) = 5 ∧
    (setup_data 1 2 dataExampleSystems (fun _ => 0)).dindex (0, 0, 0, 0) = -1 := by
  have hsize : (usedCombinations 1 2 dataExampleSystems).length < 2 ^ 31 := by
    rw [dataExample_usedCombinations]
    decide
  obtain ⟨h1, h2, _, _, _, h6, _⟩ :=
    C37_data_indices 1 2 dataExampleSystems (fun _ => 0) hsize
  have hlen : (usedCombinations 1 2 dataExampleSystems).length = 6 := by
    rw [dataExample_usedCombinations]; rfl
  have b1 : 1 < (usedCombinations 1 2 dataExampleSystems).length := by rw [hlen]; decide
  have g1 : (usedCombinations 1 2 dataExampleSystems).get ⟨1, b1⟩ = (0, 0, 3, 1) := rfl
  have b2 : 2 < (usedCombinations 1 2 dataExampleSystems).length := by rw [hlen]; decide
  have g2 : (usedCombinations 1 2 dataExampleSystems).get ⟨2, b2⟩ = (0, 0, 1, 0) := rfl
  have b5 : 5 < (usedCombinations 1 2 dataExampleSystems).length := by rw [hlen]; decide
  have g5 : (usedCombinations 1 2 dataExampleSystems).get ⟨5, b5⟩ = (0, 1, 2, 0) := rfl
  refine ⟨hsize, by rw [h1, hlen], ?_, ?_, ?_, ?_⟩
  · rw [← g1, h2]; rfl
  · rw [← g2, h2]; rfl
  · rw [← g5, h2]; rfl
  · exact (h6 0 0 0 0 (by decide) (by decide) (by decide) (by decide)).2 (by decide)

end SBS

namespace RJMCMC

open SBS

variable {K : Type}

/-! ## Theorems: the reversible-jump sampler -/

/-! ### The interfaces of a model -/

/-- What a call of `delete_interface` that fails leaves, and what a call that succeeds has
tested and built. -/
theorem delete_interface_spec (X : Externals K) (m : rjMcMC1DModel K) (index : ℕ) :
    ((m.delete_interface X index).1 = true ↔ 1 ≤ index ∧ index < m.layers.length) ∧
    ((m.delete_interface X index).1 = false →
      (m.delete_interface X index).2.layers = m.layers) ∧
    ((m.delete_interface X index).1 = true →
      (m.delete_interface X index).2.layers
        = (X.sort (m.layers.set index { ptop := X.DBL_MAX, value := X.DBL_MAX })).dropLast) ∧
    (m.delete_interface X index).2.pmax = m.pmax ∧
    (m.delete_interface X index).2.vmin = m.vmin ∧
    (m.delete_interface X index).2.vmax = m.vmax := by
  unfold rjMcMC1DModel.delete_interface rjMcMC1DModel.sort_layers rjMcMC1DModel.nlayers
  simp only []
  by_cases h1 : index ≤ 0
  · rw [if_pos h1]
    exact ⟨⟨fun h => Bool.noConfusion h, fun h => by omega⟩, fun _ => rfl,
      fun h => Bool.noConfusion h, rfl, rfl, rfl⟩
  · rw [if_neg h1]
    by_cases h2 : index ≥ m.layers.length
    · rw [if_pos h2]
      exact ⟨⟨fun h => Bool.noConfusion h, fun h => by omega⟩, fun _ => rfl,
        fun h => Bool.noConfusion h, rfl, rfl, rfl⟩
    · rw [if_neg h2]
      exact ⟨⟨fun _ => ⟨by omega, by omega⟩, fun _ => rfl⟩, fun h => Bool.noConfusion h,
        fun _ => rfl, rfl, rfl, rfl⟩

section Interfaces

variable [LinearOrderedField K]

/-- In a sorted list of layers, none above the surface, that holds a layer at depth `0`,
the first layer is at depth `0`. -/
theorem first_layer_at_zero (s : List (rjMcMC1DLayer K))
    (hs : s.Sorted (fun a b => a.ptop ≤ b.ptop)) (h0 : ∀ l ∈ s, 0 ≤ l.ptop)
    (hz : ∃ z ∈ s, z.ptop = 0) : (s.getD 0 { ptop := 0, value := 0 }).ptop = 0 := by
  cases s with
  | nil => obtain ⟨z, hz, _⟩ := hz; exact absurd hz (List.not_mem_nil z)
  | cons a t =>
    simp only [List.getD_cons_zero]
    obtain ⟨z, hzm, hz0⟩ := hz
    have ha : 0 ≤ a.ptop := h0 a (List.mem_cons_self a t)
    rcases List.mem_cons.mp hzm with h | h
    · rw [← h]; exact hz0
    · have := List.rel_of_sorted_cons hs z h
      rw [hz0] at this
      exact le_antisymm this ha

/-- What a call of `insert_interface` that fails leaves, and what a call that succeeds has
tested and built. -/
theorem insert_interface_spec (X : Externals K) (m : rjMcMC1DModel K) (pos vbelow : K) :
    ((m.insert_interface X pos vbelow).1 = false →
      (m.insert_interface X pos vbelow).2.layers = m.layers) ∧
    ((m.insert_interface X pos vbelow).1 = true →
      0 ≤ pos ∧ pos ≤ m.pmax ∧ m.vmin ≤ vbelow ∧ vbelow ≤ m.vmax ∧
      (∀ l ∈ m.layers, X.DBL_EPSILON ≤ |pos - l.ptop|) ∧
      (m.insert_interface X pos vbelow).2.layers
        = if m.layers.length = 0 then [{ ptop := 0, value := vbelow }]
          else X.sort (m.layers ++ [{ ptop := pos, value := vbelow }])) ∧
    (m.insert_interface X pos vbelow).2.pmax = m.pmax ∧
    (m.insert_interface X pos vbelow).2.vmin = m.vmin ∧
    (m.insert_interface X pos vbelow).2.vmax = m.vmax ∧
    (m.insert_interface X pos vbelow).2.mnoises = m.mnoises ∧
    (m.insert_interface X pos vbelow).2.nuisances = m.nuisances ∧
    (m.insert_interface X pos vbelow).2.nvar = m.nvar := by
  unfold rjMcMC1DModel.insert_interface rjMcMC1DModel.sort_layers rjMcMC1DModel.nlayers
  simp only []
  by_cases h1 : pos < 0 ∨ pos > m.pmax
  · rw [if_pos h1]
    exact ⟨fun _ => rfl, fun h => Bool.noConfusion h, rfl, rfl, rfl, rfl, rfl, rfl⟩
  · rw [if_neg h1]
    by_cases h2 : vbelow < m.vmin ∨ vbelow > m.vmax
    · rw [if_pos h2]
      exact ⟨fun _ => rfl, fun h => Bool.noConfusion h, rfl, rfl, rfl, rfl, rfl, rfl⟩
    · rw [if_neg h2]
      by_cases h3 : m.layers.any (fun l => decide (|pos - l.ptop| < X.DBL_EPSILON)) = true
      · rw [if_pos h3]
        exact ⟨fun _ => rfl, fun h => Bool.noConfusion h, rfl, rfl, rfl, rfl, rfl, rfl⟩
      · rw [if_neg h3]
        have h3' : ∀ l ∈ m.layers, X.DBL_EPSILON ≤ |pos - l.ptop| := by
          intro l hl
          by_contra hc
          apply h3
          rw [List.any_eq_true]
          exact ⟨l, hl, decide_eq_true (not_le.mp hc)⟩
        push_neg at h1 h2
        by_cases h4 : m.layers.length = 0
        · rw [if_pos h4]
          have h5 : m.layers = [] := List.length_eq_zero.mp h4
          refine ⟨fun h => Bool.noConfusion h, fun _ => ⟨h1.1, h1.2, h2.1, h2.2, h3', ?_⟩,
            rfl, rfl, rfl, rfl, rfl, rfl⟩
          rw [if_pos h4, h5]
          rfl
        · rw [if_neg h4]
          refine ⟨fun h => Bool.noConfusion h, fun _ => ⟨h1.1, h1.2, h2.1, h2.2, h3', ?_⟩,
            rfl, rfl, rfl, rfl, rfl, rfl⟩
          rw [if_neg h4]

/-- What a call of `move_interface` that fails leaves, and what a call that succeeds has
tested and built: no test compares `pnew` with the other interfaces. -/
theorem move_interface_spec (X : Externals K) (m : rjMcMC1DModel K) (index : ℕ) (pnew : K) :
    ((m.move_interface X index pnew).1 = true
      ↔ 1 ≤ index ∧ index < m.layers.length ∧ 0 < pnew ∧ pnew < m.pmax) ∧
    ((m.move_interface X index pnew).1 = false →
      (m.move_interface X index pnew).2.layers = m.layers) ∧
    ((m.move_interface X index pnew).1 = true →
      (m.move_interface X index pnew).2.layers
        = X.sort (m.layers.set index { m.layer index with ptop := pnew })) ∧
    (m.move_interface X index pnew).2.pmax = m.pmax ∧
    (m.move_interface X index pnew).2.vmin = m.vmin ∧
    (m.move_interface X index pnew).2.vmax = m.vmax := by
  unfold rjMcMC1DModel.move_interface rjMcMC1DModel.sort_layers rjMcMC1DModel.nlayers
  simp only []
  by_cases h1 : index = 0
  · rw [if_pos h1]
    exact ⟨⟨fun h => Bool.noConfusion h, fun h => by omega⟩, fun _ => rfl,
      fun h => Bool.noConfusion h, rfl, rfl, rfl⟩
  · rw [if_neg h1]
    by_cases h2 : index ≥ m.layers.length
    · rw [if_pos h2]
      exact ⟨⟨fun h => Bool.noConfusion h, fun h => by omega⟩, fun _ => rfl,
        fun h => Bool.noConfusion h, rfl, rfl, rfl⟩
    · rw [if_neg h2]
      by_cases h3 : pnew ≤ 0
      · rw [if_pos h3]
        exact ⟨⟨fun h => Bool.noConfusion h, fun h => absurd h.2.2.1 (not_lt.mpr h3)⟩,
          fun _ => rfl, fun h => Bool.noConfusion h, rfl, rfl, rfl⟩
      · rw [if_neg h3]
        by_cases h4 : pnew ≥ m.pmax
        · rw [if_pos h4]
          exact ⟨⟨fun h => Bool.noConfusion h, fun h => absurd h.2.2.2 (not_lt.mpr h4)⟩,
            fun _ => rfl, fun h => Bool.noConfusion h, rfl, rfl, rfl⟩
        · rw [if_neg h4]
          exact ⟨⟨fun _ => ⟨by omega, by omega, not_le.mp h3, not_le.mp h4⟩, fun _ => rfl⟩,
            fun h => Bool.noConfusion h, fun _ => rfl, rfl, rfl, rfl⟩

end Interfaces

/-- Overwriting entry `k` of a list rearranges the new entry followed by the list without
its entry `k`. -/
theorem set_perm_cons_eraseIdx {α : Type} (x : α) :
    ∀ (l : List α) (k : ℕ), k < l.length → (l.set k x).Perm (x :: l.eraseIdx k)
  | [], k, h => absurd h (Nat.not_lt_zero k)
  | a :: t, 0, _ => by simp
  | a :: t, k + 1, h => by
    have ih := set_perm_cons_eraseIdx x t k (Nat.lt_of_succ_lt_succ h)
    simp only [List.set_cons_succ, List.eraseIdx_cons_succ]
    exact (List.Perm.cons a ih).trans (List.Perm.swap x a _)

/-- Two rearrangements of each other with the same sequence of keys, the keys being
pairwise distinct, are equal. -/
theorem eq_of_perm_of_map_eq {α β : Type} (f : α → β) :
    ∀ (s1 s2 : List α), s1.Perm s2 → s1.map f = s2.map f → (s2.map f).Nodup → s1 = s2
  | [], s2, hp, _, _ => (List.Perm.nil_eq hp)
  | a :: t1, [], hp, _, _ => absurd hp.symm (List.Perm.nil_eq · |> fun h => by simp at h)
  | a :: t1, b :: t2, hp, hm, hn => by
    simp only [List.map_cons, List.cons.injEq] at hm
    rw [List.map_cons, List.nodup_cons] at hn
    have hab : a = b := by
      have ha : a ∈ b :: t2 := hp.subset (List.mem_cons_self a t1)
      rcases List.mem_cons.mp ha with h | h
      · exact h
      · exfalso
        apply hn.1
        rw [← hm.1]
        exact List.mem_map_of_mem f h
    subst hab
    rw [eq_of_perm_of_map_eq f t1 t2 (List.Perm.cons_inv hp) hm.2 hn.2]

section InterfaceInvariant

variable [LinearOrderedField K]

/-- In a sorted rearrangement of a sentinel and of layers that are all above it, the
sentinel is last and the layers before it are a rearrangement of the others. -/
theorem sorted_sentinel_last (s e : List (rjMcMC1DLayer K)) (sent : rjMcMC1DLayer K)
    (hs : s.Sorted (fun a b => a.ptop ≤ b.ptop)) (hp : s.Perm (sent :: e))
    (he : ∀ l ∈ e, l.ptop < sent.ptop) : s.dropLast.Perm e := by
  have hne : s ≠ [] := by
    intro h
    rw [h] at hp
    exact absurd hp.symm (by simp)
  have hsplit := List.dropLast_append_getLast hne
  have hz : s.getLast hne = sent := by
    have hzmem : s.getLast hne ∈ sent :: e := hp.subset (List.getLast_mem hne)
    rcases List.mem_cons.mp hzmem with h | h
    · exact h
    · exfalso
      have hlt := he _ h
      have hsent : sent ∈ s.dropLast ++ [s.getLast hne] := by
        rw [hsplit]; exact hp.symm.subset (List.mem_cons_self sent e)
      rcases List.mem_append.mp hsent with h2 | h2
      · rw [← hsplit] at hs
        have := (List.pairwise_append.mp hs).2.2 sent h2 (s.getLast hne)
          (List.mem_singleton_self _)
        exact absurd hlt (not_lt.mpr this)
      · rw [List.mem_singleton] at h2
        rw [← h2] at hlt
        exact lt_irrefl _ hlt
  have h1 : (s.dropLast ++ [sent]).Perm (sent :: e) := by
    have h2 := hsplit
    rw [hz] at h2
    rw [h2]
    exact hp
  exact List.Perm.cons_inv ((List.perm_append_singleton sent s.dropLast).symm.trans h1)

/-- The invariant of the layer list is kept by `insert_interface`. -/
theorem insert_interface_invariant (X : Externals K) (hX : X.SortContract)
    (m : rjMcMC1DModel K) (hp : m.pmax < X.DBL_MAX) (hm : m.LayersSorted)
    (hlt : ∀ l ∈ m.layers, l.ptop < X.DBL_MAX) (pos vbelow : K) :
    (m.insert_interface X pos vbelow).2.LayersSorted ∧
    ∀ l ∈ (m.insert_interface X pos vbelow).2.layers, l.ptop < X.DBL_MAX := by
  obtain ⟨hf, ht, _⟩ := insert_interface_spec X m pos vbelow
  rcases Bool.eq_false_or_eq_true (m.insert_interface X pos vbelow).1 with h | h
  · obtain ⟨h0, hpm, _, _, _, hl⟩ := ht h
    unfold rjMcMC1DModel.LayersSorted rjMcMC1DModel.layer
    rw [hl]
    by_cases hn : m.layers.length = 0
    · rw [if_pos hn]
      refine ⟨⟨List.sorted_singleton _, ?_, fun _ => rfl⟩, ?_⟩
      · intro l hl2
        rw [List.mem_singleton] at hl2
        rw [hl2]
      · intro l hl2
        rw [List.mem_singleton] at hl2
        rw [hl2]
        exact lt_of_le_of_lt (le_trans h0 hpm) hp
    · rw [if_neg hn]
      obtain ⟨hperm, hsorted⟩ := hX (m.layers ++ [{ ptop := pos, value := vbelow }])
      have hmem : ∀ l ∈ X.sort (m.layers ++ [{ ptop := pos, value := vbelow }]),
          l ∈ m.layers ∨ l = { ptop := pos, value := vbelow } := by
        intro l hl2
        have := hperm.subset hl2
        rw [List.mem_append, List.mem_singleton] at this
        exact this
      have hge : ∀ l ∈ X.sort (m.layers ++ [{ ptop := pos, value := vbelow }]),
          0 ≤ l.ptop := by
        intro l hl2
        rcases hmem l hl2 with h2 | h2
        · exact hm.2.1 l h2
        · rw [h2]; exact h0
      refine ⟨⟨hsorted, hge, fun _ => ?_⟩, ?_⟩
      · refine first_layer_at_zero _ hsorted hge ?_
        have hne : m.layers ≠ [] := fun h2 => hn (by rw [h2]; rfl)
        have hlen : 0 < m.layers.length := List.length_pos.mpr hne
        refine ⟨m.layers.getD 0 { ptop := 0, value := 0 }, ?_, hm.2.2 hne⟩
        apply hperm.symm.subset
        rw [List.mem_append]
        left
        rw [List.getD_eq_getElem _ _ hlen]
        exact List.getElem_mem hlen
      · intro l hl2
        rcases hmem l hl2 with h2 | h2
        · exact hlt l h2
        · rw [h2]; exact lt_of_le_of_lt hpm hp
  · rw [show (m.insert_interface X pos vbelow).2.LayersSorted
        ↔ m.LayersSorted from by
      unfold rjMcMC1DModel.LayersSorted rjMcMC1DModel.layer
      rw [hf h], hf h]
    exact ⟨hm, hlt⟩

/-- The invariant of the layer list is kept by `move_interface`. -/
theorem move_interface_invariant (X : Externals K) (hX : X.SortContract)
    (m : rjMcMC1DModel K) (hp : m.pmax < X.DBL_MAX) (hm : m.LayersSorted)
    (hlt : ∀ l ∈ m.layers, l.ptop < X.DBL_MAX) (index : ℕ) (pnew : K) :
    (m.move_interface X index pnew).2.LayersSorted ∧
    ∀ l ∈ (m.move_interface X index pnew).2.layers, l.ptop < X.DBL_MAX := by
  obtain ⟨hiff, hf, ht, _⟩ := move_interface_spec X m index pnew
  rcases Bool.eq_false_or_eq_true (m.move_interface X index pnew).1 with h | h
  · obtain ⟨hi1, hi2, hp0, hpm⟩ := hiff.mp h
    unfold rjMcMC1DModel.LayersSorted
    have hl := ht h
    obtain ⟨hperm, hsorted⟩ := hX (m.layers.set index { m.layer index with ptop := pnew })
    have hmem : ∀ l ∈ X.sort (m.layers.set index { m.layer index with ptop := pnew }),
        l ∈ m.layers ∨ l = { m.layer index with ptop := pnew } := by
      intro l hl2
      exact List.mem_or_eq_of_mem_set (hperm.subset hl2)
    have hge : ∀ l ∈ X.sort (m.layers.set index { m.layer index with ptop := pnew }),
        0 ≤ l.ptop := by
      intro l hl2
      rcases hmem l hl2 with h2 | h2
      · exact hm.2.1 l h2
      · rw [h2]; exact le_of_lt hp0
    have hne : m.layers ≠ [] := by
      intro h2; rw [h2] at hi2; exact absurd hi2 (Nat.not_lt_zero _)
    have hlen : 0 < m.layers.length := List.length_pos.mpr hne
    have hz : ∃ z ∈ X.sort (m.layers.set index { m.layer index with ptop := pnew }),
        z.ptop = 0 := by
      refine ⟨m.layers.getD 0 { ptop := 0, value := 0 }, ?_, hm.2.2 hne⟩
      apply hperm.symm.subset
      rw [List.getD_eq_getElem _ _ hlen]
      have hlen2 : 0 < (m.layers.set index { m.layer index with ptop := pnew }).length := by
        rw [List.length_set]; exact hlen
      have : (m.layers.set index { m.layer index with ptop := pnew })[0] = m.layers[0] := by
        rw [List.getElem_set_ne (by omega)]
      rw [← this]
      exact List.getElem_mem hlen2
    unfold rjMcMC1DModel.layer
    rw [hl]
    refine ⟨⟨hsorted, hge, fun _ => first_layer_at_zero _ hsorted hge hz⟩, ?_⟩
    intro l hl2
    rcases hmem l hl2 with h2 | h2
    · exact hlt l h2
    · rw [h2]; exact lt_trans hpm hp
  · rw [show (m.move_interface X index pnew).2.LayersSorted ↔ m.LayersSorted from by
      unfold rjMcMC1DModel.LayersSorted rjMcMC1DModel.layer
      rw [hf h], hf h]
    exact ⟨hm, hlt⟩

/-- A successful `delete_interface` leaves a sorted rearrangement of the layers without
the layer `index`. -/
theorem delete_interface_perm (X : Externals K) (hX : X.SortContract)
    (m : rjMcMC1DModel K) (hlt : ∀ l ∈ m.layers, l.ptop < X.DBL_MAX) (index : ℕ)
    (h : (m.delete_interface X index).1 = true) :
    (m.delete_interface X index).2.layers.Perm (m.layers.eraseIdx index) ∧
    (m.delete_interface X index).2.layers.Sorted (fun a b => a.ptop ≤ b.ptop) := by
  obtain ⟨hiff, _, ht, _⟩ := delete_interface_spec X m index
  obtain ⟨hi1, hi2⟩ := hiff.mp h
  rw [ht h]
  obtain ⟨hperm, hsorted⟩ := hX (m.layers.set index { ptop := X.DBL_MAX, value := X.DBL_MAX })
  refine ⟨?_, hsorted.sublist (List.dropLast_sublist _)⟩
  refine sorted_sentinel_last _ _ { ptop := X.DBL_MAX, value := X.DBL_MAX } hsorted
    (hperm.trans (set_perm_cons_eraseIdx _ m.layers index hi2)) ?_
  intro l hl
  exact hlt l (List.mem_of_mem_eraseIdx hl)

/-- The invariant of the layer list is kept by `delete_interface`. -/
theorem delete_interface_invariant (X : Externals K) (hX : X.SortContract)
    (m : rjMcMC1DModel K) (hm : m.LayersSorted)
    (hlt : ∀ l ∈ m.layers, l.ptop < X.DBL_MAX) (index : ℕ) :
    (m.delete_interface X index).2.LayersSorted ∧
    ∀ l ∈ (m.delete_interface X index).2.layers, l.ptop < X.DBL_MAX := by
  obtain ⟨hiff, hf, _, _⟩ := delete_interface_spec X m index
  rcases Bool.eq_false_or_eq_true (m.delete_interface X index).1 with h | h
  · obtain ⟨hi1, hi2⟩ := hiff.mp h
    obtain ⟨hperm, hsorted⟩ := delete_interface_perm X hX m hlt index h
    have hmem : ∀ l ∈ (m.delete_interface X index).2.layers, l ∈ m.layers :=
      fun l hl => List.mem_of_mem_eraseIdx (hperm.subset hl)
    have hge : ∀ l ∈ (m.delete_interface X index).2.layers, 0 ≤ l.ptop :=
      fun l hl => hm.2.1 l (hmem l hl)
    refine ⟨⟨hsorted, hge, fun _ => ?_⟩, fun l hl => hlt l (hmem l hl)⟩
    unfold rjMcMC1DModel.layer
    refine first_layer_at_zero _ hsorted hge ?_
    have hne : m.layers ≠ [] := by
      intro h2; rw [h2] at hi2; exact absurd hi2 (Nat.not_lt_zero _)
    refine ⟨m.layers.getD 0 { ptop := 0, value := 0 }, ?_, hm.2.2 hne⟩
    apply hperm.symm.subset
    cases hml : m.layers with
    | nil => exact absurd hml hne
    | cons a t =>
      obtain ⟨k, rfl⟩ : ∃ k, index = k + 1 := ⟨index - 1, by omega⟩
      simp
  · rw [show (m.delete_interface X index).2.LayersSorted ↔ m.LayersSorted from by
      unfold rjMcMC1DModel.LayersSorted rjMcMC1DModel.layer
      rw [hf h], hf h]
    exact ⟨hm, hlt⟩

/-- Every model made of an initialised one by interface calls keeps its layers sorted with
the first at depth `0`, and below `DBL_MAX` when `pmax` is. -/
theorem interfaceReachable_invariant (X : Externals K) (hX : X.SortContract)
    (m : rjMcMC1DModel K) (hr : InterfaceReachable X m) :
    m.pmax < X.DBL_MAX → m.LayersSorted ∧ ∀ l ∈ m.layers, l.ptop < X.DBL_MAX := by
  induction hr with
  | initialise m0 maxp minv maxv =>
    intro _
    refine ⟨⟨List.sorted_nil, fun l hl => absurd hl (List.not_mem_nil l),
      fun h => absurd rfl h⟩, fun l hl => absurd hl (List.not_mem_nil l)⟩
  | insert_interface m0 pos vbelow _ ih =>
    intro hp
    have hp0 : m0.pmax < X.DBL_MAX := by
      rw [← (insert_interface_spec X m0 pos vbelow).2.2.1]; exact hp
    exact insert_interface_invariant X hX m0 hp0 (ih hp0).1 (ih hp0).2 pos vbelow
  | move_interface m0 index pnew _ ih =>
    intro hp
    have hp0 : m0.pmax < X.DBL_MAX := by
      rw [← (move_interface_spec X m0 index pnew).2.2.2.1]; exact hp
    exact move_interface_invariant X hX m0 hp0 (ih hp0).1 (ih hp0).2 index pnew
  | delete_interface m0 index _ ih =>
    intro hp
    have hp0 : m0.pmax < X.DBL_MAX := by
      rw [← (delete_interface_spec X m0 index).2.2.2.1]; exact hp
    exact delete_interface_invariant X hX m0 (ih hp0).1 (ih hp0).2 index

end InterfaceInvariant

section InterfaceClaims

variable [LinearOrderedField K]

/-- C24: every model made of an initialised (empty) model by calls of `insert_interface`,
`move_interface` and `delete_interface` (with `pmax < DBL_MAX` and `std::sort` meeting its
contract) has its layers sorted by `ptop` in non-decreasing order with `layers[0].ptop = 0`;
on such a model a successful insert increases the number of layers by one, a successful
move keeps it, a delete succeeds exactly for `1 ≤ k < nlayers` and then leaves the other
layers, in depth order, without layer `k` (the same sequence of depths as the list without
its entry `k`, and the very same list when the depths are pairwise distinct), and a failed
call leaves the layer list unchanged. -/
theorem C24_interfaces_sorted (X : Externals K) (hX : X.SortContract) (m : rjMcMC1DModel K)
    (hr : InterfaceReachable X m) (hp : m.pmax < X.DBL_MAX) :
    m.LayersSorted ∧
    (∀ pos vbelow,
      ((m.insert_interface X pos vbelow).1 = true →
        (m.insert_interface X pos vbelow).2.layers.length = m.layers.length + 1) ∧
      ((m.insert_interface X pos vbelow).1 = false →
        (m.insert_interface X pos vbelow).2.layers = m.layers)) ∧
    (∀ index pnew,
      ((m.move_interface X index pnew).1 = true →
        (m.move_interface X index pnew).2.layers.length = m.layers.length) ∧
      ((m.move_interface X index pnew).1 = false →
        (m.move_interface X index pnew).2.layers = m.layers)) ∧
    (∀ k,
      ((m.delete_interface X k).1 = true ↔ 1 ≤ k ∧ k < m.layers.length) ∧
      ((m.delete_interface X k).1 = true →
        (m.delete_interface X k).2.layers.Perm (m.layers.eraseIdx k) ∧
        (m.delete_interface X k).2.layers.map (fun l => l.ptop)
          = (m.layers.eraseIdx k).map (fun l => l.ptop) ∧
        ((m.layers.map (fun l => l.ptop)).Nodup →
          (m.delete_interface X k).2.layers = m.layers.eraseIdx k)) ∧
      ((m.delete_interface X k).1 = false → (m.delete_interface X k).2.layers = m.layers)) := by
  obtain ⟨hm, hlt⟩ := interfaceReachable_invariant X hX m hr hp
  refine ⟨hm, fun pos vbelow => ?_, fun index pnew => ?_, fun k => ?_⟩
  · obtain ⟨hf, ht, _⟩ := insert_interface_spec X m pos vbelow
    refine ⟨fun h => ?_, hf⟩
    rw [(ht h).2.2.2.2.2]
    by_cases hn : m.layers.length = 0
    · rw [if_pos hn, hn]; rfl
    · rw [if_neg hn, (hX _).1.length_eq, List.length_append]; rfl
  · obtain ⟨_, hf, ht, _⟩ := move_interface_spec X m index pnew
    refine ⟨fun h => ?_, hf⟩
    rw [ht h, (hX _).1.length_eq, List.length_set]
  · obtain ⟨hiff, hf, _, _⟩ := delete_interface_spec X m k
    refine ⟨hiff, fun h => ?_, hf⟩
    obtain ⟨hperm, hsorted⟩ := delete_interface_perm X hX m hlt k h
    have hmap : (m.delete_interface X k).2.layers.map (fun l => l.ptop)
        = (m.layers.eraseIdx k).map (fun l => l.ptop) := by
      refine List.eq_of_perm_of_sorted (r := fun a b : K => a ≤ b) (hperm.map _) ?_ ?_
      · exact List.pairwise_map.mpr hsorted
      · exact List.pairwise_map.mpr (hm.1.sublist (List.eraseIdx_sublist _ _))
    refine ⟨hperm, hmap, fun hnd => ?_⟩
    exact eq_of_perm_of_map_eq (fun l => l.ptop) _ _ hperm hmap
      (hnd.sublist ((List.eraseIdx_sublist _ _).map _))

end InterfaceClaims

/-- The insertion sort of the example externals meets the contract of `std::sort`. -/
theorem exampleExternals_sortContract : exampleExternals.SortContract := by
  intro l
  haveI : IsTotal (rjMcMC1DLayer ℚ) (fun a b => a.ptop ≤ b.ptop) :=
    ⟨fun a b => le_total a.ptop b.ptop⟩
  haveI : IsTrans (rjMcMC1DLayer ℚ) (fun a b => a.ptop ≤ b.ptop) :=
    ⟨fun a b c h1 h2 => le_trans h1 h2⟩
  exact ⟨List.perm_insertionSort _ l, List.sorted_insertionSort _ l⟩

/-- Witness for C24: the model made by inserting an interface at depth `3` into the
initialised model with `pmax = 10`. -/
theorem C24_interfaces_sorted_witness :
    exampleExternals.SortContract ∧
    InterfaceReachable exampleExternals
      (((rjMcMC1DModel.blank : rjMcMC1DModel ℚ).initialise exampleExternals 10 0
        2).insert_interface exampleExternals 3 1).2 ∧
    (((rjMcMC1DModel.blank : rjMcMC1DModel ℚ).initialise exampleExternals 10 0
        2).insert_interface exampleExternals 3 1).2.pmax < exampleExternals.DBL_MAX ∧
    (((rjMcMC1DModel.blank : rjMcMC1DModel ℚ).initialise exampleExternals 10 0
        2).insert_interface exampleExternals 3 1).2.LayersSorted := by
  have hp : (((rjMcMC1DModel.blank : rjMcMC1DModel ℚ).initialise exampleExternals 10 0
      2).insert_interface exampleExternals 3 1).2.pmax < exampleExternals.DBL_MAX := by
    rw [(insert_interface_spec exampleExternals _ 3 1).2.2.1]
    show (10 : ℚ) < 1000000
    norm_num
  exact ⟨exampleExternals_sortContract,
    InterfaceReachable.insert_interface _ 3 1 (InterfaceReachable.initialise _ 10 0 2), hp,
    (C24_interfaces_sorted exampleExternals exampleExternals_sortContract _
      (InterfaceReachable.insert_interface _ 3 1 (InterfaceReachable.initialise _ 10 0 2))
      hp).1⟩

theorem exampleModel_fields :
    exampleModel.pmax = 10 ∧ exampleModel.vmin = 0 ∧ exampleModel.vmax = 2 ∧
    exampleModel.layers
      = [{ ptop := 0, value := 1 }, { ptop := 5, value := 1 / 2 }, { ptop := 7, value := 1 }] ∧
    exampleModel.layer 1 = { ptop := 5, value := 1 / 2 } ∧
    exampleModel.layer 2 = { ptop := 7, value := 1 } ∧
    exampleExternals.DBL_EPSILON = 1 / 1000 :=
  ⟨rfl, rfl, rfl, rfl, rfl, rfl, rfl⟩

/-- C27 (the code on a move onto another interface): in `exampleModel`, with interfaces at
the depths `0`, `5`, `7` and `pmax = 10`, `move_interface (1, 7)` puts the interface `1`
exactly at the depth of the interface `2`, within the minimum thickness of it, and yet
returns true, leaving two interfaces at the depth `7`. -/
theorem C27_move_onto_interface :
    (exampleModel.layer 2).ptop = 7 ∧
    |7 - (exampleModel.layer 2).ptop| < exampleExternals.DBL_EPSILON ∧
    (exampleModel.move_interface exampleExternals 1 7).1 = true ∧
    (exampleModel.move_interface exampleExternals 1 7).2.layers.map (fun l => l.ptop)
      = [0, 7, 7] := by
  obtain ⟨h1, _, _, h4, h5, h6, h7⟩ := exampleModel_fields
  obtain ⟨hiff, _, ht, _⟩ := move_interface_spec exampleExternals exampleModel 1 7
  have hs : (exampleModel.move_interface exampleExternals 1 7).1 = true := by
    rw [hiff, h1, h4]
    refine ⟨le_refl 1, by decide, by norm_num, by norm_num⟩
  refine ⟨by rw [h6], by rw [h6, h7]; norm_num, hs, ?_⟩
  rw [ht hs, h4, h5]
  simp [exampleExternals, List.insertionSort, List.orderedInsert]

/-- C25 (the code on an insertion at `pmax`): in `exampleModel`, which is not empty and has
`pmax = 10`, `insert_interface (10, 1)` succeeds and leaves an interface at the depth
`pmax`, which is not strictly inside `(0, pmax)`. -/
theorem C25_insert_at_pmax :
    exampleModel.layers ≠ [] ∧
    (exampleModel.insert_interface exampleExternals 10 1).1 = true ∧
    (∃ l ∈ (exampleModel.insert_interface exampleExternals 10 1).2.layers,
      l.ptop = exampleModel.pmax) := by
  obtain ⟨h1, h2, h3, h4, _, _, h7⟩ := exampleModel_fields
  have hs : (exampleModel.insert_interface exampleExternals 10 1).1 = true := by
    simp [rjMcMC1DModel.insert_interface, exampleModel, exampleExternals,
      rjMcMC1DModel.nlayers, rjMcMC1DModel.sort_layers]
    norm_num [abs_lt]
  refine ⟨by rw [h4]; simp, hs, { ptop := 10, value := 1 }, ?_, h1.symm⟩
  rw [((insert_interface_spec exampleExternals exampleModel 10 1).2.1 hs).2.2.2.2.2,
    if_neg (by rw [h4]; simp)]
  exact (exampleExternals_sortContract _).1.symm.subset (by simp)

/-! ### The proposal ratios of birth and death -/

section BirthDeath

variable [LinearOrderedField K]

/-- C28: with `BirthDeathFromPrior` false, the ratio that `propose_death` uses for removing
layer `k` (of value `v_k`, below a layer of value `v_(k-1)`), when it is not zero,
multiplied by the ratio that `propose_birth` uses for creating a layer of value `v_k` inside
a layer of value `v_(k-1)` is `1`, in the linear and in the log10 parameterisation of the
value alike; with `BirthDeathFromPrior` true both ratios are `1`. -/
theorem C28_birth_death_reverse (X : Externals K) (S : rjMcMC1DSampler K)
    (mcur : rjMcMC1DModel K) (k : ℕ) :
    (S.BirthDeathFromPrior = false → propose_death_pqratio X S mcur k ≠ 0 →
      propose_death_pqratio X S mcur k
        * propose_birth_pqratio X S (mcur.layer (k - 1)).value (mcur.layer k).value = 1) ∧
    (S.BirthDeathFromPrior = true →
      propose_death_pqratio X S mcur k = 1 ∧
      ∀ vold vnew, propose_birth_pqratio X S vold vnew = 1) := by
  refine ⟨fun hf hne => ?_, fun ht => ?_⟩
  · have hb : ¬ S.BirthDeathFromPrior = true := by rw [hf]; decide
    unfold propose_death_pqratio at hne ⊢
    unfold propose_birth_pqratio
    rw [if_neg hb] at hne ⊢
    rw [if_neg hb]
    simp only [] at hne ⊢
    exact mul_one_div_cancel hne
  · unfold propose_death_pqratio propose_birth_pqratio
    rw [if_pos ht]
    exact ⟨rfl, fun _ _ => if_pos ht⟩

end BirthDeath

theorem exampleSampler_fields :
    exampleSampler.BirthDeathFromPrior = true ∧ exampleSampler.vmin = 0 ∧
    exampleSampler.vmax = 2 ∧ exampleSampler.pmax = 10 ∧
    exampleSampler.param_value = cParameterization.LOG10 ∧ exampleSampler.nl_min = 1 ∧
    exampleSampler.nl_max = 3 ∧ exampleSampler.nchains = 1 ∧ exampleSampler.ndata = 2 :=
  ⟨rfl, rfl, rfl, rfl, rfl, rfl, rfl, rfl, rfl⟩

/-- With the example externals every Gaussian density of standard deviation `1` is `1`. -/
theorem exampleExternals_gaussian_pdf (mean x : ℚ) :
    gaussian_pdf exampleExternals mean 1 x = 1 := by
  simp [gaussian_pdf, exampleExternals]

/-- Witness for C28: removing layer `1` of `exampleModel` with the sampler
`exampleSampler` set to `BirthDeathFromPrior = false`; the ratio of the death is `2`. -/
theorem C28_birth_death_reverse_witness :
    ({ exampleSampler with BirthDeathFromPrior := false }).BirthDeathFromPrior = false ∧
    propose_death_pqratio exampleExternals { exampleSampler with BirthDeathFromPrior := false }
      exampleModel 1 ≠ 0 ∧
    propose_death_pqratio exampleExternals { exampleSampler with BirthDeathFromPrior := false }
        exampleModel 1
      * propose_birth_pqratio exampleExternals
          { exampleSampler with BirthDeathFromPrior := false }
          (exampleModel.layer (1 - 1)).value (exampleModel.layer 1).value = 1 := by
  have hne : propose_death_pqratio exampleExternals
      { exampleSampler with BirthDeathFromPrior := false } exampleModel 1 ≠ 0 := by
    have h : propose_death_pqratio exampleExternals
        { exampleSampler with BirthDeathFromPrior := false } exampleModel 1 = 2 := by
      unfold propose_death_pqratio
      simp only [Bool.false_eq_true, if_false]
      have h1 : ({ exampleSampler with BirthDeathFromPrior := false }).param_value.islinear
          = false := rfl
      have h2 : ({ exampleSampler with BirthDeathFromPrior := false }).vmax = 2 := rfl
      have h3 : ({ exampleSampler with BirthDeathFromPrior := false }).vmin = 0 := rfl
      rw [h1, h2, h3]
      simp only [Bool.false_eq_true, if_false]
      have h4 : (DEFAULTLOGSTDDECADES : ℚ) = 1 := rfl
      rw [h4, exampleExternals_gaussian_pdf]
      norm_num
    rw [h]
    norm_num
  exact ⟨rfl, hne,
    (C28_birth_death_reverse exampleExternals { exampleSampler with BirthDeathFromPrior := false }
      exampleModel 1).1 rfl hne⟩

/-- C29 (the code on a sampler configured with `BirthDeathFromPrior = true`): `sample`
begins by setting the flag to false, so that a birth proposed in `sample` gives the new
layer the perturbed value `vold + logstd * nrand ()` of the enclosing layer, not a value
drawn from the prior, and uses the ratio `1 / ((vmax - vmin) * N (vnew; vold, sigma))`,
here `1 / 2`, not `1`. -/
theorem C29_sample_overrides_prior_births :
    exampleSampler.BirthDeathFromPrior = true ∧
    (sample_begin exampleExternals exampleSampler).BirthDeathFromPrior = false ∧
    (∀ (R : cRandom ℚ) (t : ℕ) (vold : ℚ),
      propose_birth_value exampleExternals R (sample_begin exampleExternals exampleSampler)
        t vold = vold + 1 * R.nrand t) ∧
    (∀ vold vnew : ℚ,
      propose_birth_pqratio exampleExternals (sample_begin exampleExternals exampleSampler)
        vold vnew = 1 / 2) := by
  have hb : (sample_begin exampleExternals exampleSampler).BirthDeathFromPrior = false := rfl
  have h1 : (sample_begin exampleExternals exampleSampler).param_value.islinear = false := rfl
  have h2 : (sample_begin exampleExternals exampleSampler).vmax = 2 := rfl
  have h3 : (sample_begin exampleExternals exampleSampler).vmin = 0 := rfl
  have h4 : (DEFAULTLOGSTDDECADES : ℚ) = 1 := rfl
  refine ⟨rfl, hb, ?_, ?_⟩
  · intro R t vold
    unfold propose_birth_value
    rw [hb, h1, h4]
    simp only [Bool.false_eq_true, if_false]
  · intro vold vnew
    unfold propose_birth_pqratio
    rw [hb, h1, h2, h3, h4]
    simp only [Bool.false_eq_true, if_false]
    rw [exampleExternals_gaussian_pdf]
    norm_num

/-! ### Parallel tempering -/

section Tempering

variable [LinearOrderedField K]

/-- The parallel-tempering loop leaves the model of every chain slot unchanged. -/
theorem sample_tempering_model (X : Externals K) (R : cRandom K)
    (st : rjMcMC1DSampler K × ℕ) (c : ℕ) :
    ((sample_tempering X R st).1.chains c).model = (st.1.chains c).model := by
  unfold sample_tempering
  refine forLoop_invariant
    (fun _ (s2 : rjMcMC1DSampler K × ℕ) => (s2.1.chains c).model = (st.1.chains c).model)
    (st.1.nchains - 1) _ st rfl ?_
  intro k s2 _ h
  have hswap : ∀ (u Ti Tj : K) (Mi Mj : rjMcMC1DModel K),
      (propose_chain_swap X u Ti Mi Tj Mj).2.2.1 = Mi ∧
      (propose_chain_swap X u Ti Mi Tj Mj).2.2.2.2 = Mj := by
    intro u Ti Tj Mi Mj
    unfold propose_chain_swap
    simp only []
    split_ifs <;> exact ⟨rfl, rfl⟩
  simp only []
  split_ifs with hij
  · simp only []
    by_cases hcj : c = R.irand s2.2 0 (s2.1.nchains - 1 - k)
    · rw [hcj, Function.update_same]
      simp only [(hswap _ _ _ _ _).2]
      rw [Function.update_noteq (Ne.symm hij), ← hcj]
      exact h
    · rw [Function.update_noteq hcj]
      by_cases hci : c = s2.1.nchains - 1 - k
      · rw [hci, Function.update_same]
        simp only [(hswap _ _ _ _ _).1]
        rw [Function.update_same, ← hci]
        exact h
      · rw [Function.update_noteq hci, Function.update_noteq hci]
        exact h
  · simp only []
    by_cases hci : c = s2.1.nchains - 1 - k
    · rw [hci, Function.update_same, ← hci]
      exact h
    · rw [Function.update_noteq hci]
      exact h

/-- C30: with the uniform draw `u`, `propose_chain_swap (Ti, Mi, Tj, Mj)` accepts exactly
when `log u < (1 / Ti - 1 / Tj) * (misfit Mi - misfit Mj)`; on acceptance the two
temperatures are exchanged, on rejection they are unchanged, and in both cases the two
models are unchanged; the parallel-tempering loop of `sample`, for at least one chain,
leaves the model of every chain slot in place. -/
theorem C30_chain_swap (X : Externals K) (u Ti Tj : K) (Mi Mj : rjMcMC1DModel K) :
    ((propose_chain_swap X u Ti Mi Tj Mj).1 = true
      ↔ X.log u < (1 / Ti - 1 / Tj) * (Mi.misfit - Mj.misfit)) ∧
    ((propose_chain_swap X u Ti Mi Tj Mj).1 = true →
      (propose_chain_swap X u Ti Mi Tj Mj).2.1 = Tj ∧
      (propose_chain_swap X u Ti Mi Tj Mj).2.2.2.1 = Ti) ∧
    ((propose_chain_swap X u Ti Mi Tj Mj).1 = false →
      (propose_chain_swap X u Ti Mi Tj Mj).2.1 = Ti ∧
      (propose_chain_swap X u Ti Mi Tj Mj).2.2.2.1 = Tj) ∧
    (propose_chain_swap X u Ti Mi Tj Mj).2.2.1 = Mi ∧
    (propose_chain_swap X u Ti Mi Tj Mj).2.2.2.2 = Mj ∧
    ∀ (R : cRandom K) (st : rjMcMC1DSampler K × ℕ) (c : ℕ), 1 ≤ st.1.nchains →
      ((sample_tempering X R st).1.chains c).model = (st.1.chains c).model := by
  unfold propose_chain_swap
  simp only []
  by_cases h : X.log u < (1 / Ti - 1 / Tj) * (Mi.misfit - Mj.misfit)
  · rw [if_pos h]
    exact ⟨⟨fun _ => h, fun _ => rfl⟩, fun _ => ⟨rfl, rfl⟩, fun hf => Bool.noConfusion hf, rfl,
      rfl, fun R st c _ => sample_tempering_model X R st c⟩
  · rw [if_neg h]
    exact ⟨⟨fun hf => Bool.noConfusion hf, fun h2 => absurd h2 h⟩,
      fun hf => Bool.noConfusion hf, fun _ => ⟨rfl, rfl⟩, rfl, rfl,
      fun R st c _ => sample_tempering_model X R st c⟩

end Tempering

/-- Witness for C30 on two chains at the temperatures `1` and `2` holding `exampleModel`:
with `u = 1 / 2` and `log` the identity the draw `1 / 2` is not below `0` and the swap is
rejected. -/
theorem C30_chain_swap_witness :
    (propose_chain_swap exampleExternals (1 / 2) 1 exampleModel 2 exampleModel).1 = false ∧
    (propose_chain_swap exampleExternals (1 / 2) 1 exampleModel 2 exampleModel).2.1 = 1 ∧
    (propose_chain_swap exampleExternals (1 / 2) 1 exampleModel 2 exampleModel).2.2.2.1 = 2 := by
  have hf : (propose_chain_swap exampleExternals (1 / 2) 1 exampleModel 2 exampleModel).1
      = false := by
    norm_num [propose_chain_swap, exampleExternals]
  exact ⟨hf, (C30_chain_swap exampleExternals (1 / 2) 1 2 exampleModel exampleModel).2.2.1 hf⟩

/-! ### The misfit and the variances under a noise change -/

/-- A loop over the indices `a, ..., a + n - 1` that rewrites the entry of its index. -/
theorem forLoop_range_update (a n : ℕ) (f : K → K) (v0 : Vec K) (di : ℕ) :
    forLoop n (fun k v => Function.update v (a + k) (f (v (a + k)))) v0 di
      = if a ≤ di ∧ di < a + n then f (v0 di) else v0 di := by
  induction n with
  | zero =>
    have h : ¬ (a ≤ di ∧ di < a + 0) := fun h => by omega
    rw [if_neg h]; rfl
  | succ k ih =>
    rw [forLoop_succ]
    by_cases hd : di = a + k
    · have hin : a ≤ di ∧ di < a + (k + 1) := by omega
      have hout : ¬ (a ≤ a + k ∧ a + k < a + k) := fun h => by omega
      rw [hd, Function.update_same, if_pos (by omega)]
      rw [hd] at ih
      rw [show forLoop k (fun k v => Function.update v (a + k) (f (v (a + k)))) v0 (a + k)
        = v0 (a + k) from by
          have := ih
          rw [if_neg hout] at this
          exact this]
    · rw [Function.update_noteq hd, ih]
      by_cases h1 : a ≤ di ∧ di < a + k
      · rw [if_pos h1, if_pos (by omega)]
      · rw [if_neg h1, if_neg (by omega)]

/-- Reading a list after one entry has been overwritten. -/
theorem getD_set {α : Type} (l : List α) (i k : ℕ) (x d : α) :
    (l.set i x).getD k d = if k = i ∧ i < l.length then x else l.getD k d := by
  by_cases hk : k = i
  · subst hk
    by_cases hlt : k < l.length
    · have hlen : k < (l.set k x).length := by rw [List.length_set]; exact hlt
      rw [List.getD_eq_getElem _ _ hlen, List.getElem_set_self, if_pos ⟨rfl, hlt⟩]
    · have h2 : ¬ (k = k ∧ k < l.length) := fun h => hlt h.2
      rw [if_neg h2, List.set_eq_of_length_le (not_lt.mp hlt)]
  · have h2 : ¬ (k = i ∧ i < l.length) := fun h => hk h.1
    rw [if_neg h2]
    simp only [List.getD_eq_getElem?_getD]
    rw [List.getElem?_set_ne (Ne.symm hk)]

section NoiseChange

variable [LinearOrderedField K]

/-- The loop of `set_misfit` computes the misfit from scratch. -/
theorem negloglike_eq (X : Externals K) (ndata : ℕ) (res2 nvar : Vec K) :
    negloglike X ndata res2 nvar = misfitFromScratch X ndata res2 nvar := by
  unfold negloglike misfitFromScratch
  induction ndata with
  | zero => simp [forLoop]
  | succ k ih =>
    rw [forLoop_succ, ih, Finset.sum_range_succ, Finset.sum_range_succ]
    ring

/-- The misfit from scratch after the variance of one datum has been replaced. -/
theorem misfitFromScratch_update (X : Externals K) (ndata : ℕ) (res2 nvar : Vec K) (i : ℕ)
    (hi : i < ndata) (v : K) :
    misfitFromScratch X ndata res2 (Function.update nvar i v)
      = misfitFromScratch X ndata res2 nvar - (res2 i / nvar i + X.log (nvar i))
        + (res2 i / v + X.log v) := by
  unfold misfitFromScratch
  have hmem : i ∈ Finset.range ndata := Finset.mem_range.mpr hi
  rw [← Finset.add_sum_erase _ (fun d => res2 d / Function.update nvar i v d) hmem,
    ← Finset.add_sum_erase _ (fun d => X.log (Function.update nvar i v d)) hmem,
    ← Finset.add_sum_erase _ (fun d => res2 d / nvar d) hmem,
    ← Finset.add_sum_erase _ (fun d => X.log (nvar d)) hmem]
  have h1 : ∑ d ∈ (Finset.range ndata).erase i, res2 d / Function.update nvar i v d
      = ∑ d ∈ (Finset.range ndata).erase i, res2 d / nvar d :=
    Finset.sum_congr rfl (fun d hd => by
      rw [Function.update_noteq (Finset.ne_of_mem_erase hd)])
  have h2 : ∑ d ∈ (Finset.range ndata).erase i, X.log (Function.update nvar i v d)
      = ∑ d ∈ (Finset.range ndata).erase i, X.log (nvar d) :=
    Finset.sum_congr rfl (fun d hd => by
      rw [Function.update_noteq (Finset.ne_of_mem_erase hd)])
  simp only [h1, h2, Function.update_same]
  ring

/-- The data bounds of a noise process are not changed by the assignment of its value. -/
theorem mnoise_set_value (m : rjMcMC1DModel K) (nv : K) (ni k : ℕ) :
    (({ m with mnoises := m.mnoises.set ni { m.mnoise ni with value := nv } } :
        rjMcMC1DModel K).mnoise k).data_bounds = (m.mnoise k).data_bounds ∧
    (({ m with mnoises := m.mnoises.set ni { m.mnoise ni with value := nv } } :
        rjMcMC1DModel K).mnoise k).value
      = if k = ni ∧ ni < m.mnoises.length then nv else (m.mnoise k).value := by
  unfold rjMcMC1DModel.mnoise
  simp only []
  rw [getD_set]
  by_cases hk : k = ni ∧ ni < m.mnoises.length
  · rw [if_pos hk, if_pos hk, hk.1]
    exact ⟨rfl, rfl⟩
  · rw [if_neg hk, if_neg hk]
    exact ⟨rfl, rfl⟩

/-- What `set_misfit_noisechange` leaves: the variances are changed inside the data bounds of
the process only, by `- prev² + nv²`; the value of the process is `nv`; the layers, the
predicted data and the squared residuals are unchanged; and the difference between the
misfit and the misfit from scratch is unchanged. -/
theorem set_misfit_noisechange_spec (X : Externals K) (m : rjMcMC1DModel K) (nv : K)
    (ni : ℕ) :
    (∀ di, (set_misfit_noisechange X m nv ni).nvar di
      = if (m.mnoise ni).data_bounds.1 ≤ di ∧ di < (m.mnoise ni).data_bounds.2 then
          m.nvar di - (m.mnoise ni).value * (m.mnoise ni).value + nv * nv
        else m.nvar di) ∧
    (set_misfit_noisechange X m nv ni).mnoises
      = m.mnoises.set ni { m.mnoise ni with value := nv } ∧
    (set_misfit_noisechange X m nv ni).layers = m.layers ∧
    (set_misfit_noisechange X m nv ni).nuisances = m.nuisances ∧
    (set_misfit_noisechange X m nv ni).predicted = m.predicted ∧
    (set_misfit_noisechange X m nv ni).residuals_squared = m.residuals_squared ∧
    (∀ ndata, (m.mnoise ni).data_bounds.2 ≤ ndata →
      (set_misfit_noisechange X m nv ni).misfit
        - misfitFromScratch X ndata m.residuals_squared (set_misfit_noisechange X m nv ni).nvar
      = m.misfit - misfitFromScratch X ndata m.residuals_squared m.nvar) := by
  have hb := (mnoise_set_value m nv ni ni).1
  unfold set_misfit_noisechange
  simp only []
  rw [hb]
  generalize hlo : (m.mnoise ni).data_bounds.1 = lo
  generalize hhi : (m.mnoise ni).data_bounds.2 = hi
  generalize hpv : (m.mnoise ni).value = p
  have hloop := forLoop_invariant
    (fun k (st : Vec K × K) =>
      (∀ di, st.1 di = if lo ≤ di ∧ di < lo + k then m.nvar di - p * p + nv * nv
        else m.nvar di) ∧
      (∀ ndata, (k = 0 ∨ lo + k ≤ ndata) →
        st.2 - misfitFromScratch X ndata m.residuals_squared st.1
          = m.misfit - misfitFromScratch X ndata m.residuals_squared m.nvar))
    (hi - lo)
    (fun k (st : Vec K × K) =>
      let di := lo + k
      let var_old := st.1 di
      let nvar := Function.update st.1 di (st.1 di - p * p + nv * nv)
      let negloglike := st.2 - (m.residuals_squared di / var_old + X.log var_old)
      let negloglike := negloglike + (m.residuals_squared di / nvar di + X.log (nvar di))
      (nvar, negloglike))
    (m.nvar, m.misfit)
    ⟨fun di => by
        have h : ¬ (lo ≤ di ∧ di < lo + 0) := fun h => by omega
        rw [if_neg h], fun _ _ => rfl⟩
    (by
      intro k st hklt hst
      obtain ⟨h1, h2⟩ := hst
      refine ⟨fun di => ?_, fun ndata hn => ?_⟩
      · simp only []
        by_cases hd : di = lo + k
        · rw [hd, Function.update_same, h1 (lo + k), if_neg (by omega), if_pos (by omega)]
        · rw [Function.update_noteq hd, h1 di]
          by_cases h3 : lo ≤ di ∧ di < lo + k
          · rw [if_pos h3, if_pos (by omega)]
          · rw [if_neg h3, if_neg (by omega)]
      · simp only [Function.update_same]
        have hn2 : lo + (k + 1) ≤ ndata := by
          rcases hn with h | h
          · omega
          · exact h
        rw [misfitFromScratch_update X ndata m.residuals_squared st.1 (lo + k) (by omega)]
        have := h2 ndata (Or.inr (by omega))
        linear_combination this)
  obtain ⟨r1, r2⟩ := hloop
  refine ⟨fun di => ?_, trivial, trivial, trivial, trivial, trivial, fun ndata hn => ?_⟩
  · rw [r1 di]
    by_cases hle : lo ≤ hi
    · rw [Nat.add_sub_cancel' hle]
    · have e : hi - lo = 0 := by omega
      rw [e]
      have h3 : ¬ (lo ≤ di ∧ di < lo + 0) := fun h => by omega
      have h4 : ¬ (lo ≤ di ∧ di < hi) := fun h => by omega
      rw [if_neg h3, if_neg h4]
  · exact r2 ndata (by omega)

end NoiseChange

section NoiseChangeClaims

variable [LinearOrderedField K]

/-- C22: for every model whose cached misfit equals `Σ residuals_squared[i] / nvar[i] +
Σ log nvar[i]` over the `ndata` data, every noise process `ni` whose data bounds end within
the data and every new magnitude `nv`, after `set_misfit_noisechange (m, nv, ni)` the
cached misfit equals the same sum recomputed from scratch with the updated `nvar` and the
cached residuals; that is the value accumulated by the loop of `set_misfit`, and the value
`set_misfit` stores for every model with these variances whose forward model reproduces
the cached residuals. -/
theorem C22_noise_change_misfit (X : Externals K) (S : rjMcMC1DSampler K)
    (m : rjMcMC1DModel K) (nv : K) (ni : ℕ) (_hni : ni < m.nnoises)
    (hb : (m.mnoise ni).data_bounds.2 ≤ S.ndata)
    (hm : m.misfit = misfitFromScratch X S.ndata m.residuals_squared m.nvar) :
    (set_misfit_noisechange X m nv ni).misfit
      = misfitFromScratch X S.ndata (set_misfit_noisechange X m nv ni).residuals_squared
          (set_misfit_noisechange X m nv ni).nvar ∧
    (set_misfit_noisechange X m nv ni).misfit
      = negloglike X S.ndata (set_misfit_noisechange X m nv ni).residuals_squared
          (set_misfit_noisechange X m nv ni).nvar ∧
    (∀ m2 : rjMcMC1DModel K, m2.nvar = (set_misfit_noisechange X m nv ni).nvar →
      (compute_predicted_and_residuals_squared X S m2).residuals_squared
        = (set_misfit_noisechange X m nv ni).residuals_squared →
      (set_misfit X S m2).misfit = (set_misfit_noisechange X m nv ni).misfit) := by
  obtain ⟨_, _, _, _, _, hres, hmis⟩ := set_misfit_noisechange_spec X m nv ni
  have h1 : (set_misfit_noisechange X m nv ni).misfit
      = misfitFromScratch X S.ndata (set_misfit_noisechange X m nv ni).residuals_squared
          (set_misfit_noisechange X m nv ni).nvar := by
    have h := hmis S.ndata hb
    rw [hres]
    rw [hm] at h
    linear_combination h
  refine ⟨h1, ?_, fun m2 hv hr => ?_⟩
  · rw [negloglike_eq]; exact h1
  · have e : (set_misfit X S m2).misfit
        = negloglike X S.ndata (compute_predicted_and_residuals_squared X S m2).residuals_squared
            m2.nvar := rfl
    rw [e, hr, hv, negloglike_eq]
    exact h1.symm

end NoiseChangeClaims

/-- C22 at the example model: the misfit `9 / 2` is the sum from scratch, and after the
magnitude of the noise process is changed to `2` the cached misfit is again the sum from
scratch. -/
theorem C22_noise_change_misfit_witness :
    0 < exampleModel.nnoises ∧
    (exampleModel.mnoise 0).data_bounds.2 ≤ exampleSampler.ndata ∧
    exampleModel.misfit
      = misfitFromScratch exampleExternals exampleSampler.ndata exampleModel.residuals_squared
          exampleModel.nvar ∧
    (set_misfit_noisechange exampleExternals exampleModel 2 0).misfit
      = misfitFromScratch exampleExternals exampleSampler.ndata
          (set_misfit_noisechange exampleExternals exampleModel 2 0).residuals_squared
          (set_misfit_noisechange exampleExternals exampleModel 2 0).nvar :=
  have h1 : 0 < exampleModel.nnoises := by decide
  have h2 : (exampleModel.mnoise 0).data_bounds.2 ≤ exampleSampler.ndata := by decide
  have h3 : exampleModel.misfit
      = misfitFromScratch exampleExternals exampleSampler.ndata exampleModel.residuals_squared
          exampleModel.nvar := by
    have e : exampleSampler.ndata = 2 := rfl
    rw [e]
    simp [misfitFromScratch, exampleModel, exampleExternals, Finset.sum_range_succ]
    norm_num
  ⟨h1, h2, h3,
    (C22_noise_change_misfit exampleExternals exampleSampler exampleModel 2 0 h1 h2 h3).1⟩

/-! ### The variances of the data -/

section Variances

variable [LinearOrderedField K]

/-- A sum over `range n` after the term of index `ni` has been replaced. -/
theorem nvar_term_sum_set (n ni : ℕ) (hni : ni < n) (f g : ℕ → K)
    (hfg : ∀ k, k ≠ ni → g k = f k) :
    ∑ k ∈ Finset.range n, g k = ∑ k ∈ Finset.range n, f k - f ni + g ni := by
  have hmem : ni ∈ Finset.range n := Finset.mem_range.mpr hni
  rw [← Finset.add_sum_erase _ g hmem, ← Finset.add_sum_erase _ f hmem]
  have h1 : ∑ k ∈ (Finset.range n).erase ni, g k = ∑ k ∈ (Finset.range n).erase ni, f k :=
    Finset.sum_congr rfl (fun k hk => hfg k (Finset.ne_of_mem_erase hk))
  rw [h1]
  ring

/-- A noise change of a process of the model keeps the variances equal to the sum of the
data errors and the noise magnitudes. -/
theorem set_misfit_noisechange_nvarInvariant (X : Externals K) (S : rjMcMC1DSampler K)
    (m : rjMcMC1DModel K) (nv : K) (ni : ℕ) (hni : ni < m.nnoises)
    (h : NvarInvariant S m) : NvarInvariant S (set_misfit_noisechange X m nv ni) := by
  obtain ⟨hnvar, hmn, _, _, _, _, _⟩ := set_misfit_noisechange_spec X m nv ni
  intro di hdi
  have hlen : (set_misfit_noisechange X m nv ni).nnoises = m.nnoises := by
    unfold rjMcMC1DModel.nnoises
    rw [hmn, List.length_set]
  have hk : ∀ k, (set_misfit_noisechange X m nv ni).mnoise k
      = ({ m with mnoises := m.mnoises.set ni { m.mnoise ni with value := nv } } :
          rjMcMC1DModel K).mnoise k := by
    intro k
    show (set_misfit_noisechange X m nv ni).mnoises.getD k _ = _
    rw [hmn]
    rfl
  have hni2 : ni < m.mnoises.length := hni
  have hbnd : ∀ k, ((set_misfit_noisechange X m nv ni).mnoise k).data_bounds
      = (m.mnoise k).data_bounds := fun k => by
    rw [hk k]; exact (mnoise_set_value m nv ni k).1
  have hvalne : ∀ k, k ≠ ni → ((set_misfit_noisechange X m nv ni).mnoise k).value
      = (m.mnoise k).value := fun k hkne => by
    have hn : ¬ (k = ni ∧ ni < m.mnoises.length) := fun h => hkne h.1
    rw [hk k, (mnoise_set_value m nv ni k).2, if_neg hn]
  have hvalni : ((set_misfit_noisechange X m nv ni).mnoise ni).value = nv := by
    have hp : ni = ni ∧ ni < m.mnoises.length := ⟨rfl, hni2⟩
    rw [hk ni, (mnoise_set_value m nv ni ni).2, if_pos hp]
  rw [hlen, hnvar di, h di hdi]
  rw [nvar_term_sum_set m.nnoises ni hni
    (fun k => if (m.mnoise k).data_bounds.1 ≤ di ∧ di < (m.mnoise k).data_bounds.2 then
      (m.mnoise k).value ^ 2 else 0)
    (fun k => if ((set_misfit_noisechange X m nv ni).mnoise k).data_bounds.1 ≤ di ∧
        di < ((set_misfit_noisechange X m nv ni).mnoise k).data_bounds.2 then
      ((set_misfit_noisechange X m nv ni).mnoise k).value ^ 2 else 0)
    (fun k hkne => by
      dsimp only
      rw [hbnd k, hvalne k hkne])]
  dsimp only
  rw [hbnd ni, hvalni]
  by_cases hb : (m.mnoise ni).data_bounds.1 ≤ di ∧ di < (m.mnoise ni).data_bounds.2
  · rw [if_pos hb, if_pos hb, if_pos hb]; ring
  · rw [if_neg hb, if_neg hb, if_neg hb]; ring

/-- The retry loop of `choosefromprior` for one layer leaves the noise processes. -/
theorem choosefromprior_insert_mnoises (X : Externals K) (R : cRandom K)
    (S : rjMcMC1DSampler K) :
    ∀ (fuel t : ℕ) (m m1 : rjMcMC1DModel K) (t1 : ℕ),
      choosefromprior_insert X R S fuel t m = some (m1, t1) → m1.mnoises = m.mnoises := by
  intro fuel
  induction fuel with
  | zero => intro t m m1 t1 h; exact Option.noConfusion h
  | succ k ih =>
    intro t m m1 t1 h
    unfold choosefromprior_insert at h
    simp only [] at h
    have hf := (insert_interface_spec X m (R.urand t 0 S.pmax)
      (R.urand (t + 1) S.vmin S.vmax)).2.2.2.2.2.1
    by_cases hs : (m.insert_interface X (R.urand t 0 S.pmax)
        (R.urand (t + 1) S.vmin S.vmax)).1 = true
    · rw [if_pos hs] at h
      injection h with h
      injection h with h1 _
      rw [← h1]; exact hf
    · rw [if_neg hs] at h
      rw [ih _ _ _ _ h]; exact hf

/-- The layer loop of `choosefromprior` leaves the noise processes. -/
theorem choosefromprior_layers_mnoises (X : Externals K) (R : cRandom K)
    (S : rjMcMC1DSampler K) (fuel : ℕ) :
    ∀ (nl t : ℕ) (m m1 : rjMcMC1DModel K) (t1 : ℕ),
      choosefromprior_layers X R S fuel nl t m = some (m1, t1) → m1.mnoises = m.mnoises := by
  intro nl
  induction nl with
  | zero =>
    intro t m m1 t1 h
    unfold choosefromprior_layers at h
    injection h with h
    injection h with h1 _
    rw [← h1]
  | succ k ih =>
    intro t m m1 t1 h
    unfold choosefromprior_layers at h
    cases hc : choosefromprior_layers X R S fuel k t m with
    | none => rw [hc] at h; exact Option.noConfusion h
    | some r =>
      obtain ⟨m2, t2⟩ := r
      rw [hc] at h
      simp only [] at h
      rw [choosefromprior_insert_mnoises X R S fuel t2 m2 m1 t1 h]
      exact ih t m m2 t2 hc

/-- One pass of the noise loop of `choosefromprior`: the process `mn` is appended and its
squared magnitude added to the variances inside its data bounds. -/
theorem choosefromprior_noises_step (S : rjMcMC1DSampler K) (k : ℕ)
    (m0 m1 : rjMcMC1DModel K) (mn : rjMcMCNoise K)
    (hmn : m1.mnoises = m0.mnoises ++ [mn]) (hlen : m0.mnoises.length = k)
    (hnv : m1.nvar = forLoop (mn.data_bounds.2 - mn.data_bounds.1)
      (fun j nvar =>
        Function.update nvar (mn.data_bounds.1 + j)
          (nvar (mn.data_bounds.1 + j) + mn.value * mn.value))
      m0.nvar)
    (h : ∀ di, di < S.ndata →
      m0.nvar di = (S.err di / S.obs di) ^ 2
        + ∑ j ∈ Finset.range k,
            if (m0.mnoise j).data_bounds.1 ≤ di ∧ di < (m0.mnoise j).data_bounds.2 then
              (m0.mnoise j).value ^ 2
            else 0) :
    ∀ di, di < S.ndata →
      m1.nvar di = (S.err di / S.obs di) ^ 2
        + ∑ j ∈ Finset.range (k + 1),
            if (m1.mnoise j).data_bounds.1 ≤ di ∧ di < (m1.mnoise j).data_bounds.2 then
              (m1.mnoise j).value ^ 2
            else 0 := by
  intro di hdi
  have hold : ∀ j, j < k → m1.mnoise j = m0.mnoise j := fun j hj => by
    unfold rjMcMC1DModel.mnoise
    rw [hmn, List.getD_append _ _ _ _ (by rw [hlen]; exact hj)]
  have hnew : m1.mnoise k = mn := by
    unfold rjMcMC1DModel.mnoise
    rw [hmn, List.getD_append_right _ _ _ _ (by rw [hlen]), hlen, Nat.sub_self]
    rfl
  have hsum : (∑ j ∈ Finset.range k,
        if (m1.mnoise j).data_bounds.1 ≤ di ∧ di < (m1.mnoise j).data_bounds.2 then
          (m1.mnoise j).value ^ 2
        else 0)
      = ∑ j ∈ Finset.range k,
        if (m0.mnoise j).data_bounds.1 ≤ di ∧ di < (m0.mnoise j).data_bounds.2 then
          (m0.mnoise j).value ^ 2
        else 0 :=
    Finset.sum_congr rfl (fun j hj => by rw [hold j (Finset.mem_range.mp hj)])
  rw [Finset.sum_range_succ, hsum, hnew, hnv,
    forLoop_range_update mn.data_bounds.1 (mn.data_bounds.2 - mn.data_bounds.1)
      (fun y => y + mn.value * mn.value) m0.nvar di, h di hdi]
  by_cases hb : mn.data_bounds.1 ≤ di ∧ di < mn.data_bounds.2
  · have hb2 : mn.data_bounds.1 ≤ di ∧
        di < mn.data_bounds.1 + (mn.data_bounds.2 - mn.data_bounds.1) := by omega
    rw [if_pos hb, if_pos hb2]; ring
  · have hb2 : ¬ (mn.data_bounds.1 ≤ di ∧
        di < mn.data_bounds.1 + (mn.data_bounds.2 - mn.data_bounds.1)) := fun h => by omega
    rw [if_neg hb, if_neg hb2]; ring

/-- The last part of `choosefromprior`, on a model without noise processes: it keeps the
layers, creates one noise process for each entry of `noisemag_sd`, and the variances are
the sum of the data errors and the noise magnitudes. -/
theorem choosefromprior_noises_spec (R : cRandom K) (S : rjMcMC1DSampler K) (t : ℕ)
    (m : rjMcMC1DModel K) (hm : m.mnoises = []) :
    (choosefromprior_noises R S t m).1.layers = m.layers ∧
    (choosefromprior_noises R S t m).1.mnoises.length = S.noisemag_sd.length ∧
    NvarInvariant S (choosefromprior_noises R S t m).1 := by
  unfold choosefromprior_noises
  dsimp only
  have hloop := forLoop_invariant
    (fun k (st : rjMcMC1DModel K × ℕ) =>
      st.1.layers = m.layers ∧ st.1.mnoises.length = k ∧
      ∀ di, di < S.ndata →
        st.1.nvar di = (S.err di / S.obs di) ^ 2
          + ∑ j ∈ Finset.range k,
              if (st.1.mnoise j).data_bounds.1 ≤ di ∧ di < (st.1.mnoise j).data_bounds.2 then
                (st.1.mnoise j).value ^ 2
              else 0)
    S.noisemag_sd.length
    (fun ni (st : rjMcMC1DModel K × ℕ) =>
      ({ st.1 with
          mnoises := st.1.mnoises ++
            [{ value := R.urand st.2 (S.noisemag_priorbounds.getD ni (0, 0)).1
                (S.noisemag_priorbounds.getD ni (0, 0)).2,
               min := (S.noisemag_priorbounds.getD ni (0, 0)).1,
               max := (S.noisemag_priorbounds.getD ni (0, 0)).2,
               sd_valuechange := S.noisemag_sd.getD ni 0,
               data_bounds := S.noisemag_dbounds.getD ni (0, 0) }]
          nvar := forLoop ((S.noisemag_dbounds.getD ni (0, 0)).2
              - (S.noisemag_dbounds.getD ni (0, 0)).1)
            (fun k nvar =>
              Function.update nvar ((S.noisemag_dbounds.getD ni (0, 0)).1 + k)
                (nvar ((S.noisemag_dbounds.getD ni (0, 0)).1 + k)
                  + R.urand st.2 (S.noisemag_priorbounds.getD ni (0, 0)).1
                      (S.noisemag_priorbounds.getD ni (0, 0)).2
                    * R.urand st.2 (S.noisemag_priorbounds.getD ni (0, 0)).1
                      (S.noisemag_priorbounds.getD ni (0, 0)).2))
            st.1.nvar },
        st.2 + 1))
    ({ m with
        nuisances := S.nuisance_init
        nvar := forLoop S.ndata
          (fun di nvar =>
            Function.update nvar di ((S.err di * S.err di) / (S.obs di * S.obs di)))
          m.nvar }, t)
    ⟨rfl, by rw [show ({ m with
        nuisances := S.nuisance_init
        nvar := forLoop S.ndata
          (fun di nvar =>
            Function.update nvar di ((S.err di * S.err di) / (S.obs di * S.obs di)))
          m.nvar } : rjMcMC1DModel K).mnoises = m.mnoises from rfl, hm]; rfl,
      fun di hdi => by
        dsimp only
        rw [forLoop_update S.ndata
          (fun di => (S.err di * S.err di) / (S.obs di * S.obs di)) m.nvar di, if_pos hdi,
          Finset.sum_range_zero, add_zero, div_pow, sq, sq]⟩
    (by
      intro k st _ hst
      obtain ⟨h1, h2, h3⟩ := hst
      exact ⟨h1, by dsimp only; rw [List.length_append, h2]; rfl,
        choosefromprior_noises_step S k st.1 _
          { value := R.urand st.2 (S.noisemag_priorbounds.getD k (0, 0)).1
              (S.noisemag_priorbounds.getD k (0, 0)).2,
            min := (S.noisemag_priorbounds.getD k (0, 0)).1,
            max := (S.noisemag_priorbounds.getD k (0, 0)).2,
            sd_valuechange := S.noisemag_sd.getD k 0,
            data_bounds := S.noisemag_dbounds.getD k (0, 0) } rfl h2 rfl h3⟩)
  obtain ⟨r1, r2, r3⟩ := hloop
  exact ⟨r1, r2, fun di hdi => by
    unfold rjMcMC1DModel.nnoises
    rw [r2]
    exact r3 di hdi⟩

/-- The model returned by `choosefromprior` has the variances of the invariant. -/
theorem choosefromprior_nvarInvariant (X : Externals K) (R : cRandom K)
    (S : rjMcMC1DSampler K) (fuel t : ℕ) (m : rjMcMC1DModel K) (t1 : ℕ)
    (h : choosefromprior X R S fuel t = some (m, t1)) : NvarInvariant S m := by
  unfold choosefromprior at h
  dsimp only at h
  cases hc : choosefromprior_layers X R S fuel (R.irand t S.nl_min S.nl_max) (t + 1)
      ((rjMcMC1DModel.blank : rjMcMC1DModel K).initialise X S.pmax S.vmin S.vmax) with
  | none => rw [hc] at h; exact Option.noConfusion h
  | some r =>
    obtain ⟨m2, t2⟩ := r
    rw [hc] at h
    dsimp only at h
    have hm2 : m2.mnoises = [] :=
      choosefromprior_layers_mnoises X R S fuel _ _ _ m2 t2 hc
    have hs := (choosefromprior_noises_spec R S t2 m2 hm2).2.2
    injection h with h
    rw [h] at hs
    exact hs

end Variances

section VarianceClaims

variable [LinearOrderedField K] [FloorRing K] [DoubleArithmetic K]

/-- C23: every model returned by `choosefromprior` and then modified by any sequence of
`set_misfit_noisechange` updates of its noise processes has, for every datum `i`,
`nvar[i] = (err_i / obs_i)²` plus the sum of `value_k²` over the noise processes `k` whose
data bounds satisfy `d_lo ≤ i < d_hi`; a noise change of process `ni` to the magnitude `nv`
alters `nvar` only at the indices in `[d_lo, d_hi)` of that process, there by subtracting
the square of the old magnitude and adding `nv²`, and leaves the cached predicted data, the
squared residuals and the layers unchanged. -/
theorem C23_nvar_invariant (X : Externals K) (R : cRandom K) (S : rjMcMC1DSampler K)
    (m : rjMcMC1DModel K) (hr : NoiseReachable X R S m) :
    NvarInvariant S m ∧
    ∀ (nv : K) (ni : ℕ),
      (∀ di, ¬ ((m.mnoise ni).data_bounds.1 ≤ di ∧ di < (m.mnoise ni).data_bounds.2) →
        (set_misfit_noisechange X m nv ni).nvar di = m.nvar di) ∧
      (∀ di, (m.mnoise ni).data_bounds.1 ≤ di ∧ di < (m.mnoise ni).data_bounds.2 →
        (set_misfit_noisechange X m nv ni).nvar di
          = m.nvar di - (m.mnoise ni).value * (m.mnoise ni).value + nv * nv) ∧
      (set_misfit_noisechange X m nv ni).predicted = m.predicted ∧
      (set_misfit_noisechange X m nv ni).residuals_squared = m.residuals_squared ∧
      (set_misfit_noisechange X m nv ni).layers = m.layers ∧
      (ni < m.nnoises → NvarInvariant S (set_misfit_noisechange X m nv ni)) := by
  have hinv : NvarInvariant S m := by
    induction hr with
    | choosefromprior fuel t m t1 h => exact choosefromprior_nvarInvariant X R S fuel t m t1 h
    | set_misfit_noisechange m nv ni _ hni ih =>
      exact set_misfit_noisechange_nvarInvariant X S m nv ni hni ih
  refine ⟨hinv, fun nv ni => ?_⟩
  obtain ⟨hnvar, _, hl, _, hp, hres, _⟩ := set_misfit_noisechange_spec X m nv ni
  exact ⟨fun di hd => by rw [hnvar di, if_neg hd], fun di hd => by rw [hnvar di, if_pos hd],
    hp, hres, hl, fun hni => set_misfit_noisechange_nvarInvariant X S m nv ni hni hinv⟩

end VarianceClaims

/-- With the example random numbers `choosefromprior` returns at the first attempt. -/
theorem exampleSampler_choosefromprior :
    choosefromprior exampleExternals exampleRandom exampleSampler 1 0
      = some (choosefromprior_noises exampleRandom exampleSampler 3
          ((rjMcMC1DModel.blank.initialise exampleExternals 10 0 2).insert_interface
            exampleExternals 5 1).2) := by
  have hr : ((rjMcMC1DModel.blank.initialise exampleExternals 10 0 2 :
      rjMcMC1DModel ℚ).insert_interface exampleExternals 5 1).1 = true := by
    simp [rjMcMC1DModel.insert_interface, rjMcMC1DModel.initialise, rjMcMC1DModel.blank,
      rjMcMC1DModel.nlayers, exampleExternals]
    norm_num
  have e1 : exampleRandom.irand 0 exampleSampler.nl_min exampleSampler.nl_max = 1 := rfl
  have e2 : exampleRandom.urand 1 0 exampleSampler.pmax = 5 := by
    simp [exampleRandom, exampleSampler]; norm_num
  have e3 : exampleRandom.urand (1 + 1) exampleSampler.vmin exampleSampler.vmax = 1 := by
    simp [exampleRandom, exampleSampler]
  have e4 : exampleSampler.pmax = 10 := rfl
  have e5 : exampleSampler.vmin = 0 := rfl
  have e6 : exampleSampler.vmax = 2 := rfl
  unfold choosefromprior
  dsimp only
  rw [e1]
  unfold choosefromprior_layers choosefromprior_layers
  dsimp only
  unfold choosefromprior_insert
  dsimp only
  rw [e2, e3, e4, e5, e6, if_pos hr]

/-- C23 at the example sampler: the model that `choosefromprior` returns with the example
random numbers is reachable and has the variances of the invariant; its first datum has the
variance `(2 / 2)² + 1²`. -/
theorem C23_nvar_invariant_witness :
    NoiseReachable exampleExternals exampleRandom exampleSampler
      (choosefromprior_noises exampleRandom exampleSampler 3
        ((rjMcMC1DModel.blank.initialise exampleExternals 10 0 2).insert_interface
          exampleExternals 5 1).2).1 ∧
    NvarInvariant exampleSampler
      (choosefromprior_noises exampleRandom exampleSampler 3
        ((rjMcMC1DModel.blank.initialise exampleExternals 10 0 2).insert_interface
          exampleExternals 5 1).2).1 ∧
    (choosefromprior_noises exampleRandom exampleSampler 3
        ((rjMcMC1DModel.blank.initialise exampleExternals 10 0 2).insert_interface
          exampleExternals 5 1).2).1.nvar 0 = 2 :=
  have h := NoiseReachable.choosefromprior 1 0 _ _ exampleSampler_choosefromprior
  ⟨h, (C23_nvar_invariant exampleExternals exampleRandom exampleSampler _ h).1, by
    simp [choosefromprior_noises, exampleSampler, exampleRandom, forLoop]
    norm_num⟩

/-! ### The number of layers -/

section LayerCount

variable [LinearOrderedField K]

/-- Under its contract `std::sort` keeps the number of layers. -/
theorem sort_length (X : Externals K) (hX : X.SortContract) (l : List (rjMcMC1DLayer K)) :
    (X.sort l).length = l.length := (hX l).1.length_eq

/-- A successful `insert_interface` adds one layer; a failed one keeps the layers. -/
theorem insert_interface_length (X : Externals K) (hX : X.SortContract)
    (m : rjMcMC1DModel K) (pos vbelow : K) :
    ((m.insert_interface X pos vbelow).1 = true →
      (m.insert_interface X pos vbelow).2.layers.length = m.layers.length + 1) ∧
    ((m.insert_interface X pos vbelow).1 = false →
      (m.insert_interface X pos vbelow).2.layers.length = m.layers.length) := by
  obtain ⟨hf, ht, _⟩ := insert_interface_spec X m pos vbelow
  refine ⟨fun h => ?_, fun h => by rw [hf h]⟩
  obtain ⟨_, _, _, _, _, hl⟩ := ht h
  rw [hl]
  by_cases hn : m.layers.length = 0
  · rw [if_pos hn, hn]; rfl
  · rw [if_neg hn, sort_length X hX, List.length_append]; rfl

/-- A call of `move_interface` keeps the number of layers. -/
theorem move_interface_length (X : Externals K) (hX : X.SortContract)
    (m : rjMcMC1DModel K) (index : ℕ) (pnew : K) :
    (m.move_interface X index pnew).2.layers.length = m.layers.length := by
  obtain ⟨_, hf, ht, _⟩ := move_interface_spec X m index pnew
  rcases Bool.eq_false_or_eq_true (m.move_interface X index pnew).1 with h | h
  · rw [ht h, sort_length X hX, List.length_set]
  · rw [hf h]

/-- A successful `delete_interface` removes one layer of a model with at least two. -/
theorem delete_interface_length (X : Externals K) (hX : X.SortContract)
    (m : rjMcMC1DModel K) (index : ℕ) (h : (m.delete_interface X index).1 = true) :
    (m.delete_interface X index).2.layers.length + 1 = m.layers.length := by
  obtain ⟨hiff, _, ht, _⟩ := delete_interface_spec X m index
  obtain ⟨_, hi2⟩ := hiff.mp h
  rw [ht h, List.length_dropLast, sort_length X hX, List.length_set]
  omega

/-- The forward model and the misfit leave the layers. -/
theorem set_misfit_layers (X : Externals K) (S : rjMcMC1DSampler K) (m : rjMcMC1DModel K) :
    (set_misfit X S m).layers = m.layers := rfl

end LayerCount

section KernelLayers

variable [LinearOrderedField K]

/-- The value-change kernel: the model of the chain is not touched, and an accepted proposal
has the number of layers of the model it started from. -/
theorem propose_valuechange_layers (X : Externals K) (R : cRandom K)
    (S : rjMcMC1DSampler K) (t : ℕ) (chn : cChain K) (mpro : rjMcMC1DModel K) :
    (propose_valuechange X R S t chn mpro).chn.model = chn.model ∧
    ((propose_valuechange X R S t chn mpro).accept = true →
      (propose_valuechange X R S t chn mpro).mpro.layers.length = mpro.layers.length) := by
  unfold propose_valuechange
  dsimp only
  split_ifs
  all_goals refine ⟨rfl, fun h => ?_⟩
  all_goals first
    | exact h.elim
    | exact Bool.noConfusion h
    | (dsimp only; rw [set_misfit_layers]; exact List.length_set _ _ _)

/-- The move kernel: the model of the chain is not touched, and an accepted proposal has
the number of layers of the model it started from. -/
theorem propose_move_layers (X : Externals K) (hX : X.SortContract) (R : cRandom K)
    (S : rjMcMC1DSampler K) (t : ℕ) (chn : cChain K) (mpro : rjMcMC1DModel K) :
    (propose_move X R S t chn mpro).chn.model = chn.model ∧
    ((propose_move X R S t chn mpro).accept = true →
      (propose_move X R S t chn mpro).mpro.layers.length = mpro.layers.length) := by
  unfold propose_move
  dsimp only
  split_ifs
  all_goals refine ⟨rfl, fun h => ?_⟩
  all_goals first
    | exact h.elim
    | exact Bool.noConfusion h
    | (dsimp only; rw [set_misfit_layers]; exact move_interface_length X hX _ _ _)

/-- The birth kernel: the model of the chain is not touched; the proposal is rejected when
the chain model has `nl_max` layers or more, and an accepted proposal has one layer more
than the model it started from. -/
theorem propose_birth_layers (X : Externals K) (hX : X.SortContract) (R : cRandom K)
    (S : rjMcMC1DSampler K) (t : ℕ) (chn : cChain K) (mpro : rjMcMC1DModel K) :
    (propose_birth X R S t chn mpro).chn.model = chn.model ∧
    (S.nl_max ≤ chn.model.nlayers → (propose_birth X R S t chn mpro).accept = false) ∧
    ((propose_birth X R S t chn mpro).accept = true →
      chn.model.nlayers < S.nl_max ∧
      (propose_birth X R S t chn mpro).mpro.layers.length = mpro.layers.length + 1) := by
  unfold propose_birth
  dsimp only
  by_cases hn : chn.model.nlayers ≥ S.nl_max
  · rw [if_pos hn]
    exact ⟨rfl, fun _ => rfl, fun h => Bool.noConfusion h⟩
  · rw [if_neg hn]
    split_ifs with h1 h2
    · exact ⟨rfl, fun h => absurd h hn, fun h => h.elim⟩
    · refine ⟨rfl, fun h => absurd h hn, fun _ => ⟨not_le.mp hn, ?_⟩⟩
      dsimp only
      rw [set_misfit_layers]
      exact (insert_interface_length X hX _ _ _).1 (by simpa using h1)
    · exact ⟨rfl, fun h => absurd h hn, fun h => h.elim⟩

/-- The death kernel: the model of the chain is not touched; the proposal is rejected when
the chain model has `nl_min` layers or fewer, and an accepted proposal has one layer less
than the model it started from. -/
theorem propose_death_layers (X : Externals K) (hX : X.SortContract) (R : cRandom K)
    (S : rjMcMC1DSampler K) (t : ℕ) (chn : cChain K) (mpro : rjMcMC1DModel K) :
    (propose_death X R S t chn mpro).chn.model = chn.model ∧
    (chn.model.nlayers ≤ S.nl_min → (propose_death X R S t chn mpro).accept = false) ∧
    ((propose_death X R S t chn mpro).accept = true →
      S.nl_min < chn.model.nlayers ∧
      (propose_death X R S t chn mpro).mpro.layers.length + 1 = mpro.layers.length) := by
  unfold propose_death
  dsimp only
  by_cases hn : chn.model.nlayers ≤ S.nl_min
  · rw [if_pos hn]
    exact ⟨rfl, fun _ => rfl, fun h => Bool.noConfusion h⟩
  · rw [if_neg hn]
    split_ifs with h1 h2
    · exact ⟨rfl, fun h => absurd h hn, fun h => h.elim⟩
    · refine ⟨rfl, fun h => absurd h hn, fun _ => ⟨not_le.mp hn, ?_⟩⟩
      dsimp only
      rw [set_misfit_layers]
      exact delete_interface_length X hX _ _ (by simpa using h1)
    · exact ⟨rfl, fun h => absurd h hn, fun h => h.elim⟩

/-- The nuisance-change kernel: the model of the chain is not touched, and the proposal
has the layers of the model it started from. -/
theorem propose_nuisancechange_layers (X : Externals K) (R : cRandom K)
    (S : rjMcMC1DSampler K) (t : ℕ) (chn : cChain K) (mpro : rjMcMC1DModel K) :
    (propose_nuisancechange X R S t chn mpro).chn.model = chn.model ∧
    (propose_nuisancechange X R S t chn mpro).mpro.layers = mpro.layers := by
  unfold propose_nuisancechange
  dsimp only
  split_ifs
  all_goals exact ⟨rfl, rfl⟩

/-- The noise-change kernel: the model of the chain is not touched, and the proposal has
the layers of the model it started from. -/
theorem propose_noisechange_layers (X : Externals K) (R : cRandom K) (t : ℕ)
    (chn : cChain K) (mpro : rjMcMC1DModel K) :
    (propose_noisechange X R t chn mpro).chn.model = chn.model ∧
    (propose_noisechange X R t chn mpro).mpro.layers = mpro.layers := by
  unfold propose_noisechange
  dsimp only
  split_ifs
  all_goals exact ⟨rfl, rfl⟩

end KernelLayers

section PriorLayers

variable [LinearOrderedField K]

/-- The retry loop of `choosefromprior` for one layer, when it returns, has added one
layer. -/
theorem choosefromprior_insert_length (X : Externals K) (hX : X.SortContract) (R : cRandom K)
    (S : rjMcMC1DSampler K) :
    ∀ (fuel t : ℕ) (m m1 : rjMcMC1DModel K) (t1 : ℕ),
      choosefromprior_insert X R S fuel t m = some (m1, t1) →
      m1.layers.length = m.layers.length + 1 := by
  intro fuel
  induction fuel with
  | zero => intro t m m1 t1 h; exact Option.noConfusion h
  | succ k ih =>
    intro t m m1 t1 h
    unfold choosefromprior_insert at h
    dsimp only at h
    obtain ⟨ht, hf⟩ := insert_interface_length X hX m (R.urand t 0 S.pmax)
      (R.urand (t + 1) S.vmin S.vmax)
    by_cases hs : (m.insert_interface X (R.urand t 0 S.pmax)
        (R.urand (t + 1) S.vmin S.vmax)).1 = true
    · rw [if_pos hs] at h
      injection h with h
      injection h with h1 _
      rw [← h1]; exact ht hs
    · rw [if_neg hs] at h
      rw [ih _ _ _ _ h]
      rw [hf (by simpa using hs)]

/-- The layer loop of `choosefromprior`, when it returns, has added `nl` layers. -/
theorem choosefromprior_layers_length (X : Externals K) (hX : X.SortContract) (R : cRandom K)
    (S : rjMcMC1DSampler K) (fuel : ℕ) :
    ∀ (nl t : ℕ) (m m1 : rjMcMC1DModel K) (t1 : ℕ),
      choosefromprior_layers X R S fuel nl t m = some (m1, t1) →
      m1.layers.length = m.layers.length + nl := by
  intro nl
  induction nl with
  | zero =>
    intro t m m1 t1 h
    unfold choosefromprior_layers at h
    injection h with h
    injection h with h1 _
    rw [← h1]; rfl
  | succ k ih =>
    intro t m m1 t1 h
    unfold choosefromprior_layers at h
    cases hc : choosefromprior_layers X R S fuel k t m with
    | none => rw [hc] at h; exact Option.noConfusion h
    | some r =>
      obtain ⟨m2, t2⟩ := r
      rw [hc] at h
      dsimp only at h
      rw [choosefromprior_insert_length X hX R S fuel t2 m2 m1 t1 h, ih t m m2 t2 hc]
      rfl

/-- The model returned by `choosefromprior` has as many layers as the draw of
`irand (nl_min, nl_max)` says. -/
theorem choosefromprior_length (X : Externals K) (hX : X.SortContract) (R : cRandom K)
    (S : rjMcMC1DSampler K) (fuel t : ℕ) (m : rjMcMC1DModel K) (t1 : ℕ)
    (h : choosefromprior X R S fuel t = some (m, t1)) :
    m.layers.length = R.irand t S.nl_min S.nl_max := by
  unfold choosefromprior at h
  dsimp only at h
  cases hc : choosefromprior_layers X R S fuel (R.irand t S.nl_min S.nl_max) (t + 1)
      ((rjMcMC1DModel.blank : rjMcMC1DModel K).initialise X S.pmax S.vmin S.vmax) with
  | none => rw [hc] at h; exact Option.noConfusion h
  | some r =>
    obtain ⟨m2, t2⟩ := r
    rw [hc] at h
    dsimp only at h
    have hl := choosefromprior_layers_length X hX R S fuel _ _ _ m2 t2 hc
    have hm2 : m2.mnoises = [] :=
      choosefromprior_layers_mnoises X R S fuel _ _ _ m2 t2 hc
    have hs := (choosefromprior_noises_spec R S t2 m2 hm2).1
    injection h with h
    rw [h] at hs
    rw [hs, hl]
    exact Nat.zero_add _

/-- The model returned by `choosefromprior` has between `nl_min` and `nl_max` layers. -/
theorem choosefromprior_layerCountOK (X : Externals K) (hX : X.SortContract) (R : cRandom K)
    (hR : R.InRange) (S : rjMcMC1DSampler K) (hnl : S.nl_min ≤ S.nl_max) (fuel t : ℕ)
    (m : rjMcMC1DModel K) (t1 : ℕ) (h : choosefromprior X R S fuel t = some (m, t1)) :
    LayerCountOK S m := by
  unfold LayerCountOK
  rw [choosefromprior_length X hX R S fuel t m t1 h]
  exact hR.1 t S.nl_min S.nl_max hnl

end PriorLayers

section UpdateLayers

variable [LinearOrderedField K]

/-- The kernel dispatch of `sample`: with the option drawn in its range a proposal is
made; the model of the chain is not touched by it, and a proposal that is accepted for a
chain model within the bounds of the number of layers is within the bounds. -/
theorem sample_propose_layers (X : Externals K) (hX : X.SortContract) (R : cRandom K)
    (hR : R.InRange) (S : rjMcMC1DSampler K) (fuel t : ℕ) (chn : cChain K) :
    (∃ r, sample_propose X R S fuel t chn = some r) ∧
    ∀ r, sample_propose X R S fuel t chn = some r →
      r.chn.model = chn.model ∧
      (r.accept = true → LayerCountOK S chn.model → LayerCountOK S r.mpro) := by
  unfold sample_propose
  dsimp only
  have hopt : R.irand t 0
      ((if chn.model.nnuisances > 0 then (if chn.model.nnoises > 0 then 4 + 1 else 4) + 1
        else if chn.model.nnoises > 0 then 4 + 1 else 4) - 1) ≤ 5 := by
    refine le_trans (hR.1 t 0 _ (Nat.zero_le _)).2 ?_
    split_ifs <;> decide
  generalize R.irand t 0
      ((if chn.model.nnuisances > 0 then (if chn.model.nnoises > 0 then 4 + 1 else 4) + 1
        else if chn.model.nnoises > 0 then 4 + 1 else 4) - 1) = o at hopt
  have hsame : ∀ (q : cProposed K), q.chn.model = chn.model →
      (q.accept = true → q.mpro.layers.length = chn.model.layers.length) →
      ∀ r, some q = some r →
        r.chn.model = chn.model ∧
        (r.accept = true → LayerCountOK S chn.model → LayerCountOK S r.mpro) := by
    intro q h1 h2 r hr
    injection hr with hr
    rw [← hr]
    refine ⟨h1, fun ha hok => ?_⟩
    unfold LayerCountOK
    rw [h2 ha]
    exact hok
  interval_cases o
  · exact ⟨⟨_, rfl⟩, hsame _ (propose_valuechange_layers X R S (t + 1) chn chn.model).1
      (propose_valuechange_layers X R S (t + 1) chn chn.model).2⟩
  · exact ⟨⟨_, rfl⟩, hsame _ (propose_move_layers X hX R S (t + 1) chn chn.model).1
      (propose_move_layers X hX R S (t + 1) chn chn.model).2⟩
  · refine ⟨⟨_, rfl⟩, fun r hr => ?_⟩
    injection hr with hr
    rw [← hr]
    obtain ⟨h1, _, h3⟩ := propose_birth_layers X hX R S (t + 1) chn chn.model
    refine ⟨h1, fun ha hok => ?_⟩
    obtain ⟨hlt, hlen⟩ := h3 ha
    unfold LayerCountOK at hok ⊢
    unfold rjMcMC1DModel.nlayers at hlt
    rw [hlen]
    omega
  · refine ⟨⟨_, rfl⟩, fun r hr => ?_⟩
    injection hr with hr
    rw [← hr]
    obtain ⟨h1, _, h3⟩ := propose_death_layers X hX R S (t + 1) chn chn.model
    refine ⟨h1, fun ha hok => ?_⟩
    obtain ⟨hlt, hlen⟩ := h3 ha
    unfold LayerCountOK at hok ⊢
    unfold rjMcMC1DModel.nlayers at hlt
    omega
  · dsimp only
    split_ifs
    · exact ⟨⟨_, rfl⟩, hsame _ (propose_noisechange_layers X R (t + 1) chn chn.model).1
        (fun _ => congrArg List.length
          (propose_noisechange_layers X R (t + 1) chn chn.model).2)⟩
    · exact ⟨⟨_, rfl⟩, hsame _ (propose_nuisancechange_layers X R S (t + 1) chn chn.model).1
        (fun _ => congrArg List.length
          (propose_nuisancechange_layers X R S (t + 1) chn chn.model).2)⟩
  · exact ⟨⟨_, rfl⟩, hsame _ (propose_nuisancechange_layers X R S (t + 1) chn chn.model).1
      (fun _ => congrArg List.length
        (propose_nuisancechange_layers X R S (t + 1) chn chn.model).2)⟩

/-- The update of a chain in `sample`: after the first sample it always returns, and the
model it leaves on the chain is within the bounds of the number of layers, provided that,
after the first sample, the model of the chain was. -/
theorem sample_update_layers (X : Externals K) (hX : X.SortContract) (R : cRandom K)
    (hR : R.InRange) (S : rjMcMC1DSampler K) (hnl : S.nl_min ≤ S.nl_max) (fuel si t : ℕ)
    (chn : cChain K) :
    (si ≠ 0 → ∃ r, sample_update X R S fuel si t chn = some r) ∧
    ∀ chn1 t1, sample_update X R S fuel si t chn = some (chn1, t1) →
      (si ≠ 0 → LayerCountOK S chn.model) → LayerCountOK S chn1.model := by
  unfold sample_update
  obtain ⟨⟨r, hr⟩, hall⟩ := sample_propose_layers X hX R hR S fuel t chn
  by_cases hsi : si = 0
  · rw [if_pos hsi]
    refine ⟨fun h => absurd hsi h, fun chn1 t1 h _ => ?_⟩
    cases hc : choosefromprior X R S fuel t with
    | none => rw [hc] at h; exact Option.noConfusion h
    | some q =>
      obtain ⟨m, t2⟩ := q
      rw [hc] at h
      dsimp only at h
      injection h with h
      injection h with h1 _
      rw [← h1]
      exact choosefromprior_layerCountOK X hX R hR S hnl fuel t m t2 hc
  · rw [if_neg hsi, hr]
    dsimp only
    obtain ⟨h1, h2⟩ := hall r hr
    by_cases ha : r.accept = true
    · rw [if_pos ha]
      refine ⟨fun _ => ⟨_, rfl⟩, fun chn1 t1 h hok => ?_⟩
      injection h with h
      injection h with h3 _
      rw [← h3]
      exact h2 ha (hok hsi)
    · rw [if_neg ha]
      refine ⟨fun _ => ⟨_, rfl⟩, fun chn1 t1 h hok => ?_⟩
      injection h with h
      injection h with h3 _
      rw [← h3, h1]
      exact hok hsi

end UpdateLayers

/-- Every sampler has its own layout. -/
theorem SameLayout.refl (S : rjMcMC1DSampler K) : SameLayout S S :=
  ⟨rfl, rfl, rfl, rfl, rfl, rfl⟩

/-- The layout is handed on. -/
theorem SameLayout.trans {S T U : rjMcMC1DSampler K} (h1 : SameLayout S T)
    (h2 : SameLayout T U) : SameLayout S U :=
  ⟨h2.1.trans h1.1, h2.2.1.trans h1.2.1, h2.2.2.1.trans h1.2.2.1,
    h2.2.2.2.1.trans h1.2.2.2.1, h2.2.2.2.2.1.trans h1.2.2.2.2.1,
    h2.2.2.2.2.2.trans h1.2.2.2.2.2⟩

/-- The bounds of the number of layers are those of the layout. -/
theorem LayerCountOK.of_sameLayout {S T : rjMcMC1DSampler K} (h : SameLayout S T)
    (m : rjMcMC1DModel K) : LayerCountOK T m ↔ LayerCountOK S m := by
  unfold LayerCountOK
  rw [h.1, h.2.1]

/-- The convergence record leaves the layout and the models of the chains. -/
theorem sample_history_frame (S : rjMcMC1DSampler K) (si ci : ℕ) :
    SameLayout S (sample_history S si ci) ∧
    ∀ c, ((sample_history S si ci).chains c).model = (S.chains c).model := by
  unfold sample_history
  dsimp only
  split_ifs
  · refine ⟨⟨rfl, rfl, rfl, rfl, rfl, rfl⟩, fun c => ?_⟩
    show (Function.update S.chains ci _ c).model = (S.chains c).model
    by_cases hc : c = ci
    · rw [hc, Function.update_same]
    · rw [Function.update_noteq hc]
  · exact ⟨SameLayout.refl S, fun _ => rfl⟩

section Frames

variable [LinearOrderedField K] [FloorRing K] [DoubleArithmetic K]

/-- Member `addmodel` of the map leaves the layout of the layer-count histogram. -/
theorem rjMcMC1DPPDMap.addmodel_layout (p : rjMcMC1DPPDMap K) (m : rjMcMC1DModel K) :
    (p.addmodel m).nlmin = p.nlmin ∧ (p.addmodel m).nlmax = p.nlmax ∧
    (p.addmodel m).layercounts_size = p.layercounts_size := by
  unfold rjMcMC1DPPDMap.addmodel
  dsimp only
  refine forLoop_invariant
    (fun _ (q : rjMcMC1DPPDMap K) =>
      q.nlmin = p.nlmin ∧ q.nlmax = p.nlmax ∧ q.layercounts_size = p.layercounts_size)
    _ _ _ ?_ (fun k q _ h => h)
  exact forLoop_invariant
    (fun _ (q : rjMcMC1DPPDMap K) =>
      q.nlmin = p.nlmin ∧ q.nlmax = p.nlmax ∧ q.layercounts_size = p.layercounts_size)
    _ _ _ ⟨rfl, rfl, rfl⟩ (fun k q _ h => h)

/-- The maps part of the chain loop leaves the layout and the chains. -/
theorem sample_maps_frame (X : Externals K) (S : rjMcMC1DSampler K) (si ci : ℕ) :
    SameLayout S (sample_maps X S si ci) ∧ (sample_maps X S si ci).chains = S.chains := by
  have hadd : ∀ (T : rjMcMC1DSampler K) (m : rjMcMC1DModel K),
      SameLayout T ({ (T.addmodel m) with ensemble := T.ensemble ++ [m] }) := fun T m =>
    ⟨rfl, rfl, rfl, (rjMcMC1DPPDMap.addmodel_layout T.pmap m).1,
      (rjMcMC1DPPDMap.addmodel_layout T.pmap m).2.1,
      (rjMcMC1DPPDMap.addmodel_layout T.pmap m).2.2⟩
  unfold sample_maps
  dsimp only
  split_ifs
  all_goals first
    | exact ⟨SameLayout.refl S, rfl⟩
    | exact ⟨hadd _ _, rfl⟩

end Frames

section FramesOfChains

variable [LinearOrderedField K]

/-- The parallel-tempering loop leaves the layout. -/
theorem sample_tempering_layout (X : Externals K) (R : cRandom K)
    (st : rjMcMC1DSampler K × ℕ) : SameLayout st.1 (sample_tempering X R st).1 := by
  unfold sample_tempering
  refine forLoop_invariant
    (fun _ (s2 : rjMcMC1DSampler K × ℕ) => SameLayout st.1 s2.1)
    (st.1.nchains - 1) _ st (SameLayout.refl st.1) ?_
  intro k s2 _ h
  dsimp only
  split_ifs
  · exact h.trans ⟨rfl, rfl, rfl, rfl, rfl, rfl⟩
  · exact h.trans ⟨rfl, rfl, rfl, rfl, rfl, rfl⟩

end FramesOfChains

section LoopLayers

variable [LinearOrderedField K] [FloorRing K] [DoubleArithmetic K]

/-- The body of the chain loop: after the first sample it always returns; it leaves the
layout and the models of the other chains, and the model of its chain is within the bounds
of the number of layers, provided that, after the first sample, it was before. -/
theorem sample_chain_layers (X : Externals K) (hX : X.SortContract) (R : cRandom K)
    (hR : R.InRange) (S : rjMcMC1DSampler K) (hnl : S.nl_min ≤ S.nl_max) (fuel si ci : ℕ)
    (st : rjMcMC1DSampler K × ℕ) (hL : SameLayout S st.1) :
    (si ≠ 0 → ∃ st1, sample_chain X R fuel si ci st = some st1) ∧
    ∀ st1, sample_chain X R fuel si ci st = some st1 →
      SameLayout S st1.1 ∧
      ((si ≠ 0 → LayerCountOK S (st.1.chains ci).model) →
        LayerCountOK S (st1.1.chains ci).model) ∧
      ∀ c, c ≠ ci → (st1.1.chains c).model = (st.1.chains c).model := by
  have hnl2 : st.1.nl_min ≤ st.1.nl_max := by rw [hL.1, hL.2.1]; exact hnl
  obtain ⟨hprog, hall⟩ :=
    sample_update_layers X hX R hR st.1 hnl2 fuel si st.2 (st.1.chains ci)
  have hres : ∀ (chn : cChain K) (t1 : ℕ),
      sample_update X R st.1 fuel si st.2 (st.1.chains ci) = some (chn, t1) →
      sample_chain X R fuel si ci st
        = some (sample_history
            (sample_maps X { st.1 with chains := Function.update st.1.chains ci chn } si ci)
            si ci, t1) := by
    intro chn t1 h
    unfold sample_chain
    rw [h]
  have hmodel : ∀ (chn : cChain K) (c : ℕ),
      ((sample_history
          (sample_maps X { st.1 with chains := Function.update st.1.chains ci chn } si ci)
          si ci).chains c).model = (Function.update st.1.chains ci chn c).model := by
    intro chn c
    rw [(sample_history_frame _ si ci).2 c, (sample_maps_frame X _ si ci).2]
  have hlay : ∀ (chn : cChain K),
      SameLayout S (sample_history
          (sample_maps X { st.1 with chains := Function.update st.1.chains ci chn } si ci)
          si ci) := fun chn =>
    (hL.trans (⟨rfl, rfl, rfl, rfl, rfl, rfl⟩ :
      SameLayout st.1 { st.1 with chains := Function.update st.1.chains ci chn })).trans
      ((sample_maps_frame X _ si ci).1.trans (sample_history_frame _ si ci).1)
  refine ⟨fun hsi => ?_, fun st1 h => ?_⟩
  · obtain ⟨r, hr⟩ := hprog hsi
    exact ⟨_, hres r.1 r.2 hr⟩
  · cases hc : sample_update X R st.1 fuel si st.2 (st.1.chains ci) with
    | none =>
      unfold sample_chain at h
      rw [hc] at h
      exact Option.noConfusion h
    | some r =>
      obtain ⟨chn, t1⟩ := r
      rw [hres chn t1 hc] at h
      injection h with h
      rw [← h]
      refine ⟨hlay chn, fun hok => ?_, fun c hne => ?_⟩
      · show LayerCountOK S ((sample_history
          (sample_maps X { st.1 with chains := Function.update st.1.chains ci chn } si ci)
          si ci).chains ci).model
        rw [hmodel chn ci, Function.update_same]
        exact (LayerCountOK.of_sameLayout hL _).mp
          (hall chn t1 hc (fun hsi => (LayerCountOK.of_sameLayout hL _).mpr (hok hsi)))
      · show ((sample_history
          (sample_maps X { st.1 with chains := Function.update st.1.chains ci chn } si ci)
          si ci).chains c).model = (st.1.chains c).model
        rw [hmodel chn c, Function.update_noteq hne]

/-- The chain loop over the first `c` chains: after the first sample it always returns; it
leaves the layout and the models of the chains from `c` on, and the models of the first `c`
chains are within the bounds of the number of layers, provided that, after the first
sample, they were before. -/
theorem sample_chains_layers (X : Externals K) (hX : X.SortContract) (R : cRandom K)
    (hR : R.InRange) (S : rjMcMC1DSampler K) (hnl : S.nl_min ≤ S.nl_max) (fuel si : ℕ)
    (st : rjMcMC1DSampler K × ℕ) (hL : SameLayout S st.1) :
    ∀ c, (si ≠ 0 → ∀ ci, ci < c → LayerCountOK S (st.1.chains ci).model) →
      (si ≠ 0 → ∃ st1, sample_chains X R fuel si c st = some st1) ∧
      ∀ st1, sample_chains X R fuel si c st = some st1 →
        SameLayout S st1.1 ∧
        (∀ ci, ci < c → LayerCountOK S (st1.1.chains ci).model) ∧
        ∀ ci, c ≤ ci → (st1.1.chains ci).model = (st.1.chains ci).model := by
  intro c
  induction c with
  | zero =>
    intro _
    refine ⟨fun _ => ⟨st, rfl⟩, fun st1 h => ?_⟩
    unfold sample_chains at h
    injection h with h
    rw [← h]
    exact ⟨hL, fun ci hci => absurd hci (Nat.not_lt_zero ci), fun _ _ => rfl⟩
  | succ k ih =>
    intro hok
    obtain ⟨hprog, hall⟩ := ih (fun hsi ci hci => hok hsi ci (Nat.lt_succ_of_lt hci))
    have hstep : ∀ st2, sample_chains X R fuel si k st = some st2 →
        sample_chains X R fuel si (k + 1) st = sample_chain X R fuel si k st2 := by
      intro st2 h2
      rw [sample_chains, h2]
    refine ⟨fun hsi => ?_, fun st1 h => ?_⟩
    · obtain ⟨st2, h2⟩ := hprog hsi
      obtain ⟨hL2, _, _⟩ := hall st2 h2
      obtain ⟨st3, h3⟩ := (sample_chain_layers X hX R hR S hnl fuel si k st2 hL2).1 hsi
      exact ⟨st3, by rw [hstep st2 h2, h3]⟩
    · cases hc : sample_chains X R fuel si k st with
      | none =>
        rw [sample_chains, hc] at h
        exact Option.noConfusion h
      | some st2 =>
        rw [hstep st2 hc] at h
        obtain ⟨hL2, hlt, hge⟩ := hall st2 hc
        obtain ⟨hL3, hk, hother⟩ :=
          (sample_chain_layers X hX R hR S hnl fuel si k st2 hL2).2 st1 h
        refine ⟨hL3, fun ci hci => ?_, fun ci hci => ?_⟩
        · by_cases hck : ci = k
          · rw [hck]
            refine hk (fun hsi => ?_)
            rw [hge k (Nat.le_refl k)]
            exact hok hsi k (Nat.lt_succ_self k)
          · rw [hother ci hck]
            exact hlt ci (by omega)
        · rw [hother ci (by omega), hge ci (by omega)]

end LoopLayers

section SampleLayers

variable [LinearOrderedField K] [FloorRing K] [DoubleArithmetic K]

/-- One more sample: the chain loop for sample `n` followed by the parallel tempering. -/
theorem sample_loop_succ (X : Externals K) (R : cRandom K) (fuel n : ℕ)
    (st0 st : rjMcMC1DSampler K × ℕ) (h : sample_loop X R fuel n st0 = some st) :
    sample_loop X R fuel (n + 1) st0
      = (sample_chains X R fuel n st.1.nchains st).map (sample_tempering X R) := by
  rw [sample_loop, h]
  dsimp only
  cases sample_chains X R fuel n st.1.nchains st <;> rfl

/-- The sample loop leaves the layout, and after the first sample the model of every chain
is within the bounds of the number of layers. -/
theorem sample_loop_layers (X : Externals K) (hX : X.SortContract) (R : cRandom K)
    (hR : R.InRange) (S : rjMcMC1DSampler K) (hnl : S.nl_min ≤ S.nl_max) (fuel : ℕ)
    (st0 : rjMcMC1DSampler K × ℕ) (hL : SameLayout S st0.1) :
    ∀ n st, sample_loop X R fuel n st0 = some st →
      SameLayout S st.1 ∧
      (n ≠ 0 → ∀ ci, ci < S.nchains → LayerCountOK S (st.1.chains ci).model) := by
  intro n
  induction n with
  | zero =>
    intro st h
    unfold sample_loop at h
    injection h with h
    rw [← h]
    exact ⟨hL, fun h0 => absurd rfl h0⟩
  | succ k ih =>
    intro st h
    cases hc : sample_loop X R fuel k st0 with
    | none =>
      rw [sample_loop, hc] at h
      exact Option.noConfusion h
    | some st1 =>
      rw [sample_loop_succ X R fuel k st0 st1 hc] at h
      obtain ⟨hL1, hok1⟩ := ih st1 hc
      cases hc2 : sample_chains X R fuel k st1.1.nchains st1 with
      | none =>
        rw [hc2] at h
        exact Option.noConfusion h
      | some st2 =>
        rw [hc2] at h
        injection h with h
        obtain ⟨hL2, hok2, _⟩ :=
          (sample_chains_layers X hX R hR S hnl fuel k st1 hL1 st1.1.nchains
            (fun hk ci hci => hok1 hk ci (by rw [← hL1.2.2.1]; exact hci))).2 st2 hc2
        rw [← h]
        refine ⟨hL2.trans (sample_tempering_layout X R st2), fun _ ci hci => ?_⟩
        rw [sample_tempering_model X R st2 ci]
        exact hok2 ci (by rw [hL1.2.2.1]; exact hci)

/-- When the first sample, which initialises the chains, returns, every later sample
returns. -/
theorem sample_loop_returns (X : Externals K) (hX : X.SortContract) (R : cRandom K)
    (hR : R.InRange) (S : rjMcMC1DSampler K) (hnl : S.nl_min ≤ S.nl_max) (fuel : ℕ)
    (st0 : rjMcMC1DSampler K × ℕ) (hL : SameLayout S st0.1)
    (h1 : ∃ st1, sample_loop X R fuel 1 st0 = some st1) :
    ∀ n, 1 ≤ n → ∃ st, sample_loop X R fuel n st0 = some st := by
  intro n hn
  induction n, hn using Nat.le_induction with
  | base => exact h1
  | succ k hk ih =>
    obtain ⟨st, hst⟩ := ih
    obtain ⟨hLs, hoks⟩ := sample_loop_layers X hX R hR S hnl fuel st0 hL k st hst
    have hk0 : k ≠ 0 := by omega
    obtain ⟨st2, h2⟩ :=
      (sample_chains_layers X hX R hR S hnl fuel k st hLs st.1.nchains
        (fun _ ci hci => hoks hk0 ci (by rw [← hLs.2.2.1]; exact hci))).1 hk0
    exact ⟨sample_tempering X R st2, by rw [sample_loop_succ X R fuel k st0 st hst, h2]; rfl⟩

/-- C26: for `nl_min ≤ nl_max` (and `1 ≤ nl_min`), with `std::sort` and the random
generator meeting their contracts: `choosefromprior` returns a model with between `nl_min`
and `nl_max` layers; `propose_birth` rejects and leaves the chain model unchanged when the
chain model has `nl_max` layers or more, `propose_death` when it has `nl_min` layers or
fewer; the value-change, move, nuisance-change and noise-change kernels do not change the
number of layers of an accepted proposal; the update of a chain in `sample` leaves a model
within the bounds; and, with at least one chain, when the first sample of `sample ()` (the
initialisation of the chains) returns, then every later sample and every chain loop within it returns, with the
model of every chain within `nl_min ≤ nlayers ≤ nl_max`, so that the index
`nlayers - nlmin` of the layer-count histogram, laid out with the bounds of the sampler, is
below the number `nl_max - nl_min + 1` of its bins. -/
theorem C26_layer_count_bounds (X : Externals K) (hX : X.SortContract) (R : cRandom K)
    (hR : R.InRange) (S : rjMcMC1DSampler K) (_hmin : 1 ≤ S.nl_min)
    (hmax : S.nl_min ≤ S.nl_max) :
    (∀ fuel t m t1, choosefromprior X R S fuel t = some (m, t1) →
      S.nl_min ≤ m.nlayers ∧ m.nlayers ≤ S.nl_max) ∧
    (∀ t chn, S.nl_max ≤ chn.model.nlayers →
      (propose_birth X R S t chn chn.model).accept = false ∧
      (propose_birth X R S t chn chn.model).chn.model = chn.model) ∧
    (∀ t chn, chn.model.nlayers ≤ S.nl_min →
      (propose_death X R S t chn chn.model).accept = false ∧
      (propose_death X R S t chn chn.model).chn.model = chn.model) ∧
    (∀ t chn,
      ((propose_valuechange X R S t chn chn.model).accept = true →
        (propose_valuechange X R S t chn chn.model).mpro.nlayers = chn.model.nlayers) ∧
      ((propose_move X R S t chn chn.model).accept = true →
        (propose_move X R S t chn chn.model).mpro.nlayers = chn.model.nlayers) ∧
      (propose_nuisancechange X R S t chn chn.model).mpro.nlayers = chn.model.nlayers ∧
      (propose_noisechange X R t chn chn.model).mpro.nlayers = chn.model.nlayers) ∧
    (∀ fuel si t chn chn1 t1, sample_update X R S fuel si t chn = some (chn1, t1) →
      (si ≠ 0 → LayerCountOK S chn.model) → LayerCountOK S chn1.model) ∧
    (∀ fuel t, 1 ≤ S.nchains →
      (∃ st1, sample_loop X R fuel 1 (sample_begin X S, t) = some st1) →
      ∀ n, 1 ≤ n → ∀ c, c ≤ S.nchains →
        ∃ st st2, sample_loop X R fuel n (sample_begin X S, t) = some st ∧
          sample_chains X R fuel n c st = some st2 ∧
          ∀ ci, ci < S.nchains →
            LayerCountOK S (st.1.chains ci).model ∧
            LayerCountOK S (st2.1.chains ci).model ∧
            (S.pmap.nlmin = S.nl_min → S.pmap.layercounts_size = S.nl_max - S.nl_min + 1 →
              (st2.1.chains ci).model.nlayers - st2.1.pmap.nlmin
                < st2.1.pmap.layercounts_size)) := by
  refine ⟨fun fuel t m t1 h => choosefromprior_layerCountOK X hX R hR S hmax fuel t m t1 h,
    fun t chn h => ⟨(propose_birth_layers X hX R S t chn chn.model).2.1 h,
      (propose_birth_layers X hX R S t chn chn.model).1⟩,
    fun t chn h => ⟨(propose_death_layers X hX R S t chn chn.model).2.1 h,
      (propose_death_layers X hX R S t chn chn.model).1⟩,
    fun t chn => ⟨(propose_valuechange_layers X R S t chn chn.model).2,
      (propose_move_layers X hX R S t chn chn.model).2,
      congrArg List.length (propose_nuisancechange_layers X R S t chn chn.model).2,
      congrArg List.length (propose_noisechange_layers X R t chn chn.model).2⟩,
    fun fuel si t chn chn1 t1 h hok =>
      (sample_update_layers X hX R hR S hmax fuel si t chn).2 chn1 t1 h hok,
    fun fuel t _ h1 n hn c hc => ?_⟩
  have hL : SameLayout S (sample_begin X S, t).1 := ⟨rfl, rfl, rfl, rfl, rfl, rfl⟩
  obtain ⟨st, hst⟩ := sample_loop_returns X hX R hR S hmax fuel _ hL h1 n hn
  obtain ⟨hLs, hoks⟩ := sample_loop_layers X hX R hR S hmax fuel _ hL n st hst
  have hn0 : n ≠ 0 := by omega
  obtain ⟨hprog, hall⟩ := sample_chains_layers X hX R hR S hmax fuel n st hLs c
    (fun _ ci hci => hoks hn0 ci (by omega))
  obtain ⟨st2, h2⟩ := hprog hn0
  obtain ⟨hL2, hlt, hge⟩ := hall st2 h2
  refine ⟨st, st2, hst, h2, fun ci hci => ?_⟩
  have hok2 : LayerCountOK S (st2.1.chains ci).model := by
    by_cases hcc : ci < c
    · exact hlt ci hcc
    · rw [hge ci (by omega)]
      exact hoks hn0 ci hci
  refine ⟨hoks hn0 ci hci, hok2, fun hp1 hp2 => ?_⟩
  rw [hL2.2.2.2.1, hL2.2.2.2.2.2, hp1, hp2]
  unfold LayerCountOK at hok2
  unfold rjMcMC1DModel.nlayers
  omega

end SampleLayers

/-- The example random numbers are within the ranges asked for. -/
theorem exampleRandom_inRange : exampleRandom.InRange := by
  refine ⟨fun t lo hi h => ⟨le_refl lo, h⟩, fun t lo hi h => ?_⟩
  show lo ≤ (lo + hi) / 2 ∧ (lo + hi) / 2 ≤ hi
  constructor <;> linarith

/-- With the example random numbers, the first sample of the example sampler returns. -/
theorem exampleSampler_first_sample :
    ∃ st1, sample_loop exampleExternals exampleRandom 1 1
      (sample_begin exampleExternals exampleSampler, 0) = some st1 := by
  have hc : choosefromprior exampleExternals exampleRandom
      (sample_begin exampleExternals exampleSampler) 1 0
      = choosefromprior exampleExternals exampleRandom exampleSampler 1 0 := rfl
  have hu : sample_update exampleExternals exampleRandom
      (sample_begin exampleExternals exampleSampler) 1 0 0
      ((sample_begin exampleExternals exampleSampler).chains 0)
      = some ({ (sample_begin exampleExternals exampleSampler).chains 0 with
          model := set_misfit exampleExternals (sample_begin exampleExternals exampleSampler)
            (choosefromprior_noises exampleRandom exampleSampler 3
              ((rjMcMC1DModel.blank.initialise exampleExternals 10 0 2).insert_interface
                exampleExternals 5 1).2).1 },
          (choosefromprior_noises exampleRandom exampleSampler 3
              ((rjMcMC1DModel.blank.initialise exampleExternals 10 0 2).insert_interface
                exampleExternals 5 1).2).2) := by
    unfold sample_update
    rw [if_pos rfl, hc, exampleSampler_choosefromprior]
  have hn : (sample_begin exampleExternals exampleSampler, 0).1.nchains = 1 := rfl
  rw [sample_loop_succ exampleExternals exampleRandom 1 0 _ _ rfl, hn]
  unfold sample_chains sample_chains sample_chain
  dsimp only
  rw [hu]
  exact ⟨_, rfl⟩

/-- C26 at the example sampler: the contracts hold, the first sample returns, and after the
second sample the model of the chain has between one and three layers; the layer-count
histogram of the example is laid out with the bounds of the sampler. -/
theorem C26_layer_count_bounds_witness :
    exampleExternals.SortContract ∧ exampleRandom.InRange ∧
    1 ≤ exampleSampler.nl_min ∧ exampleSampler.nl_min ≤ exampleSampler.nl_max ∧
    1 ≤ exampleSampler.nchains ∧
    exampleSampler.pmap.nlmin = exampleSampler.nl_min ∧
    exampleSampler.pmap.layercounts_size
      = exampleSampler.nl_max - exampleSampler.nl_min + 1 ∧
    ∃ st st2, sample_loop exampleExternals exampleRandom 1 2
        (sample_begin exampleExternals exampleSampler, 0) = some st ∧
      sample_chains exampleExternals exampleRandom 1 2 1 st = some st2 ∧
      ∀ ci, ci < exampleSampler.nchains →
        LayerCountOK exampleSampler (st.1.chains ci).model ∧
        LayerCountOK exampleSampler (st2.1.chains ci).model ∧
        (exampleSampler.pmap.nlmin = exampleSampler.nl_min →
          exampleSampler.pmap.layercounts_size
            = exampleSampler.nl_max - exampleSampler.nl_min + 1 →
          (st2.1.chains ci).model.nlayers - st2.1.pmap.nlmin
            < st2.1.pmap.layercounts_size) :=
  have h1 : 1 ≤ exampleSampler.nl_min := by decide
  have h2 : exampleSampler.nl_min ≤ exampleSampler.nl_max := by decide
  ⟨exampleExternals_sortContract, exampleRandom_inRange, h1, h2, Nat.le_refl 1, rfl, rfl,
    (C26_layer_count_bounds exampleExternals exampleExternals_sortContract exampleRandom
      exampleRandom_inRange exampleSampler h1 h2).2.2.2.2.2 1 0 (Nat.le_refl 1)
      exampleSampler_first_sample 2 (by decide) 1 (Nat.le_refl 1)⟩

/-! ### The misfit by which `LowestMisfit` is selected -/

section L2Misfit

variable [LinearOrderedField K]

/-- The squared residuals that `compute_predicted_and_residuals_squared` caches. -/
theorem compute_residuals_squared (X : Externals K) (S : rjMcMC1DSampler K)
    (m : rjMcMC1DModel K) (di : ℕ) (h : di < S.ndata) :
    (compute_predicted_and_residuals_squared X S m).residuals_squared di
      = ((S.obs di - X.forwardmodel m di) / S.obs di) ^ 2 := by
  unfold compute_predicted_and_residuals_squared
  dsimp only
  rw [forLoop_update S.ndata
    (fun di => (S.obs di - X.forwardmodel m di) / S.obs di
      * ((S.obs di - X.forwardmodel m di) / S.obs di)) (fun _ => (0 : K)) di, if_pos h, sq]

/-- What `standard_l2misfit` computes for cached residuals of data with non-zero
observations: the mean of the fourth powers of the normalised residuals, since the cached
value, already a square, is squared again. -/
theorem standard_l2misfit_eq (X : Externals K) (S : rjMcMC1DSampler K) (m : rjMcMC1DModel K)
    (hobs : ∀ di, di < S.ndata → S.obs di ≠ 0) :
    standard_l2misfit S (compute_predicted_and_residuals_squared X S m)
      = (∑ i ∈ Finset.range S.ndata, ((S.obs i - X.forwardmodel m i) / S.err i) ^ 4)
        / (S.ndata : K) := by
  unfold standard_l2misfit
  dsimp only
  rw [forLoop_sum S.ndata (fun di =>
    (compute_predicted_and_residuals_squared X S m).residuals_squared di
        * (S.obs di * S.obs di) / (S.err di * S.err di)
      * ((compute_predicted_and_residuals_squared X S m).residuals_squared di
        * (S.obs di * S.obs di) / (S.err di * S.err di)))]
  congr 1
  refine Finset.sum_congr rfl (fun di hdi => ?_)
  have hd := Finset.mem_range.mp hdi
  rw [compute_residuals_squared X S m di hd]
  have ho := hobs di hd
  by_cases he : S.err di = 0
  · rw [he]; simp
  · field_simp
    ring

end L2Misfit

/-- C40 (the code on the example sampler): with two data `obs = 2`, `err = 2` and the
prediction `1`, the cached squared residuals are `((2 - 1) / 2)² = 1 / 4`, the normalised
L2 misfit `(1 / 2) * Σ ((obs - pred) / err)²` is `1 / 4`, and `standard_l2misfit` returns
`1 / 16`: it squares the cached value, which is already a square. -/
theorem C40_standard_l2misfit_fourth_power :
    (∀ di, di < exampleSampler.ndata →
      (compute_predicted_and_residuals_squared exampleExternals exampleSampler
        exampleModel).residuals_squared di = 1 / 4) ∧
    normalisedL2Misfit exampleSampler
      (compute_predicted_and_residuals_squared exampleExternals exampleSampler
        exampleModel).predicted = 1 / 4 ∧
    standard_l2misfit exampleSampler
      (compute_predicted_and_residuals_squared exampleExternals exampleSampler exampleModel)
      = 1 / 16 := by
  have hn : exampleSampler.ndata = 2 := rfl
  have ho : exampleSampler.obs = fun _ => 2 := rfl
  have he : exampleSampler.err = fun _ => 2 := rfl
  have hf : exampleExternals.forwardmodel exampleModel = fun _ => 1 := rfl
  refine ⟨fun di hdi => ?_, ?_, ?_⟩
  · rw [compute_residuals_squared exampleExternals exampleSampler exampleModel di hdi, ho, hf]
    norm_num
  · show normalisedL2Misfit exampleSampler (exampleExternals.forwardmodel exampleModel) = 1 / 4
    unfold normalisedL2Misfit
    rw [hn, ho, he, hf]
    simp [Finset.sum_range_succ]
    norm_num
  · rw [standard_l2misfit_eq exampleExternals exampleSampler exampleModel
      (fun di _ => by rw [ho]; norm_num), hn, ho, he, hf]
    simp [Finset.sum_range_succ]
    norm_num

/-! ### Which samples enter the posterior maps -/

/-- Member `should_include_in_maps` is true exactly for the sample indices from `nburnin` on
whose distance from `nburnin` is a multiple of `thinrate`. -/
theorem should_include_in_maps_iff (S : rjMcMC1DSampler K) (k : ℕ) :
    should_include_in_maps S k = true ↔ S.nburnin ≤ k ∧ (k - S.nburnin) % S.thinrate = 0 := by
  unfold should_include_in_maps
  dsimp only
  by_cases h1 : k < S.nburnin
  · rw [if_pos h1]
    exact ⟨fun h => Bool.noConfusion h, fun h => absurd h.1 (not_le.mpr h1)⟩
  · rw [if_neg h1]
    by_cases h2 : (k - S.nburnin) % S.thinrate = 0
    · rw [if_pos h2]
      exact ⟨fun _ => ⟨not_lt.mp h1, h2⟩, fun _ => rfl⟩
    · rw [if_neg h2]
      exact ⟨fun h => Bool.noConfusion h, fun h => absurd h.2 h2⟩

section MapsInclusion

variable [LinearOrderedField K] [FloorRing K] [DoubleArithmetic K]

/-- The maps part of the chain loop: the three maps and the ensemble receive the model of
the chain when the temperature of the chain is `1` and `should_include_in_maps` holds, and
are left as they are otherwise. -/
theorem sample_maps_spec (X : Externals K) (S : rjMcMC1DSampler K) (si ci : ℕ) :
    ((S.chains ci).temperature = 1 ∧ should_include_in_maps S si = true →
      (sample_maps X S si ci).pmap = S.pmap.addmodel (S.chains ci).model ∧
      (sample_maps X S si ci).nmap = S.nmap.addmodel (S.chains ci).model ∧
      (sample_maps X S si ci).mnmap = S.mnmap.addmodel (S.chains ci).model ∧
      (sample_maps X S si ci).ensemble = S.ensemble ++ [(S.chains ci).model]) ∧
    (¬ ((S.chains ci).temperature = 1 ∧ should_include_in_maps S si = true) →
      (sample_maps X S si ci).pmap = S.pmap ∧
      (sample_maps X S si ci).nmap = S.nmap ∧
      (sample_maps X S si ci).mnmap = S.mnmap ∧
      (sample_maps X S si ci).ensemble = S.ensemble) := by
  unfold sample_maps
  dsimp only
  by_cases hT : (S.chains ci).temperature = 1
  · rw [if_pos hT]
    by_cases hs : should_include_in_maps S si = true
    · refine ⟨fun _ => ?_, fun h => absurd ⟨hT, hs⟩ h⟩
      split_ifs
      all_goals first
        | exact ⟨rfl, rfl, rfl, rfl⟩
        | (exfalso; revert hs; assumption)
    · refine ⟨fun h => absurd h.2 hs, fun _ => ?_⟩
      split_ifs
      all_goals first
        | exact ⟨rfl, rfl, rfl, rfl⟩
        | (exfalso; apply hs; assumption)
  · rw [if_neg hT]
    exact ⟨fun h => absurd h.1 hT, fun _ => ⟨rfl, rfl, rfl, rfl⟩⟩

end MapsInclusion

/-- The convergence record leaves the maps and the ensemble. -/
theorem sample_history_maps (S : rjMcMC1DSampler K) (si ci : ℕ) :
    (sample_history S si ci).pmap = S.pmap ∧ (sample_history S si ci).nmap = S.nmap ∧
    (sample_history S si ci).mnmap = S.mnmap ∧
    (sample_history S si ci).ensemble = S.ensemble := by
  unfold sample_history
  dsimp only
  split_ifs <;> exact ⟨rfl, rfl, rfl, rfl⟩

section MapsInclusionClaim

variable [LinearOrderedField K] [FloorRing K] [DoubleArithmetic K]

/-- C31: for `thinrate ≥ 1`, `should_include_in_maps (k)` is true exactly when `k ≥ nburnin`
and `(k - nburnin) mod thinrate = 0`; in the body of the chain loop of `sample` for the
sample `k` and the chain `ci`, the model that the update has left on the chain is added to
the three posterior maps and appended to the ensemble when the temperature of the chain
equals `1` and these two conditions hold, and otherwise the maps and the ensemble are left
as they are. -/
theorem C31_map_inclusion (X : Externals K) (R : cRandom K) (fuel k ci : ℕ)
    (st : rjMcMC1DSampler K × ℕ) (_hthin : 1 ≤ st.1.thinrate) :
    (should_include_in_maps st.1 k = true
      ↔ st.1.nburnin ≤ k ∧ (k - st.1.nburnin) % st.1.thinrate = 0) ∧
    ∀ st1, sample_chain X R fuel k ci st = some st1 →
      ∃ chn t1, sample_update X R st.1 fuel k st.2 (st.1.chains ci) = some (chn, t1) ∧
        (chn.temperature = 1 ∧ st.1.nburnin ≤ k ∧ (k - st.1.nburnin) % st.1.thinrate = 0 →
          st1.1.pmap = st.1.pmap.addmodel chn.model ∧
          st1.1.nmap = st.1.nmap.addmodel chn.model ∧
          st1.1.mnmap = st.1.mnmap.addmodel chn.model ∧
          st1.1.ensemble = st.1.ensemble ++ [chn.model]) ∧
        (¬ (chn.temperature = 1 ∧ st.1.nburnin ≤ k ∧
            (k - st.1.nburnin) % st.1.thinrate = 0) →
          st1.1.pmap = st.1.pmap ∧ st1.1.nmap = st.1.nmap ∧ st1.1.mnmap = st.1.mnmap ∧
          st1.1.ensemble = st.1.ensemble) := by
  refine ⟨should_include_in_maps_iff st.1 k, fun st1 h => ?_⟩
  unfold sample_chain at h
  cases hc : sample_update X R st.1 fuel k st.2 (st.1.chains ci) with
  | none => rw [hc] at h; exact Option.noConfusion h
  | some r =>
    obtain ⟨chn, t1⟩ := r
    rw [hc] at h
    dsimp only at h
    injection h with h
    refine ⟨chn, t1, rfl, ?_⟩
    obtain ⟨hp, hn, hm, he⟩ := sample_history_maps
      (sample_maps X { st.1 with chains := Function.update st.1.chains ci chn } k ci) k ci
    obtain ⟨hyes, hno⟩ :=
      sample_maps_spec X { st.1 with chains := Function.update st.1.chains ci chn } k ci
    have hchn : (({ st.1 with chains := Function.update st.1.chains ci chn } :
        rjMcMC1DSampler K).chains ci) = chn := Function.update_same ci chn st.1.chains
    have hinc : should_include_in_maps
        ({ st.1 with chains := Function.update st.1.chains ci chn } : rjMcMC1DSampler K) k
        = should_include_in_maps st.1 k := rfl
    rw [hchn, hinc, should_include_in_maps_iff st.1 k] at hyes hno
    rw [← h]
    dsimp only
    rw [hp, hn, hm, he]
    exact ⟨hyes, hno⟩

end MapsInclusionClaim

/-- C31 at the example sampler (`nburnin = 0`, `thinrate = 1`, one chain at the temperature
`1`): in the first sample the model left on the chain is appended to the ensemble. -/
theorem C31_map_inclusion_witness :
    1 ≤ (sample_begin exampleExternals exampleSampler, 0).1.thinrate ∧
    ∃ st1 chn t1,
      sample_chain exampleExternals exampleRandom 1 0 0
        (sample_begin exampleExternals exampleSampler, 0) = some st1 ∧
      sample_update exampleExternals exampleRandom
        (sample_begin exampleExternals exampleSampler) 1 0 0
        ((sample_begin exampleExternals exampleSampler).chains 0) = some (chn, t1) ∧
      chn.temperature = 1 ∧
      st1.1.ensemble = (sample_begin exampleExternals exampleSampler).ensemble ++ [chn.model] := by
  have hthin : 1 ≤ (sample_begin exampleExternals exampleSampler, 0).1.thinrate :=
    Nat.le_refl 1
  have hc : choosefromprior exampleExternals exampleRandom
      (sample_begin exampleExternals exampleSampler) 1 0
      = choosefromprior exampleExternals exampleRandom exampleSampler 1 0 := rfl
  have hu : ∃ chn t1, sample_update exampleExternals exampleRandom
      (sample_begin exampleExternals exampleSampler) 1 0 0
      ((sample_begin exampleExternals exampleSampler).chains 0) = some (chn, t1) ∧
      chn.temperature = 1 := by
    unfold sample_update
    rw [if_pos rfl, hc, exampleSampler_choosefromprior]
    exact ⟨_, _, rfl, rfl⟩
  obtain ⟨chn, t1, hu1, hu2⟩ := hu
  have hs : ∃ st1, sample_chain exampleExternals exampleRandom 1 0 0
      (sample_begin exampleExternals exampleSampler, 0) = some st1 := by
    unfold sample_chain
    rw [hu1]
    exact ⟨_, rfl⟩
  obtain ⟨st1, hst1⟩ := hs
  obtain ⟨chn2, t2, h1, h2, _⟩ :=
    (C31_map_inclusion exampleExternals exampleRandom 1 0 0
      (sample_begin exampleExternals exampleSampler, 0) hthin).2 st1 hst1
  have e : (chn2, t2) = (chn, t1) := Option.some.inj (h1.symm.trans hu1)
  have e1 : chn2 = chn := congrArg Prod.fst e
  rw [e1] at h2
  exact ⟨hthin, st1, chn, t1, hst1, hu1, hu2, (h2 ⟨hu2, Nat.zero_le 0, rfl⟩).2.2.2⟩

/-! ### The kernel dispatch of `sample` -/

/-- The number of options is `4`, `5` or `6`. -/
theorem sample_nopt_eq (mcur : rjMcMC1DModel K) :
    sample_nopt mcur
      = 4 + (if mcur.nnoises > 0 then 1 else 0) + (if mcur.nnuisances > 0 then 1 else 0) := by
  unfold sample_nopt
  dsimp only
  split_ifs <;> rfl

section Dispatch

variable [LinearOrderedField K]

/-- The kernel dispatch of `sample` draws the option in `[0, nopt - 1]` and calls the
kernel of its case. -/
theorem sample_propose_eq (X : Externals K) (R : cRandom K) (S : rjMcMC1DSampler K)
    (fuel t : ℕ) (chn : cChain K) :
    sample_propose X R S fuel t chn
      = match sample_kernel chn.model (R.irand t 0 (sample_nopt chn.model - 1)) with
        | none => none
        | some k => k.propose X R S fuel (t + 1) chn := by
  have hn : (if chn.model.nnuisances > 0 then (if chn.model.nnoises > 0 then 4 + 1 else 4) + 1
      else if chn.model.nnoises > 0 then 4 + 1 else 4) = sample_nopt chn.model := by
    unfold sample_nopt
    dsimp only
  unfold sample_propose
  dsimp only
  rw [hn]
  generalize R.irand t 0 (sample_nopt chn.model - 1) = o
  unfold sample_kernel
  match o with
  | 0 => rfl
  | 1 => rfl
  | 2 => rfl
  | 3 => rfl
  | 4 =>
    dsimp only
    split_ifs <;> rfl
  | 5 => rfl
  | 6 => rfl
  | n + 7 => rfl

/-- C34: for the current model `mcur` and every option value `o` in `[0, nopt - 1]`, where
`nopt` is `4`, plus `1` if the model has noise processes, plus `1` if it has nuisances, the
`switch` of `sample` calls a kernel of the enabled set: the options `0` to `3` call value
change, move, birth and death, the noise kernel is called only for a model with a noise
process and the nuisance kernel only for a model with a nuisance, and the independent-prior
kernel is not called; two options of the range that call the same kernel are equal, and
every enabled kernel is called by an option of the range; the dispatch of `sample`, its
option drawn in the range, is the call of that kernel. -/
theorem C34_kernel_dispatch (mcur : rjMcMC1DModel K) :
    sample_nopt mcur
      = 4 + (if mcur.nnoises > 0 then 1 else 0) + (if mcur.nnuisances > 0 then 1 else 0) ∧
    (∀ o, o ≤ sample_nopt mcur - 1 →
      ∃ k, sample_kernel mcur o = some k ∧ k.enabled mcur ∧ k ≠ cKernel.independent ∧
        (k = cKernel.noisechange → 0 < mcur.nnoises) ∧
        (k = cKernel.nuisancechange → 0 < mcur.nnuisances) ∧
        (o = 0 → k = cKernel.valuechange) ∧ (o = 1 → k = cKernel.move) ∧
        (o = 2 → k = cKernel.birth) ∧ (o = 3 → k = cKernel.death)) ∧
    (∀ o1 o2, o1 ≤ sample_nopt mcur - 1 → o2 ≤ sample_nopt mcur - 1 →
      sample_kernel mcur o1 = sample_kernel mcur o2 → o1 = o2) ∧
    (∀ k : cKernel, k.enabled mcur →
      ∃ o, o ≤ sample_nopt mcur - 1 ∧ sample_kernel mcur o = some k) ∧
    (∀ (X : Externals K) (R : cRandom K) (S : rjMcMC1DSampler K) (fuel t : ℕ)
      (chn : cChain K), chn.model = mcur →
      R.irand t 0 (sample_nopt mcur - 1) ≤ sample_nopt mcur - 1 →
      ∃ k, sample_kernel mcur (R.irand t 0 (sample_nopt mcur - 1)) = some k ∧
        k.enabled mcur ∧ k ≠ cKernel.independent ∧
        sample_propose X R S fuel t chn = k.propose X R S fuel (t + 1) chn) := by
  have hopt : ∀ o, o ≤ sample_nopt mcur - 1 →
      ∃ k, sample_kernel mcur o = some k ∧ k.enabled mcur ∧ k ≠ cKernel.independent ∧
        (k = cKernel.noisechange → 0 < mcur.nnoises) ∧
        (k = cKernel.nuisancechange → 0 < mcur.nnuisances) ∧
        (o = 0 → k = cKernel.valuechange) ∧ (o = 1 → k = cKernel.move) ∧
        (o = 2 → k = cKernel.birth) ∧ (o = 3 → k = cKernel.death) := by
    intro o ho
    rw [sample_nopt_eq] at ho
    by_cases h1 : mcur.nnoises > 0 <;> by_cases h2 : mcur.nnuisances > 0 <;>
      simp only [h1, h2, if_true, if_false] at ho <;>
      interval_cases o <;>
      simp [sample_kernel, cKernel.enabled, h1, h2]
  refine ⟨sample_nopt_eq mcur, hopt, ?_, ?_, ?_⟩
  · intro o1 o2 ho1 ho2 h
    rw [sample_nopt_eq] at ho1 ho2
    by_cases h1 : mcur.nnoises > 0 <;> by_cases h2 : mcur.nnuisances > 0 <;>
      simp only [h1, h2, if_true, if_false] at ho1 ho2 <;>
      interval_cases o1 <;> interval_cases o2 <;>
      simp [sample_kernel, h1, h2] at h ⊢
  · intro k hk
    rw [sample_nopt_eq]
    by_cases h1 : mcur.nnoises > 0 <;> by_cases h2 : mcur.nnuisances > 0 <;>
      simp only [h1, h2, if_true, if_false] <;>
      cases k <;> simp only [cKernel.enabled] at hk
    all_goals first
      | exact absurd hk h1
      | exact absurd hk h2
      | (refine ⟨0, ?_, rfl⟩; decide)
      | (refine ⟨1, ?_, rfl⟩; decide)
      | (refine ⟨2, ?_, rfl⟩; decide)
      | (refine ⟨3, ?_, rfl⟩; decide)
      | (refine ⟨5, ?_, rfl⟩; decide)
      | (refine ⟨4, ?_, ?_⟩
         · decide
         · simp [sample_kernel, h1, h2])
  · intro X R S fuel t chn hm ho
    obtain ⟨k, hk, hen, hni, _⟩ := hopt _ ho
    refine ⟨k, hk, hen, hni, ?_⟩
    rw [sample_propose_eq, hm, hk]

end Dispatch

/-! ### The chains through the sample loop: histories and temperatures -/

section ChainFrames

variable [LinearOrderedField K]

/-- The value-change kernel leaves the history and the temperature of the chain. -/
theorem propose_valuechange_chain (X : Externals K) (R : cRandom K)
    (S : rjMcMC1DSampler K) (t : ℕ) (chn : cChain K) (mpro : rjMcMC1DModel K) :
    (propose_valuechange X R S t chn mpro).chn.history = chn.history ∧
    (propose_valuechange X R S t chn mpro).chn.temperature = chn.temperature := by
  unfold propose_valuechange
  dsimp only
  split_ifs <;> exact ⟨rfl, rfl⟩

/-- The move kernel leaves the history and the temperature of the chain. -/
theorem propose_move_chain (X : Externals K) (R : cRandom K)
    (S : rjMcMC1DSampler K) (t : ℕ) (chn : cChain K) (mpro : rjMcMC1DModel K) :
    (propose_move X R S t chn mpro).chn.history = chn.history ∧
    (propose_move X R S t chn mpro).chn.temperature = chn.temperature := by
  unfold propose_move
  dsimp only
  split_ifs <;> exact ⟨rfl, rfl⟩

/-- The birth kernel leaves the history and the temperature of the chain. -/
theorem propose_birth_chain (X : Externals K) (R : cRandom K)
    (S : rjMcMC1DSampler K) (t : ℕ) (chn : cChain K) (mpro : rjMcMC1DModel K) :
    (propose_birth X R S t chn mpro).chn.history = chn.history ∧
    (propose_birth X R S t chn mpro).chn.temperature = chn.temperature := by
  unfold propose_birth
  dsimp only
  split_ifs <;> exact ⟨rfl, rfl⟩

/-- The death kernel leaves the history and the temperature of the chain. -/
theorem propose_death_chain (X : Externals K) (R : cRandom K)
    (S : rjMcMC1DSampler K) (t : ℕ) (chn : cChain K) (mpro : rjMcMC1DModel K) :
    (propose_death X R S t chn mpro).chn.history = chn.history ∧
    (propose_death X R S t chn mpro).chn.temperature = chn.temperature := by
  unfold propose_death
  dsimp only
  split_ifs <;> exact ⟨rfl, rfl⟩

/-- The nuisance-change kernel leaves the history and the temperature of the chain. -/
theorem propose_nuisancechange_chain (X : Externals K) (R : cRandom K)
    (S : rjMcMC1DSampler K) (t : ℕ) (chn : cChain K) (mpro : rjMcMC1DModel K) :
    (propose_nuisancechange X R S t chn mpro).chn.history = chn.history ∧
    (propose_nuisancechange X R S t chn mpro).chn.temperature = chn.temperature := by
  unfold propose_nuisancechange
  dsimp only
  split_ifs <;> exact ⟨rfl, rfl⟩

/-- The noise-change kernel leaves the history and the temperature of the chain. -/
theorem propose_noisechange_chain (X : Externals K) (R : cRandom K) (t : ℕ)
    (chn : cChain K) (mpro : rjMcMC1DModel K) :
    (propose_noisechange X R t chn mpro).chn.history = chn.history ∧
    (propose_noisechange X R t chn mpro).chn.temperature = chn.temperature := by
  unfold propose_noisechange
  dsimp only
  split_ifs <;> exact ⟨rfl, rfl⟩

/-- The independent kernel leaves the history and the temperature of the chain. -/
theorem propose_independent_chain (X : Externals K) (R : cRandom K)
    (S : rjMcMC1DSampler K) (fuel t : ℕ) (chn : cChain K) (r : cProposed K)
    (h : propose_independent X R S fuel t chn = some r) :
    r.chn.history = chn.history ∧ r.chn.temperature = chn.temperature := by
  unfold propose_independent at h
  dsimp only at h
  cases hc : choosefromprior X R S fuel t with
  | none => rw [hc] at h; exact Option.noConfusion h
  | some q =>
    rw [hc] at h
    dsimp only at h
    split_ifs at h
    all_goals
      injection h with h
      rw [← h]
      exact ⟨rfl, rfl⟩

/-- The kernel dispatch of `sample` leaves the history and the temperature of the chain. -/
theorem sample_propose_chain (X : Externals K) (R : cRandom K) (S : rjMcMC1DSampler K)
    (fuel t : ℕ) (chn : cChain K) (r : cProposed K)
    (h : sample_propose X R S fuel t chn = some r) :
    r.chn.history = chn.history ∧ r.chn.temperature = chn.temperature := by
  unfold sample_propose at h
  dsimp only at h
  split at h
  · injection h with h
    rw [← h]
    exact propose_valuechange_chain X R S (t + 1) chn chn.model
  · injection h with h
    rw [← h]
    exact propose_move_chain X R S (t + 1) chn chn.model
  · injection h with h
    rw [← h]
    exact propose_birth_chain X R S (t + 1) chn chn.model
  · injection h with h
    rw [← h]
    exact propose_death_chain X R S (t + 1) chn chn.model
  · split_ifs at h
    · injection h with h
      rw [← h]
      exact propose_noisechange_chain X R (t + 1) chn chn.model
    · injection h with h
      rw [← h]
      exact propose_nuisancechange_chain X R S (t + 1) chn chn.model
  · injection h with h
    rw [← h]
    exact propose_nuisancechange_chain X R S (t + 1) chn chn.model
  · exact propose_independent_chain X R S fuel (t + 1) chn r h
  · exact Option.noConfusion h

/-- The update of a chain in `sample` leaves the history and the temperature of the
chain. -/
theorem sample_update_chain (X : Externals K) (R : cRandom K) (S : rjMcMC1DSampler K)
    (fuel si t : ℕ) (chn chn1 : cChain K) (t1 : ℕ)
    (h : sample_update X R S fuel si t chn = some (chn1, t1)) :
    chn1.history = chn.history ∧ chn1.temperature = chn.temperature := by
  unfold sample_update at h
  by_cases hsi : si = 0
  · rw [if_pos hsi] at h
    cases hc : choosefromprior X R S fuel t with
    | none => rw [hc] at h; exact Option.noConfusion h
    | some q =>
      rw [hc] at h
      dsimp only at h
      injection h with h
      injection h with h1 _
      rw [← h1]
      exact ⟨rfl, rfl⟩
  · rw [if_neg hsi] at h
    cases hc : sample_propose X R S fuel t chn with
    | none => rw [hc] at h; exact Option.noConfusion h
    | some r =>
      rw [hc] at h
      dsimp only at h
      obtain ⟨h1, h2⟩ := sample_propose_chain X R S fuel t chn r hc
      split_ifs at h
      all_goals
        injection h with h
        injection h with h3 _
        rw [← h3]
        exact ⟨h1, h2⟩

end ChainFrames

/-- Every sampler has its own schedule. -/
theorem SameSchedule.same (S : rjMcMC1DSampler K) : SameSchedule S S := ⟨rfl, rfl, rfl⟩

/-- The schedule is handed on. -/
theorem SameSchedule.andThen {S T U : rjMcMC1DSampler K} (h1 : SameSchedule S T)
    (h2 : SameSchedule T U) : SameSchedule S U :=
  ⟨h2.1.trans h1.1, h2.2.1.trans h1.2.1, h2.2.2.trans h1.2.2⟩

/-- The two tests of the sample index depend on the schedule only. -/
theorem SameSchedule.tests {S T : rjMcMC1DSampler K} (h : SameSchedule S T) (si : ℕ) :
    should_save_convergence_record T si = should_save_convergence_record S si ∧
    should_include_in_maps T si = should_include_in_maps S si := by
  unfold should_save_convergence_record should_include_in_maps
  rw [h.1, h.2.1, h.2.2]
  exact ⟨rfl, rfl⟩

/-- The convergence record: the schedule, the number of chains and the temperatures are
left, and the sample index, cast to `uint32_t`, is appended to the history of the chain `ci`
when `should_save_convergence_record` holds. -/
theorem sample_history_record (S : rjMcMC1DSampler K) (si ci : ℕ) :
    SameSchedule S (sample_history S si ci) ∧
    (∀ c, ((sample_history S si ci).chains c).temperature = (S.chains c).temperature) ∧
    (∀ c, ((sample_history S si ci).chains c).samples = (S.chains c).samples ++
      if c = ci ∧ should_save_convergence_record S si = true then [si % 2 ^ 32] else []) := by
  unfold sample_history
  dsimp only
  by_cases hs : should_save_convergence_record S si = true
  · rw [if_pos hs]
    refine ⟨⟨rfl, rfl, rfl⟩, fun c => ?_, fun c => ?_⟩
    · show (Function.update S.chains ci _ c).temperature = (S.chains c).temperature
      by_cases hc : c = ci
      · rw [hc, Function.update_same]
      · rw [Function.update_noteq hc]
    · show (Function.update S.chains ci _ c).samples = _
      by_cases hc : c = ci
      · have hcs : c = ci ∧ should_save_convergence_record S si = true := ⟨hc, hs⟩
        rw [if_pos hcs, hc, Function.update_same]
        unfold cChain.samples
        rw [List.map_append]
        rfl
      · have hcs : ¬ (c = ci ∧ should_save_convergence_record S si = true) := fun h => hc h.1
        rw [if_neg hcs, Function.update_noteq hc, List.append_nil]
  · rw [if_neg hs]
    refine ⟨SameSchedule.same S, fun _ => rfl, fun c => ?_⟩
    have hcs : ¬ (c = ci ∧ should_save_convergence_record S si = true) := fun h => hs h.2
    rw [if_neg hcs, List.append_nil]

section MapEntries

variable [LinearOrderedField K]

/-- Member `addmodel` of the nuisance map and of the noise map count one more entry. -/
theorem map_addmodel_nentries (n : rjMcMC1DNuisanceMap K) (q : rjMcMC1DNoiseMap K)
    (m : rjMcMC1DModel K) :
    (n.addmodel m).nentries = n.nentries + 1 ∧ (q.addmodel m).nentries = q.nentries + 1 := by
  unfold rjMcMC1DNuisanceMap.addmodel rjMcMC1DNoiseMap.addmodel
  dsimp only
  split_ifs <;> exact ⟨rfl, rfl⟩

end MapEntries

section RecordFrames

variable [LinearOrderedField K] [FloorRing K] [DoubleArithmetic K]

/-- Member `addmodel` of the map counts one more entry. -/
theorem rjMcMC1DPPDMap.addmodel_nentries (p : rjMcMC1DPPDMap K) (m : rjMcMC1DModel K) :
    (p.addmodel m).nentries = p.nentries + 1 := by
  unfold rjMcMC1DPPDMap.addmodel
  dsimp only
  refine forLoop_invariant (fun _ (q : rjMcMC1DPPDMap K) => q.nentries = p.nentries + 1)
    _ _ _ ?_ (fun k q _ h => h)
  exact forLoop_invariant (fun _ (q : rjMcMC1DPPDMap K) => q.nentries = p.nentries + 1)
    _ _ _ rfl (fun k q _ h => h)

/-- The maps part of the chain loop leaves the schedule. -/
theorem sample_maps_schedule (X : Externals K) (S : rjMcMC1DSampler K) (si ci : ℕ) :
    SameSchedule S (sample_maps X S si ci) := by
  unfold sample_maps rjMcMC1DSampler.addmodel
  dsimp only
  split_ifs
  all_goals exact ⟨rfl, rfl, rfl⟩

/-- The number of models in the three maps and in the ensemble of a sampler. -/
theorem sample_maps_count (X : Externals K) (S : rjMcMC1DSampler K) (si ci : ℕ) (d : ℕ)
    (hd : d = if (S.chains ci).temperature = 1 ∧ should_include_in_maps S si = true then 1
      else 0) :
    (sample_maps X S si ci).pmap.nentries = S.pmap.nentries + d ∧
    (sample_maps X S si ci).nmap.nentries = S.nmap.nentries + d ∧
    (sample_maps X S si ci).mnmap.nentries = S.mnmap.nentries + d ∧
    (sample_maps X S si ci).ensemble.length = S.ensemble.length + d := by
  obtain ⟨hyes, hno⟩ := sample_maps_spec X S si ci
  by_cases h : (S.chains ci).temperature = 1 ∧ should_include_in_maps S si = true
  · rw [if_pos h] at hd
    obtain ⟨h1, h2, h3, h4⟩ := hyes h
    rw [h1, h2, h3, h4, hd, rjMcMC1DPPDMap.addmodel_nentries,
      (map_addmodel_nentries S.nmap S.mnmap _).1, (map_addmodel_nentries S.nmap S.mnmap _).2,
      List.length_append]
    exact ⟨rfl, rfl, rfl, rfl⟩
  · rw [if_neg h] at hd
    obtain ⟨h1, h2, h3, h4⟩ := hno h
    rw [h1, h2, h3, h4, hd]
    exact ⟨rfl, rfl, rfl, rfl⟩

end RecordFrames

/-- Two conditional one-element lists for the chains below `n` and for the chain `n` make
the one for the chains below `n + 1`. -/
theorem ite_append_ite {α : Type} (c n : ℕ) (P : Prop) [Decidable P] (x : α) :
    ((if c < n ∧ P then [x] else []) ++ (if c = n ∧ P then [x] else []) : List α)
      = if c < n + 1 ∧ P then [x] else [] := by
  by_cases hP : P
  · simp only [hP, and_true]
    split_ifs
    all_goals first
      | rfl
      | (exfalso; omega)
  · simp only [hP, and_false, if_false, List.append_nil]

section ChainRecords

variable [LinearOrderedField K] [FloorRing K] [DoubleArithmetic K]

/-- The body of the chain loop for the sample `si` and the chain `ci`: the schedule, the
number of chains and the temperatures are left; the sample index is appended to the history
of the chain `ci` when `should_save_convergence_record` holds; and the three maps and the
ensemble receive one model when the temperature of the chain is `1` and
`should_include_in_maps` holds. -/
theorem sample_chain_record (X : Externals K) (R : cRandom K) (fuel si ci : ℕ)
    (st st1 : rjMcMC1DSampler K × ℕ) (h : sample_chain X R fuel si ci st = some st1) :
    SameSchedule st.1 st1.1 ∧ st1.1.nchains = st.1.nchains ∧
    (∀ c, (st1.1.chains c).temperature = (st.1.chains c).temperature) ∧
    (∀ c, (st1.1.chains c).samples = (st.1.chains c).samples ++
      if c = ci ∧ should_save_convergence_record st.1 si = true then [si % 2 ^ 32] else []) ∧
    (∀ d, d = (if (st.1.chains ci).temperature = 1 ∧ should_include_in_maps st.1 si = true
        then 1 else 0) →
      st1.1.pmap.nentries = st.1.pmap.nentries + d ∧
      st1.1.nmap.nentries = st.1.nmap.nentries + d ∧
      st1.1.mnmap.nentries = st.1.mnmap.nentries + d ∧
      st1.1.ensemble.length = st.1.ensemble.length + d) := by
  unfold sample_chain at h
  cases hc : sample_update X R st.1 fuel si st.2 (st.1.chains ci) with
  | none => rw [hc] at h; exact Option.noConfusion h
  | some r =>
    obtain ⟨chn, t1⟩ := r
    rw [hc] at h
    dsimp only at h
    injection h with h
    obtain ⟨hh, hT⟩ := sample_update_chain X R st.1 fuel si st.2 (st.1.chains ci) chn t1 hc
    have e1 : SameSchedule st.1
        ({ st.1 with chains := Function.update st.1.chains ci chn } : rjMcMC1DSampler K) :=
      ⟨rfl, rfl, rfl⟩
    have c1 : ∀ c, (Function.update st.1.chains ci chn c).temperature
          = (st.1.chains c).temperature ∧
        (Function.update st.1.chains ci chn c).samples = (st.1.chains c).samples := by
      intro c
      by_cases hcc : c = ci
      · rw [hcc, Function.update_same]
        unfold cChain.samples
        rw [hh, hT]
        exact ⟨rfl, rfl⟩
      · rw [Function.update_noteq hcc]
        exact ⟨rfl, rfl⟩
    generalize hS1 : ({ st.1 with chains := Function.update st.1.chains ci chn } :
      rjMcMC1DSampler K) = S1 at h e1
    have n1 : S1.nchains = st.1.nchains := by rw [← hS1]
    have k1 : S1.chains = Function.update st.1.chains ci chn := by rw [← hS1]
    have m1 : S1.pmap = st.1.pmap ∧ S1.nmap = st.1.nmap ∧ S1.mnmap = st.1.mnmap ∧
        S1.ensemble = st.1.ensemble := by
      rw [← hS1]
      exact ⟨rfl, rfl, rfl, rfl⟩
    obtain ⟨fL, fC⟩ := sample_maps_frame X S1 si ci
    have e2 := sample_maps_schedule X S1 si ci
    obtain ⟨e3, hT3, hs3⟩ := sample_history_record (sample_maps X S1 si ci) si ci
    obtain ⟨p3, q3, r3, s3⟩ := sample_history_maps (sample_maps X S1 si ci) si ci
    have fL3 := (sample_history_frame (sample_maps X S1 si ci) si ci).1
    rw [← h]
    refine ⟨(e1.andThen e2).andThen e3, ?_, fun c => ?_, fun c => ?_, fun d hd => ?_⟩
    · show (sample_history (sample_maps X S1 si ci) si ci).nchains = st.1.nchains
      rw [fL3.2.2.1, fL.2.2.1, n1]
    · show ((sample_history (sample_maps X S1 si ci) si ci).chains c).temperature = _
      rw [hT3 c, fC, k1, (c1 c).1]
    · show ((sample_history (sample_maps X S1 si ci) si ci).chains c).samples = _
      rw [hs3 c, fC, k1, (c1 c).2, ((e1.andThen e2).tests si).1]
    · show (sample_history (sample_maps X S1 si ci) si ci).pmap.nentries = _ ∧
        (sample_history (sample_maps X S1 si ci) si ci).nmap.nentries = _ ∧
        (sample_history (sample_maps X S1 si ci) si ci).mnmap.nentries = _ ∧
        (sample_history (sample_maps X S1 si ci) si ci).ensemble.length = _
      rw [p3, q3, r3, s3]
      have hd1 : d = if (S1.chains ci).temperature = 1 ∧ should_include_in_maps S1 si = true
          then 1 else 0 := by
        rw [k1, (c1 ci).1, (e1.tests si).2]
        exact hd
      have hcount := sample_maps_count X S1 si ci d hd1
      rw [m1.1, m1.2.1, m1.2.2.1, m1.2.2.2] at hcount
      exact hcount

/-- The chain loop for the sample `si` over the first `n` chains: the schedule, the number
of chains and the temperatures are left; the sample index is appended to the history of
each of the first `n` chains when `should_save_convergence_record` holds; and the maps and
the ensemble receive one model for every one of the first `n` chains at the temperature `1`
when `should_include_in_maps` holds. -/
theorem sample_chains_record (X : Externals K) (R : cRandom K) (fuel si : ℕ)
    (st : rjMcMC1DSampler K × ℕ) :
    ∀ n st1, sample_chains X R fuel si n st = some st1 →
      SameSchedule st.1 st1.1 ∧ st1.1.nchains = st.1.nchains ∧
      (∀ c, (st1.1.chains c).temperature = (st.1.chains c).temperature) ∧
      (∀ c, (st1.1.chains c).samples = (st.1.chains c).samples ++
        if c < n ∧ should_save_convergence_record st.1 si = true then [si % 2 ^ 32]
        else []) ∧
      (∀ d, d = (if should_include_in_maps st.1 si = true then
            ∑ c ∈ Finset.range n, (if (st.1.chains c).temperature = 1 then 1 else 0)
          else 0) →
        st1.1.pmap.nentries = st.1.pmap.nentries + d ∧
        st1.1.nmap.nentries = st.1.nmap.nentries + d ∧
        st1.1.mnmap.nentries = st.1.mnmap.nentries + d ∧
        st1.1.ensemble.length = st.1.ensemble.length + d) := by
  intro n
  induction n with
  | zero =>
    intro st1 h
    unfold sample_chains at h
    injection h with h
    rw [← h]
    refine ⟨SameSchedule.same _, rfl, fun _ => rfl, fun c => ?_, fun d hd => ?_⟩
    · have hcs : ¬ (c < 0 ∧ should_save_convergence_record st.1 si = true) :=
        fun h => Nat.not_lt_zero c h.1
      rw [if_neg hcs, List.append_nil]
    · have hd0 : d = 0 := by
        rw [hd, Finset.sum_range_zero]
        split_ifs <;> rfl
      rw [hd0]
      exact ⟨rfl, rfl, rfl, rfl⟩
  | succ k ih =>
    intro st1 h
    cases hc : sample_chains X R fuel si k st with
    | none =>
      rw [sample_chains, hc] at h
      exact Option.noConfusion h
    | some st2 =>
      rw [sample_chains, hc] at h
      dsimp only at h
      obtain ⟨e2, n2, T2, s2, d2⟩ := ih st2 hc
      obtain ⟨e3, n3, T3, s3, d3⟩ := sample_chain_record X R fuel si k st2 st1 h
      refine ⟨e2.andThen e3, n3.trans n2, fun c => (T3 c).trans (T2 c), fun c => ?_,
        fun d hd => ?_⟩
      · rw [s3 c, s2 c, (e2.tests si).1, List.append_assoc, ite_append_ite]
      · obtain ⟨a1, a2, a3, a4⟩ := d2 _ rfl
        obtain ⟨b1, b2, b3, b4⟩ := d3 _ rfl
        have hsum : d = (if should_include_in_maps st.1 si = true then
              ∑ c ∈ Finset.range k, (if (st.1.chains c).temperature = 1 then 1 else 0)
            else 0)
            + (if (st2.1.chains k).temperature = 1 ∧ should_include_in_maps st2.1 si = true
              then 1 else 0) := by
          rw [hd, Finset.sum_range_succ, T2 k, (e2.tests si).2]
          by_cases hi : should_include_in_maps st.1 si = true
          · simp [hi]
          · simp [hi]
        rw [b1, b2, b3, b4, a1, a2, a3, a4, hsum]
        refine ⟨?_, ?_, ?_, ?_⟩ <;> ring

end ChainRecords

section TemperingRecords

variable [LinearOrderedField K]

/-- One pass of the body of the parallel-tempering loop on the chains `i ≠ j`: the
histories are left, and the temperatures are either left or those of the slots `i` and `j`
are exchanged. -/
theorem tempering_step (X : Externals K) (u : K) (chains : ℕ → cChain K) (i j : ℕ)
    (hij : i ≠ j) (hist : ℕ → ℕ) (C1 C2 : ℕ → cChain K)
    (hC1 : C1 = Function.update chains i { chains i with swap_histogram := hist })
    (hC2 : C2 = Function.update (Function.update C1 i
        { C1 i with
          temperature := (propose_chain_swap X u (C1 i).temperature (C1 i).model
            (C1 j).temperature (C1 j).model).2.1
          model := (propose_chain_swap X u (C1 i).temperature (C1 i).model
            (C1 j).temperature (C1 j).model).2.2.1 }) j
        { C1 j with
          temperature := (propose_chain_swap X u (C1 i).temperature (C1 i).model
            (C1 j).temperature (C1 j).model).2.2.2.1
          model := (propose_chain_swap X u (C1 i).temperature (C1 i).model
            (C1 j).temperature (C1 j).model).2.2.2.2 }) :
    (∀ c, (C2 c).history = (chains c).history) ∧
    ((∀ c, (C2 c).temperature = (chains c).temperature) ∨
      (∀ c, (C2 c).temperature = (chains (Equiv.swap i j c)).temperature)) := by
  have hi1 : C1 i = { chains i with swap_histogram := hist } := by
    rw [hC1, Function.update_same]
  have hj1 : C1 j = chains j := by
    rw [hC1, Function.update_noteq (Ne.symm hij)]
  have ho1 : ∀ c, c ≠ i → C1 c = chains c := by
    intro c hc
    rw [hC1, Function.update_noteq hc]
  have hTi : (C1 i).temperature = (chains i).temperature := by rw [hi1]
  have hHi : (C1 i).history = (chains i).history := by rw [hi1]
  have hswap : ((propose_chain_swap X u (C1 i).temperature (C1 i).model
        (C1 j).temperature (C1 j).model).2.1 = (C1 i).temperature ∧
      (propose_chain_swap X u (C1 i).temperature (C1 i).model
        (C1 j).temperature (C1 j).model).2.2.2.1 = (C1 j).temperature) ∨
      ((propose_chain_swap X u (C1 i).temperature (C1 i).model
        (C1 j).temperature (C1 j).model).2.1 = (C1 j).temperature ∧
      (propose_chain_swap X u (C1 i).temperature (C1 i).model
        (C1 j).temperature (C1 j).model).2.2.2.1 = (C1 i).temperature) := by
    unfold propose_chain_swap
    dsimp only
    split_ifs
    · exact Or.inr ⟨rfl, rfl⟩
    · exact Or.inl ⟨rfl, rfl⟩
  generalize (propose_chain_swap X u (C1 i).temperature (C1 i).model
    (C1 j).temperature (C1 j).model) = r at hC2 hswap
  have hval : ∀ c, (C2 c).history = (chains c).history ∧
      (C2 c).temperature = if c = j then r.2.2.2.1 else if c = i then r.2.1
        else (chains c).temperature := by
    intro c
    rw [hC2]
    by_cases hcj : c = j
    · rw [if_pos hcj, hcj, Function.update_same]
      exact ⟨by rw [hj1], rfl⟩
    · rw [if_neg hcj, Function.update_noteq hcj]
      by_cases hci : c = i
      · rw [if_pos hci, hci, Function.update_same]
        exact ⟨hHi, rfl⟩
      · rw [if_neg hci, Function.update_noteq hci, ho1 c hci]
        exact ⟨rfl, rfl⟩
  refine ⟨fun c => (hval c).1, ?_⟩
  rcases hswap with ⟨h1, h2⟩ | ⟨h1, h2⟩
  · left
    intro c
    rw [(hval c).2, h1, h2, hTi, hj1]
    split_ifs with hcj hci
    · rw [hcj]
    · rw [hci]
    · rfl
  · right
    intro c
    rw [(hval c).2, h1, h2, hTi, hj1]
    split_ifs with hcj hci
    · rw [hcj, Equiv.swap_apply_right]
    · rw [hci, Equiv.swap_apply_left]
    · rw [Equiv.swap_apply_of_ne_of_ne hci hcj]

/-- The parallel-tempering loop, with `irand` within its range: the schedule, the number of
chains, the histories, the maps and the ensemble are left, and the temperatures of the
chain slots are permuted. -/
theorem sample_tempering_record (X : Externals K) (R : cRandom K) (hR : R.InRange)
    (st : rjMcMC1DSampler K × ℕ) :
    SameSchedule st.1 (sample_tempering X R st).1 ∧
    (sample_tempering X R st).1.nchains = st.1.nchains ∧
    (∀ c, ((sample_tempering X R st).1.chains c).history = (st.1.chains c).history) ∧
    ((sample_tempering X R st).1.pmap = st.1.pmap ∧
      (sample_tempering X R st).1.nmap = st.1.nmap ∧
      (sample_tempering X R st).1.mnmap = st.1.mnmap ∧
      (sample_tempering X R st).1.ensemble = st.1.ensemble) ∧
    ∃ σ : Equiv.Perm ℕ, (∀ c, st.1.nchains ≤ c → σ c = c) ∧
      ∀ c, ((sample_tempering X R st).1.chains c).temperature
        = (st.1.chains (σ c)).temperature := by
  unfold sample_tempering
  refine forLoop_invariant
    (fun _ (s2 : rjMcMC1DSampler K × ℕ) =>
      SameSchedule st.1 s2.1 ∧ s2.1.nchains = st.1.nchains ∧
      (∀ c, (s2.1.chains c).history = (st.1.chains c).history) ∧
      (s2.1.pmap = st.1.pmap ∧ s2.1.nmap = st.1.nmap ∧ s2.1.mnmap = st.1.mnmap ∧
        s2.1.ensemble = st.1.ensemble) ∧
      ∃ σ : Equiv.Perm ℕ, (∀ c, st.1.nchains ≤ c → σ c = c) ∧
        ∀ c, (s2.1.chains c).temperature = (st.1.chains (σ c)).temperature)
    (st.1.nchains - 1) _ st
    ⟨SameSchedule.same _, rfl, fun _ => rfl, ⟨rfl, rfl, rfl, rfl⟩, 1, fun _ _ => rfl,
      fun _ => rfl⟩ ?_
  intro k s2 hk hP
  obtain ⟨hS, hn, hH, hM, σ, hσ, hT⟩ := hP
  have hi : s2.1.nchains - 1 - k < st.1.nchains := by omega
  have hj := (hR.1 s2.2 0 (s2.1.nchains - 1 - k) (Nat.zero_le _)).2
  dsimp only
  generalize s2.1.nchains - 1 - k = i at hi hj ⊢
  generalize R.irand s2.2 0 i = j at hj ⊢
  by_cases hij : i ≠ j
  · rw [if_pos hij]
    dsimp only
    obtain ⟨hh, ht⟩ := tempering_step X (R.urand01 (s2.2 + 1)) s2.1.chains i j hij
      (increment (s2.1.chains i).swap_histogram j) _ _ rfl rfl
    refine ⟨hS, hn, fun c => (hh c).trans (hH c), hM, ?_⟩
    rcases ht with ht | ht
    · exact ⟨σ, hσ, fun c => (ht c).trans (hT c)⟩
    · refine ⟨σ * Equiv.swap i j, fun c hc => ?_, fun c => (ht c).trans (hT _)⟩
      rw [Equiv.Perm.mul_apply, Equiv.swap_apply_of_ne_of_ne (by omega) (by omega)]
      exact hσ c hc
  · rw [if_neg hij]
    dsimp only
    refine ⟨hS, hn, fun c => ?_, hM, σ, hσ, fun c => ?_⟩
    · rw [← hH c]
      by_cases hci : c = i
      · rw [hci, Function.update_same]
      · rw [Function.update_noteq hci]
    · rw [← hT c]
      by_cases hci : c = i
      · rw [hci, Function.update_same]
      · rw [Function.update_noteq hci]

end TemperingRecords

section LoopRecords

variable [LinearOrderedField K] [FloorRing K] [DoubleArithmetic K]

/-- The sample loop over the first `n` samples, with `irand` within its range: the schedule
and the number of chains are left; the temperatures of the chain slots are a permutation of
those at the start; every chain has received the convergence records of the sample indices
below `n` for which `should_save_convergence_record` holds, in their order; and the three
maps and the ensemble have received, for every sample index below `n` for which
`should_include_in_maps` holds, as many models as there are chains at the temperature
`1`. -/
theorem sample_loop_record (X : Externals K) (R : cRandom K) (hR : R.InRange) (fuel : ℕ)
    (st0 : rjMcMC1DSampler K × ℕ) :
    ∀ n st, sample_loop X R fuel n st0 = some st →
      SameSchedule st0.1 st.1 ∧ st.1.nchains = st0.1.nchains ∧
      (∃ σ : Equiv.Perm ℕ, (∀ c, st0.1.nchains ≤ c → σ c = c) ∧
        ∀ c, (st.1.chains c).temperature = (st0.1.chains (σ c)).temperature) ∧
      (∀ c, c < st0.1.nchains → (st.1.chains c).samples = (st0.1.chains c).samples ++
        ((List.range n).filter (fun si => should_save_convergence_record st0.1 si)).map
          (fun si => si % 2 ^ 32)) ∧
      (∀ d, d = (∑ c ∈ Finset.range st0.1.nchains,
            if (st0.1.chains c).temperature = 1 then 1 else 0)
          * (∑ k ∈ Finset.range n, if should_include_in_maps st0.1 k = true then 1 else 0) →
        st.1.pmap.nentries = st0.1.pmap.nentries + d ∧
        st.1.nmap.nentries = st0.1.nmap.nentries + d ∧
        st.1.mnmap.nentries = st0.1.mnmap.nentries + d ∧
        st.1.ensemble.length = st0.1.ensemble.length + d) := by
  intro n
  induction n with
  | zero =>
    intro st h
    unfold sample_loop at h
    injection h with h
    rw [← h]
    refine ⟨SameSchedule.same _, rfl, ⟨1, fun _ _ => rfl, fun _ => rfl⟩, fun c _ => ?_,
      fun d hd => ?_⟩
    · rw [List.range_zero, List.filter_nil, List.map_nil, List.append_nil]
    · rw [Finset.sum_range_zero, Nat.mul_zero] at hd
      rw [hd]
      exact ⟨rfl, rfl, rfl, rfl⟩
  | succ k ih =>
    intro st h
    cases hc : sample_loop X R fuel k st0 with
    | none =>
      rw [sample_loop, hc] at h
      exact Option.noConfusion h
    | some st1 =>
      rw [sample_loop_succ X R fuel k st0 st1 hc] at h
      obtain ⟨e1, n1, ⟨σ, hσ, T1⟩, s1, d1⟩ := ih st1 hc
      cases hc2 : sample_chains X R fuel k st1.1.nchains st1 with
      | none =>
        rw [hc2] at h
        exact Option.noConfusion h
      | some st2 =>
        rw [hc2] at h
        injection h with h
        obtain ⟨e2, n2, T2, s2, d2⟩ := sample_chains_record X R fuel k st1 _ st2 hc2
        obtain ⟨e3, n3, H3, ⟨p3, q3, r3, u3⟩, τ, hτ, T3⟩ := sample_tempering_record X R hR st2
        rw [← h]
        refine ⟨(e1.andThen e2).andThen e3, n3.trans (n2.trans n1),
          ⟨σ * τ, fun c hc => ?_, fun c => ?_⟩, fun c hc => ?_, fun d hd => ?_⟩
        · rw [Equiv.Perm.mul_apply, hτ c (by rw [n2, n1]; exact hc), hσ c hc]
        · rw [T3 c, T2, T1]
          rfl
        · have hs3 : ((sample_tempering X R st2).1.chains c).samples
              = (st2.1.chains c).samples := by
            unfold cChain.samples
            rw [H3 c]
          have hlt : c < st1.1.nchains := by rw [n1]; exact hc
          rw [hs3, s2 c, s1 c hc, (e1.tests k).1, List.range_succ, List.filter_append,
            List.map_append, List.append_assoc]
          by_cases hs : should_save_convergence_record st0.1 k = true
          · have hcs : c < st1.1.nchains ∧ should_save_convergence_record st0.1 k = true :=
              ⟨hlt, hs⟩
            rw [if_pos hcs, List.filter_cons_of_pos hs]
            rfl
          · have hcs : ¬ (c < st1.1.nchains ∧ should_save_convergence_record st0.1 k = true) :=
              fun h => hs h.2
            rw [if_neg hcs, List.filter_cons_of_neg hs]
            rfl
        · obtain ⟨a1, a2, a3, a4⟩ := d1 _ rfl
          obtain ⟨b1, b2, b3, b4⟩ := d2 _ rfl
          have hperm : (∑ c ∈ Finset.range st1.1.nchains,
                if (st1.1.chains c).temperature = 1 then 1 else 0)
              = ∑ c ∈ Finset.range st0.1.nchains,
                if (st0.1.chains c).temperature = 1 then 1 else 0 := by
            rw [n1]
            have hsub : {a | σ a ≠ a} ⊆ ((Finset.range st0.1.nchains : Finset ℕ) : Set ℕ) := by
              intro a ha
              by_contra hn
              exact ha (hσ a (by simpa using hn))
            rw [← Equiv.Perm.sum_comp σ (Finset.range st0.1.nchains)
              (fun c => if (st0.1.chains c).temperature = 1 then 1 else 0) hsub]
            exact Finset.sum_congr rfl (fun c _ => by rw [T1 c])
          show (sample_tempering X R st2).1.pmap.nentries = _ ∧
            (sample_tempering X R st2).1.nmap.nentries = _ ∧
            (sample_tempering X R st2).1.mnmap.nentries = _ ∧
            (sample_tempering X R st2).1.ensemble.length = _
          rw [p3, q3, r3, u3, b1, b2, b3, b4, a1, a2, a3, a4, hperm, (e1.tests k).2, hd,
            Finset.sum_range_succ]
          by_cases hi : should_include_in_maps st0.1 k = true
          · rw [if_pos hi, if_pos hi]
            refine ⟨?_, ?_, ?_, ?_⟩ <;> ring
          · rw [if_neg hi, if_neg hi]
            refine ⟨?_, ?_, ?_, ?_⟩ <;> ring

end LoopRecords

section BeginRecords

variable [LinearOrderedField K]

/-- The start of `sample` assigns the ladder `log10space (1, temperature_high, nchains)` to
the chains below `nchains` and leaves the histories of the chains. -/
theorem sample_begin_chains (X : Externals K) (S : rjMcMC1DSampler K) (c : ℕ) :
    ((sample_begin X S).chains c).temperature
      = (if c < S.nchains then X.log10space 1 S.temperature_high S.nchains c
        else (S.chains c).temperature) ∧
    ((sample_begin X S).chains c).history = (S.chains c).history := by
  unfold sample_begin
  dsimp only
  generalize S.nchains = n
  have key : ∀ m, ((forLoop m
        (fun ci (chains : ℕ → cChain K) =>
          Function.update chains ci
            { chains ci with temperature := X.log10space 1 S.temperature_high n ci })
        S.chains) c).temperature
        = (if c < m then X.log10space 1 S.temperature_high n c
          else (S.chains c).temperature) ∧
      ((forLoop m
        (fun ci (chains : ℕ → cChain K) =>
          Function.update chains ci
            { chains ci with temperature := X.log10space 1 S.temperature_high n ci })
        S.chains) c).history = (S.chains c).history := by
    intro m
    induction m with
    | zero =>
      rw [forLoop_zero, if_neg (Nat.not_lt_zero c)]
      exact ⟨rfl, rfl⟩
    | succ k ih =>
      rw [forLoop_succ]
      by_cases hck : c = k
      · rw [hck, Function.update_same, if_pos (Nat.lt_succ_self k)]
        rw [hck] at ih
        exact ⟨rfl, ih.2⟩
      · rw [Function.update_noteq hck, ih.1]
        refine ⟨?_, ih.2⟩
        by_cases hlt : c < k
        · rw [if_pos hlt, if_pos (by omega)]
        · rw [if_neg hlt, if_neg (by omega)]
  exact key n

end BeginRecords

/-- Member `should_save_convergence_record` is true exactly on the report schedule. -/
theorem should_save_convergence_record_iff (S : rjMcMC1DSampler K) (si : ℕ) :
    should_save_convergence_record S si = true ↔ reportSchedule S.nsamples S.thinrate si := by
  unfold should_save_convergence_record reportSchedule
  dsimp only
  have hmin : (if 10 ^ Nat.log 10 si > S.thinrate then S.thinrate else 10 ^ Nat.log 10 si)
      = min (10 ^ Nat.log 10 si) S.thinrate := by
    by_cases hk : 10 ^ Nat.log 10 si > S.thinrate
    · rw [if_pos hk, min_eq_right (Nat.le_of_lt hk)]
    · rw [if_neg hk, min_eq_left (not_lt.mp hk)]
  rw [hmin]
  by_cases h1 : si = 0 ∨ si = S.nsamples - 1
  · rw [if_pos h1]
    refine ⟨fun _ => ?_, fun _ => rfl⟩
    rcases h1 with h | h
    · exact Or.inl h
    · exact Or.inr (Or.inl h)
  · rw [if_neg h1]
    by_cases h2 : si % min (10 ^ Nat.log 10 si) S.thinrate = 0
    · rw [if_pos h2]
      exact ⟨fun _ => Or.inr (Or.inr h2), fun _ => rfl⟩
    · rw [if_neg h2]
      refine ⟨fun h => Bool.noConfusion h, fun h => ?_⟩
      rcases h with h | h | h
      · exact absurd (Or.inl h) h1
      · exact absurd (Or.inr h) h1
      · exact absurd h h2

section ConvergenceRecords

variable [LinearOrderedField K] [FloorRing K] [DoubleArithmetic K]

/-- C33: for `thinrate ≥ 1` and every sample index `si < nsamples`,
`should_save_convergence_record (si)` is true if and only if `si = 0`, or
`si = nsamples - 1`, or `si mod min (10 ^ ⌊log10 si⌋, thinrate) = 0`, where
`10 ^ ⌊log10 si⌋` is the largest power of ten not exceeding `si`; the body of the chain loop
of `sample` appends one record, holding the sample index cast to `uint32_t`, to the history
of its chain exactly when the test holds; and, with `std::sort` and the random generator
meeting their contracts, `nl_min ≤ nl_max` and at least one chain, when the first sample
(the initialisation of the chains) returns, `sample ()` returns and has appended to the
history of every chain the records of exactly the sample indices of the schedule, in
their order, so that two chains that start with the same recorded sample indices end with
the same number of records and identical sample indices. -/
theorem C33_convergence_records (X : Externals K) (hX : X.SortContract) (R : cRandom K)
    (hR : R.InRange) (S : rjMcMC1DSampler K) (hnl : S.nl_min ≤ S.nl_max)
    (_hch : 1 ≤ S.nchains) (_hthin : 1 ≤ S.thinrate) :
    (∀ si, si < S.nsamples →
      (should_save_convergence_record S si = true
        ↔ si = 0 ∨ si = S.nsamples - 1 ∨ si % min (10 ^ Nat.log 10 si) S.thinrate = 0)) ∧
    (∀ si, 1 ≤ si → 10 ^ Nat.log 10 si ≤ si ∧ si < 10 ^ (Nat.log 10 si + 1)) ∧
    (∀ fuel si ci st st1, sample_chain X R fuel si ci st = some st1 →
      ∀ c, (st1.1.chains c).samples = (st.1.chains c).samples ++
        if c = ci ∧ should_save_convergence_record st.1 si = true then [si % 2 ^ 32]
        else []) ∧
    (∀ fuel t, (∃ st1, sample_loop X R fuel 1 (sample_begin X S, t) = some st1) →
      ∃ st, sample X R fuel t S = some st ∧
        (∀ ci, ci < S.nchains →
          (st.1.chains ci).samples = (S.chains ci).samples ++
            ((List.range S.nsamples).filter
              (fun si => decide (reportSchedule S.nsamples S.thinrate si))).map
              (fun si => si % 2 ^ 32)) ∧
        (∀ ci cj, ci < S.nchains → cj < S.nchains →
          (S.chains ci).samples = (S.chains cj).samples →
          (st.1.chains ci).samples = (st.1.chains cj).samples ∧
          (st.1.chains ci).history.length = (st.1.chains cj).history.length)) := by
  refine ⟨fun si _ => should_save_convergence_record_iff S si,
    fun si hsi => ⟨Nat.pow_log_le_self 10 (by omega),
      Nat.lt_pow_succ_log_self (by decide) si⟩,
    fun fuel si ci st st1 h => (sample_chain_record X R fuel si ci st st1 h).2.2.2.1,
    fun fuel t h1 => ?_⟩
  have hL : SameLayout S (sample_begin X S, t).1 := ⟨rfl, rfl, rfl, rfl, rfl, rfl⟩
  have hret : ∃ st, sample X R fuel t S = some st := by
    unfold sample
    by_cases h0 : S.nsamples = 0
    · rw [h0]
      exact ⟨_, rfl⟩
    · exact sample_loop_returns X hX R hR S hnl fuel _ hL h1 S.nsamples (by omega)
  obtain ⟨st, hst⟩ := hret
  have hrec := (sample_loop_record X R hR fuel (sample_begin X S, t) S.nsamples st
    hst).2.2.2.1
  have hfil : (List.range S.nsamples).filter
        (fun si => should_save_convergence_record (sample_begin X S, t).1 si)
      = (List.range S.nsamples).filter
        (fun si => decide (reportSchedule S.nsamples S.thinrate si)) := by
    refine List.filter_congr (fun si _ => ?_)
    have e : should_save_convergence_record (sample_begin X S, t).1 si
        = should_save_convergence_record S si := rfl
    rw [e]
    by_cases hs : should_save_convergence_record S si = true
    · rw [hs, decide_eq_true ((should_save_convergence_record_iff S si).mp hs)]
    · have hn : ¬ reportSchedule S.nsamples S.thinrate si :=
        fun h => hs ((should_save_convergence_record_iff S si).mpr h)
      rw [decide_eq_false hn]
      exact Bool.eq_false_iff.mpr hs
  have hall : ∀ ci, ci < S.nchains →
      (st.1.chains ci).samples = (S.chains ci).samples ++
        ((List.range S.nsamples).filter
          (fun si => decide (reportSchedule S.nsamples S.thinrate si))).map
          (fun si => si % 2 ^ 32) := by
    intro ci hci
    have h2 := hrec ci hci
    rw [hfil] at h2
    have h3 : ((sample_begin X S, t).1.chains ci).samples = (S.chains ci).samples := by
      unfold cChain.samples
      rw [show ((sample_begin X S, t).1.chains ci).history = (S.chains ci).history from
        (sample_begin_chains X S ci).2]
    rw [h3] at h2
    exact h2
  refine ⟨st, hst, hall, fun ci cj hci hcj hsame => ?_⟩
  have heq : (st.1.chains ci).samples = (st.1.chains cj).samples := by
    rw [hall ci hci, hall cj hcj, hsame]
  refine ⟨heq, ?_⟩
  have hlen := congrArg List.length heq
  unfold cChain.samples at hlen
  rw [List.length_map, List.length_map] at hlen
  exact hlen

end ConvergenceRecords

/-- C33 at the example sampler (two samples, `thinrate = 1`, one chain with an empty
history): the contracts hold, the first sample returns, `sample ()` returns, and the chain
holds the records of the sample indices `0` and `1`. -/
theorem C33_convergence_records_witness :
    exampleExternals.SortContract ∧ exampleRandom.InRange ∧
    exampleSampler.nl_min ≤ exampleSampler.nl_max ∧ 1 ≤ exampleSampler.nchains ∧
    1 ≤ exampleSampler.thinrate ∧
    ∃ st, sample exampleExternals exampleRandom 1 0 exampleSampler = some st ∧
      (st.1.chains 0).samples = [0, 1] := by
  have h1 : exampleSampler.nl_min ≤ exampleSampler.nl_max := by decide
  have h2 : 1 ≤ exampleSampler.nchains := Nat.le_refl 1
  have h3 : 1 ≤ exampleSampler.thinrate := Nat.le_refl 1
  obtain ⟨st, hst, hall, _⟩ :=
    (C33_convergence_records exampleExternals exampleExternals_sortContract exampleRandom
      exampleRandom_inRange exampleSampler h1 h2 h3).2.2.2 1 0 exampleSampler_first_sample
  refine ⟨exampleExternals_sortContract, exampleRandom_inRange, h1, h2, h3, st, hst, ?_⟩
  rw [hall 0 (by decide)]
  decide

/-! ### The temperatures of the chain slots -/

/-- A permutation that fixes the numbers from `n` on maps the numbers below `n` to numbers
below `n`. -/
theorem perm_lt (σ : Equiv.Perm ℕ) (n : ℕ) (hσ : ∀ c, n ≤ c → σ c = c) (c : ℕ) (hc : c < n) :
    σ c < n := by
  by_contra h
  have h1 := hσ (σ c) (not_lt.mp h)
  have h2 := σ.injective h1
  omega

/-- The multiset of the values of the slots below `n` is left by a permutation of the
slots. -/
theorem perm_multiset {α : Type} (T T2 : ℕ → α) (n : ℕ) (σ : Equiv.Perm ℕ)
    (hσ : ∀ c, n ≤ c → σ c = c) (hT : ∀ c, c < n → T2 c = T (σ c)) :
    (Multiset.range n).map T2 = (Multiset.range n).map T := by
  have hsub : {a | σ a ≠ a} ⊆ ((Finset.range n : Finset ℕ) : Set ℕ) := by
    intro a ha
    by_contra hn
    exact ha (hσ a (by simpa using hn))
  have h1 : (Multiset.range n).map T2 = (Multiset.range n).map (fun c => T (σ c)) :=
    Multiset.map_congr rfl (fun c hc => hT c (Multiset.mem_range.mp hc))
  have h2 : (Multiset.range n).map σ = Multiset.range n :=
    congrArg Finset.val (Finset.map_perm hsub)
  have h3 := Multiset.map_map T σ (Multiset.range n)
  rw [h2] at h3
  rw [h1]
  exact h3.symm

/-- When exactly one of the slots below `n` holds the value `1`, exactly one does after a
permutation of the slots. -/
theorem perm_unique {α : Type} [One α] (T T2 : ℕ → α) (n : ℕ) (σ : Equiv.Perm ℕ)
    (hσ : ∀ c, n ≤ c → σ c = c) (hT : ∀ c, c < n → T2 c = T (σ c))
    (h : ∃! c, c < n ∧ T c = 1) : ∃! c, c < n ∧ T2 c = 1 := by
  obtain ⟨c1, ⟨hc1, hT1⟩, huniq⟩ := h
  have hσs : ∀ c, n ≤ c → σ.symm c = c := by
    intro c hc
    have h1 := hσ c hc
    exact (Equiv.symm_apply_eq σ).mpr h1.symm
  have hlt : σ.symm c1 < n := perm_lt σ.symm n hσs c1 hc1
  refine ⟨σ.symm c1, ⟨hlt, ?_⟩, fun c hc => ?_⟩
  · rw [hT _ hlt, Equiv.apply_symm_apply]
    exact hT1
  · have h1 : T (σ c) = 1 := by
      rw [← hT c hc.1]
      exact hc.2
    have h2 := huniq (σ c) ⟨perm_lt σ n hσ c hc.1, h1⟩
    rw [← h2, Equiv.symm_apply_apply]

/-- When exactly one of the slots below `n` holds the value `1`, the slots holding `1` are
counted as one. -/
theorem sum_indicator_unique {α : Type} [One α] [DecidableEq α] (T : ℕ → α) (n : ℕ)
    (h : ∃! c, c < n ∧ T c = 1) :
    (∑ c ∈ Finset.range n, if T c = 1 then 1 else 0) = 1 := by
  obtain ⟨c1, ⟨hc1, hT1⟩, huniq⟩ := h
  rw [Finset.sum_eq_single c1, if_pos hT1]
  · intro b hb hne
    exact if_neg (fun hb1 => hne (huniq b ⟨Finset.mem_range.mp hb, hb1⟩))
  · intro hn
    exact absurd (Finset.mem_range.mpr hc1) hn

/-- The sample indices for which `should_include_in_maps` holds are counted by the indices
from `nburnin` on whose distance from `nburnin` is a multiple of `thinrate`. -/
theorem sum_included (S : rjMcMC1DSampler K) (n : ℕ) :
    (∑ k ∈ Finset.range n, if should_include_in_maps S k = true then 1 else 0)
      = ((Finset.range n).filter
          (fun k => S.nburnin ≤ k ∧ (k - S.nburnin) % S.thinrate = 0)).card := by
  rw [Finset.card_filter]
  refine Finset.sum_congr rfl (fun k _ => ?_)
  by_cases hk : should_include_in_maps S k = true
  · rw [if_pos hk, if_pos ((should_include_in_maps_iff S k).mp hk)]
  · rw [if_neg hk, if_neg (fun h => hk ((should_include_in_maps_iff S k).mpr h))]

section TemperaturePermutation

variable [LinearOrderedField K] [FloorRing K] [DoubleArithmetic K]

/-- C39: with `std::sort` and the random generator meeting their contracts,
`nl_min ≤ nl_max`, `thinrate ≥ 1` and at least one chain: every parallel-tempering pass
preserves the multiset of the temperatures over the chain slots; throughout `sample ()`,
after any number of samples and within the chain loop that follows, the temperatures of the
chain slots are a permutation of the ladder `log10space (1, temperature_high, nchains)`
assigned at the start, so that, when the ladder contains exactly one entry equal to `1`,
exactly one chain is at the temperature `1`; and then, when the first sample (the
initialisation of the chains) returns, `sample ()` returns and the number of models added
to each of the three posterior maps and to the ensemble equals the number of sample indices
`k` in `[nburnin, nsamples)` with `(k - nburnin) mod thinrate = 0`. -/
theorem C39_temperature_permutation (X : Externals K) (hX : X.SortContract) (R : cRandom K)
    (hR : R.InRange) (S : rjMcMC1DSampler K) (hnl : S.nl_min ≤ S.nl_max)
    (_hch : 1 ≤ S.nchains) (_hthin : 1 ≤ S.thinrate) :
    (∀ st : rjMcMC1DSampler K × ℕ, 1 ≤ st.1.nchains →
      (Multiset.range st.1.nchains).map
          (fun c => ((sample_tempering X R st).1.chains c).temperature)
        = (Multiset.range st.1.nchains).map (fun c => (st.1.chains c).temperature)) ∧
    (∀ fuel t n st, sample_loop X R fuel n (sample_begin X S, t) = some st →
      ∀ c2 st2, sample_chains X R fuel n c2 st = some st2 →
        (∃ σ : Equiv.Perm ℕ, (∀ c, S.nchains ≤ c → σ c = c) ∧
          ∀ c, c < S.nchains → (st2.1.chains c).temperature
            = X.log10space 1 S.temperature_high S.nchains (σ c)) ∧
        (Multiset.range S.nchains).map (fun c => (st2.1.chains c).temperature)
          = (Multiset.range S.nchains).map
              (fun c => X.log10space 1 S.temperature_high S.nchains c) ∧
        ((∃! c, c < S.nchains ∧ X.log10space 1 S.temperature_high S.nchains c = 1) →
          ∃! c, c < S.nchains ∧ (st2.1.chains c).temperature = 1)) ∧
    (∀ fuel t, (∃! c, c < S.nchains ∧ X.log10space 1 S.temperature_high S.nchains c = 1) →
      (∃ st1, sample_loop X R fuel 1 (sample_begin X S, t) = some st1) →
      ∃ st, sample X R fuel t S = some st ∧
        ∀ d, d = ((Finset.range S.nsamples).filter
            (fun k => S.nburnin ≤ k ∧ (k - S.nburnin) % S.thinrate = 0)).card →
          st.1.pmap.nentries = S.pmap.nentries + d ∧
          st.1.nmap.nentries = S.nmap.nentries + d ∧
          st.1.mnmap.nentries = S.mnmap.nentries + d ∧
          st.1.ensemble.length = S.ensemble.length + d) := by
  have hbegin : ∀ c, c < S.nchains → ((sample_begin X S).chains c).temperature
      = X.log10space 1 S.temperature_high S.nchains c := by
    intro c hc
    rw [(sample_begin_chains X S c).1, if_pos hc]
  refine ⟨fun st _ => ?_, fun fuel t n st hst c2 st2 hst2 => ?_, fun fuel t huniq h1 => ?_⟩
  · obtain ⟨_, _, _, _, σ, hσ, hT⟩ := sample_tempering_record X R hR st
    exact perm_multiset _ _ st.1.nchains σ hσ (fun c _ => hT c)
  · obtain ⟨_, _, ⟨σ, hσ, hT⟩, _, _⟩ :=
      sample_loop_record X R hR fuel (sample_begin X S, t) n st hst
    obtain ⟨_, _, hT2, _, _⟩ := sample_chains_record X R fuel n st c2 st2 hst2
    have hσ2 : ∀ c, S.nchains ≤ c → σ c = c := hσ
    have hall : ∀ c, c < S.nchains → (st2.1.chains c).temperature
        = X.log10space 1 S.temperature_high S.nchains (σ c) := by
      intro c hc
      rw [hT2 c, hT c]
      exact hbegin (σ c) (perm_lt σ S.nchains hσ2 c hc)
    exact ⟨⟨σ, hσ2, hall⟩, perm_multiset _ _ S.nchains σ hσ2 hall,
      fun hu => perm_unique _ _ S.nchains σ hσ2 hall hu⟩
  · have hL : SameLayout S (sample_begin X S, t).1 := ⟨rfl, rfl, rfl, rfl, rfl, rfl⟩
    have hret : ∃ st, sample X R fuel t S = some st := by
      unfold sample
      by_cases h0 : S.nsamples = 0
      · rw [h0]
        exact ⟨_, rfl⟩
      · exact sample_loop_returns X hX R hR S hnl fuel _ hL h1 S.nsamples (by omega)
    obtain ⟨st, hst⟩ := hret
    refine ⟨st, hst, fun d hd => ?_⟩
    have hrec := (sample_loop_record X R hR fuel (sample_begin X S, t) S.nsamples st
      hst).2.2.2.2
    have hu2 : ∃! c, c < S.nchains ∧ ((sample_begin X S).chains c).temperature = 1 := by
      obtain ⟨c1, ⟨hc1, hT1⟩, hun⟩ := huniq
      refine ⟨c1, ⟨hc1, by rw [hbegin c1 hc1]; exact hT1⟩, fun c hc => hun c ⟨hc.1, ?_⟩⟩
      rw [← hbegin c hc.1]
      exact hc.2
    have hone : (∑ c ∈ Finset.range (sample_begin X S, t).1.nchains,
        if ((sample_begin X S, t).1.chains c).temperature = 1 then 1 else 0) = 1 :=
      sum_indicator_unique (fun c => ((sample_begin X S).chains c).temperature) S.nchains hu2
    have hinc : (∑ k ∈ Finset.range S.nsamples,
        if should_include_in_maps (sample_begin X S, t).1 k = true then 1 else 0) = d := by
      rw [hd, ← sum_included S S.nsamples]
      rfl
    have hfin := hrec d (by rw [hone, hinc, Nat.one_mul])
    exact hfin

end TemperaturePermutation

/-- C39 at the example sampler (one chain, the ladder `1`, two samples, no burn-in,
`thinrate = 1`): the contracts hold, the ladder has exactly one entry `1`, the first sample
returns, `sample ()` returns, and two models have been added to the ensemble. -/
theorem C39_temperature_permutation_witness :
    exampleExternals.SortContract ∧ exampleRandom.InRange ∧
    exampleSampler.nl_min ≤ exampleSampler.nl_max ∧ 1 ≤ exampleSampler.nchains ∧
    1 ≤ exampleSampler.thinrate ∧
    (∃! c, c < exampleSampler.nchains ∧
      exampleExternals.log10space 1 exampleSampler.temperature_high exampleSampler.nchains c
        = 1) ∧
    ∃ st, sample exampleExternals exampleRandom 1 0 exampleSampler = some st ∧
      st.1.pmap.nentries = 2 ∧ st.1.ensemble.length = 2 := by
  have h1 : exampleSampler.nl_min ≤ exampleSampler.nl_max := by decide
  have h2 : 1 ≤ exampleSampler.nchains := Nat.le_refl 1
  have h3 : 1 ≤ exampleSampler.thinrate := Nat.le_refl 1
  have hu : ∃! c, c < exampleSampler.nchains ∧
      exampleExternals.log10space 1 exampleSampler.temperature_high exampleSampler.nchains c
        = 1 :=
    ⟨0, ⟨Nat.zero_lt_one, rfl⟩, fun c hc => Nat.lt_one_iff.mp hc.1⟩
  obtain ⟨st, hst, hcount⟩ :=
    (C39_temperature_permutation exampleExternals exampleExternals_sortContract exampleRandom
      exampleRandom_inRange exampleSampler h1 h2 h3).2.2 1 0 hu exampleSampler_first_sample
  obtain ⟨hp, _, _, he⟩ := hcount 2 (by decide)
  exact ⟨exampleExternals_sortContract, exampleRandom_inRange, h1, h2, h3, hu, st, hst,
    hp, he⟩

/-! ### The posterior map of the layer values -/

/-- The first number below `n` that passes a test: it passes, and no number below it
does. -/
theorem find_range_some (p : ℕ → Bool) (n li : ℕ)
    (h : (List.range n).find? p = some li) :
    li < n ∧ p li = true ∧ ∀ k, k < li → p k = false := by
  induction n with
  | zero => simp at h
  | succ k ih =>
    rw [List.range_succ, List.find?_append] at h
    cases hf : (List.range k).find? p with
    | some a =>
      rw [hf] at h
      have ha : a = li := by simpa using h
      rw [ha] at hf
      obtain ⟨h1, h2, h3⟩ := ih hf
      exact ⟨Nat.lt_succ_of_lt h1, h2, h3⟩
    | none =>
      rw [hf] at h
      have hnone : ∀ x ∈ List.range k, ¬ p x = true := by
        simpa using hf
      by_cases hk : p k = true
      · have hli : k = li := by simpa [hk] using h
        rw [← hli]
        refine ⟨Nat.lt_succ_self k, hk, fun j hj => ?_⟩
        exact Bool.eq_false_iff.mpr (hnone j (List.mem_range.mpr hj))
      · simp [hk] at h

/-- When no number below `n` passes a test. -/
theorem find_range_none (p : ℕ → Bool) (n : ℕ) (h : (List.range n).find? p = none) :
    ∀ k, k < n → p k = false := by
  intro k hk
  have hnone : ∀ x ∈ List.range n, ¬ p x = true := by
    simpa using h
  exact Bool.eq_false_iff.mpr (hnone k (List.mem_range.mpr hk))

/-- A loop of increments of a `uint32_t` histogram: the bin `j` has received, modulo
`2 ^ 32`, the number of the passes that incremented it. -/
theorem forLoop_increment (f : ℕ → ℕ) (c0 : ℕ → ℕ) (j : ℕ) :
    ∀ n, forLoop n (fun k c => increment c (f k)) c0 j
      = if (∑ k ∈ Finset.range n, if f k = j then 1 else 0) = 0 then c0 j
        else (c0 j + ∑ k ∈ Finset.range n, if f k = j then 1 else 0) % 2 ^ 32 := by
  intro n
  induction n with
  | zero => rfl
  | succ k ih =>
    have hinc : ∀ (c : ℕ → ℕ) (i : ℕ),
        increment c i = Function.update c i ((c i + 1) % 2 ^ 32) := fun _ _ => rfl
    rw [forLoop_succ, Finset.sum_range_succ, hinc]
    by_cases hj : f k = j
    · rw [if_pos hj, ← hj, Function.update_same, hj, ih]
      generalize (∑ k ∈ Finset.range k, if f k = j then 1 else 0) = s
      have hs : ¬ (s + 1 = 0) := Nat.succ_ne_zero s
      rw [if_neg hs]
      by_cases h0 : s = 0
      · rw [if_pos h0, h0]
      · rw [if_neg h0, ← Nat.add_assoc, Nat.add_mod (c0 j + s) 1,
          Nat.add_mod ((c0 j + s) % 2 ^ 32) 1, Nat.mod_mod]
    · rw [Function.update_noteq (Ne.symm hj), ih, if_neg hj, Nat.add_zero]

section LayerOfDepth

variable [LinearOrderedField K]

/-- Member `which_layer` returns, for a model with at least one layer whose first layer
starts at the depth `0`, the layer that encloses a depth `pos ≥ 0`. -/
theorem which_layer_encloses (m : rjMcMC1DModel K) (hne : 1 ≤ m.nlayers)
    (h0 : (m.layer 0).ptop = 0) (pos : K) (hpos : 0 ≤ pos) :
    m.which_layer pos < m.nlayers ∧ (m.layer (m.which_layer pos)).ptop ≤ pos ∧
    (m.which_layer pos + 1 < m.nlayers → pos < (m.layer (m.which_layer pos + 1)).ptop) := by
  unfold rjMcMC1DModel.which_layer
  cases hf : (List.range (m.nlayers - 1)).find?
      (fun li => decide (pos < (m.layer (li + 1)).ptop)) with
  | some li =>
    dsimp only
    obtain ⟨h1, h2, h3⟩ := find_range_some _ _ li hf
    refine ⟨by omega, ?_, fun _ => of_decide_eq_true h2⟩
    cases li with
    | zero => rw [h0]; exact hpos
    | succ k => exact not_lt.mp (of_decide_eq_false (h3 k (Nat.lt_succ_self k)))
  | none =>
    dsimp only
    have hall := find_range_none _ _ hf
    refine ⟨by omega, ?_, fun h => absurd h (by omega)⟩
    by_cases hl : m.nlayers - 1 = 0
    · rw [hl, h0]
      exact hpos
    · have hk := hall (m.nlayers - 1 - 1) (by omega)
      have e : m.nlayers - 1 - 1 + 1 = m.nlayers - 1 := by omega
      have hk2 := of_decide_eq_false hk
      rw [e] at hk2
      exact not_lt.mp hk2

end LayerOfDepth

section MapBins

variable [LinearOrderedField K] [FloorRing K] [DoubleArithmetic K]

/-- In exact arithmetic member `getvbin` returns a value bin of an initialised map. -/
theorem rjMcMC1DPPDMap.getvbin_lt (p : rjMcMC1DPPDMap K) (hp : p.Initialised)
    (hex : ∀ x : K, DoubleArithmetic.fl x = x) (val : K) : p.getvbin val < p.nv := by
  obtain ⟨_, hnv, _, hdv, _⟩ := hp
  unfold rjMcMC1DPPDMap.getvbin
  by_cases h1 : val < p.vmin
  · rw [if_pos h1]
    exact hnv
  · rw [if_neg h1]
    by_cases h2 : val ≥ p.vmax
    · rw [if_pos h2]
      omega
    · rw [if_neg h2, hex (val - p.vmin), hex ((val - p.vmin) / p.dv)]
      have hnvK : (0 : K) < (p.nv : K) := Nat.cast_pos.mpr hnv
      have hlo : 0 ≤ val - p.vmin := sub_nonneg.mpr (not_lt.mp h1)
      have hw : 0 < p.vmax - p.vmin := by linarith [not_le.mp h2]
      have hdvpos : 0 < p.dv := by rw [hdv]; exact div_pos hw hnvK
      rw [Nat.floor_lt (div_nonneg hlo (le_of_lt hdvpos)), div_lt_iff₀ hdvpos, hdv,
        mul_div_cancel₀ _ (ne_of_gt hnvK)]
      linarith [not_le.mp h2]

/-- In exact arithmetic member `getpbin` returns a position bin of an initialised map. -/
theorem rjMcMC1DPPDMap.getpbin_lt (p : rjMcMC1DPPDMap K) (hp : p.Initialised)
    (hex : ∀ x : K, DoubleArithmetic.fl x = x) (pos : K) : p.getpbin pos < p.np := by
  obtain ⟨hnp, _, hdp, _, _⟩ := hp
  unfold rjMcMC1DPPDMap.getpbin
  by_cases h1 : pos < 0
  · rw [if_pos h1]
    exact hnp
  · rw [if_neg h1]
    by_cases h2 : pos ≥ p.pmax
    · rw [if_pos h2]
      omega
    · rw [if_neg h2, hex (pos / p.dp)]
      have hnpK : (0 : K) < (p.np : K) := Nat.cast_pos.mpr hnp
      have hlo : 0 ≤ pos := not_lt.mp h1
      have hw : 0 < p.pmax := by linarith [not_le.mp h2]
      have hdppos : 0 < p.dp := by rw [hdp]; exact div_pos hw hnpK
      rw [Nat.floor_lt (div_nonneg hlo (le_of_lt hdppos)), div_lt_iff₀ hdppos, hdp,
        mul_div_cancel₀ _ (ne_of_gt hnpK)]
      exact not_le.mp h2

/-- Member `addmodel` as one assignment: the entries are counted, the layer-count bin
`nlayers - nlmin` is incremented, the cells `pi * nv + vi` of the position rows are
incremented, and the interface-depth bins of the interfaces are incremented. -/
theorem rjMcMC1DPPDMap.addmodel_eq (p : rjMcMC1DPPDMap K) (m : rjMcMC1DModel K) :
    p.addmodel m = { p with
      nentries := p.nentries + 1
      layercounts := increment p.layercounts (m.nlayers - p.nlmin)
      counts := forLoop p.np (fun pi c => increment c (pi * p.nv + rowBin p m pi)) p.counts
      cpcounts := forLoop (m.nlayers - 1)
        (fun k c => increment c (p.getpbin (m.layer (k + 1)).ptop)) p.cpcounts } := by
  unfold rjMcMC1DPPDMap.addmodel
  dsimp only
  have h1 : ∀ n (q0 : rjMcMC1DPPDMap K), forLoop n
      (fun pi (q : rjMcMC1DPPDMap K) =>
        { q with
          counts := increment q.counts
            (pi * q.nv + q.getvbin (m.layer (m.which_layer (q.pbin pi))).value) }) q0
      = { q0 with
          counts := forLoop n (fun pi c => increment c (pi * q0.nv + rowBin q0 m pi))
            q0.counts } := by
    intro n q0
    induction n with
    | zero => rfl
    | succ k ih =>
      rw [forLoop_succ, ih, forLoop_succ]
      rfl
  have h2 : ∀ n (q0 : rjMcMC1DPPDMap K), forLoop n
      (fun k (q : rjMcMC1DPPDMap K) =>
        { q with cpcounts := increment q.cpcounts (q.getpbin (m.layer (k + 1)).ptop) }) q0
      = { q0 with
          cpcounts := forLoop n
            (fun k c => increment c (q0.getpbin (m.layer (k + 1)).ptop)) q0.cpcounts } := by
    intro n q0
    induction n with
    | zero => rfl
    | succ k ih =>
      rw [forLoop_succ, ih, forLoop_succ]
      rfl
  rw [h1, h2]
  rfl

end MapBins

/-- The cell index `pi * nv + vi` determines the row `pi` and the value bin `vi < nv`. -/
theorem cell_index_inj (nv k a pi b : ℕ) (ha : a < nv) (hb : b < nv)
    (h : k * nv + a = pi * nv + b) : k = pi ∧ a = b := by
  have hnv : 0 < nv := by omega
  have e1 : (k * nv + a) / nv = k := by
    rw [Nat.mul_comm, Nat.mul_add_div hnv, Nat.div_eq_of_lt ha, Nat.add_zero]
  have e2 : (pi * nv + b) / nv = pi := by
    rw [Nat.mul_comm, Nat.mul_add_div hnv, Nat.div_eq_of_lt hb, Nat.add_zero]
  have hk : k = pi := by rw [← e1, h, e2]
  rw [hk] at h
  exact ⟨hk, Nat.add_left_cancel h⟩

/-- The sum of a `uint32_t` histogram of `n` bins after the increment of one of its bins
that is below its maximum. -/
theorem sum_increment (c : ℕ → ℕ) (n i : ℕ) (hi : i < n) (hb : c i + 1 < 2 ^ 32) :
    ∑ b ∈ Finset.range n, increment c i b = ∑ b ∈ Finset.range n, c b + 1 := by
  have h1 : ∀ b ∈ Finset.range n, increment c i b = c b + if b = i then 1 else 0 := by
    intro b _
    unfold increment
    by_cases hbi : b = i
    · rw [hbi, Function.update_same, if_pos rfl, Nat.mod_eq_of_lt hb]
    · rw [Function.update_noteq hbi, if_neg hbi, Nat.add_zero]
  rw [Finset.sum_congr rfl h1, Finset.sum_add_distrib, Finset.sum_ite_eq',
    if_pos (Finset.mem_range.mpr hi)]

/-- A bin of a histogram is not above the sum of the histogram. -/
theorem le_sum_range (c : ℕ → ℕ) (n i : ℕ) (hi : i < n) : c i ≤ ∑ b ∈ Finset.range n, c b :=
  Finset.single_le_sum (fun _ _ => Nat.zero_le _) (Finset.mem_range.mpr hi)

section MapSums

variable [LinearOrderedField K] [FloorRing K] [DoubleArithmetic K]

/-- Member `addmodel` leaves the bins of the map. -/
theorem sameBins_addmodel (p : rjMcMC1DPPDMap K) (m : rjMcMC1DModel K) :
    p.SameBins (p.addmodel m) := by
  rw [rjMcMC1DPPDMap.addmodel_eq]
  exact ⟨rfl, rfl, rfl, rfl, rfl, fun _ => rfl⟩

/-- Maps with the same bins compute the same value bin for a row. -/
theorem sameBins_rowBin {p q : rjMcMC1DPPDMap K} (h : p.SameBins q) (m : rjMcMC1DModel K)
    (pi : ℕ) : rowBin q m pi = rowBin p m pi := by
  unfold rowBin
  rw [h.2.2.2.2.1, h.2.2.2.2.2]

/-- Member `addmodel` on the cell `j` of the histogram: it receives, modulo `2 ^ 32`, the
number of the rows whose value bin puts their increment at `j`. -/
theorem rjMcMC1DPPDMap.addmodel_counts (p : rjMcMC1DPPDMap K) (m : rjMcMC1DModel K)
    (j : ℕ) :
    (p.addmodel m).counts j
      = if cellCount p m j = 0 then p.counts j
        else (p.counts j + cellCount p m j) % 2 ^ 32 := by
  rw [rjMcMC1DPPDMap.addmodel_eq]
  show forLoop p.np (fun pi c => increment c (pi * p.nv + rowBin p m pi)) p.counts j = _
  rw [forLoop_increment]
  rfl

/-- When the value bins of all rows are below `nv`, the cell `(pi, v)` receives the
increment of its own row only, and receives it when `v` is the value bin of the row. -/
theorem cellCount_row (p : rjMcMC1DPPDMap K) (m : rjMcMC1DModel K)
    (hbins : ∀ k, k < p.np → rowBin p m k < p.nv) (pi v : ℕ) (hpi : pi < p.np)
    (hv : v < p.nv) :
    cellCount p m (pi * p.nv + v) = if rowBin p m pi = v then 1 else 0 := by
  unfold cellCount
  have h1 : ∀ k ∈ Finset.range p.np,
      (if k * p.nv + rowBin p m k = pi * p.nv + v then 1 else 0)
      = if k = pi then (if rowBin p m pi = v then 1 else 0) else 0 := by
    intro k hk
    by_cases hkp : k = pi
    · rw [if_pos hkp, hkp]
      by_cases hvv : rowBin p m pi = v
      · rw [if_pos hvv, if_pos (by rw [hvv])]
      · rw [if_neg hvv, if_neg (fun h => hvv (Nat.add_left_cancel h))]
    · rw [if_neg hkp, if_neg (fun h => hkp
        (cell_index_inj p.nv k _ pi v (hbins k (Finset.mem_range.mp hk)) hv h).1)]
  rw [Finset.sum_congr rfl h1, Finset.sum_ite_eq', if_pos (Finset.mem_range.mpr hpi)]

/-- Member `addmodel` on the row `pi`, when the value bins of all rows are below `nv`: the
cell of the value bin of the row is incremented modulo `2 ^ 32`, the other cells of the row
are left. -/
theorem rjMcMC1DPPDMap.addmodel_row (p : rjMcMC1DPPDMap K) (m : rjMcMC1DModel K)
    (hbins : ∀ k, k < p.np → rowBin p m k < p.nv) (pi v : ℕ) (hpi : pi < p.np)
    (hv : v < p.nv) :
    (p.addmodel m).counts (pi * p.nv + v)
      = increment (fun v => p.counts (pi * p.nv + v)) (rowBin p m pi) v := by
  rw [rjMcMC1DPPDMap.addmodel_counts, cellCount_row p m hbins pi v hpi hv]
  unfold increment
  by_cases hvv : rowBin p m pi = v
  · rw [if_pos hvv, if_neg (by decide), hvv, Function.update_same]
  · rw [if_neg hvv, if_pos rfl, Function.update_noteq (Ne.symm hvv)]

/-- Member `addmodel` on a map whose rows and whose layer-count histogram sum to
`nentries < 2 ^ 32 - 1`, for a model with between `nlmin` and `nlmax` layers whose value
bins are below `nv`: the rows and the layer-count histogram sum to the new `nentries`. -/
theorem rjMcMC1DPPDMap.addmodel_sums (p : rjMcMC1DPPDMap K) (m : rjMcMC1DModel K)
    (hsize : p.layercounts_size = p.nlmax - p.nlmin + 1)
    (hbins : ∀ k, k < p.np → rowBin p m k < p.nv)
    (hmin : p.nlmin ≤ m.nlayers) (hmax : m.nlayers ≤ p.nlmax)
    (hn : p.nentries + 1 < 2 ^ 32) (hrow : ∀ pi, pi < p.np → p.rowSum pi = p.nentries)
    (hlay : p.layerSum = p.nentries) :
    (∀ pi, pi < p.np → (p.addmodel m).rowSum pi = (p.addmodel m).nentries) ∧
    (p.addmodel m).layerSum = (p.addmodel m).nentries := by
  obtain ⟨_, hnv, _, _, _, _⟩ := sameBins_addmodel p m
  have hls := (rjMcMC1DPPDMap.addmodel_layout p m).2.2
  have hne := rjMcMC1DPPDMap.addmodel_nentries p m
  refine ⟨fun pi hpi => ?_, ?_⟩
  · unfold rjMcMC1DPPDMap.rowSum
    rw [hnv, hne, Finset.sum_congr rfl (fun v hv =>
      rjMcMC1DPPDMap.addmodel_row p m hbins pi v hpi (Finset.mem_range.mp hv))]
    have hvi := hbins pi hpi
    have hr := hrow pi hpi
    unfold rjMcMC1DPPDMap.rowSum at hr
    have hcell : (fun v => p.counts (pi * p.nv + v)) (rowBin p m pi) ≤ p.nentries := by
      rw [← hr]
      exact le_sum_range (fun v => p.counts (pi * p.nv + v)) p.nv _ hvi
    rw [sum_increment _ p.nv _ hvi (lt_of_le_of_lt (Nat.succ_le_succ hcell) hn), hr]
  · unfold rjMcMC1DPPDMap.layerSum
    have hl : (p.addmodel m).layercounts = increment p.layercounts (m.nlayers - p.nlmin) := by
      rw [rjMcMC1DPPDMap.addmodel_eq]
    have hidx : m.nlayers - p.nlmin < p.layercounts_size := by
      rw [hsize]
      omega
    unfold rjMcMC1DPPDMap.layerSum at hlay
    have hcell : p.layercounts (m.nlayers - p.nlmin) ≤ p.nentries := by
      rw [← hlay]
      exact le_sum_range p.layercounts p.layercounts_size _ hidx
    rw [hls, hne, hl,
      sum_increment _ _ _ hidx (lt_of_le_of_lt (Nat.succ_le_succ hcell) hn), hlay]

/-- After `n < 2 ^ 32` calls of `addmodel` on a map that has been reset, for models with
between `nlmin` and `nlmax` layers whose value bins are below `nv`, the bins of the map are
those of the start, `nentries` is `n`, and every row of the histogram and the layer-count
histogram sum to `n`. -/
theorem rjMcMC1DPPDMap.addmodels_sums (p : rjMcMC1DPPDMap K)
    (ms : ℕ → rjMcMC1DModel K) :
    ∀ n, n < 2 ^ 32 → (∀ k, k < n → p.nlmin ≤ (ms k).nlayers ∧ (ms k).nlayers ≤ p.nlmax) →
      (∀ k, k < n → ∀ pi, pi < p.np → rowBin p (ms k) pi < p.nv) →
      (p.SameBins (p.resettozero.addmodels ms n) ∧
        (p.resettozero.addmodels ms n).layercounts_size = p.nlmax - p.nlmin + 1) ∧
      (p.resettozero.addmodels ms n).nentries = n ∧
      (∀ pi, pi < p.np → (p.resettozero.addmodels ms n).rowSum pi = n) ∧
      (p.resettozero.addmodels ms n).layerSum = n := by
  intro n
  induction n with
  | zero =>
    intro _ _ _
    refine ⟨⟨⟨rfl, rfl, rfl, rfl, rfl, fun _ => rfl⟩, rfl⟩, rfl, fun pi _ => ?_, ?_⟩
    · exact Finset.sum_const_zero
    · exact Finset.sum_const_zero
  | succ k ih =>
    intro hk hms hbins
    obtain ⟨⟨hS, hsz⟩, he, hrow, hlay⟩ :=
      ih (by omega) (fun j hj => hms j (Nat.lt_succ_of_lt hj))
        (fun j hj => hbins j (Nat.lt_succ_of_lt hj))
    have hstep : p.resettozero.addmodels ms (k + 1)
        = (p.resettozero.addmodels ms k).addmodel (ms k) := rfl
    have hS2 := sameBins_addmodel (p.resettozero.addmodels ms k) (ms k)
    have hls := (rjMcMC1DPPDMap.addmodel_layout (p.resettozero.addmodels ms k) (ms k)).2.2
    obtain ⟨g1, g2⟩ := rjMcMC1DPPDMap.addmodel_sums (p.resettozero.addmodels ms k) (ms k)
      (by rw [hsz, hS.2.2.1, hS.2.2.2.1])
      (fun pi hpi => by
        rw [sameBins_rowBin hS, hS.2.1]
        exact hbins k (Nat.lt_succ_self k) pi (by rw [← hS.1]; exact hpi))
      (by rw [hS.2.2.1]; exact (hms k (Nat.lt_succ_self k)).1)
      (by rw [hS.2.2.2.1]; exact (hms k (Nat.lt_succ_self k)).2)
      (by rw [he]; exact hk)
      (fun pi hpi => by rw [he]; exact hrow pi (by rw [← hS.1]; exact hpi))
      (by rw [he]; exact hlay)
    have hne := rjMcMC1DPPDMap.addmodel_nentries (p.resettozero.addmodels ms k) (ms k)
    rw [he] at hne
    rw [hstep]
    refine ⟨⟨⟨hS2.1.trans hS.1, hS2.2.1.trans hS.2.1, hS2.2.2.1.trans hS.2.2.1,
      hS2.2.2.2.1.trans hS.2.2.2.1, hS2.2.2.2.2.1.trans hS.2.2.2.2.1,
      fun val => (hS2.2.2.2.2.2 val).trans (hS.2.2.2.2.2 val)⟩, hls.trans hsz⟩, hne,
      fun pi hpi => ?_, ?_⟩
    · rw [g1 pi (by rw [hS.1]; exact hpi), hne]
    · rw [g2, hne]

/-- After `n` calls of `addmodel` with one model `m`, `nentries` has grown by `n`, while
the layer-count histogram has passed through `n` increments of its bin `nlayers - nlmin`
modulo `2 ^ 32`. -/
theorem rjMcMC1DPPDMap.addmodels_layercounts (p : rjMcMC1DPPDMap K) (m : rjMcMC1DModel K) :
    ∀ n, (p.addmodels (fun _ => m) n).nentries = p.nentries + n ∧
      (p.addmodels (fun _ => m) n).nlmin = p.nlmin ∧
      (p.addmodels (fun _ => m) n).layercounts_size = p.layercounts_size ∧
      ∀ b, (p.addmodels (fun _ => m) n).layercounts b
        = if b = m.nlayers - p.nlmin then
            (if n = 0 then p.layercounts b else (p.layercounts b + n) % 2 ^ 32)
          else p.layercounts b := by
  intro n
  induction n with
  | zero =>
    refine ⟨rfl, rfl, rfl, fun b => ?_⟩
    rw [if_pos rfl]
    split_ifs <;> rfl
  | succ k ih =>
    obtain ⟨h1, h2, h3, h4⟩ := ih
    have hstep : p.addmodels (fun _ => m) (k + 1) = (p.addmodels (fun _ => m) k).addmodel m :=
      rfl
    obtain ⟨f3, _, f5⟩ := rjMcMC1DPPDMap.addmodel_layout (p.addmodels (fun _ => m) k) m
    have hl : ((p.addmodels (fun _ => m) k).addmodel m).layercounts
        = increment (p.addmodels (fun _ => m) k).layercounts
            (m.nlayers - (p.addmodels (fun _ => m) k).nlmin) := by
      rw [rjMcMC1DPPDMap.addmodel_eq]
    rw [hstep]
    refine ⟨by rw [rjMcMC1DPPDMap.addmodel_nentries, h1, Nat.add_assoc], f3.trans h2,
      f5.trans h3, fun b => ?_⟩
    rw [hl, h2]
    unfold increment
    by_cases hb : b = m.nlayers - p.nlmin
    · rw [if_pos hb, ← hb, Function.update_same, h4 b, if_pos hb,
        if_neg (Nat.succ_ne_zero k)]
      by_cases hk : k = 0
      · rw [if_pos hk, hk]
      · rw [if_neg hk, ← Nat.add_assoc, Nat.add_mod (p.layercounts b + k) 1,
          Nat.add_mod ((p.layercounts b + k) % 2 ^ 32) 1, Nat.mod_mod]
    · rw [if_neg hb, Function.update_noteq hb, h4 b, if_neg hb]

end MapSums

/-! ### The rounding to binary64 at the values of the examples -/

/-- The rounding of a positive quotient of coprime naturals is that of its numerator and
denominator. -/
theorem roundDouble_pos (n d : ℕ) (hn : 0 < n) (hd : 0 < d) (hc : Nat.Coprime n d) :
    roundDouble ((n : ℚ) / (d : ℚ)) = roundDoubleNat n d := by
  have hnum : ((n : ℚ) / (d : ℚ)).num = (n : ℤ) := by
    have h := Rat.num_div_eq_of_coprime (a := (n : ℤ)) (b := (d : ℤ))
      (Int.natCast_pos.mpr hd) (by simpa using hc)
    simpa using h
  have hden : ((n : ℚ) / (d : ℚ)).den = d := by
    have h := Rat.den_div_eq_of_coprime (a := (n : ℤ)) (b := (d : ℤ))
      (Int.natCast_pos.mpr hd) (by simpa using hc)
    have h2 : (((n : ℚ) / (d : ℚ)).den : ℤ) = (d : ℤ) := by simpa using h
    exact_mod_cast h2
  have hpos : (0 : ℚ) < (n : ℚ) / (d : ℚ) :=
    div_pos (Nat.cast_pos.mpr hn) (Nat.cast_pos.mpr hd)
  unfold roundDouble
  rw [if_neg (ne_of_gt hpos), if_pos hpos, hnum, hden, Int.toNat_natCast]

/-- The rounding of a positive quotient from its binary exponent and its significand. -/
theorem roundDoubleNat_eq (n d : ℕ) (e : ℤ) (up down m : ℕ)
    (he : binaryExponent n d = e) (hup : (52 - e).toNat = up)
    (hdown : (-(52 - e)).toNat = down)
    (hm : roundHalfEven (n * 2 ^ up) (d * 2 ^ down) = m) :
    roundDoubleNat n d = (m : ℚ) * 2 ^ (-(52 - e)) := by
  unfold roundDoubleNat
  rw [he]
  dsimp only
  rw [hup, hdown, hm]

/-- The number `1` is a binary64 number. -/
theorem roundDouble_one : roundDouble 1 = 1 := by
  have h := roundDouble_pos 1 1 (by decide) (by decide) (by decide)
  rw [roundDoubleNat_eq 1 1 0 52 0 (2 ^ 52) (by decide) (by decide) (by decide)
    (by decide)] at h
  norm_num at h
  exact h

/-- The number `1 / 2` is a binary64 number. -/
theorem roundDouble_half : roundDouble (1 / 2) = 1 / 2 := by
  have h := roundDouble_pos 1 2 (by decide) (by decide) (by decide)
  rw [roundDoubleNat_eq 1 2 (-1) 53 0 (2 ^ 52) (by decide) (by decide) (by decide)
    (by decide)] at h
  norm_num at h
  exact h

/-- The binary64 number nearest to `1 / 3` is `6004799503160661 / 2 ^ 54`, below
`1 / 3`. -/
theorem roundDouble_third : roundDouble (1 / 3) = 6004799503160661 / 2 ^ 54 := by
  have h := roundDouble_pos 1 3 (by decide) (by decide) (by decide)
  rw [roundDoubleNat_eq 1 3 (-2) 54 0 6004799503160661 (by decide) (by decide) (by decide)
    (by decide)] at h
  norm_num at h
  norm_num
  exact h

/-- The number `1 - 2 ^ (-53)`, the largest binary64 number below `1`, is a binary64
number. -/
theorem roundDouble_below_one : roundDouble (1 - 1 / 2 ^ 53) = 1 - 1 / 2 ^ 53 := by
  have h := roundDouble_pos 9007199254740991 9007199254740992 (by decide) (by decide)
    (by norm_num)
  rw [roundDoubleNat_eq 9007199254740991 9007199254740992 (-1) 53 0 9007199254740991
    (by decide) (by decide) (by decide) (by decide)] at h
  norm_num at h
  norm_num
  exact h

/-- The quotient of `1 / 2` by the stored bin width rounds to `3 / 2`. -/
theorem roundDouble_half_quotient :
    roundDouble (1 / 2 / (6004799503160661 / 2 ^ 54)) = 3 / 2 := by
  have h := roundDouble_pos 9007199254740992 6004799503160661 (by decide) (by decide)
    (by norm_num)
  rw [roundDoubleNat_eq 9007199254740992 6004799503160661 0 52 0 6755399441055744
    (by decide) (by decide) (by decide) (by decide)] at h
  norm_num at h
  norm_num
  exact h

/-- The quotient of `1 - 2 ^ (-53)` by the stored bin width, which is below `3`, rounds to
`3`. -/
theorem roundDouble_top_quotient :
    roundDouble ((1 - 1 / 2 ^ 53) / (6004799503160661 / 2 ^ 54)) = 3 ∧
    (1 - 1 / 2 ^ 53) / (6004799503160661 / 2 ^ 54) < (3 : ℚ) := by
  have h := roundDouble_pos 18014398509481982 6004799503160661 (by decide) (by decide)
    (by norm_num)
  rw [roundDoubleNat_eq 18014398509481982 6004799503160661 1 51 0 6755399441055744
    (by decide) (by decide) (by decide) (by decide)] at h
  norm_num at h
  refine ⟨?_, by norm_num⟩
  norm_num
  exact h

/-- The example map for the value bins: one row of three value bins over `[0, 1)`, with the
bin width that `initialise` stores, the binary64 number nearest to `1 / 3`. -/
theorem binsExampleMap_fields :
    binsExampleMap.np = 1 ∧ binsExampleMap.nv = 3 ∧ binsExampleMap.nlmin = 1 ∧
    binsExampleMap.nlmax = 1 ∧ binsExampleMap.layercounts_size = 1 ∧
    binsExampleMap.nentries = 0 ∧ (∀ j, binsExampleMap.counts j = 0) ∧
    binsExampleMap.vmin = 0 ∧ binsExampleMap.vmax = 1 ∧
    binsExampleMap.dv = 6004799503160661 / 2 ^ 54 := by
  refine ⟨rfl, rfl, rfl, rfl, rfl, rfl, fun _ => rfl, rfl, rfl, ?_⟩
  show roundDouble (roundDouble (1 - 0) / ((3 : ℕ) : ℚ)) = 6004799503160661 / 2 ^ 54
  rw [sub_zero, roundDouble_one]
  have h : (1 : ℚ) / ((3 : ℕ) : ℚ) = 1 / 3 := by norm_num
  rw [h, roundDouble_third]

/-- Member `getvbin` of the example map for a value of `[0, 1)`. -/
theorem binsExampleMap_getvbin (v : ℚ) (h0 : ¬ v < 0) (h1 : ¬ v ≥ 1) :
    binsExampleMap.getvbin v
      = ⌊roundDouble (roundDouble v / (6004799503160661 / 2 ^ 54))⌋₊ := by
  obtain ⟨_, _, _, _, _, _, _, e1, e2, e3⟩ := binsExampleMap_fields
  unfold rjMcMC1DPPDMap.getvbin
  rw [e1, e2, e3, if_neg h0, if_neg h1, sub_zero]
  rfl

/-- The value bin of the row of the example map for the example model of the value `v`. -/
theorem binsExample_rowBin (v : ℚ) (pi : ℕ) :
    rowBin binsExampleMap (binsExampleModel v) pi = binsExampleMap.getvbin v := rfl

/-- The example model for the value bins is in depth order and starts at the depth `0`. -/
theorem binsExampleModel_layersSorted (v : ℚ) : (binsExampleModel v).LayersSorted := by
  unfold rjMcMC1DModel.LayersSorted
  refine ⟨?_, ?_, fun _ => rfl⟩
  · simp [binsExampleModel]
  · simp [binsExampleModel]

/-- The example map for the position bins: three position bins over `[0, 1)`, with the bin
width that `initialise` stores, the binary64 number nearest to `1 / 3`. -/
theorem depthsExampleMap_fields :
    depthsExampleMap.np = 3 ∧ depthsExampleMap.nlmin = 1 ∧ depthsExampleMap.nlmax = 2 ∧
    depthsExampleMap.pmax = 1 ∧ (∀ b, depthsExampleMap.cpcounts b = 0) ∧
    depthsExampleMap.dp = 6004799503160661 / 2 ^ 54 := by
  refine ⟨rfl, rfl, rfl, rfl, fun _ => rfl, ?_⟩
  show roundDouble (1 / ((3 : ℕ) : ℚ)) = 6004799503160661 / 2 ^ 54
  have h : (1 : ℚ) / ((3 : ℕ) : ℚ) = 1 / 3 := by norm_num
  rw [h, roundDouble_third]

/-- Member `getpbin` of the example map at the depth `1 - 2 ^ (-53)`, below `pmax = 1`: the
quotient by the stored bin width rounds to `3`, and the position bin is `3 = np`. -/
theorem depthsExampleMap_getpbin : depthsExampleMap.getpbin (1 - 1 / 2 ^ 53) = 3 := by
  obtain ⟨_, _, _, e1, _, e2⟩ := depthsExampleMap_fields
  unfold rjMcMC1DPPDMap.getpbin
  rw [e1, e2, if_neg (by norm_num), if_neg (by norm_num)]
  show ⌊roundDouble ((1 - 1 / 2 ^ 53) / (6004799503160661 / 2 ^ 54))⌋₊ = 3
  rw [roundDouble_top_quotient.1]
  exact (Nat.floor_eq_iff (by norm_num)).mpr ⟨by norm_num, by norm_num⟩

/-- The example model for the position bins is in depth order and starts at the depth
`0`. -/
theorem depthsExampleModel_layersSorted (d : ℚ) (hd : 0 ≤ d) :
    (depthsExampleModel d).LayersSorted := by
  unfold rjMcMC1DModel.LayersSorted
  refine ⟨?_, ?_, fun _ => rfl⟩
  · simp [depthsExampleModel, hd]
  · simp [depthsExampleModel, hd]

/-- The interface-depth histogram of the example map after `addmodel` of the example model
with the interface at `1 - 2 ^ (-53)`: the bin `3`, beyond the `np = 3` bins, holds `1`
and the bins `0`, `1`, `2` hold `0`. -/
theorem depthsExample_cpcounts :
    (depthsExampleMap.addmodel (depthsExampleModel (1 - 1 / 2 ^ 53))).cpcounts 3 = 1 ∧
    ∀ b, b < 3 →
      (depthsExampleMap.addmodel (depthsExampleModel (1 - 1 / 2 ^ 53))).cpcounts b = 0 := by
  have hc : (depthsExampleMap.addmodel (depthsExampleModel (1 - 1 / 2 ^ 53))).cpcounts
      = increment depthsExampleMap.cpcounts
          (depthsExampleMap.getpbin (1 - 1 / 2 ^ 53)) := by
    rw [rjMcMC1DPPDMap.addmodel_eq]
    rfl
  rw [hc, depthsExampleMap_getpbin]
  unfold increment
  constructor
  · rw [Function.update_same]
    rfl
  · intro b hb
    rw [Function.update_noteq (Nat.ne_of_lt hb)]
    rfl

section MapClaim

variable [LinearOrderedField K] [FloorRing K] [DoubleArithmetic K]

end MapClaim

end RJMCMC
